import Mathlib

/-!
# HyperCrypt

A shallow embedding of the HyperCrypt encryption engine
(`HyperCryptLib/HcLfsr.cpp`, `HyperCryptLib/HcEnginePrivate.cpp`) and the
properties proved about it.

Conventions of the embedding.

* `uint32_t`, `uint64_t`, `size_t` values are natural numbers; a reduction
  modulo `2 ^ 32` is written where the C++ arithmetic can wrap.
* Bytes are natural numbers below 256.
* The random sources (`std::random_device`, `RAND_bytes`) are explicit
  arguments: every draw is a value handed to the function.
* AES-256-CBC is a pair of functions on 256-byte chunks (`AesCbc`).
* The process-wide polynomial registry (`polies`, `initialized`) is the
  explicit state `PolyRegistry`.
-/

namespace HyperCrypt

/-! ## `HcLfsr.cpp` -/

/-- The macro `MIN_BITS`, `#define MIN_BITS 15`. -/
def MIN_BITS : Nat := 15

/-- The macro `MAX_BITS`, `#define MAX_BITS 28`. -/
def MAX_BITS : Nat := 28

/-- The macro `MAX_POLIES`, `#define MAX_POLIES (MAX_BITS - MIN_BITS + 1)`. -/
def MAX_POLIES : Nat := MAX_BITS - MIN_BITS + 1

/-- The table `poly_tables[MAX_POLIES][16]`; every row is written with its
zero terminator, the entries after it are zero as well. -/
def poly_tables : List (List Nat) :=
  [ -- 15 Bits
    [0x00008423, 0x0000900B, 0x00008437, 0x000088C7, 0x000080CF, 0x0000FFFD, 0x00008729,
     0x0000903D, 0x00008431, 0x000099D5, 0x000086A9, 0x00000000],
    -- 16 Bits
    [0x0001100B, 0x000138CB, 0x000136C3, 0x00018E47, 0x00018F57, 0x00018CEF, 0x000103DD,
     0x00017481, 0x0001450B, 0x0001706D, 0x0001846F, 0x00011085, 0x00018BB7, 0x00013C47,
     0x00000000],
    -- 17 Bits
    [0x0002000F, 0x00020119, 0x0002AAA9, 0x0002104F, 0x000201D9, 0x000212DD, 0x000248AF,
     0x0003000B, 0x0002076D, 0x0002AAD7, 0x0002123F, 0x00000000],
    -- 18 Bits
    [0x000404A1, 0x00048025, 0x00040107, 0x00040609, 0x00042051, 0x00048205, 0x0004003F,
     0x000402F1, 0x00040377, 0x000403D7, 0x000405FF, 0x00000000],
    -- 19 Bits
    [0x00080027, 0x000801A1, 0x00080321, 0x00080047, 0x0008003F, 0x0008006F, 0x0008007D,
     0x000800AF, 0x000801BF, 0x000801DF, 0x0008036F, 0x0008039F, 0x00080BFD, 0x00080DBF,
     0x00000000],
    -- 20 Bits
    [0x00100229, 0x0010094D, 0x00180019, 0x0012449D, 0x00000000],
    -- 21 Bits
    [0x00204085, 0x00202025, 0x002040CD, 0x0020019D, 0x0020863D, 0x002050DD, 0x0020045D,
     0x003C003D, 0x00000000],
    -- 22 Bits
    [0x00400223, 0x00550057, 0x00420287, 0x00423187, 0x0040708F, 0x00000000],
    -- 23 Bits
    [0x00820821, 0x00800033, 0x00801031, 0x00A000A1, 0x00812069, 0x00800CE1, 0x00820B33,
     0x008086B9, 0x00852925, 0x00000000],
    -- 24 Bits
    [0x01000087, 0x01554BB1, 0x012FE633, 0x00000000],
    -- 25 Bits
    [0x0200000F, 0x02100029, 0x02001019, 0x0202040F, 0x02A802A9, 0x02041879, 0x0211082F,
     0x02000B5D, 0x020019D9, 0x00000000],
    -- 26 Bits
    [0x04000047, 0x04611D3B, 0x0409EBED, 0x04592BB7, 0x052368D3, 0x04ECEF65, 0x0425BB79,
     0x00000000],
    -- 27 Bits
    [0x08000027, 0x08040E39, 0x08402879, 0x0909118F, 0x0AA02BEF, 0x0ABD4599, 0x0842E043,
     0x09292A79, 0x00000000],
    -- 28 Bits
    [0x11111119, 0x10002A29, 0x10400C19, 0x100A844D, 0x10070239, 0x00000000] ]

/-- The process-wide state `static std::vector<uint32_t> polies [MAX_POLIES]`
and `static bool initialized`. -/
structure PolyRegistry where
  polies : List (List Nat)
  initialized : Bool
  deriving DecidableEq, Repr

/-- The registry at program start: fourteen empty vectors, `initialized = false`. -/
def PolyRegistry.fresh : PolyRegistry :=
  { polies := List.replicate MAX_POLIES [], initialized := false }

/-- The macro `#define NEXT_LFSR(_lfsr, _poly)
_lfsr = (_lfsr & 1) ? ((_lfsr >> 1) ^ _poly) : (_lfsr >> 1);`,
as the value assigned to `_lfsr`. -/
def NEXT_LFSR (lfsr poly : Nat) : Nat :=
  if lfsr &&& 1 ≠ 0 then (lfsr >>> 1) ^^^ poly else lfsr >>> 1

/-- The function `get_random (min, max)`: "Return a random number between min and max,
inclusive"; `draw` is the raw outcome of the generator, `none` stands for the
undefined behaviour of `uniform_int_distribution` when `max < min`. -/
def get_random (min max : Int) (draw : Nat) : Option Int :=
  if max < min then none else some (min + (draw : Int) % (max - min + 1))

/-- The `do ... while` loop of `verify_poly`. The first argument is the number
of passes still allowed after the current one, `max_period - period - 1` on
entry of the body: after `++period` the second half of the loop condition,
`period < max_period`, holds exactly when it is not zero. -/
def verify_loop (poly max_period seed : Nat) : Nat → Nat → List Nat → List Nat
  | 0, lfsr, vals =>
    if lfsr > max_period then vals else vals.set lfsr lfsr
  | m + 1, lfsr, vals =>
    if lfsr > max_period then vals
    else if NEXT_LFSR lfsr poly ≠ seed then
      verify_loop poly max_period seed m (NEXT_LFSR lfsr poly) (vals.set lfsr lfsr)
    else vals.set lfsr lfsr

/-- The function `verify_poly (poly, bit_count, seed)`: "Verify that the specified
polynomial generates a unique sequence from 1 to (1 << bit_count) - 1". -/
def verify_poly (poly bit_count seed : Nat) : Bool :=
  let max_period := (1 <<< bit_count) - 1
  let seed := seed &&& max_period
  let vals := List.replicate (1 <<< bit_count) 0xFFFFFFFF
  let vals := verify_loop poly max_period seed (max_period - 1) seed vals
  let vals := vals.set 0 0
  vals.all (fun v => v != 0xFFFFFFFF)

/-- The `reversed` branch of `create_polies`:
`for (j = 0; j < MIN_BITS + i; ++j) { p <<= 1; p |= (*poly_entry & (1 << j)) ? 1 : 0; }`
on a `uint32_t p` that starts at 0. -/
def reverse_poly (entry bits : Nat) : Nat :=
  (List.range bits).foldl
    (fun p j => ((p <<< 1) % 2 ^ 32) ||| (if entry &&& (1 <<< j) ≠ 0 then 1 else 0)) 0

/-- The `while (*poly_entry)` loop of `create_polies` for one table row:
each nonzero literal is visited twice, first with `reversed = false`
(`p = *poly_entry >> 1`), then with `reversed = true`. The result is the
vector `polies[i]` and whether the loop ran to the terminator (`false` is the
early `return false` after a failed verification). -/
def add_polies (verify : Bool) (bits : Nat) : List Nat → List Nat → List Nat × Bool
  | [], acc => (acc, true)
  | e :: rest, acc =>
    if e = 0 then (acc, true)
    else
      let p1 := e >>> 1
      if verify && !verify_poly p1 bits 0x12345678 then (acc, false)
      else
        let p2 := reverse_poly e bits
        if verify && !verify_poly p2 bits 0x12345678 then (acc ++ [p1], false)
        else add_polies verify bits rest (acc ++ [p1, p2])

/-- The second `for` loop of `create_polies` over the rows `i = from .. max_polies - 1`. -/
def fill_polies (verify : Bool) : List Nat → List (List Nat) → List (List Nat) × Bool
  | [], polies => (polies, true)
  | i :: is, polies =>
    let r := add_polies verify (MIN_BITS + i) (poly_tables.getD i []) (polies.getD i [])
    if r.2 then fill_polies verify is (polies.set i r.1) else (polies.set i r.1, false)

/-- The function `create_polies (verify, max_bits)`: "Prep the polies for the algorithm and
generate derived polies. Optionally verify that the poly generates unique
values." Returns the new registry and the function's return value. -/
def create_polies (verify : Bool) (max_bits : Nat) (reg : PolyRegistry) : PolyRegistry × Bool :=
  let max_polies := max_bits - MIN_BITS + 1
  let cleared := (List.range max_polies).foldl (fun ps i => ps.set i []) reg.polies
  let r := fill_polies verify (List.range max_polies) cleared
  if !r.2 then ({ polies := r.1, initialized := false }, false)
  else if verify then
    if (List.range max_polies).any (fun i => (r.1.getD i []).isEmpty) then
      ({ polies := r.1, initialized := true }, false)
    else ({ polies := r.1, initialized := true }, true)
  else ({ polies := r.1, initialized := true }, true)

/-- The private members of `class HcLfsr`. -/
structure HcLfsr where
  m_lfsr : Nat
  m_seed : Nat
  m_poly : Nat
  m_max_bits : Nat
  deriving DecidableEq, Repr

/-- The constructor `HcLfsr::HcLfsr (uint32_t max_bits)`. -/
def HcLfsr.new (max_bits : Nat) : HcLfsr :=
  let max_bits := if max_bits = 0 then MAX_BITS else max_bits
  let max_bits := if max_bits > MAX_BITS then MAX_BITS else max_bits
  let max_bits := if max_bits < MIN_BITS then MIN_BITS else max_bits
  { m_lfsr := 0, m_seed := 0, m_poly := 0, m_max_bits := max_bits }

/-- The method `HcLfsr::getSpec`: "Return a 64-bit number that defines the poly and seed
used"; the union `LfsrSpec` puts `seed` in the low and `poly` in the high
32 bits. -/
def HcLfsr.getSpec (reg : PolyRegistry) (self : HcLfsr) : Nat :=
  if !reg.initialized then 0
  else if self.m_seed = 0 ∨ self.m_poly = 0 then 0
  else self.m_poly * 2 ^ 32 + self.m_seed

/-- The method `HcLfsr::setSpec`: "Set the poly and seed to be used by the LFSR." -/
def HcLfsr.setSpec (reg : PolyRegistry) (self : HcLfsr) (spec : Nat) :
    PolyRegistry × HcLfsr × Bool :=
  let reg := if !reg.initialized then (create_polies false self.m_max_bits reg).1 else reg
  let seed := spec % 2 ^ 32
  let poly := (spec / 2 ^ 32) % 2 ^ 32
  if poly = 0 ∨ seed = 0 then (reg, self, false)
  else (reg, { self with m_seed := seed, m_poly := poly, m_lfsr := seed }, true)

/-- The method `HcLfsr::getMinSize`. -/
def HcLfsr.getMinSize : Nat := 1 <<< MIN_BITS

/-- The method `HcLfsr::getMaxSize`. -/
def HcLfsr.getMaxSize : Nat := 1 <<< MAX_BITS

/-- The search loop of `HcLfsr::reset`:
`for (i = MIN_BITS; i <= m_max_bits; ++i) if ((1u << i) == size) { poly_index = i - MIN_BITS; break; }`
over the candidates `i = MIN_BITS + k`, `k` taken from the list. -/
def find_poly_index (size : Nat) : List Nat → Option Nat
  | [] => none
  | k :: ks => if 1 <<< (MIN_BITS + k) = size then some k else find_poly_index size ks

/-- The method `HcLfsr::reset (size, seed, variant)`: "Reset the poly sequence."
`dv` and `ds` are the raw draws behind the two `get_random` calls (used when
`variant < 0`, respectively when `seed = 0`; `get_random (1, ...)` returns a
nonzero value, so the `while (!seed)` loop draws once). The outer `none` is
undefined behaviour: an empty `polies[poly_index]`. -/
def HcLfsr.reset (reg : PolyRegistry) (self : HcLfsr) (size seed : Nat) (variant : Int)
    (dv ds : Nat) : Option (PolyRegistry × HcLfsr × Bool) :=
  let self := { self with m_poly := 0 }
  let reg := if !reg.initialized then (create_polies false self.m_max_bits reg).1 else reg
  if size > 1 <<< self.m_max_bits ∨ size < HcLfsr.getMinSize then some (reg, self, false)
  else
    match find_poly_index size (List.range (self.m_max_bits + 1 - MIN_BITS)) with
    | none => some (reg, self, false)
    | some poly_index =>
      let r := if !reg.initialized then create_polies false self.m_max_bits reg else (reg, true)
      if !r.2 then some (r.1, self, false)
      else
        let reg := r.1
        let variants := reg.polies.getD poly_index []
        if variants.length = 0 then none
        else
          let variant : Nat :=
            if variant < 0 then
              (((get_random 0 ((variants.length : Int) - 1) dv).getD 0).toNat) % 256
            else (variant.toNat % variants.length) % 256
          let bits := poly_index + MIN_BITS
          let seed :=
            if seed = 0 then ((get_random 1 ((1 <<< bits : Nat) - 1 : Int) ds).getD 0).toNat
            else seed
          let seed := seed &&& ((1 <<< bits) - 1)
          match variants.get? variant with
          | none => none
          | some poly =>
            if !verify_poly poly bits seed then some (reg, self, false)
            else some (reg, { self with m_poly := poly, m_seed := seed, m_lfsr := seed }, true)

/-- The method `HcLfsr::getNext`: "Get the next number in the sequence." -/
def HcLfsr.getNext (self : HcLfsr) : HcLfsr × Nat :=
  if self.m_poly = 0 then (self, 0)
  else
    let l := NEXT_LFSR self.m_lfsr self.m_poly
    ({ self with m_lfsr := l }, l)

/-- The method `HcLfsr::fillNext (buffer, count)`: "Fill buffer with the next count
sequence numbers." `pos` is how far `buffer` has advanced. -/
def HcLfsr.fillNext (self : HcLfsr) (buffer : List Nat) (pos : Nat) :
    Nat → HcLfsr × List Nat × Bool
  | 0 => (self, buffer, true)
  | count + 1 =>
    let l := NEXT_LFSR self.m_lfsr self.m_poly
    let self1 := { self with m_lfsr := l }
    let buffer1 := buffer.set pos l
    if l = 0 then (self1, buffer1, false)
    else HcLfsr.fillNext self1 buffer1 (pos + 1) count

/-! ## `HcEngine.hpp`: status codes -/

def HC_ERROR_INVALID_INPUT_FILE : Int := -1000
def HC_ERROR_CANNOT_OPEN_INPUT_FILE : Int := -999
def HC_ERROR_CANNOT_READ_INPUT_FILE : Int := -998
def HC_ERROR_BAD_INPUT_FILE_NAME : Int := -997
def HC_ERROR_INVALID_OUTPUT_FILE : Int := -996
def HC_ERROR_CANNOT_CREATE_OUTPUT_FILE : Int := -995
def HC_ERROR_CANNOT_WRITE_OUTPUT_FILE : Int := -994
def HC_ERROR_BAD_OUTPUT_FILE_NAME : Int := -993
def HC_ERROR_INVALID_KEY_FILE : Int := -992
def HC_ERROR_CANNOT_OPEN_KEY_FILE : Int := -991
def HC_ERROR_CANNOT_CREATE_KEY_FILE : Int := -990
def HC_ERROR_CANNOT_READ_KEY_FILE : Int := -989
def HC_ERROR_CANNOT_WRITE_KEY_FILE : Int := -988
def HC_ERROR_INVALID_KEY : Int := -987
def HC_ERROR_CANNOT_CREATE_KEY : Int := -986
def HC_ERROR_BAD_KEY : Int := -985
def HC_ERROR_BAD_KEY_FILE_NAME : Int := -984
def HC_ERROR_CANNOT_ENCRYPT_SECTION : Int := -983
def HC_ERROR_CANNOT_ENCRYPT_FILE : Int := -982
def HC_ERROR_CANNOT_DECRYPT_SECTION : Int := -981
def HC_ERROR_CANNOT_DECRYPT_FILE : Int := -980
def HC_ERROR_CALLBACK_EXCEPTION : Int := -979
def HC_ERROR_BLOCK_SIZE_TOO_BIG : Int := -978
def HC_ERROR_OUTPUT_FILE_ALREADY_EXISTS : Int := -977
def HC_ERROR_KEY_FILE_ALREADY_EXISTS : Int := -976
def HC_INTERNAL_ERROR : Int := -975
def HC_STATUS_OK : Int := 0

/-! ## `HcEnginePrivate.cpp` -/

def HC_INTERNAL_ERROR_BAD_LFSR : Int := -2000
def HC_INTERNAL_ERROR_CANNOT_RAND_FILL : Int := -1999
def HC_INTERNAL_ERROR_BAD_LFSR_SPECS : Int := -1998
def HC_INTERNAL_ERROR_INVALID_INPUT_SEGMENT_SIZE : Int := -1997
def HC_INTERNAL_ERROR_BAD_LFSR_SEQUENCE : Int := -1996
def HC_INTERNAL_ERROR_BAD_LFSR_FILL : Int := -1995
def HC_INTERNAL_ERROR_UNEXPECTED_IN_FILE_EOF : Int := -1994
def HC_INTERNAL_ERROR_BAD_TEMP_BUFFER : Int := -1993
def HC_INTERNAL_ERROR_CANNOT_STAT_INPUT_FILE : Int := -1992
def HC_INTERNAL_ERROR_CANNOT_SET_LFSR_SPEC : Int := -1991
def HC_INTERNAL_ERROR_CANNOT_RESET_LFSR : Int := -1990

/-- The record `struct HcKeyData`. -/
structure HcKeyData where
  m_lfsr_specs : Nat
  m_in_size : Nat
  m_out_size : Nat
  m_iv : List Nat
  m_key : List Nat
  deriving DecidableEq, Repr

/-- The ways a run can end without the function returning: a loop that never
exits, undefined behaviour (an access outside a vector, an empty variant
list), and `std::terminate` (a `throw;` with no exception in flight). -/
inductive Fault where
  | diverges
  | undefined
  | terminated
  deriving DecidableEq, Repr

/-- The method `HcEnginePrivate::getMinBlockSize`. -/
def getMinBlockSize : Nat := HcLfsr.getMinSize

/-- The method `HcEnginePrivate::getMaxBlockSize`. -/
def getMaxBlockSize : Nat := HcLfsr.getMaxSize

/-- The method `HcEnginePrivate::randFill (buffer, size)`: "Fill buffer with random
numbers." `rand` is the outcome of `RAND_bytes`: `none` when it reports
failure, otherwise the bytes it produced. The result is the new content of
the `size` bytes, `none` when `randFill` returns `false`. -/
def randFill (size : Nat) (rand : Option (Nat → Nat)) : Option (List Nat) :=
  if size = 0 then none
  else rand.map (fun f => (List.range size).map (fun i => f i % 256))

/-- The first loop of `generateKey`, "Divide up the total size into segment
sizes": `while (s && (max_size >= min_size))`. One unit of `fuel` is used per
iteration; `none` is an exhausted `fuel`. -/
def split_sizes_loop (min_size : Nat) : Nat → Nat → Nat → List Nat → Option (Nat × List Nat)
  | fuel, s, max_size, sizes =>
    if s ≠ 0 ∧ max_size ≥ min_size then
      match fuel with
      | 0 => none
      | fuel + 1 =>
        if s > max_size then
          split_sizes_loop min_size fuel (s - max_size) max_size (sizes ++ [max_size])
        else split_sizes_loop min_size fuel s (max_size / 2) sizes
    else some (s, sizes)

/-- The `for (auto& se : sizes)` scan inside "Make sure at least 3 keys are
used": the first `se > min_size` is halved in place; the result is the vector
after `se /= 2` and the value pushed back, `none` when no element is larger
than `min_size`. -/
def halve_first (min_size : Nat) : List Nat → Option (List Nat × Nat)
  | [] => none
  | se :: rest =>
    if se > min_size then some ((se / 2) :: rest, se / 2)
    else (halve_first min_size rest).map (fun r => (se :: r.1, r.2))

/-- The loop `while (sizes.size () < min_key_count)`. A pass whose scan finds
nothing leaves `sizes` unchanged, so the loop never exits: `none`. Every
other pass adds one element, so `fuel = min_key_count` passes are enough. -/
def min_key_loop (min_size min_key_count : Nat) : Nat → List Nat → Option (List Nat)
  | fuel, sizes =>
    if sizes.length < min_key_count then
      match fuel with
      | 0 => none
      | fuel + 1 =>
        match halve_first min_size sizes with
        | none => none
        | some r => min_key_loop min_size min_key_count fuel (r.1 ++ [r.2])
    else some sizes

/-- The size planning of `generateKey` (from its first line to "Push any non
power of 2 leftovers"): the vector `sizes`, for `0 ≤ file_size < 2 ^ 63`.
The greedy loop runs at most `file_size + 32` times. -/
def plan_sizes (file_size : Nat) : Except Fault (List Nat) :=
  let min_size := HcLfsr.getMinSize
  let max_size := HcLfsr.getMaxSize
  match split_sizes_loop min_size (file_size + 32) file_size max_size [] with
  | none => .error .diverges
  | some (s, sizes) =>
    let min_key_count := if s ≠ 0 then 2 else 3
    let r :=
      if file_size - s ≥ min_size * min_key_count ∧ sizes.length < min_key_count then
        min_key_loop min_size min_key_count min_key_count sizes
      else some sizes
    match r with
    | none => .error .diverges
    | some sizes => .ok (if s ≠ 0 then sizes ++ [s % 2 ^ 32] else sizes)

/-- The random outcomes consumed while one segment key is built: the raw
draws behind `get_random` for each call of `reset` (indexed by attempt), and
the two `RAND_bytes` outcomes. -/
structure KeyDraws where
  variant : Nat → Nat
  seed : Nat → Nat
  iv : Option (Nat → Nat)
  key : Option (Nat → Nat)

/-- The loop `int retries = 4; while (--retries) { if (m_lfsr->reset (out_size, 0, -1)) break; }`
entered with the value `retries`; the result carries the value of `retries`
after the loop. -/
def reset_retry (out_size : Nat) (d : KeyDraws) :
    Nat → Nat → PolyRegistry → HcLfsr → Except Fault (PolyRegistry × HcLfsr × Nat)
  | 0, _, reg, lfsr => .ok (reg, lfsr, 0)
  | r + 1, attempt, reg, lfsr =>
    if r = 0 then .ok (reg, lfsr, 0)
    else
      match HcLfsr.reset reg lfsr out_size 0 (-1) (d.variant attempt) (d.seed attempt) with
      | none => .error .undefined
      | some (reg1, lfsr1, ok) =>
        if ok then .ok (reg1, lfsr1, r)
        else reset_retry out_size d r (attempt + 1) reg1 lfsr1

/-- The loop "Generate the keys" of `generateKey` over the remaining `sizes`;
`i` is the index of the next segment. The result is the status to return
(`HC_STATUS_OK` when the loop ran to its end), the registry, the LFSR and
`m_key`. -/
def key_loop (draws : Nat → KeyDraws) :
    List Nat → Nat → PolyRegistry → HcLfsr → List HcKeyData →
      Except Fault (Int × PolyRegistry × HcLfsr × List HcKeyData)
  | [], _, reg, lfsr, m_key => .ok (HC_STATUS_OK, reg, lfsr, m_key)
  | se :: rest, i, reg, lfsr, m_key =>
    let fill_size := if se < getMinBlockSize then getMinBlockSize - se else 0
    let out_size := (se + fill_size) % 2 ^ 32
    match reset_retry out_size (draws i) 4 0 reg lfsr with
    | .error f => .error f
    | .ok (reg1, lfsr1, retries) =>
      if retries = 0 then .ok (HC_INTERNAL_ERROR_CANNOT_RESET_LFSR, reg1, lfsr1, m_key)
      else
        let spec := HcLfsr.getSpec reg1 lfsr1
        if spec = 0 then .ok (HC_INTERNAL_ERROR_BAD_LFSR_SPECS, reg1, lfsr1, m_key)
        else
          match randFill 16 (draws i).iv with
          | none => .ok (HC_INTERNAL_ERROR_CANNOT_RAND_FILL, reg1, lfsr1, m_key)
          | some iv =>
            match randFill 32 (draws i).key with
            | none => .ok (HC_INTERNAL_ERROR_CANNOT_RAND_FILL, reg1, lfsr1, m_key)
            | some key =>
              key_loop draws rest (i + 1) reg1 lfsr1
                (m_key ++ [{ m_lfsr_specs := spec, m_in_size := se, m_out_size := out_size,
                             m_iv := iv, m_key := key }])

/-- One pass of the shuffle loop of `generateKey` for the loop index `i`:
`index = dist (gen)` with `dist (i, max_index)`, then the three assignments
that exchange `m_key[i - 1]` and `m_key[index]`. -/
def shuffle_step (max_index : Nat) (draw : Nat → Nat) (m_key : List HcKeyData) (i : Nat) :
    List HcKeyData :=
  let index := i + draw i % (max_index - i + 1)
  match m_key.get? (i - 1), m_key.get? index with
  | some a, some b => (m_key.set (i - 1) b).set index a
  | _, _ => m_key

/-- The block "Suffle the key segments": `max_index = (uint8_t)(m_key.size() - 1)` and
the loop `for (uint8_t i = 1; i < max_index; ++i)`. -/
def shuffle_keys (draw : Nat → Nat) (m_key : List HcKeyData) : List HcKeyData :=
  if m_key.isEmpty then m_key
  else
    let max_index := (m_key.length - 1) % 256
    (List.range' 1 (max_index - 1)).foldl (shuffle_step max_index draw) m_key

/-- The method `HcEnginePrivate::generateKey (file_size)`: "Generate an encryption key."
No callback is installed (`m_callback = 0`). The result is the returned
status, the registry, the LFSR and `m_key`. -/
def generateKey (reg : PolyRegistry) (lfsr : HcLfsr) (file_size : Nat)
    (draws : Nat → KeyDraws) (shuffle : Nat → Nat) :
    Except Fault (Int × PolyRegistry × HcLfsr × List HcKeyData) :=
  match plan_sizes file_size with
  | .error f => .error f
  | .ok sizes =>
    match key_loop draws sizes 0 reg lfsr [] with
    | .error f => .error f
    | .ok (status, reg1, lfsr1, m_key) =>
      if status ≠ HC_STATUS_OK then .ok (status, reg1, lfsr1, m_key)
      else .ok (HC_STATUS_OK, reg1, lfsr1, shuffle_keys shuffle m_key)

/-- AES-256 in CBC mode on one chunk, as used through `AES_set_encrypt_key` /
`AES_set_decrypt_key` and `AES_cbc_encrypt`: from the 32 key bytes, the
chaining vector `ivec` and the chunk to the processed chunk and the new
chaining vector. -/
structure AesCbc where
  encrypt : List Nat → List Nat → List Nat → List Nat × List Nat
  decrypt : List Nat → List Nat → List Nat → List Nat × List Nat

/-- Decryption undoes encryption: same chunk length out as in, and from the
same key and chaining vector the ciphertext chunk decrypts to the plaintext
chunk and leaves the same chaining vector behind. -/
def AesCbc.Inverse (aes : AesCbc) : Prop :=
  ∀ key ivec chunk,
    (aes.encrypt key ivec chunk).1.length = chunk.length ∧
    aes.decrypt key ivec (aes.encrypt key ivec chunk).1 =
      (chunk, (aes.encrypt key ivec chunk).2)

/-- The record `struct FileSpec`, without the names: whether `m_file` is an open stream,
`m_size`, and the state of the file behind the stream: its bytes (`data`)
and the read position (`pos`); a stream opened with "wb" appends to `data`. -/
structure FileSpec where
  m_file : Bool
  m_size : Nat
  data : List Nat
  pos : Nat
  deriving DecidableEq, Repr

/-- The members of `HcEnginePrivate` that the codec uses, and the registry. -/
structure Engine where
  m_lfsr : Option HcLfsr
  m_in_files : List FileSpec
  m_out_files : List FileSpec
  m_in_file_index : Nat
  m_out_file_index : Nat
  m_key : List HcKeyData
  m_buffer : List Nat
  reg : PolyRegistry

/-- The two `RAND_bytes` outcomes `encryptSegment` can consume: the prefill of
the working buffer and the padding of the last chunk. -/
structure SegRandom where
  prefill : Option (Nat → Nat)
  padding : Option (Nat → Nat)

/-- An assignment `buf[i] = v` through a raw pointer into a vector of
`buf.length` elements. -/
def write_at (buf : List Nat) (i v : Nat) : Except Fault (List Nat) :=
  if i < buf.length then .ok (buf.set i v) else .error .undefined

/-- A read `buf[i]` through a raw pointer into a vector of `buf.length` elements. -/
def read_at (buf : List Nat) (i : Nat) : Except Fault Nat :=
  if i < buf.length then .ok (buf.getD i 0) else .error .undefined

/-- The loop `for (i = from; i < chunk_size - 1; ++i) ob[indices[i]] = in_buf[i];`
with `n` iterations left. -/
def scatter (indices in_buf : List Nat) : Nat → Nat → List Nat → Except Fault (List Nat)
  | 0, _, ob => .ok ob
  | n + 1, i, ob =>
    match write_at ob (indices.getD i 0) (in_buf.getD i 0) with
    | .error f => .error f
    | .ok ob1 => scatter indices in_buf n (i + 1) ob1

/-- The loop `for (i = from; i < chunk_size - 1; ++i) out_buf[i] = ib[indices[i]];`
with `n` iterations left. -/
def gather (indices ib : List Nat) : Nat → Nat → List Nat → Except Fault (List Nat)
  | 0, _, out_buf => .ok out_buf
  | n + 1, i, out_buf =>
    match read_at ib (indices.getD i 0) with
    | .error f => .error f
    | .ok v => gather indices ib n (i + 1) (out_buf.set i v)

/-- The local state of the `while (is)` loops of `encryptSegment` and
`decryptSegment`: `is`, the chunk buffer (`in_buf`, respectively `out_buf`),
`ivec`, `indices`, the LFSR, the working buffer behind `ob` / `ib`, and the
file the loop reads from, respectively writes to. -/
structure CodecState where
  is : Nat
  buf : List Nat
  ivec : List Nat
  indices : List Nat
  lfsr : HcLfsr
  work : List Nat
  file : FileSpec

/-- The padding step of `encryptSegment`, "If the last chunk is less than the
minimum chunk size, pad with randoms": `randFill (&in_buf[chunk], chunk_size - chunk)`
when `chunk < chunk_size`; the return value of `randFill` is not looked at, a
failed call leaves `in_buf` as it was. -/
def pad_chunk (padding : Option (Nat → Nat)) (in_buf : List Nat) (chunk : Nat) : List Nat :=
  if chunk < 256 then
    match randFill (256 - chunk) padding with
    | some bytes => in_buf.take chunk ++ bytes
    | none => in_buf
  else in_buf

/-- The two scatter statements of `encryptSegment`: the loop over the first 255
bytes of the chunk, then
`ob[is ? indices[chunk_size - 1] : 0] = in_buf[chunk_size - 1];`
("If this is the last chunk in the segment, the last byte should go into
index 0 since index 0 is never generated by the LFSR"). -/
def scatter_chunk (indices in_buf : List Nat) (is : Nat) (ob : List Nat) :
    Except Fault (List Nat) :=
  match scatter indices in_buf 255 0 ob with
  | .error e => .error e
  | .ok ob1 => write_at ob1 (if is ≠ 0 then indices.getD 255 0 else 0) (in_buf.getD 255 0)

/-- The two gather statements of `decryptSegment`: the loop over the first 255
bytes of the chunk, then
`out_buf[chunk_size - 1] = ib [(is != chunk) ? indices [chunk_size - 1] : 0];` -/
def gather_chunk (indices ib : List Nat) (is chunk : Nat) (out_buf : List Nat) :
    Except Fault (List Nat) :=
  match gather indices ib 255 0 out_buf with
  | .error e => .error e
  | .ok out1 =>
    match read_at ib (if is ≠ chunk then indices.getD 255 0 else 0) with
    | .error e => .error e
    | .ok v => .ok (out1.set 255 v)

/-- One pass of the body of `while (is)` in `encryptSegment`. The status is
`HC_STATUS_OK` when the pass reaches the end of the body. -/
def encrypt_chunk (aes : AesCbc) (key : List Nat) (padding : Option (Nat → Nat))
    (st : CodecState) : Except Fault (Int × CodecState) :=
  let chunk := if 256 > st.is then st.is else 256
  let in_buf := pad_chunk padding st.buf chunk
  if st.file.pos + chunk > st.file.data.length then
    .ok (HC_ERROR_CANNOT_READ_INPUT_FILE, { st with buf := in_buf })
  else
    let in_buf := (st.file.data.drop st.file.pos).take chunk ++ in_buf.drop chunk
    let file := { st.file with pos := st.file.pos + chunk }
    let is := st.is - chunk
    let r := aes.encrypt key st.ivec in_buf
    let f := HcLfsr.fillNext st.lfsr st.indices 0 256
    if !f.2.2 then
      .ok (HC_INTERNAL_ERROR_BAD_LFSR_FILL,
        { is := is, buf := r.1, ivec := r.2, indices := f.2.1, lfsr := f.1,
          work := st.work, file := file })
    else
      match scatter_chunk f.2.1 r.1 is st.work with
      | .error e => .error e
      | .ok ob =>
        .ok (HC_STATUS_OK,
          { is := is, buf := r.1, ivec := r.2, indices := f.2.1, lfsr := f.1,
            work := ob, file := file })

/-- The loop `while (is)` of `encryptSegment`; every pass lowers `is`, so
`fuel = is` passes are enough. -/
def encrypt_loop (aes : AesCbc) (key : List Nat) (padding : Option (Nat → Nat)) :
    Nat → CodecState → Except Fault (Int × CodecState)
  | fuel, st =>
    if st.is = 0 then .ok (HC_STATUS_OK, st)
    else
      match fuel with
      | 0 => .error .diverges
      | fuel + 1 =>
        match encrypt_chunk aes key padding st with
        | .error e => .error e
        | .ok (status, st1) =>
          if status ≠ HC_STATUS_OK then .ok (status, st1)
          else encrypt_loop aes key padding fuel st1

/-- The loop "While there are bytes to write for this segment" of
`encryptSegment`: `ob` is what is left of the working buffer to write. -/
def write_loop : Nat → Nat → List Nat → List FileSpec → Nat →
    Except Fault (Int × List FileSpec × Nat)
  | fuel, bytes_to_write, ob, m_out_files, m_out_file_index =>
    if bytes_to_write = 0 then .ok (HC_STATUS_OK, m_out_files, m_out_file_index)
    else
      match fuel with
      | 0 => .error .diverges
      | fuel + 1 =>
        match m_out_files.get? m_out_file_index with
        | none => .ok (HC_ERROR_CANNOT_WRITE_OUTPUT_FILE, m_out_files, m_out_file_index)
        | some fs =>
          let chunk := if bytes_to_write > fs.m_size then fs.m_size else bytes_to_write
          if !fs.m_file then .error .undefined
          else if chunk = 0 then
            .ok (HC_ERROR_CANNOT_WRITE_OUTPUT_FILE, m_out_files, m_out_file_index)
          else
            let fs1 := { fs with data := fs.data ++ ob.take chunk, m_size := fs.m_size - chunk }
            if fs1.m_size = 0 then
              write_loop fuel (bytes_to_write - chunk) (ob.drop chunk)
                (m_out_files.set m_out_file_index { fs1 with m_file := false })
                (m_out_file_index + 1)
            else
              write_loop fuel (bytes_to_write - chunk) (ob.drop chunk)
                (m_out_files.set m_out_file_index fs1) m_out_file_index

/-- The prefill step of `encryptSegment`, "If there is a chance that a slot in
the output is not going to be filled, fill the whole output buffer with random
numbers": `randFill (ob, key_data.m_out_size)` when the two sizes differ; the
return value is not looked at, a failed call leaves the buffer as it was. -/
def prefill_buffer (prefill : Option (Nat → Nat)) (key_data : HcKeyData)
    (m_buffer : List Nat) : List Nat :=
  if key_data.m_out_size ≠ key_data.m_in_size then
    match randFill key_data.m_out_size prefill with
    | some bytes => bytes ++ m_buffer.drop key_data.m_out_size
    | none => m_buffer
  else m_buffer

/-- The method `HcEnginePrivate::encryptSegment (key_data)`: "Encrypt the next segment.
Return the status." No callback is installed. -/
def encryptSegment (aes : AesCbc) (e : Engine) (key_data : HcKeyData) (rnd : SegRandom) :
    Except Fault (Int × Engine) :=
  if key_data.m_in_size = 0 ∨ key_data.m_out_size < key_data.m_in_size then
    .ok (HC_INTERNAL_ERROR_INVALID_INPUT_SEGMENT_SIZE, e)
  else
    match e.m_in_files.get? e.m_in_file_index with
    | none => .ok (HC_ERROR_INVALID_INPUT_FILE, e)
    | some in_file =>
      if !in_file.m_file then .ok (HC_ERROR_INVALID_INPUT_FILE, e)
      else
        match e.m_out_files.get? e.m_out_file_index with
        | none => .ok (HC_ERROR_INVALID_OUTPUT_FILE, e)
        | some out_file =>
          if !out_file.m_file then .ok (HC_ERROR_INVALID_OUTPUT_FILE, e)
          else
            match e.m_lfsr with
            | none => .ok (HC_INTERNAL_ERROR_BAD_LFSR, e)
            | some lfsr0 =>
              let sp := HcLfsr.setSpec e.reg lfsr0 key_data.m_lfsr_specs
              let e := { e with reg := sp.1, m_lfsr := some sp.2.1 }
              if !sp.2.2 then .ok (HC_INTERNAL_ERROR_CANNOT_SET_LFSR_SPEC, e)
              else if key_data.m_out_size > e.m_buffer.length then
                .ok (HC_INTERNAL_ERROR_BAD_TEMP_BUFFER, e)
              else
                let work := prefill_buffer rnd.prefill key_data e.m_buffer
                let st : CodecState :=
                  { is := key_data.m_in_size, buf := List.replicate 256 0,
                    ivec := key_data.m_iv, indices := List.replicate 256 0, lfsr := sp.2.1,
                    work := work, file := in_file }
                match encrypt_loop aes key_data.m_key rnd.padding key_data.m_in_size st with
                | .error f => .error f
                | .ok (status, st1) =>
                  let e := { e with m_lfsr := some st1.lfsr, m_buffer := st1.work,
                                    m_in_files := e.m_in_files.set e.m_in_file_index st1.file }
                  if status ≠ HC_STATUS_OK then .ok (status, e)
                  else
                    match write_loop key_data.m_out_size key_data.m_out_size st1.work
                        e.m_out_files e.m_out_file_index with
                    | .error f => .error f
                    | .ok (status, files, index) =>
                      .ok (status, { e with m_out_files := files, m_out_file_index := index })

/-- The read loop at the head of `decryptSegment`: `fread` into
`m_buffer[bytes_read ...]` from the current input file, moving on to the next
file after a short read. -/
def read_loop : Nat → Nat → Nat → List Nat → List FileSpec → Nat →
    Except Fault (Int × List Nat × List FileSpec × Nat)
  | fuel, bytes_to_read, bytes_read, m_buffer, m_in_files, m_in_file_index =>
    if bytes_to_read = 0 then .ok (HC_STATUS_OK, m_buffer, m_in_files, m_in_file_index)
    else
      match fuel with
      | 0 => .error .diverges
      | fuel + 1 =>
        match m_in_files.get? m_in_file_index with
        | none => .ok (HC_ERROR_CANNOT_READ_INPUT_FILE, m_buffer, m_in_files, m_in_file_index)
        | some fs =>
          let got := (fs.data.drop fs.pos).take bytes_to_read
          let res := got.length
          if !fs.m_file then .error .undefined
          else if bytes_read + res > m_buffer.length then .error .undefined
          else
            let m_buffer := m_buffer.take bytes_read ++ got ++ m_buffer.drop (bytes_read + res)
            let m_in_files := m_in_files.set m_in_file_index { fs with pos := fs.pos + res }
            let index := if res ≠ bytes_to_read then m_in_file_index + 1 else m_in_file_index
            read_loop fuel (bytes_to_read - res) (bytes_read + res) m_buffer m_in_files index

/-- One pass of the body of `while (is)` in `decryptSegment`. -/
def decrypt_chunk (aes : AesCbc) (key : List Nat) (st : CodecState) :
    Except Fault (Int × CodecState) :=
  let chunk := if 256 > st.is then st.is else 256
  let f := HcLfsr.fillNext st.lfsr st.indices 0 256
  if !f.2.2 then
    .ok (HC_INTERNAL_ERROR_BAD_LFSR_FILL, { st with indices := f.2.1, lfsr := f.1 })
  else
    match gather_chunk f.2.1 st.work st.is chunk st.buf with
    | .error e => .error e
    | .ok out_buf =>
      let r := aes.decrypt key st.ivec out_buf
      if !st.file.m_file then .error .undefined
      else
        .ok (HC_STATUS_OK,
          { is := st.is - chunk, buf := r.1, ivec := r.2, indices := f.2.1, lfsr := f.1,
            work := st.work,
            file := { st.file with data := st.file.data ++ r.1.take chunk } })

/-- The loop `while (is)` of `decryptSegment`. -/
def decrypt_loop (aes : AesCbc) (key : List Nat) :
    Nat → CodecState → Except Fault (Int × CodecState)
  | fuel, st =>
    if st.is = 0 then .ok (HC_STATUS_OK, st)
    else
      match fuel with
      | 0 => .error .diverges
      | fuel + 1 =>
        match decrypt_chunk aes key st with
        | .error e => .error e
        | .ok (status, st1) =>
          if status ≠ HC_STATUS_OK then .ok (status, st1)
          else decrypt_loop aes key fuel st1

/-- The method `HcEnginePrivate::decryptSegment (key_data)`: "Decrypt the next segment.
Return the status." No callback is installed. -/
def decryptSegment (aes : AesCbc) (e : Engine) (key_data : HcKeyData) :
    Except Fault (Int × Engine) :=
  match e.m_lfsr with
  | none => .error .undefined
  | some lfsr0 =>
    let sp := HcLfsr.setSpec e.reg lfsr0 key_data.m_lfsr_specs
    let e := { e with reg := sp.1, m_lfsr := some sp.2.1 }
    if !sp.2.2 then .ok (HC_INTERNAL_ERROR_CANNOT_SET_LFSR_SPEC, e)
    else if key_data.m_in_size > key_data.m_out_size then .ok (HC_ERROR_BAD_KEY, e)
    else if key_data.m_in_size = 0 then .ok (HC_ERROR_BAD_KEY, e)
    else
      match read_loop (key_data.m_out_size + e.m_in_files.length + 1) key_data.m_out_size 0
          e.m_buffer e.m_in_files e.m_in_file_index with
      | .error f => .error f
      | .ok (status, m_buffer, m_in_files, m_in_file_index) =>
        let e := { e with m_buffer := m_buffer, m_in_files := m_in_files,
                          m_in_file_index := m_in_file_index }
        if status ≠ HC_STATUS_OK then .ok (status, e)
        else
          match e.m_out_files.get? 0 with
          | none => .error .undefined
          | some out_file =>
            let st : CodecState :=
              { is := key_data.m_in_size, buf := List.replicate 256 0, ivec := key_data.m_iv,
                indices := List.replicate 256 0, lfsr := sp.2.1, work := m_buffer,
                file := out_file }
            match decrypt_loop aes key_data.m_key key_data.m_in_size st with
            | .error f => .error f
            | .ok (status, st1) =>
              .ok (status, { e with m_lfsr := some st1.lfsr,
                                    m_out_files := e.m_out_files.set 0 st1.file })

/-- The random outcomes of one run of `encryptFile`: those of `generateKey`
(per segment in planning order, and the shuffle draws) and those of
`encryptSegment` (per segment in processing order). -/
structure EncRandom where
  keys : Nat → KeyDraws
  shuffle : Nat → Nat
  segs : Nat → SegRandom

/-- The loop "Set the size of each split":
`for (i = 0; i < m_out_files.size (); ++i) { m_out_files[i].m_size = (temp > chunk_size) ? chunk_size : temp; temp -= m_out_files[i].m_size; }` -/
def set_split_sizes (chunk_size : Nat) : Nat → List FileSpec → List FileSpec
  | _, [] => []
  | temp, fs :: rest =>
    let size := if temp > chunk_size then chunk_size else temp
    { fs with m_size := size } :: set_split_sizes chunk_size (temp - size) rest

/-- The sizes `encryptFile` assigns to the output files for a total of
`total_out_size` bytes: the rounding of `total_out_size / splits` up to a
256-byte boundary, then `set_split_sizes`; one file of `total_out_size` bytes
when `splits = 0`. -/
def plan_out_files (total_out_size splits : Nat) (m_out_files : List FileSpec) : List FileSpec :=
  if splits ≠ 0 then
    let chunk_size := total_out_size / splits
    let chunk_size :=
      if chunk_size &&& 0xFF ≠ 0 then (chunk_size - chunk_size % 0x100) + 0x100 else chunk_size
    set_split_sizes chunk_size total_out_size m_out_files
  else
    match m_out_files with
    | [] => []
    | fs :: rest => { fs with m_size := total_out_size } :: rest

/-- The loop "Encrypt all the segments": the loop over `m_key` in `encryptFile`; `k` is
the position of the next segment. -/
def encrypt_segments (aes : AesCbc) (segs : Nat → SegRandom) :
    List HcKeyData → Nat → Engine → Except Fault (Int × Engine)
  | [], _, e => .ok (HC_STATUS_OK, e)
  | ke :: rest, k, e =>
    match encryptSegment aes e ke (segs k) with
    | .error f => .error f
    | .ok (status, e1) =>
      if status ≠ HC_STATUS_OK then .ok (status, e1)
      else encrypt_segments aes segs rest (k + 1) e1

/-- The method `HcEnginePrivate::encryptFile (in_file_path, splits)`: "Encrypt a file."
The input file exists and holds `plaintext`; no file with the name of the key
file or of an output file exists; the host performs every allocation, open,
write and rename asked of it; no callback is installed. The result is the
returned status, the key list handed to `keyToXmlFile` and the output files
(`data` is the content on disk). -/
def encryptFile (aes : AesCbc) (reg : PolyRegistry) (plaintext : List Nat) (splits : Nat)
    (rnd : EncRandom) : Except Fault (Int × List HcKeyData × List FileSpec) :=
  let fs0 : FileSpec := { m_file := false, m_size := 0, data := [], pos := 0 }
  let m_out_files := if splits ≠ 0 then List.replicate splits fs0 else [fs0]
  let file_size := plaintext.length
  if file_size = 0 then .error .terminated
  else
    let in_file_spec : FileSpec :=
      { m_file := true, m_size := file_size, data := plaintext, pos := 0 }
    match generateKey reg (HcLfsr.new 0) file_size rnd.keys rnd.shuffle with
    | .error f => .error f
    | .ok (status, reg1, lfsr, m_key) =>
      if status ≠ HC_STATUS_OK then .ok (status, m_key, m_out_files)
      else
        let max_segment_size := (m_key.map (fun ke => ke.m_out_size)).foldl max 0
        let total_out_size := (m_key.map (fun ke => ke.m_out_size)).sum
        let m_buffer := List.replicate max_segment_size 0
        if splits ≠ 0 ∧ total_out_size < HcLfsr.getMinSize then
          .ok (HC_ERROR_BAD_KEY, m_key, m_out_files)
        else
          let m_out_files := plan_out_files total_out_size splits m_out_files
          let m_out_files := m_out_files.map (fun fs => { fs with m_file := true })
          let e : Engine :=
            { m_lfsr := some lfsr, m_in_files := [in_file_spec], m_out_files := m_out_files,
              m_in_file_index := 0, m_out_file_index := 0, m_key := m_key,
              m_buffer := m_buffer, reg := reg1 }
          match encrypt_segments aes rnd.segs m_key 0 e with
          | .error f => .error f
          | .ok (status, e1) =>
            if status ≠ HC_STATUS_OK then .ok (status, m_key, e1.m_out_files)
            else if m_key.isEmpty then .ok (HC_ERROR_BAD_KEY, m_key, e1.m_out_files)
            else .ok (HC_STATUS_OK, m_key, e1.m_out_files)

/-- The loop of `decryptFile` that opens the files to join. `files i` is the
content of the file whose name carries the number `i + 1`, `none` when no
such file exists (`file_size` throws, the handler returns
`HC_ERROR_CANNOT_OPEN_INPUT_FILE`); on an empty file the statement `throw;`
runs with no exception in flight. The result is the status, `m_in_files` and
`total_file_size`. -/
def open_joins (files : Nat → Option (List Nat)) :
    Nat → Nat → List FileSpec → Nat → Except Fault (Int × List FileSpec × Nat)
  | 0, _, m_in_files, total => .ok (HC_STATUS_OK, m_in_files, total)
  | n + 1, i, m_in_files, total =>
    match files i with
    | none => .ok (HC_ERROR_CANNOT_OPEN_INPUT_FILE, m_in_files, total)
    | some data =>
      if data.length = 0 then .error .terminated
      else
        open_joins files n (i + 1)
          (m_in_files ++ [{ m_file := true, m_size := data.length, data := data, pos := 0 }])
          (total + data.length)

/-- The loop over `m_key` in `decryptFile`. -/
def decrypt_segments (aes : AesCbc) : List HcKeyData → Engine → Except Fault (Int × Engine)
  | [], e => .ok (HC_STATUS_OK, e)
  | ke :: rest, e =>
    match decryptSegment aes e ke with
    | .error f => .error f
    | .ok (status, e1) =>
      if status ≠ HC_STATUS_OK then .ok (status, e1)
      else decrypt_segments aes rest e1

/-- The method `HcEnginePrivate::decryptFile (key_file_path, joins)`: "Decrypt a file."
`single` is the content of `<base>.hc`, `files i` that of the file numbered
`i + 1`, `none` for a file that does not exist; the output name is free; the
host performs every open, write and rename asked of it; no callback is
installed. The result is the status and the engine, whose `m_out_files[0]`
holds the plaintext written. -/
def decryptFile (aes : AesCbc) (e : Engine) (single : Option (List Nat))
    (files : Nat → Option (List Nat)) (joins : Nat) : Except Fault (Int × Engine) :=
  let opened : Except Fault (Int × List FileSpec × Nat) :=
    if joins = 0 then
      match single with
      | none => .ok (HC_ERROR_CANNOT_OPEN_INPUT_FILE, e.m_in_files, 0)
      | some data =>
        if data.length = 0 then .error .terminated
        else
          .ok (HC_STATUS_OK,
            e.m_in_files ++ [{ m_file := true, m_size := 0, data := data, pos := 0 }],
            data.length)
    else open_joins files joins 0 e.m_in_files 0
  match opened with
  | .error f => .error f
  | .ok (status, m_in_files, total_file_size) =>
    let e := { e with m_in_files := m_in_files }
    if status ≠ HC_STATUS_OK then .ok (status, e)
    else
      let out_total_size := (e.m_key.map (fun ke => ke.m_out_size)).sum
      let in_total_size := (e.m_key.map (fun ke => ke.m_in_size)).sum
      if out_total_size ≠ total_file_size then .ok (HC_ERROR_INVALID_INPUT_FILE, e)
      else
        let ofs : FileSpec := { m_file := true, m_size := in_total_size, data := [], pos := 0 }
        let e := { e with m_out_files := e.m_out_files ++ [ofs] }
        match decrypt_segments aes e.m_key e with
        | .error f => .error f
        | .ok (status, e1) =>
          if status ≠ HC_STATUS_OK then .ok (status, e1)
          else .ok (HC_STATUS_OK, e1)

/-- The loop over `m_key` at the head of the public `decryptFile`: the sanity
checks of every key, with `max_segment_size`. The result is `none` when a
check fails (`HC_ERROR_BAD_KEY`). -/
def check_keys : List HcKeyData → PolyRegistry → Nat → Option (PolyRegistry × Nat)
  | [], reg, max_segment_size => some (reg, max_segment_size)
  | ke :: rest, reg, max_segment_size =>
    if ke.m_in_size = 0 ∨ ke.m_out_size = 0 then none
    else if ke.m_in_size > ke.m_out_size then none
    else if ke.m_out_size > getMaxBlockSize then none
    else
      let sp := HcLfsr.setSpec reg (HcLfsr.new ke.m_out_size) ke.m_lfsr_specs
      if !sp.2.2 then none
      else
        check_keys rest sp.1
          (if ke.m_out_size > max_segment_size then ke.m_out_size else max_segment_size)

/-- The method `HcEnginePrivate::adjustStatus`: the `switch` returns the status unchanged
for the listed public codes; the case labels `HC_STATUS_KEY_CREATION_START`
.. `HC_STATUS_DONE` are the values 1 .. 18 of the enumeration without
`HC_STATUS_KEY_CREATION_PROGRESS` (2); every other value becomes
`HC_INTERNAL_ERROR`. -/
def adjustStatus (status : Int) : Int :=
  if status ∈ [HC_ERROR_INVALID_INPUT_FILE, HC_ERROR_CANNOT_OPEN_INPUT_FILE,
      HC_ERROR_CANNOT_READ_INPUT_FILE, HC_ERROR_BAD_INPUT_FILE_NAME,
      HC_ERROR_INVALID_OUTPUT_FILE, HC_ERROR_CANNOT_CREATE_OUTPUT_FILE,
      HC_ERROR_CANNOT_WRITE_OUTPUT_FILE, HC_ERROR_BAD_OUTPUT_FILE_NAME,
      HC_ERROR_INVALID_KEY_FILE, HC_ERROR_CANNOT_OPEN_KEY_FILE,
      HC_ERROR_CANNOT_CREATE_KEY_FILE, HC_ERROR_CANNOT_READ_KEY_FILE,
      HC_ERROR_CANNOT_WRITE_KEY_FILE, HC_ERROR_INVALID_KEY, HC_ERROR_CANNOT_CREATE_KEY,
      HC_ERROR_BAD_KEY, HC_ERROR_BAD_KEY_FILE_NAME, HC_ERROR_CANNOT_ENCRYPT_SECTION,
      HC_ERROR_CANNOT_ENCRYPT_FILE, HC_ERROR_CANNOT_DECRYPT_SECTION,
      HC_ERROR_CANNOT_DECRYPT_FILE, HC_ERROR_CALLBACK_EXCEPTION,
      HC_ERROR_BLOCK_SIZE_TOO_BIG, HC_ERROR_OUTPUT_FILE_ALREADY_EXISTS,
      HC_ERROR_KEY_FILE_ALREADY_EXISTS,
      HC_STATUS_OK, 1, 3, 4, 5, 6, 7, 8, 9, 10, 11, 12, 13, 14, 15, 16, 17, 18] then status
  else HC_INTERNAL_ERROR

/-- The public `HcEnginePrivate::decryptFile (joins, key_file_path, callback, context)`
after `xmlFileToKey` has returned `HC_STATUS_OK` with the key list `keys`.
The result is the status returned and the bytes of the output file. -/
def decryptFilePublic (aes : AesCbc) (reg : PolyRegistry) (keys : List HcKeyData)
    (single : Option (List Nat)) (files : Nat → Option (List Nat)) (joins : Nat) :
    Except Fault (Int × List Nat) :=
  match check_keys keys reg 0 with
  | none => .ok (HC_ERROR_BAD_KEY, [])
  | some (reg1, max_segment_size) =>
    let e : Engine :=
      { m_lfsr := some (HcLfsr.new max_segment_size), m_in_files := [], m_out_files := [],
        m_in_file_index := 0, m_out_file_index := 0, m_key := keys,
        m_buffer := List.replicate max_segment_size 0, reg := reg1 }
    match decryptFile aes e single files joins with
    | .error f => .error f
    | .ok (status, e1) =>
      .ok (adjustStatus status, ((e1.m_out_files.get? 0).map (fun fs => fs.data)).getD [])

/-- The public `HcEnginePrivate::encryptFile (splits, in_file_path, callback, context)`. -/
def encryptFilePublic (aes : AesCbc) (reg : PolyRegistry) (plaintext : List Nat) (splits : Nat)
    (rnd : EncRandom) : Except Fault (Int × List HcKeyData × List FileSpec) :=
  match encryptFile aes reg plaintext (splits % 2 ^ 32) rnd with
  | .error f => .error f
  | .ok (status, keys, files) => .ok (adjustStatus status, keys, files)


/-! ## Definitions used in the proofs about the generator -/

/-- The step function of the generator with tap mask `p`, as a function of the state. -/
def lfsrNext (p : Nat) (x : Nat) : Nat := NEXT_LFSR x p

/-- Horner evaluation: the low `n` bits of `s`, lowest first, are the
coefficients; `acc` is the value so far. -/
def lfsrMulAux (p u : Nat) : Nat → Nat → Nat → Nat
  | 0, _, acc => acc
  | n + 1, s, acc =>
    lfsrMulAux p u n (s / 2) (lfsrNext p acc ^^^ (if s % 2 = 1 then u else 0))

/-- See `lfsrMulAux`. -/
def lfsrMul (p b s u : Nat) : Nat := lfsrMulAux p u b s 0

/-- The successive squares: `cur`, `cur` squared, ... (`n` entries). -/
def lfsrSquares (p b : Nat) : Nat → Nat → List Nat
  | 0, _ => []
  | n + 1, cur => cur :: lfsrSquares p b n (lfsrMul p b cur cur)

/-- Multiply `r` by the table entries selected by the bits of `e`, lowest first. -/
def lfsrPowTab (p b : Nat) : List Nat → Nat → Nat → Nat
  | [], _, r => r
  | t :: ts, e, r => lfsrPowTab p b ts (e / 2) (if e % 2 = 1 then lfsrMul p b t r else r)

/-- The table of squares for the generator `2 ^ (b - 1)`: entry `i` is the
state after `2 ^ i` steps. -/
def lfsrTable (p b : Nat) : List Nat :=
  lfsrSquares p b (b + 1) (lfsrNext p (2 ^ (b - 1)))

/-- The state reached from `2 ^ (b - 1)` after `e` steps, for `e < 2 ^ (b + 1)`. -/
def lfsrPow (p b e : Nat) : Nat :=
  lfsrPowTab p b (lfsrTable p b) e (2 ^ (b - 1))

/-- Evaluate the number first, then continue with the value. -/
def strictNat {α : Type} (n : Nat) (k : Nat → α) : α :=
  match n with
  | 0 => k 0
  | m + 1 => k (m + 1)

/-- Evaluate every entry of the list, then continue with the list of values. -/
def strictList {α : Type} : List Nat → (List Nat → α) → α
  | [], k => k []
  | x :: xs, k => strictNat x fun x1 => strictList xs fun xs1 => k (x1 :: xs1)

/-- The function `lfsrMulAux`. -/
def gmulAux (p u : Nat) : Nat → Nat → Nat → Nat
  | 0, _, acc => acc
  | n + 1, s, acc =>
    gmulAux p u n (Nat.div s 2)
      (Nat.xor (Nat.xor (Nat.div acc 2) (Nat.mul (Nat.mod acc 2) p)) (Nat.mul (Nat.mod s 2) u))

/-- The function `lfsrSquares`. -/
def gsquares (p b : Nat) : Nat → Nat → List Nat
  | 0, _ => []
  | n + 1, cur => cur :: strictNat (gmulAux p cur b cur 0) fun c2 => gsquares p b n c2

/-- The function `lfsrPowTab`. -/
def gpowTab (p b : Nat) : List Nat → Nat → Nat → Nat
  | [], _, r => r
  | t :: ts, e, r =>
    strictNat (match Nat.mod e 2 with
      | 0 => r
      | _ => gmulAux p r b t 0) fun r1 => gpowTab p b ts (Nat.div e 2) r1

/-- Iterating `next` from `seed` for `2 ^ b - 1` steps returns to `seed`, every
state on the way lies in `[1, 2 ^ b - 1]`, and every value of `[1, 2 ^ b - 1]`
is the state after exactly one step count `k` with `1 ≤ k ≤ 2 ^ b - 1`. -/
def FullCycle (poly b seed : Nat) : Prop :=
  (fun x => NEXT_LFSR x poly)^[2 ^ b - 1] seed = seed ∧
  (∀ k, 1 ≤ (fun x => NEXT_LFSR x poly)^[k] seed ∧
      (fun x => NEXT_LFSR x poly)^[k] seed ≤ 2 ^ b - 1) ∧
  ∀ v, 1 ≤ v → v ≤ 2 ^ b - 1 →
    ∃! k, 1 ≤ k ∧ k ≤ 2 ^ b - 1 ∧ (fun x => NEXT_LFSR x poly)^[k] seed = v

/-- The checks of `isMaxLength` once the generator `c`, the period `N` and the
table of squares are known. -/
def maxLengthChecks (p b c N : Nat) (tab : List Nat) : List Nat → Bool
  | [] => Nat.beq (gpowTab p b tab N c) c
  | q :: qs =>
    match Nat.beq (gpowTab p b tab (Nat.div N q) c) c with
    | true => false
    | false => maxLengthChecks p b c N tab qs

/-- The test run on a tap mask: `p` fits in `b` bits, `2 ^ b - 1` steps
bring `2 ^ (b - 1)` back to itself, and `(2 ^ b - 1) / q` steps do not,
for each `q` of the list. -/
def isMaxLength (p b : Nat) (qs : List Nat) : Bool :=
  strictNat (Nat.pow 2 (Nat.sub b 1)) fun c =>
    strictNat (Nat.sub (Nat.pow 2 b) 1) fun N =>
      match Nat.ble p N with
      | false => false
      | true =>
        strictList (gsquares p b (Nat.succ b) (NEXT_LFSR c p)) fun tab =>
          maxLengthChecks p b c N tab qs

/-- The prime factors, with multiplicity, of `2 ^ b - 1` for `15 ≤ b ≤ 28`. -/
def mersenneFactors : Nat → List Nat
  | 15 => [7, 31, 151]
  | 16 => [3, 5, 17, 257]
  | 17 => [131071]
  | 18 => [3, 3, 3, 7, 19, 73]
  | 19 => [524287]
  | 20 => [3, 5, 5, 11, 31, 41]
  | 21 => [7, 7, 127, 337]
  | 22 => [3, 23, 89, 683]
  | 23 => [47, 178481]
  | 24 => [3, 3, 5, 7, 13, 17, 241]
  | 25 => [31, 601, 1801]
  | 26 => [3, 2731, 8191]
  | 27 => [7, 73, 262657]
  | 28 => [3, 5, 29, 43, 113, 127]
  | _ => []

/-- The variants registered for the bit width `b` once `create_polies (false, MAX_BITS)`
has run on the registry of a fresh process: the vector `polies[b - MIN_BITS]`. -/
def registeredPolies (b : Nat) : List Nat :=
  (create_polies false MAX_BITS PolyRegistry.fresh).1.polies.getD (b - MIN_BITS) []

/-- The state of the generator after `k` calls of `getNext`. -/
def HcLfsr.afterCalls (self : HcLfsr) : Nat → HcLfsr
  | 0 => self
  | k + 1 => (HcLfsr.getNext (self.afterCalls k)).1

/-- The value returned by the `k`-th call of `getNext`, `k ≥ 1`. -/
def HcLfsr.nthNext (self : HcLfsr) (k : Nat) : Nat :=
  (HcLfsr.getNext (self.afterCalls (k - 1))).2

/-- A size the greedy loop can emit: a power of two between `2 ^ 15` and `2 ^ 28`. -/
def IsSegmentPow (x : Nat) : Prop := ∃ j, 15 ≤ j ∧ j ≤ 28 ∧ x = 2 ^ j

/-- The registry after `create_polies (false, MAX_BITS)` has run in a fresh process. -/
def fullRegistry : PolyRegistry := (create_polies false MAX_BITS PolyRegistry.fresh).1

/-- The registry is the one of a fresh process, or the one an LFSR with
`m_max_bits = MAX_BITS` has initialised. -/
def RegistryReady (reg : PolyRegistry) : Prop :=
  reg = PolyRegistry.fresh ∨ reg = fullRegistry

/-- The data-model invariant of a segment key: `1 ≤ in_size ≤ out_size`,
`out_size = 2 ^ b` with `15 ≤ b ≤ 28`, the low 32 bits of `lfsr_spec` (the
seed) in `[1, 2 ^ b - 1]`, the high 32 bits (the polynomial) nonzero, one of
the variants registered for `b`, and accepted by `verify_poly` with that seed. -/
def KeyInvariant (k : HcKeyData) : Prop :=
  1 ≤ k.m_in_size ∧ k.m_in_size ≤ k.m_out_size ∧
  ∃ b, 15 ≤ b ∧ b ≤ 28 ∧ k.m_out_size = 2 ^ b ∧
    1 ≤ k.m_lfsr_specs % 2 ^ 32 ∧ k.m_lfsr_specs % 2 ^ 32 ≤ 2 ^ b - 1 ∧
    (k.m_lfsr_specs / 2 ^ 32) % 2 ^ 32 ≠ 0 ∧
    (k.m_lfsr_specs / 2 ^ 32) % 2 ^ 32 ∈ registeredPolies b ∧
    verify_poly ((k.m_lfsr_specs / 2 ^ 32) % 2 ^ 32) b (k.m_lfsr_specs % 2 ^ 32) = true

/-- A planned size: a residual in `[1, 2 ^ 15]` or a power of two in `[2 ^ 15, 2 ^ 28]`. -/
def IsPlannedSize (se : Nat) : Prop := 1 ≤ se ∧ (se ≤ 32768 ∨ IsSegmentPow se)

/-- The key built for the planned size `se`: `in_size = se`, `out_size` is `se`
raised to `2 ^ 15` when smaller, a 16-byte `iv`, a 32-byte `key`, and the
invariant. -/
def KeyFor (se : Nat) (k : HcKeyData) : Prop :=
  k.m_in_size = se ∧ k.m_out_size = (if se < 32768 then 32768 else se) ∧
    k.m_iv.length = 16 ∧ k.m_key.length = 32 ∧ KeyInvariant k

/-- Every `RAND_bytes` call made for the segment keys succeeds. -/
def KeyDrawsOk (draws : Nat → KeyDraws) : Prop :=
  ∀ i, (draws i).iv.isSome = true ∧ (draws i).key.isSome = true

/-- A sample outcome of the draws made for the segment keys. -/
def sampleDraws : Nat → KeyDraws := fun i =>
  { variant := fun a => 7 * i + a, seed := fun a => 1000 * i + a + 5,
    iv := some (fun j => j + i), key := some (fun j => 2 * j + i) }

/-- A sample outcome of the shuffle draws. -/
def sampleShuffle : Nat → Nat := fun i => i

/-- The pair `(in_size, out_size)` of a segment key. -/
def HcKeyData.io (k : HcKeyData) : Nat × Nat := (k.m_in_size, k.m_out_size)

/-- The pair `(in_size, out_size)` the key loop gives the planned size `se`. -/
def plannedIo (se : Nat) : Nat × Nat := (se, if se < 32768 then 32768 else se)

/-- An output file before its size is planned: `fs.m_file = 0`, `fs.m_size = 0`. -/
def emptyFileSpec : FileSpec := { m_file := false, m_size := 0, data := [], pos := 0 }

/-- The next `256 * n` outputs of the generator in state `x` are nonzero, and
the first `256 * n - 1` of them are below `bound` and pairwise distinct. -/
def GoodOutputs (poly x n bound : Nat) : Prop :=
  (∀ m, m < 256 * n → (lfsrNext poly)^[m + 1] x ≠ 0) ∧
  (∀ m, m < 256 * n - 1 → (lfsrNext poly)^[m + 1] x < bound) ∧
  ∀ m m2, m < 256 * n - 1 → m2 < 256 * n - 1 →
    (lfsrNext poly)^[m + 1] x = (lfsrNext poly)^[m2 + 1] x → m = m2

/-- The first `n` values the generator returns after `setSpec (spec)`: the
seed is the low and the tap mask the high 32 bits of `spec`. -/
def specOutputs (spec n : Nat) : List Nat :=
  List.iterate (lfsrNext (spec / 2 ^ 32 % 2 ^ 32))
    (lfsrNext (spec / 2 ^ 32 % 2 ^ 32) (spec % 2 ^ 32)) n

/-- The generator of the segment key, started from the seed of the spec, emits
pairwise distinct nonzero values below `out_size` for its first
`256 * ceil (in_size / 256) - 1` outputs. -/
def SegmentOutputsOk (kd : HcKeyData) : Prop :=
  (specOutputs kd.m_lfsr_specs (256 * ((kd.m_in_size + 255) / 256) - 1)).Nodup ∧
  ∀ v ∈ specOutputs kd.m_lfsr_specs (256 * ((kd.m_in_size + 255) / 256) - 1),
    v ≠ 0 ∧ v < kd.m_out_size

/-- An engine with one input and one output file, as `encryptSegment` and
`decryptSegment` find it when a run has a single segment. -/
def segmentEngine (reg : PolyRegistry) (lfsr : HcLfsr) (m_buffer : List Nat)
    (in_file out_file : FileSpec) : Engine :=
  { m_lfsr := some lfsr, m_in_files := [in_file], m_out_files := [out_file],
    m_in_file_index := 0, m_out_file_index := 0, m_key := [], m_buffer := m_buffer, reg := reg }

instance (kd : HcKeyData) : Decidable (SegmentOutputsOk kd) :=
  inferInstanceAs (Decidable (_ ∧ _))

/-- A sample chunk cipher that has an inverse: it reverses the chunk and
leaves the chaining vector alone. -/
def sampleAes : AesCbc :=
  { encrypt := fun _ ivec chunk => (chunk.reverse, ivec),
    decrypt := fun _ ivec chunk => (chunk.reverse, ivec) }

/-- A sample segment key: three bytes in, `2 ^ 15` bytes out, the first variant
registered for 15 bits (`0x4211`) with seed 1. -/
def sampleSegmentKey : HcKeyData :=
  { m_lfsr_specs := 0x4211 * 2 ^ 32 + 1, m_in_size := 3, m_out_size := 32768,
    m_iv := List.replicate 16 7, m_key := List.replicate 32 9 }

/-- A sample outcome of the two `RAND_bytes` calls of `encryptSegment`. -/
def sampleSegRandom : SegRandom :=
  { prefill := some (fun i => (3 * i + 1) % 256), padding := some (fun i => (5 * i + 2) % 256) }

/-- A sample outcome of the random draws of one run of `encryptFile`. -/
def sampleEncRandom : EncRandom :=
  { keys := sampleDraws, shuffle := sampleShuffle, segs := fun _ => sampleSegRandom }

/-- A sample segment key with `in_size = n`; keys of different `n` differ. -/
def sampleKey (n : Nat) : HcKeyData :=
  { m_lfsr_specs := 0x4211 * 2 ^ 32 + 1, m_in_size := n, m_out_size := 32768,
    m_iv := List.replicate 16 7, m_key := List.replicate 32 9 }

/-! ## `HcEnginePrivate.cpp`: the key descriptor

The writer `keyToXmlFile` builds the text with `sprintf` and string
concatenation; the reader `xmlFileToKey` hands the file to
`boost::property_tree`. Neither the C library nor Boost is part of the
repository: the `sprintf` conversions used are written out below as the C
standard defines them, the XML reader and the number translators of the
property tree are parameters (`XmlLib`). -/

/-- A `std::string`, or a `char` buffer, as the list of its characters. -/
abbrev Text := List Char

def KEY_VERSION : Nat := 0x00010000
def CRYPTO_SCHEME : Text := String.toList "AES-256"

def XML_HC_ROOT : Text := String.toList "HyperCryptKey"
def XML_HC_VERSION : Text := String.toList "version"
def XML_HC_SEGMENTS : Text := String.toList "Segments"
def XML_HC_SEGMENT : Text := String.toList "Segment"
def XML_HC_IN_SIZE : Text := String.toList "in_size"
def XML_HC_OUT_SIZE : Text := String.toList "out_size"
def XML_HC_LFSR : Text := String.toList "lfsr"
def XML_HC_CRYPTO : Text := String.toList "Crypto"
def XML_HC_CRYPTO_SCHEME : Text := String.toList "scheme"
def XML_HC_CRYPTO_KEY : Text := String.toList "key"
def XML_HC_CRYPTO_IV : Text := String.toList "iv"

/-- The opening tag `"<" NAME ">"`, one string literal after the compiler has
joined the adjacent literals. -/
def open_tag (name : Text) : Text := String.toList "<" ++ name ++ String.toList ">"

/-- The closing tag `"</" NAME ">"`. -/
def close_tag (name : Text) : Text := String.toList "</" ++ name ++ String.toList ">"

/-- The character `sprintf` prints under `%X` for a digit value below 16. -/
def hex_upper (d : Nat) : Char :=
  if d < 10 then Char.ofNat (48 + d) else Char.ofNat (55 + d)

/-- The conversion `%02X` of `sprintf` applied to an `unsigned char`: two
uppercase hexadecimal digits. -/
def fmt_02X (b : Nat) : Text := [hex_upper (b % 256 / 16), hex_upper (b % 16)]

/-- The conversion `%08X` of `sprintf` applied to a 32-bit value: eight
uppercase hexadecimal digits, zero padded. -/
def fmt_08X (n : Nat) : Text :=
  (List.range 8).map (fun i => hex_upper (n % 2 ^ 32 / 16 ^ (7 - i) % 16))

/-- The conversion `%u` of `sprintf` applied to a `uint32_t`: the decimal
digits, no sign, no leading zero. -/
def fmt_u (n : Nat) : Text := Nat.toDigits 10 (n % 2 ^ 32)

/-- The conversion `%llu` of `sprintf` applied to a `uint64_t`. -/
def fmt_llu (n : Nat) : Text := Nat.toDigits 10 (n % 2 ^ 64)

/-- The loop `while (count--) { sprintf (t, "%02X", *b); str += t; ++b; }` of
`hexToString`; `pos` is how far `b` has advanced. -/
def hexToString_loop (buffer : List Nat) : Nat → Nat → Text → Text
  | 0, _, str => str
  | count + 1, pos, str =>
    hexToString_loop buffer count (pos + 1) (str ++ fmt_02X (buffer.getD pos 0))

/-- The method `HcEnginePrivate::hexToString (buffer, count, str)`; the result is `str`
after the call. The buffer is not null and holds `count` bytes. -/
def hexToString (buffer : List Nat) (count : Nat) (str : Text) : Text :=
  if count = 0 then str else hexToString_loop buffer count 0 str

/-- The two branches of `stringToHex` that accept a character:
`'0' .. '9'` gives `*s - '0'`, `'A' .. 'F'` gives `*s - 'A' + 10`; `none` is
the `return false`. -/
def hex_digit (c : Char) : Option Nat :=
  if '0' ≤ c ∧ c ≤ '9' then some (c.toNat - Char.toNat '0')
  else if 'A' ≤ c ∧ c ≤ 'F' then some (c.toNat - Char.toNat 'A' + 10)
  else none

/-- The loop `while (count--)` of `stringToHex` with its inner loop over the
two characters of a byte unrolled. `s` is what is left of the string (the
length check has made sure there are two characters per byte; past the end
`c_str ()` reads the terminating NUL), `pos` is how far `b` has advanced in
the buffer. A `return false` leaves the byte under work as it is then. -/
def stringToHex_loop : Nat → Text → List Nat → Nat → List Nat × Bool
  | 0, _, buffer, _ => (buffer, true)
  | count + 1, s, buffer, pos =>
    match hex_digit (s.getD 0 (Char.ofNat 0)) with
    | none => (buffer.set pos ((0 <<< 4) % 256), false)
    | some n0 =>
      match hex_digit (s.getD 1 (Char.ofNat 0)) with
      | none => (buffer.set pos (((((0 <<< 4) % 256) ||| n0) <<< 4) % 256), false)
      | some n1 =>
        stringToHex_loop count (s.drop 2)
          (buffer.set pos ((((((0 <<< 4) % 256) ||| n0) <<< 4) % 256) ||| n1)) (pos + 1)

/-- The method `HcEnginePrivate::stringToHex (buffer, count, str)`: the buffer after the
call and the return value. The buffer is not null. -/
def stringToHex (buffer : List Nat) (count : Nat) (str : Text) : List Nat × Bool :=
  if count = 0 ∨ str.length ≠ count * 2 then (buffer, false)
  else stringToHex_loop count str buffer 0

/-- The body of the loop `for (auto& ke : m_key)` of `keyToXmlFile`: what one
key appends to `xml_string`. -/
def key_xml_segment (xml_string : Text) (ke : HcKeyData) : Text :=
  let xml_string := xml_string ++ open_tag XML_HC_SEGMENT
  let xml_string := xml_string ++
    (open_tag XML_HC_IN_SIZE ++ fmt_u ke.m_in_size ++ close_tag XML_HC_IN_SIZE)
  let xml_string := xml_string ++
    (open_tag XML_HC_OUT_SIZE ++ fmt_u ke.m_out_size ++ close_tag XML_HC_OUT_SIZE)
  let xml_string := xml_string ++
    (open_tag XML_HC_LFSR ++ fmt_llu ke.m_lfsr_specs ++ close_tag XML_HC_LFSR)
  let xml_string := xml_string ++ open_tag XML_HC_CRYPTO
  let xml_string := xml_string ++
    (open_tag XML_HC_CRYPTO_SCHEME ++ CRYPTO_SCHEME ++ close_tag XML_HC_CRYPTO_SCHEME)
  let xml_string := xml_string ++ open_tag XML_HC_CRYPTO_IV
  let xml_string := hexToString ke.m_iv 16 xml_string
  let xml_string := xml_string ++ close_tag XML_HC_CRYPTO_IV
  let xml_string := xml_string ++ open_tag XML_HC_CRYPTO_KEY
  let xml_string := hexToString ke.m_key 32 xml_string
  let xml_string := xml_string ++ close_tag XML_HC_CRYPTO_KEY
  let xml_string := xml_string ++ close_tag XML_HC_CRYPTO
  xml_string ++ close_tag XML_HC_SEGMENT

/-- The string `xml_string` of `keyToXmlFile` when the file is opened. -/
def key_xml_string (m_key : List HcKeyData) : Text :=
  let xml_string := open_tag XML_HC_ROOT
  let xml_string := xml_string ++ open_tag XML_HC_VERSION
  let xml_string := xml_string ++ fmt_08X KEY_VERSION
  let xml_string := xml_string ++ close_tag XML_HC_VERSION
  let xml_string := xml_string ++ open_tag XML_HC_SEGMENTS
  let xml_string := m_key.foldl key_xml_segment xml_string
  let xml_string := xml_string ++ close_tag XML_HC_SEGMENTS
  xml_string ++ close_tag XML_HC_ROOT

/-- The method `HcEnginePrivate::keyToXmlFile (key_file_path)`: the returned status and
the content of the file written, if any. `path_given` is whether the path is
a nonempty string, `fopen_ok` and `fwrite_ok` whether the host performs the
two calls. -/
def keyToXmlFile (m_key : List HcKeyData) (path_given fopen_ok fwrite_ok : Bool) :
    Int × Option Text :=
  if !path_given then (HC_ERROR_INVALID_KEY_FILE, none)
  else if !fopen_ok then (HC_ERROR_CANNOT_CREATE_KEY_FILE, none)
  else if !fwrite_ok then (HC_ERROR_CANNOT_WRITE_KEY_FILE, none)
  else (HC_STATUS_OK, some (key_xml_string m_key))

/-- A `boost::property_tree::ptree`: the data of the node and its children in
document order, each with its key. -/
inductive PTree where
  | node : Text → List (Text × PTree) → PTree

/-- The member `data ()` of a `ptree`. -/
def PTree.data : PTree → Text
  | .node d _ => d

/-- The children of a `ptree`, in order. -/
def PTree.children : PTree → List (Text × PTree)
  | .node _ cs => cs

/-- The first child with the key `key`, as `ptree::find` gives it. -/
def PTree.find (t : PTree) (key : Text) : Option PTree :=
  (t.children.find? (fun c => c.1 = key)).map Prod.snd

/-- The member `get_child (path)` of a `ptree`, the path given as the list of
its keys (they are separated by `.` in the source); `none` stands for the
exception `ptree_bad_path`. -/
def PTree.get_child (t : PTree) : List Text → Option PTree
  | [] => some t
  | k :: ks =>
    match t.find k with
    | none => none
    | some c => c.get_child ks

/-- The parts of Boost the reader uses: `read_xml` (`none` stands for the
exception `xml_parser_error`) and the translators behind `get<uint32_t>` and
`get<uint64_t>` (`none` stands for the exception `ptree_bad_data`). -/
structure XmlLib where
  read_xml : Text → Option PTree
  get_uint32 : Text → Option Nat
  get_uint64 : Text → Option Nat

/-- The body of the loop `for (auto& s : segments)` of `xmlFileToKey` for a child
named `Segment`: the fields of `kd` are assigned in the order of the source.
The result `.ok none` stands for an exception thrown by the property tree,
which the `catch (...)` of `xmlFileToKey` handles; `throw;` is reached with no
exception in flight. -/
def read_segment (lib : XmlLib) (kd : HcKeyData) (s : PTree) :
    Except Fault (Option HcKeyData) :=
  match (s.get_child [XML_HC_IN_SIZE]).bind (fun c => lib.get_uint32 c.data) with
  | none => .ok none
  | some in_size =>
    let kd := { kd with m_in_size := in_size }
    match (s.get_child [XML_HC_OUT_SIZE]).bind (fun c => lib.get_uint32 c.data) with
    | none => .ok none
    | some out_size =>
      let kd := { kd with m_out_size := out_size }
      match (s.get_child [XML_HC_LFSR]).bind (fun c => lib.get_uint64 c.data) with
      | none => .ok none
      | some lfsr_specs =>
        let kd := { kd with m_lfsr_specs := lfsr_specs }
        match s.get_child [XML_HC_CRYPTO] with
        | none => .ok none
        | some c =>
          match c.get_child [XML_HC_CRYPTO_SCHEME] with
          | none => .ok none
          | some _ =>
            match c.get_child [XML_HC_CRYPTO_IV] with
            | none => .ok none
            | some crypto_iv =>
              match c.get_child [XML_HC_CRYPTO_KEY] with
              | none => .ok none
              | some crypto_key =>
                let r := stringToHex kd.m_iv 16 crypto_iv.data
                if !r.2 then .error .terminated
                else
                  let kd := { kd with m_iv := r.1 }
                  let r := stringToHex kd.m_key 32 crypto_key.data
                  if !r.2 then .error .terminated
                  else .ok (some { kd with m_key := r.1 })

/-- The loop `for (auto& s : segments)` of `xmlFileToKey`: children with another
name than `Segment` are skipped; `kd` is the local declared before the loop. -/
def read_segments (lib : XmlLib) :
    List (Text × PTree) → HcKeyData → List HcKeyData → Except Fault (Option (List HcKeyData))
  | [], _, m_key => .ok (some m_key)
  | (name, s) :: rest, kd, m_key =>
    if name ≠ XML_HC_SEGMENT then read_segments lib rest kd m_key
    else
      match read_segment lib kd s with
      | .error f => .error f
      | .ok none => .ok none
      | .ok (some kd1) => read_segments lib rest kd1 (m_key ++ [kd1])

/-- The method `HcEnginePrivate::xmlFileToKey (key_file_path)`: the returned status and
`m_key` after the call. `path_given` is whether the path is a nonempty
string, `file` the content of the file (`none`: it does not exist), `kd` the
indeterminate initial value of the local `HcKeyData kd`, whose two arrays
have 16 and 32 bytes. -/
def xmlFileToKey (lib : XmlLib) (m_key : List HcKeyData) (path_given : Bool)
    (file : Option Text) (kd : HcKeyData) : Except Fault (Int × List HcKeyData) :=
  if !path_given then .ok (HC_ERROR_BAD_KEY_FILE_NAME, m_key)
  else
    match file with
    | none => .ok (HC_ERROR_CANNOT_OPEN_KEY_FILE, m_key)
    | some text =>
      match lib.read_xml text with
      | none => .ok (HC_ERROR_BAD_KEY, [])
      | some pt =>
        match pt.get_child [XML_HC_ROOT, XML_HC_VERSION] with
        | none => .ok (HC_ERROR_BAD_KEY, [])
        | some _ =>
          match pt.get_child [XML_HC_ROOT, XML_HC_SEGMENTS] with
          | none => .ok (HC_ERROR_BAD_KEY, [])
          | some segments =>
            match read_segments lib segments.children kd [] with
            | .error f => .error f
            | .ok none => .ok (HC_ERROR_BAD_KEY, [])
            | .ok (some m_key1) => .ok (HC_STATUS_OK, m_key1)

/-! ## Definitions used in the proofs about the key descriptor -/

/-- A character `stringToHex` accepts: `0-9` or uppercase `A-F`. -/
def IsUpperHex (c : Char) : Prop := ('0' ≤ c ∧ c ≤ '9') ∨ ('A' ≤ c ∧ c ≤ 'F')

instance (c : Char) : Decidable (IsUpperHex c) := inferInstanceAs (Decidable (_ ∨ _))

/-- The uppercase hexadecimal text of a byte sequence: two digits per byte,
high digit first, no separators. -/
def hex_text (bytes : List Nat) : Text :=
  bytes.flatMap (fun b => [hex_upper (b / 16), hex_upper (b % 16)])

/-- The values of a key fit the fields of `struct HcKeyData`: a `uint64_t`, two
`uint32_t`, 16 and 32 `uint8_t`. -/
def HcKeyData.WellTyped (k : HcKeyData) : Prop :=
  k.m_lfsr_specs < 2 ^ 64 ∧ k.m_in_size < 2 ^ 32 ∧ k.m_out_size < 2 ^ 32 ∧
  k.m_iv.length = 16 ∧ (∀ b ∈ k.m_iv, b < 256) ∧
  k.m_key.length = 32 ∧ ∀ b ∈ k.m_key, b < 256

mutual
/-- The element text of a property tree whose nodes hold either data or
children: the data of the node, then each child between its opening and its
closing tag. -/
def PTree.render : PTree → Text
  | .node d cs => d ++ PTree.renderList cs
/-- The element text of a list of children. -/
def PTree.renderList : List (Text × PTree) → Text
  | [] => []
  | (k, t) :: rest => open_tag k ++ PTree.render t ++ close_tag k ++ PTree.renderList rest
end

/-- A node that holds only data. -/
def PTree.leaf (d : Text) : PTree := .node d []

/-- A `Segment` node with the given texts in its leaves. -/
def segment_node (in_size out_size lfsr scheme iv key : Text) : PTree :=
  .node [] [(XML_HC_IN_SIZE, .leaf in_size), (XML_HC_OUT_SIZE, .leaf out_size),
    (XML_HC_LFSR, .leaf lfsr),
    (XML_HC_CRYPTO, .node [] [(XML_HC_CRYPTO_SCHEME, .leaf scheme), (XML_HC_CRYPTO_IV, .leaf iv),
      (XML_HC_CRYPTO_KEY, .leaf key)])]

/-- The `Segment` node that spells out a key. -/
def segment_tree (k : HcKeyData) : PTree :=
  segment_node (Nat.toDigits 10 k.m_in_size) (Nat.toDigits 10 k.m_out_size)
    (Nat.toDigits 10 k.m_lfsr_specs) CRYPTO_SCHEME (hex_text k.m_iv) (hex_text k.m_key)

/-- A document tree with the given children under `Segments`. -/
def document_tree (segments : List (Text × PTree)) : PTree :=
  .node [] [(XML_HC_ROOT, .node [] [(XML_HC_VERSION, .leaf (String.toList "00010000")),
    (XML_HC_SEGMENTS, .node [] segments)])]

/-- The document tree that spells out a key list. -/
def descriptor_tree (m_key : List HcKeyData) : PTree :=
  document_tree (m_key.map (fun k => (XML_HC_SEGMENT, segment_tree k)))

/-- The number translators read back the decimal rendering of every value of
their type. -/
def XmlLib.ReadsDecimal (lib : XmlLib) : Prop :=
  (∀ n, n < 2 ^ 32 → lib.get_uint32 (Nat.toDigits 10 n) = some n) ∧
  (∀ n, n < 2 ^ 64 → lib.get_uint64 (Nat.toDigits 10 n) = some n)

/-- One step of reading a decimal number: the next digit is appended to the
value read so far. -/
def decimal_step (acc : Option Nat) (c : Char) : Option Nat :=
  match acc with
  | none => none
  | some a => if '0' ≤ c ∧ c ≤ '9' then some (10 * a + (c.toNat - 48)) else none

/-- The value of a string of decimal digits, `none` when another character
occurs. -/
def decimal_value (s : Text) : Option Nat := s.foldl decimal_step (some 0)

/-- A sample library: the number translators read decimal digits and check the
range, `read_xml` knows the one document `doc` and its tree `pt`. -/
def sampleXmlLib (doc : Text) (pt : PTree) : XmlLib :=
  { read_xml := fun text => if text = doc then some pt else none,
    get_uint32 := fun s => (decimal_value s).bind (fun n => if n < 2 ^ 32 then some n else none),
    get_uint64 := fun s => (decimal_value s).bind (fun n => if n < 2 ^ 64 then some n else none) }

/-- A sample key list of two keys. -/
def sampleKeys : List HcKeyData :=
  [{ m_lfsr_specs := 0x4211 * 2 ^ 32 + 1, m_in_size := 7, m_out_size := 32768,
     m_iv := List.range 16, m_key := (List.range 32).map (fun i => 255 - i) },
   { m_lfsr_specs := 0x8805 * 2 ^ 32 + 0xACE1, m_in_size := 65536, m_out_size := 65536,
     m_iv := List.replicate 16 171, m_key := List.replicate 32 9 }]

/-- The initial value taken for the local `HcKeyData kd` of `xmlFileToKey`. -/
def sampleKd : HcKeyData :=
  { m_lfsr_specs := 0, m_in_size := 0, m_out_size := 0, m_iv := List.replicate 16 0,
    m_key := List.replicate 32 0 }

instance (k : HcKeyData) : Decidable k.WellTyped :=
  inferInstanceAs (Decidable (_ ∧ _ ∧ _ ∧ _ ∧ _ ∧ _ ∧ _))

/-- The text of one `Segment` element as the wire format gives it: the three
numbers in decimal, the scheme, the `iv` and the `key` in uppercase
hexadecimal. -/
def wire_segment (k : HcKeyData) : Text :=
  String.toList "<Segment><in_size>" ++ String.toList (Nat.repr k.m_in_size) ++
  String.toList "</in_size><out_size>" ++ String.toList (Nat.repr k.m_out_size) ++
  String.toList "</out_size><lfsr>" ++ String.toList (Nat.repr k.m_lfsr_specs) ++
  String.toList "</lfsr><Crypto><scheme>AES-256</scheme><iv>" ++ hex_text k.m_iv ++
  String.toList "</iv><key>" ++ hex_text k.m_key ++
  String.toList "</key></Crypto></Segment>"

/-- The text of a descriptor as the wire format gives it. -/
def wire_document (m_key : List HcKeyData) : Text :=
  String.toList "<HyperCryptKey><version>00010000</version><Segments>" ++
  m_key.flatMap wire_segment ++ String.toList "</Segments></HyperCryptKey>"

/-! ## `HcEnginePrivate.cpp`: the files on disk

The engine reaches the files through `boost::filesystem` (`exists`,
`file_size`, `unique_path`) and the C library (`fopen`, `fwrite`, `rename`,
`remove`). The files are the explicit state `Disk`; whether the host performs
a call that can fail, and the names `unique_path` returns, are the arguments
`HostOutcome`. The names a path is split into (`filename ()`, `basename`) are
arguments as well. -/

/-- The files the host holds: each path with the bytes of the file. -/
abbrev Disk := List (Text × List Nat)

/-- The bytes of the file `name`, `none` when there is no such file. -/
def file_content : Disk → Text → Option (List Nat)
  | [], _ => none
  | (n, data) :: rest, name => if n = name then some data else file_content rest name

/-- The call `boost::filesystem::exists (name)`. -/
def file_exists (d : Disk) (name : Text) : Bool := (file_content d name).isSome

/-- The call `remove (name)`. -/
def remove_file (d : Disk) (name : Text) : Disk := d.filter (fun e => e.1 ≠ name)

/-- The file `name` after `fopen (name, "wb")`, the writes that put `data` in
it, and `fclose`. -/
def write_file (d : Disk) (name : Text) (data : List Nat) : Disk :=
  (name, data) :: remove_file d name

/-- The call `rename (old_name, new_name)`: `none` when it returns a negative
value, which it does when the host refuses (`ok = false`) or there is no file
`old_name`. -/
def rename_file (ok : Bool) (d : Disk) (old_name new_name : Text) : Option Disk :=
  if !ok then none
  else
    match file_content d old_name with
    | none => none
    | some data => some (write_file (remove_file d old_name) new_name data)

/-- The two strings of a `FileSpec`. -/
structure FileNames where
  m_file_name : Text
  m_temp_file_name : Text
  deriving DecidableEq, Repr

/-- The names after `FileSpec::clear ()`. -/
def FileNames.clear : FileNames := { m_file_name := [], m_temp_file_name := [] }

/-- The names the engine holds when a private function returns: those of
`m_out_files` and those of `m_key_file`. -/
structure EngineFiles where
  m_out_files : List FileNames
  m_key_file : FileNames
  deriving DecidableEq, Repr

/-- The state in which no name is recorded: `m_out_files` empty and
`m_key_file` cleared, as the constructor and `cleanUp` leave them. -/
def EngineFiles.none : EngineFiles := { m_out_files := [], m_key_file := FileNames.clear }

/-- The statement `if (!name.empty ()) remove (name.c_str ());` of `cleanUp`. -/
def remove_named (d : Disk) (name : Text) : Disk :=
  if name.isEmpty then d else remove_file d name

/-- The effect of `HcEnginePrivate::cleanUp` on the files: "Clean up the engine." For every
entry of `m_out_files`, then for `m_key_file`, the file called `m_file_name` and
the file called `m_temp_file_name` are removed. -/
def cleanUp (files : EngineFiles) (d : Disk) : Disk :=
  let d := files.m_out_files.foldl
    (fun d e => remove_named (remove_named d e.m_file_name) e.m_temp_file_name) d
  remove_named (remove_named d files.m_key_file.m_file_name) files.m_key_file.m_temp_file_name

/-- The outcomes of the host calls of one run: the names returned by the
successive calls of `getTempFileName` (`boost::filesystem::unique_path`), and
whether the host performs the `fopen` of the input file, the `resize` of
`m_buffer`, the `fopen` of each temporary output file, the `fopen` and the
`fwrite` of `keyToXmlFile`, and each `rename`. -/
structure HostOutcome where
  temp_name : Nat → Text
  fopen_in : Bool
  resize : Bool
  fopen_out : Nat → Bool
  fopen_key : Bool
  fwrite_key : Bool
  rename_key : Bool
  rename_out : Nat → Bool

/-- The conversion `%02d` of `sprintf` applied to a value from 0 to
`2 ^ 31 - 1`: the decimal digits, with a leading 0 when there is one digit. -/
def fmt_02d (n : Nat) : Text :=
  if n < 10 then '0' :: Nat.toDigits 10 n else Nat.toDigits 10 n

/-- The text `sprintf (temp, ".%02d.hc", n)` writes. -/
def split_suffix (n : Nat) : Text := String.toList "." ++ fmt_02d n ++ String.toList ".hc"

/-- The name `getTempFileName () + "-hctemp"` for the `k`-th temporary name of
the run. -/
def temp_file_name (host : HostOutcome) (k : Nat) : Text :=
  host.temp_name k ++ String.toList "-hctemp"

/-- The loop "If the output file is to be split, generate the output file
names" of `encryptFile`, with `n` passes left and `i` the loop index: `none`
when one of the names exists (`m_out_files.clear ()` and the return of
`HC_ERROR_OUTPUT_FILE_ALREADY_EXISTS`). -/
def name_splits (in_file_name : Text) (d : Disk) :
    Nat → Nat → List FileNames → Option (List FileNames)
  | 0, _, m_out_files => some m_out_files
  | n + 1, i, m_out_files =>
    if file_exists d (in_file_name ++ split_suffix (i + 1)) then none
    else
      name_splits in_file_name d n (i + 1)
        (m_out_files ++
          [{ m_file_name := in_file_name ++ split_suffix (i + 1), m_temp_file_name := [] }])

/-- The loop `for (auto& e : m_out_files) e.m_temp_file_name = getTempFileName () + "-hctemp";` of
`encryptFile`; `k` is the number of temporary names the run has drawn. -/
def name_temps (host : HostOutcome) : Nat → List FileNames → List FileNames
  | _, [] => []
  | k, e :: rest =>
    { e with m_temp_file_name := temp_file_name host k } :: name_temps host (k + 1) rest

/-- The head of the private `encryptFile`, from its first line to the loop that
sets the temporary names: the status (`HC_STATUS_OK` when the run goes on) and
the names held in `m_out_files` and `m_key_file` at that point. No callback is
installed; `in_file_name` is `in_path.filename ()`. -/
def encrypt_names (in_file_path in_file_name : Text) (splits : Nat) (host : HostOutcome)
    (d : Disk) : Int × EngineFiles :=
  if in_file_path.isEmpty then (HC_ERROR_BAD_INPUT_FILE_NAME, EngineFiles.none)
  else
    let key_file_name := in_file_name ++ String.toList ".hckey"
    if file_exists d key_file_name then (HC_ERROR_KEY_FILE_ALREADY_EXISTS, EngineFiles.none)
    else
      let m_key_file : FileNames :=
        { m_file_name := key_file_name, m_temp_file_name := temp_file_name host 0 }
      let named : Option (List FileNames) :=
        if splits ≠ 0 then name_splits in_file_name d splits 0 []
        else if file_exists d (in_file_name ++ String.toList ".hc") then none
        else some [{ m_file_name := in_file_name ++ String.toList ".hc", m_temp_file_name := [] }]
      match named with
      | none => (HC_ERROR_OUTPUT_FILE_ALREADY_EXISTS, { m_out_files := [], m_key_file := m_key_file })
      | some m_out_files =>
        (HC_STATUS_OK, { m_out_files := name_temps host 1 m_out_files, m_key_file := m_key_file })

/-- The loop "Open all the output files for writing" of `encryptFile`: each
`fopen (e.m_temp_file_name, "wb")` the host performs leaves an empty file; the
result is `false` when a call fails. -/
def open_out_files (fopen_out : Nat → Bool) : List FileNames → Nat → Disk → Bool × Disk
  | [], _, d => (true, d)
  | e :: rest, i, d =>
    if fopen_out i then open_out_files fopen_out rest (i + 1) (write_file d e.m_temp_file_name [])
    else (false, d)

/-- The bytes written through the streams of `m_out_files`, put in the files
they were opened on. -/
def store_out_files : List FileNames → List FileSpec → Disk → Disk
  | e :: es, fs :: fss, d => store_out_files es fss (write_file d e.m_temp_file_name fs.data)
  | _, _, d => d

/-- The effect of `keyToXmlFile (m_key_file.m_temp_file_name)` on the files:
`fopen (key_file_path, "w")` leaves an empty file, `fwrite` puts the text in
it. -/
def store_key_file (m_key : List HcKeyData) (name : Text) (host : HostOutcome) (d : Disk) : Disk :=
  if name.isEmpty then d
  else if !host.fopen_key then d
  else if !host.fwrite_key then write_file d name []
  else write_file d name ((key_xml_string m_key).map Char.toNat)

/-- The private `encryptFile` from `boost::filesystem::exists (in_file_path)` to the call of
`keyToXmlFile`: the status (`HC_STATUS_OK` when the run goes on to the
renames) and the files. -/
def encrypt_body (aes : AesCbc) (reg : PolyRegistry) (in_file_path : Text) (splits : Nat)
    (rnd : EncRandom) (host : HostOutcome) (files : EngineFiles) (d : Disk) :
    Except Fault (Int × Disk) :=
  match file_content d in_file_path with
  | none => .ok (HC_ERROR_CANNOT_OPEN_INPUT_FILE, d)
  | some plaintext =>
    let file_size := plaintext.length
    if file_size = 0 then .error .terminated
    else if !host.fopen_in then .ok (HC_ERROR_CANNOT_OPEN_INPUT_FILE, d)
    else
      let in_file_spec : FileSpec :=
        { m_file := true, m_size := file_size, data := plaintext, pos := 0 }
      match generateKey reg (HcLfsr.new 0) file_size rnd.keys rnd.shuffle with
      | .error f => .error f
      | .ok (status, reg1, lfsr, m_key) =>
        if status ≠ HC_STATUS_OK then .ok (status, d)
        else
          let max_segment_size := (m_key.map (fun ke => ke.m_out_size)).foldl max 0
          let total_out_size := (m_key.map (fun ke => ke.m_out_size)).sum
          if !host.resize then .ok (HC_ERROR_BLOCK_SIZE_TOO_BIG, d)
          else if splits ≠ 0 ∧ total_out_size < HcLfsr.getMinSize then .ok (HC_ERROR_BAD_KEY, d)
          else
            let m_out_files := plan_out_files total_out_size splits
              (files.m_out_files.map (fun _ => ⟨false, 0, [], 0⟩))
            let opened := open_out_files host.fopen_out files.m_out_files 0 d
            if !opened.1 then .ok (HC_ERROR_CANNOT_CREATE_OUTPUT_FILE, opened.2)
            else
              let e : Engine :=
                { m_lfsr := some lfsr, m_in_files := [in_file_spec],
                  m_out_files := m_out_files.map (fun fs => { fs with m_file := true }),
                  m_in_file_index := 0, m_out_file_index := 0, m_key := m_key,
                  m_buffer := List.replicate max_segment_size 0, reg := reg1 }
              match encrypt_segments aes rnd.segs m_key 0 e with
              | .error f => .error f
              | .ok (status, e1) =>
                let d2 := store_out_files files.m_out_files e1.m_out_files opened.2
                if status ≠ HC_STATUS_OK then .ok (status, d2)
                else if m_key.isEmpty then .ok (HC_ERROR_BAD_KEY, d2)
                else
                  .ok ((keyToXmlFile m_key (!files.m_key_file.m_temp_file_name.isEmpty)
                      host.fopen_key host.fwrite_key).1,
                    store_key_file m_key files.m_key_file.m_temp_file_name host d2)

/-- The loop `for (auto& e : m_out_files) if (rename (e.m_temp_file_name, e.m_file_name) < 0) return ...`
of `encryptFile`; the result is `false` when a call fails. -/
def rename_out_files (rename_out : Nat → Bool) : List FileNames → Nat → Disk → Bool × Disk
  | [], _, d => (true, d)
  | e :: rest, i, d =>
    match rename_file (rename_out i) d e.m_temp_file_name e.m_file_name with
    | none => (false, d)
    | some d1 => rename_out_files rename_out rest (i + 1) d1

/-- The tail of the private `encryptFile`, "rename them to the actual file
names": the key file first, then the output files in order. After the last
rename every `FileSpec` is cleared, so the `cleanUp` that follows removes
nothing. -/
def encrypt_renames (host : HostOutcome) (files : EngineFiles) (d : Disk) :
    Int × EngineFiles × Disk :=
  match rename_file host.rename_key d files.m_key_file.m_temp_file_name
      files.m_key_file.m_file_name with
  | none => (HC_ERROR_CANNOT_WRITE_KEY_FILE, files, d)
  | some d1 =>
    let renamed := rename_out_files host.rename_out files.m_out_files 0 d1
    if !renamed.1 then (HC_ERROR_CANNOT_WRITE_OUTPUT_FILE, files, renamed.2)
    else (HC_STATUS_OK, EngineFiles.none, renamed.2)

/-- The private `HcEnginePrivate::encryptFile (in_file_path, splits)` with its files: the
returned status, the names held in `m_out_files` and `m_key_file` at the
return, and the files at that point. -/
def encryptFileDisk (aes : AesCbc) (reg : PolyRegistry) (in_file_path in_file_name : Text)
    (splits : Nat) (rnd : EncRandom) (host : HostOutcome) (d : Disk) :
    Except Fault (Int × EngineFiles × Disk) :=
  let named := encrypt_names in_file_path in_file_name splits host d
  if named.1 ≠ HC_STATUS_OK then .ok (named.1, named.2, d)
  else
    match encrypt_body aes reg in_file_path splits rnd host named.2 d with
    | .error f => .error f
    | .ok (status, d1) =>
      if status ≠ HC_STATUS_OK then .ok (status, named.2, d1)
      else .ok (encrypt_renames host named.2 d1)

/-- The public `HcEnginePrivate::encryptFile (splits, in_file_path, callback, context)`
with its files. The engine enters with no name recorded, as its constructor
and every earlier call leave it, so the first `cleanUp ()` removes nothing;
the second one runs on what the private function left. -/
def encryptFileDiskPublic (aes : AesCbc) (reg : PolyRegistry) (in_file_path in_file_name : Text)
    (splits : Nat) (rnd : EncRandom) (host : HostOutcome) (d : Disk) :
    Except Fault (Int × Disk) :=
  match encryptFileDisk aes reg in_file_path in_file_name (splits % 2 ^ 32) rnd host
      (cleanUp EngineFiles.none d) with
  | .error f => .error f
  | .ok (status, files, d1) => .ok (adjustStatus status, cleanUp files d1)

/-- The part of the private `decryptFile` that opens the ciphertext files:
`single` is the content of `<base>.hc`, `files i` that of the file numbered
`i + 1`. The result is the status, `m_in_files` and `total_file_size`. -/
def decrypt_open (m_in_files : List FileSpec) (single : Option (List Nat))
    (files : Nat → Option (List Nat)) (joins : Nat) : Except Fault (Int × List FileSpec × Nat) :=
  if joins = 0 then
    match single with
    | none => .ok (HC_ERROR_CANNOT_OPEN_INPUT_FILE, m_in_files, 0)
    | some data =>
      if data.length = 0 then .error .terminated
      else
        .ok (HC_STATUS_OK,
          m_in_files ++ [{ m_file := true, m_size := 0, data := data, pos := 0 }],
          data.length)
  else open_joins files joins 0 m_in_files 0

/-- The private `HcEnginePrivate::decryptFile (key_file_path, joins)` with its files;
`base` is `boost::filesystem::basename` of the key file path, the name of the output
file. The host opens every ciphertext file that exists, and `m_out_files` is
empty at the call, as the public function leaves it. The result is the
returned status, the names held in `m_out_files` and `m_key_file` at the
return, and the files at that point. -/
def decryptFileDisk (aes : AesCbc) (e : Engine) (key_file_path base : Text) (joins : Nat)
    (host : HostOutcome) (d : Disk) : Except Fault (Int × EngineFiles × Disk) :=
  if key_file_path.isEmpty then .ok (HC_ERROR_BAD_INPUT_FILE_NAME, EngineFiles.none, d)
  else if file_exists d base then .ok (HC_ERROR_OUTPUT_FILE_ALREADY_EXISTS, EngineFiles.none, d)
  else
    let ofs : FileNames := { m_file_name := base, m_temp_file_name := temp_file_name host 0 }
    match decrypt_open e.m_in_files (file_content d (base ++ String.toList ".hc"))
        (fun i => file_content d (base ++ split_suffix (i + 1))) joins with
    | .error f => .error f
    | .ok (status, m_in_files, total_file_size) =>
      let e := { e with m_in_files := m_in_files }
      if status ≠ HC_STATUS_OK then .ok (status, EngineFiles.none, d)
      else
        let out_total_size := (e.m_key.map (fun ke => ke.m_out_size)).sum
        let in_total_size := (e.m_key.map (fun ke => ke.m_in_size)).sum
        if out_total_size ≠ total_file_size then
          .ok (HC_ERROR_INVALID_INPUT_FILE, EngineFiles.none, d)
        else if !host.fopen_out 0 then
          .ok (HC_ERROR_CANNOT_CREATE_OUTPUT_FILE, EngineFiles.none, d)
        else
          let d1 := write_file d ofs.m_temp_file_name []
          let spec : FileSpec := { m_file := true, m_size := in_total_size, data := [], pos := 0 }
          let e := { e with m_out_files := e.m_out_files ++ [spec] }
          let held : EngineFiles := { m_out_files := [ofs], m_key_file := FileNames.clear }
          match decrypt_segments aes e.m_key e with
          | .error f => .error f
          | .ok (status, e1) =>
            let d2 := write_file d1 ofs.m_temp_file_name
              (((e1.m_out_files.get? 0).map (fun fs => fs.data)).getD [])
            if status ≠ HC_STATUS_OK then .ok (status, held, d2)
            else
              match rename_file (host.rename_out 0) d2 ofs.m_temp_file_name ofs.m_file_name with
              | none => .ok (HC_ERROR_CANNOT_WRITE_OUTPUT_FILE, held, d2)
              | some d3 => .ok (HC_STATUS_OK, EngineFiles.none, d3)

/-- The public `HcEnginePrivate::decryptFile (joins, key_file_path, callback, context)`
with its files. The engine enters with no name recorded and an empty key
list; `kd` is the initial value of the local of `xmlFileToKey`. The returns
before the call of the private function do not run `cleanUp`. -/
def decryptFileDiskPublic (aes : AesCbc) (lib : XmlLib) (reg : PolyRegistry)
    (key_file_path base : Text) (joins : Nat) (kd : HcKeyData) (host : HostOutcome) (d : Disk) :
    Except Fault (Int × Disk) :=
  let d := cleanUp EngineFiles.none d
  if key_file_path.isEmpty then .ok (HC_ERROR_BAD_KEY_FILE_NAME, d)
  else if !file_exists d key_file_path then .ok (HC_ERROR_CANNOT_OPEN_KEY_FILE, d)
  else
    match xmlFileToKey lib [] true
        ((file_content d key_file_path).map (fun bytes => bytes.map Char.ofNat)) kd with
    | .error f => .error f
    | .ok (result, m_key) =>
      if result ≠ HC_STATUS_OK then .ok (adjustStatus result, d)
      else
        match check_keys m_key reg 0 with
        | none => .ok (HC_ERROR_BAD_KEY, d)
        | some (reg1, max_segment_size) =>
          if !host.resize then .ok (HC_ERROR_BLOCK_SIZE_TOO_BIG, d)
          else
            let e : Engine :=
              { m_lfsr := some (HcLfsr.new max_segment_size), m_in_files := [],
                m_out_files := [], m_in_file_index := 0, m_out_file_index := 0, m_key := m_key,
                m_buffer := List.replicate max_segment_size 0, reg := reg1 }
            match decryptFileDisk aes e key_file_path base joins host d with
            | .error f => .error f
            | .ok (status, files, d1) => .ok (adjustStatus status, cleanUp files d1)

/-! ## Definitions used in the statements about the engine -/

/-- The `out_size` that the key loop of `generateKey` computes for the planned
size `se`: `se + fill_size` in 32 bits. -/
def segment_out_size (se : Nat) : Nat :=
  (se + (if se < getMinBlockSize then getMinBlockSize - se else 0)) % 2 ^ 32

/-- A segment key the sanity loop of the public `decryptFile` rejects: one of
the two sizes is 0, `in_size > out_size`, `out_size > 2 ^ 28`, or one half of
`lfsr_spec` is 0. -/
def HcKeyData.Rejected (ke : HcKeyData) : Prop :=
  ke.m_in_size = 0 ∨ ke.m_in_size > ke.m_out_size ∨ ke.m_out_size > 2 ^ 28 ∨
    ke.m_lfsr_specs % 2 ^ 32 = 0 ∨ ke.m_lfsr_specs / 2 ^ 32 % 2 ^ 32 = 0

instance (ke : HcKeyData) : Decidable ke.Rejected :=
  inferInstanceAs (Decidable (_ ∨ _))

/-- A value of the enumeration `HcStatus` of `HcEngine.hpp`: an error code from
`HC_ERROR_INVALID_INPUT_FILE` (-1000) to `HC_INTERNAL_ERROR` (-975), or a
status from `HC_STATUS_OK` (0) to `HC_STATUS_DONE` (18). -/
def IsPublicStatus (s : Int) : Prop := (-1000 ≤ s ∧ s ≤ -975) ∨ (0 ≤ s ∧ s ≤ 18)

instance (s : Int) : Decidable (IsPublicStatus s) := inferInstanceAs (Decidable (_ ∨ _))

/-- A value of the enumeration `HcInternalError` of `HcEnginePrivate.cpp`:
`HC_INTERNAL_ERROR_BAD_LFSR` (-2000) to `HC_INTERNAL_ERROR_CANNOT_RESET_LFSR` (-1990). -/
def IsInternalCode (s : Int) : Prop := -2000 ≤ s ∧ s ≤ -1990

instance (s : Int) : Decidable (IsInternalCode s) := inferInstanceAs (Decidable (_ ∧ _))

/-- A host that performs every call, with the temporary names `t0`, `t1`, .. -/
def sampleHost : HostOutcome :=
  { temp_name := fun k => String.toList "t" ++ Nat.toDigits 10 k, fopen_in := true,
    resize := true, fopen_out := fun _ => true, fopen_key := true, fwrite_key := true,
    rename_key := true, rename_out := fun _ => true }

/-- A directory with the plaintext `a`, a key file `a.hckey` and a second split
`a.02.hc` left by an earlier run. -/
def sampleDisk : Disk :=
  [(String.toList "a", [72, 69, 76, 76, 79]), (String.toList "a.hckey", [1]),
    (String.toList "a.02.hc", [2])]

/-- A directory with the plaintext `b` and a second split `b.02.hc`. -/
def sampleDiskSplit : Disk :=
  [(String.toList "b", [72, 69, 76, 76, 79]), (String.toList "b.02.hc", [2])]

/-- A name that ends in `p`, as every `getTempFileName () + "-hctemp"` does and
no name ending in `.hc` or `.hckey` does. -/
def IsTempName (name : Text) : Prop := name.getLast? = some 'p'

instance (name : Text) : Decidable (IsTempName name) :=
  inferInstanceAs (Decidable (_ = _))

/-- No file has the final key name or a final ciphertext name of `files`. -/
def NoFinalFile (files : EngineFiles) (d : Disk) : Prop :=
  file_exists d files.m_key_file.m_file_name = false ∧
  ∀ e ∈ files.m_out_files, file_exists d e.m_file_name = false

/-- No file has one of the names recorded in `files`, final or temporary. -/
def NoNamedFile (files : EngineFiles) (d : Disk) : Prop :=
  file_exists d files.m_key_file.m_file_name = false ∧
  file_exists d files.m_key_file.m_temp_file_name = false ∧
  ∀ e ∈ files.m_out_files,
    file_exists d e.m_file_name = false ∧ file_exists d e.m_temp_file_name = false

/-- The names `encrypt_names` has recorded are the final key name and a
temporary name for the key file, and for each output a final name that is not
a temporary name and a temporary name; none is empty. -/
def NamesAssigned (in_file_name : Text) (host : HostOutcome) (files : EngineFiles) : Prop :=
  files.m_key_file.m_file_name = in_file_name ++ String.toList ".hckey" ∧
  files.m_key_file.m_temp_file_name = temp_file_name host 0 ∧
  ∀ e ∈ files.m_out_files,
    IsTempName e.m_temp_file_name ∧ ¬ IsTempName e.m_file_name ∧ e.m_file_name ≠ []

/-- A directory that holds the plaintext `c` of five bytes and nothing else. -/
def sampleDiskPlain : Disk := [(String.toList "c", [72, 69, 76, 76, 79])]

/-- A host that performs every call but the `rename` of an output file. -/
def sampleHostNoRename : HostOutcome :=
  { sampleHost with rename_out := fun _ => false }

/-- The names `encryptFile` records for the input `c` without split and the
temporary names of the sample host. -/
def sampleNames : EngineFiles :=
  { m_out_files := [{ m_file_name := String.toList "c.hc",
                      m_temp_file_name := String.toList "t1-hctemp" }],
    m_key_file := { m_file_name := String.toList "c.hckey",
                    m_temp_file_name := String.toList "t0-hctemp" } }

/-- The statements `size_t min_key_count = 3; if (s) { --min_key_count; }` of
`generateKey`: the value of `min_key_count` for the residual `s` the greedy
loop has left. -/
def min_key_count (s : Nat) : Nat := if s ≠ 0 then 2 else 3

/-- A sample key that passes the sanity checks of the public `decryptFile`:
one segment with `in_size = out_size = 256`, seed 1 and poly `0x4000`. -/
def sampleWildKey : HcKeyData :=
  { m_lfsr_specs := 0x4000 * 2 ^ 32 + 1, m_in_size := 256, m_out_size := 256,
    m_iv := List.replicate 16 7, m_key := List.replicate 32 9 }

/-- The LFSR of `decryptSegment` after `setSpec` for the sample key. -/
def sampleWildLfsr : HcLfsr :=
  { m_lfsr := 1, m_seed := 1, m_poly := 0x4000, m_max_bits := 28 }

/-- The indices into `ob` that one pass of `while (is)` in `encryptSegment`
assigns, in the order of the assignments: `indices[0]` .. `indices[254]` by
the loop `for (i = 0; i < chunk_size - 1; ++i) ob[indices[i]] = in_buf[i];`,
then `is ? indices[chunk_size - 1] : 0`; `is` is the value after
`is -= chunk`. -/
def chunk_writes (indices : List Nat) (is : Nat) : List Nat :=
  (List.range 255).map (fun i => indices.getD i 0) ++
    [if is ≠ 0 then indices.getD 255 0 else 0]

/-- The indices into `ob` that the loop `while (is)` of `encryptSegment`
assigns, pass after pass, each pass with the indices its call of `fillNext`
has produced; the list ends where `fillNext` returns false. -/
def segment_writes : Nat → Nat → HcLfsr → List Nat → List Nat
  | 0, _, _, _ => []
  | fuel + 1, is, lfsr, indices =>
    if is = 0 then []
    else
      let chunk := if 256 > is then is else 256
      let f := HcLfsr.fillNext lfsr indices 0 256
      if !f.2.2 then []
      else chunk_writes f.2.1 (is - chunk) ++ segment_writes fuel (is - chunk) f.1 f.2.1

/-- The local state with which `encryptSegment` and `decryptSegment` enter
their loop `while (is)`: `is = key_data.m_in_size`, the chunk buffer and
`indices` zeroed, `ivec` a copy of `key_data.m_iv`. -/
def loop_entry (kd : HcKeyData) (lfsr : HcLfsr) (work : List Nat) (file : FileSpec) :
    CodecState :=
  { is := kd.m_in_size, buf := List.replicate 256 0, ivec := kd.m_iv,
    indices := List.replicate 256 0, lfsr := lfsr, work := work, file := file }

/-- The indices into `ob` that `encryptSegment (key_data)` assigns: those of
its loop `while (is)`, entered with the generator as
`m_lfsr->setSpec (key_data.m_lfsr_specs)` leaves it. -/
def written_positions (reg : PolyRegistry) (lfsr0 : HcLfsr) (kd : HcKeyData) : List Nat :=
  segment_writes kd.m_in_size kd.m_in_size (HcLfsr.setSpec reg lfsr0 kd.m_lfsr_specs).2.1
    (List.replicate 256 0)

/-- The bytes of a list of files, one file after the other. -/
def stream (files : List FileSpec) : List Nat := (files.map FileSpec.data).flatten

/-- The bytes of a list of input files that lie after the read positions, one
file after the other. -/
def unread (files : List FileSpec) : List Nat :=
  (files.map (fun f => f.data.drop f.pos)).flatten

/-- In a list of sizes, a zero is followed by zeros only. -/
def ZerosLast (sizes : List Nat) : Prop := sizes.Pairwise (fun a b => a = 0 → b = 0)

instance (sizes : List Nat) : Decidable (ZerosLast sizes) :=
  inferInstanceAs (Decidable (List.Pairwise _ _))

/-- The working buffers of the segments: the first `m_out_size` bytes of
`m_buffer` when `encryptSegment` returns, for each pass of the loop "Encrypt
all the segments" of `encryptFile`. -/
def segment_buffers (aes : AesCbc) (segs : Nat → SegRandom) :
    List HcKeyData → Nat → Engine → List (List Nat)
  | [], _, _ => []
  | ke :: rest, k, e =>
    match encryptSegment aes e ke (segs k) with
    | .error _ => []
    | .ok (status, e1) =>
      if status ≠ HC_STATUS_OK then []
      else e1.m_buffer.take ke.m_out_size :: segment_buffers aes segs rest (k + 1) e1

/-- What the read loop of `decryptSegment` has put together: the first
`m_out_size` bytes of `m_buffer` when `decryptSegment` returns, for each pass
of the loop over `m_key` of `decryptFile`. -/
def segment_reads (aes : AesCbc) : List HcKeyData → Engine → List (List Nat)
  | [], _ => []
  | ke :: rest, e =>
    match decryptSegment aes e ke with
    | .error _ => []
    | .ok (status, e1) =>
      if status ≠ HC_STATUS_OK then []
      else e1.m_buffer.take ke.m_out_size :: segment_reads aes rest e1

/-- The lfsr object after `setSpec (spec)` has accepted the spec. -/
def HcLfsr.withSpec (self : HcLfsr) (spec : Nat) : HcLfsr :=
  { self with m_seed := spec % 2 ^ 32, m_poly := spec / 2 ^ 32 % 2 ^ 32,
              m_lfsr := spec % 2 ^ 32 }

/-- The loop `while (is)` of `decryptSegment`, entered for the key `kd` with a
working buffer whose first `out_size` bytes are `C`, ends with
`HC_STATUS_OK` and has appended `P` to the output file. -/
def Decodes (aes : AesCbc) (kd : HcKeyData) (C P : List Nat) : Prop :=
  ∀ (lfsr0 : HcLfsr) (work : List Nat) (file : FileSpec),
    work.take kd.m_out_size = C → file.m_file = true →
    ∃ st1, decrypt_loop aes kd.m_key kd.m_in_size
        (loop_entry kd (lfsr0.withSpec kd.m_lfsr_specs) work file) = .ok (HC_STATUS_OK, st1) ∧
      st1.file = { file with data := file.data ++ P } ∧ st1.work = work

/-- Segment by segment, the buffers `Cs` decode to the consecutive pieces of `P`. -/
def SegmentsDecode (aes : AesCbc) : List HcKeyData → List (List Nat) → List Nat → Prop
  | [], [], _ => True
  | kd :: ks, C :: Cs, P =>
    C.length = kd.m_out_size ∧ Decodes aes kd C (P.take kd.m_in_size) ∧
      SegmentsDecode aes ks Cs (P.drop kd.m_in_size)
  | _, _, _ => False

/-- The engine between two calls of `encryptSegment` in `encryptFile`: the lfsr
exists, the one input file is open, holds `P` and has been read up to `a`, the
output files before `m_out_file_index` (`pre`) are completed, the others
(`rest`) are open, those after the current one are still empty, a zero size
is followed by zero sizes only, and `m_buffer` has `n` bytes. -/
def EncReady (e : Engine) (P : List Nat) (a : Nat) (pre rest : List FileSpec) (n : Nat) :
    Prop :=
  (∃ l, e.m_lfsr = some l) ∧ (∃ sz, e.m_in_files = [⟨true, sz, P, a⟩]) ∧
  e.m_in_file_index = 0 ∧ e.m_out_files = pre ++ rest ∧ e.m_out_file_index = pre.length ∧
  e.m_buffer.length = n ∧ (∀ f ∈ pre, f.m_size = 0) ∧ (∀ f ∈ rest, f.m_file = true) ∧
  (∀ f ∈ rest.tail, f.data = []) ∧ ZerosLast (rest.map FileSpec.m_size)

/-- The engine between two calls of `decryptSegment` in `decryptFile`: the lfsr
exists, the input files from `m_in_file_index` on (`rest`) are open,
`m_buffer` has `n` bytes, and the output file is open and holds `O`. -/
def DecReady (d : Engine) (pre rest : List FileSpec) (n : Nat) (O : List Nat) : Prop :=
  (∃ l, d.m_lfsr = some l) ∧ d.m_in_files = pre ++ rest ∧ d.m_in_file_index = pre.length ∧
  (∀ f ∈ rest, f.m_file = true) ∧ d.m_buffer.length = n ∧
  ∃ out_file tail, d.m_out_files = out_file :: tail ∧ out_file.m_file = true ∧
    out_file.data = O

/-- A sample engine before the loop "Encrypt all the segments": a plaintext of
eight bytes, two output files planned for 40000 and 25536 bytes, a working
buffer of `2 ^ 15` bytes, and the keys of two segments of five and three bytes. -/
def sampleLayoutEngine : Engine :=
  { m_lfsr := some (HcLfsr.new 0),
    m_in_files := [⟨true, 8, [1, 2, 3, 4, 5, 6, 7, 8], 0⟩],
    m_out_files := [⟨true, 40000, [], 0⟩, ⟨true, 25536, [], 0⟩],
    m_in_file_index := 0, m_out_file_index := 0, m_key := [sampleKey 5, sampleKey 3],
    m_buffer := List.replicate 32768 0, reg := PolyRegistry.fresh }

/-- The registry after `create_polies (false, max_bits)` has run on the
registry of a fresh process: what the first call of `setSpec` or `reset` on an
LFSR object with `m_max_bits = max_bits` leaves behind. -/
def registryFor (max_bits : Nat) : PolyRegistry :=
  (create_polies false max_bits PolyRegistry.fresh).1

/-- The states of the registry that a process can hold: the one at program
start, or the one left by the first `setSpec` or `reset`, which runs
`create_polies (false, m_max_bits)` once and sets `initialized`; the
constructor of `HcLfsr` keeps `m_max_bits` in `MIN_BITS .. MAX_BITS`. -/
def RegistryReachable (reg : PolyRegistry) : Prop :=
  reg = PolyRegistry.fresh ∨ ∃ mb, MIN_BITS ≤ mb ∧ mb ≤ MAX_BITS ∧ reg = registryFor mb

/-! ## The Galois step as a linear map -/

theorem NEXT_LFSR_eq (x p : Nat) :
    NEXT_LFSR x p = (x / 2) ^^^ (if x % 2 = 1 then p else 0) := by
  unfold NEXT_LFSR
  rw [Nat.and_one_is_mod, Nat.shiftRight_one]
  rcases Nat.mod_two_eq_zero_or_one x with h | h <;> simp [h]

theorem lfsrNext_zero (p : Nat) : lfsrNext p 0 = 0 := by
  simp [lfsrNext, NEXT_LFSR_eq]

theorem lfsrNext_xor (p x y : Nat) :
    lfsrNext p (x ^^^ y) = lfsrNext p x ^^^ lfsrNext p y := by
  simp only [lfsrNext, NEXT_LFSR_eq, Nat.xor_div_two]
  apply Nat.eq_of_testBit_eq
  intro i
  rcases Nat.mod_two_eq_zero_or_one x with hx | hx <;>
  rcases Nat.mod_two_eq_zero_or_one y with hy | hy <;>
  simp [Nat.xor_mod_two_eq, Nat.add_mod, hx, hy] <;>
  cases (x / 2).testBit i <;> cases (y / 2).testBit i <;> cases p.testBit i <;> rfl

theorem lfsrNext_lt {p b : Nat} (hp : p < 2 ^ b) {x : Nat} (hx : x < 2 ^ b) :
    lfsrNext p x < 2 ^ b := by
  rw [lfsrNext, NEXT_LFSR_eq]
  apply Nat.xor_lt_two_pow
  · exact lt_of_le_of_lt (Nat.div_le_self x 2) hx
  · split
    · exact hp
    · exact Nat.two_pow_pos b

theorem lfsrNext_iterate_zero (p k : Nat) : (lfsrNext p)^[k] 0 = 0 := by
  induction k with
  | zero => rfl
  | succ k ih => rw [Function.iterate_succ_apply', ih, lfsrNext_zero]

theorem lfsrNext_iterate_lt {p b : Nat} (hp : p < 2 ^ b) {x : Nat} (hx : x < 2 ^ b) (k : Nat) :
    (lfsrNext p)^[k] x < 2 ^ b := by
  induction k with
  | zero => exact hx
  | succ k ih => rw [Function.iterate_succ_apply']; exact lfsrNext_lt hp ih

theorem xor_two_pow_of_lt {x k : Nat} (h : x < 2 ^ k) : x ^^^ 2 ^ k = 2 ^ k + x := by
  apply Nat.eq_of_testBit_eq
  intro i
  rw [Nat.testBit_xor, Nat.testBit_two_pow]
  rcases lt_trichotomy i k with hik | hik | hik
  · rw [Nat.testBit_two_pow_add_gt hik]
    have : ¬ k = i := by omega
    simp [this]
  · subst hik
    rw [Nat.testBit_two_pow_add_eq, Nat.testBit_lt_two_pow h]
    simp
  · have h1 : x < 2 ^ i := lt_trans h (Nat.pow_lt_pow_right (by norm_num) hik)
    have h2 : 2 ^ k + x < 2 ^ i := by
      have : 2 ^ (k + 1) ≤ 2 ^ i := Nat.pow_le_pow_right (by norm_num) hik
      rw [pow_succ] at this
      omega
    rw [Nat.testBit_lt_two_pow h1, Nat.testBit_lt_two_pow h2]
    have : ¬ k = i := by omega
    simp [this]

/-! ## Fast exponentiation of the step map

`lfsrMul p b s u` applies to `u` the polynomial in the step map whose
coefficients are the bits of `s`; on the orbit of `2 ^ (b - 1)` it adds
exponents, which gives `lfsrPow`, the `e`-th iterate of the step map at
`2 ^ (b - 1)` in `O(b ^ 2)` steps. -/

/-! The same functions written with the primitive operations on `Nat` only,
the form in which they are evaluated. -/

theorem strictNat_eq {α : Type} (n : Nat) (k : Nat → α) : strictNat n k = k n := by
  cases n <;> rfl

theorem strictList_eq {α : Type} (l : List Nat) (k : List Nat → α) : strictList l k = k l := by
  induction l generalizing k with
  | nil => rfl
  | cons x xs ih => simp [strictList, strictNat_eq, ih]

theorem lfsrMulAux_succ (p u n s acc : Nat) :
    lfsrMulAux p u (n + 1) s acc =
      lfsrMulAux p u n (s / 2) (lfsrNext p acc ^^^ (if s % 2 = 1 then u else 0)) := rfl

theorem gmulAux_eq (p u : Nat) (n : Nat) : ∀ s acc, gmulAux p u n s acc = lfsrMulAux p u n s acc := by
  induction n with
  | zero => intro s acc; rfl
  | succ n ih =>
    intro s acc
    rw [gmulAux, lfsrMulAux_succ, ih]
    congr 1
    have e1 : Nat.xor (Nat.div acc 2) (Nat.mul (Nat.mod acc 2) p) = lfsrNext p acc := by
      rw [lfsrNext, NEXT_LFSR_eq]
      show (acc / 2) ^^^ (acc % 2 * p) = _
      rcases Nat.mod_two_eq_zero_or_one acc with h | h <;> simp [h]
    rw [e1]
    show lfsrNext p acc ^^^ (s % 2 * u) = _
    rcases Nat.mod_two_eq_zero_or_one s with h | h <;> simp [h]

theorem gsquares_eq (p b : Nat) (n : Nat) : ∀ cur, gsquares p b n cur = lfsrSquares p b n cur := by
  induction n with
  | zero => intro cur; rfl
  | succ n ih =>
    intro cur
    rw [gsquares, lfsrSquares, strictNat_eq, ih, gmulAux_eq, lfsrMul]

theorem gpowTab_eq (p b : Nat) (ts : List Nat) :
    ∀ e r, gpowTab p b ts e r = lfsrPowTab p b ts e r := by
  induction ts with
  | nil => intro e r; rfl
  | cons t ts ih =>
    intro e r
    rw [gpowTab, lfsrPowTab, strictNat_eq, ih]
    congr 1
    show (match e % 2 with
      | 0 => r
      | _ => gmulAux p r b t 0) = _
    rcases Nat.mod_two_eq_zero_or_one e with h | h <;> simp [h, gmulAux_eq, lfsrMul]

theorem lfsrNext_lfsrMulAux (p u : Nat) (n s acc : Nat) :
    lfsrNext p (lfsrMulAux p u n s acc) = lfsrMulAux p (lfsrNext p u) n s (lfsrNext p acc) := by
  induction n generalizing s acc with
  | zero => rfl
  | succ n ih =>
    rw [lfsrMulAux_succ, lfsrMulAux_succ, ih, lfsrNext_xor]
    congr 1
    split <;> simp [lfsrNext_zero]

theorem iterate_lfsrMulAux (p u : Nat) (n s acc m : Nat) :
    (lfsrNext p)^[m] (lfsrMulAux p u n s acc) =
      lfsrMulAux p ((lfsrNext p)^[m] u) n s ((lfsrNext p)^[m] acc) := by
  induction m with
  | zero => rfl
  | succ m ih =>
    rw [Function.iterate_succ_apply', Function.iterate_succ_apply', Function.iterate_succ_apply',
      ih, lfsrNext_lfsrMulAux]

theorem lfsrNext_even (p a : Nat) : lfsrNext p (2 * a) = a := by
  simp [lfsrNext, NEXT_LFSR_eq]

/-- On the generator `2 ^ (b - 1)` the Horner evaluation reads back its coefficients. -/
theorem lfsrMulAux_gen (p b : Nat) (n : Nat) :
    ∀ s a, n ≤ b → 1 ≤ b → s < 2 ^ n → a < 2 ^ (b - n) →
      lfsrMulAux p (2 ^ (b - 1)) n s (a * 2 ^ n) = a + s * 2 ^ (b - n) := by
  induction n with
  | zero =>
    intro s a _ _ hs _
    have : s = 0 := by simpa using hs
    simp [lfsrMulAux, this]
  | succ n ih =>
    intro s a hn hb hs ha
    rw [lfsrMulAux_succ]
    have e1 : a * 2 ^ (n + 1) = 2 * (a * 2 ^ n) := by rw [pow_succ]; ring
    rw [e1, lfsrNext_even]
    have hpow : 2 ^ (b - n) = 2 * 2 ^ (b - (n + 1)) := by
      have : b - n = (b - (n + 1)) + 1 := by omega
      rw [this, pow_succ]; ring
    have hpowb : 2 ^ (b - 1) = 2 ^ (b - (n + 1)) * 2 ^ n := by
      rw [← pow_add]; congr 1; omega
    have hlt : a * 2 ^ n < 2 ^ (b - 1) := by
      rw [hpowb]
      exact Nat.mul_lt_mul_of_pos_right ha (Nat.two_pow_pos n)
    have hs2 : s / 2 < 2 ^ n := by
      rw [Nat.div_lt_iff_lt_mul (by norm_num)]
      rw [pow_succ] at hs; exact hs
    have hsd : s = 2 * (s / 2) + s % 2 := (Nat.div_add_mod s 2).symm
    rcases Nat.mod_two_eq_zero_or_one s with h0 | h1
    · simp only [h0, zero_ne_one, if_false, Nat.xor_zero]
      rw [ih (s / 2) a (by omega) hb hs2 (by rw [hpow]; omega), hpow]
      rw [h0] at hsd
      nth_rewrite 2 [hsd]
      ring
    · simp only [h1, if_true]
      rw [xor_two_pow_of_lt hlt]
      have e2 : 2 ^ (b - 1) + a * 2 ^ n = (2 ^ (b - (n + 1)) + a) * 2 ^ n := by
        rw [hpowb]; ring
      rw [e2, ih (s / 2) _ (by omega) hb hs2 (by rw [hpow]; omega), hpow]
      rw [h1] at hsd
      nth_rewrite 2 [hsd]
      ring

theorem lfsrMul_gen (p b s : Nat) (hb : 1 ≤ b) (hs : s < 2 ^ b) :
    lfsrMul p b s (2 ^ (b - 1)) = s := by
  have := lfsrMulAux_gen p b b s 0 le_rfl hb hs (by simp)
  simpa [lfsrMul] using this

/-- Exponents add under `lfsrMul`. -/
theorem lfsrMul_iterate (p b : Nat) (hb : 1 ≤ b) (hp : p < 2 ^ b) (m n : Nat) :
    lfsrMul p b ((lfsrNext p)^[n] (2 ^ (b - 1))) ((lfsrNext p)^[m] (2 ^ (b - 1))) =
      (lfsrNext p)^[m + n] (2 ^ (b - 1)) := by
  have hc : 2 ^ (b - 1) < 2 ^ b := Nat.pow_lt_pow_right (by norm_num) (by omega)
  have hlt := lfsrNext_iterate_lt hp hc n
  rw [Function.iterate_add_apply]
  conv_rhs => rw [← lfsrMul_gen p b _ hb hlt]
  rw [lfsrMul, lfsrMul, iterate_lfsrMulAux, lfsrNext_iterate_zero]

theorem lfsrPowTab_spec (p b : Nat) (hb : 1 ≤ b) (hp : p < 2 ^ b) (n : Nat) :
    ∀ k j e,
      lfsrPowTab p b (lfsrSquares p b n ((lfsrNext p)^[k] (2 ^ (b - 1)))) e
          ((lfsrNext p)^[j] (2 ^ (b - 1))) =
        (lfsrNext p)^[j + k * (e % 2 ^ n)] (2 ^ (b - 1)) := by
  induction n with
  | zero =>
    intro k j e
    simp [lfsrSquares, lfsrPowTab, Nat.mod_one]
  | succ n ih =>
    intro k j e
    simp only [lfsrSquares, lfsrPowTab]
    rw [lfsrMul_iterate p b hb hp k k]
    have hmod : e % 2 ^ (n + 1) = e % 2 + 2 * (e / 2 % 2 ^ n) := by
      rw [pow_succ, mul_comm, Nat.mod_mul]
    rcases Nat.mod_two_eq_zero_or_one e with h | h
    · simp only [h, zero_ne_one, if_false]
      rw [ih (k + k) j (e / 2), hmod, h]
      congr 1
      ring
    · simp only [h, if_true]
      rw [lfsrMul_iterate p b hb hp j k, ih (k + k) (j + k) (e / 2), hmod, h]
      congr 1
      ring

theorem lfsrPow_spec (p b e : Nat) (hb : 1 ≤ b) (hp : p < 2 ^ b) (he : e < 2 ^ (b + 1)) :
    lfsrPow p b e = (lfsrNext p)^[e] (2 ^ (b - 1)) := by
  have := lfsrPowTab_spec p b hb hp (b + 1) 1 0 e
  rw [Nat.mod_eq_of_lt he] at this
  simpa [lfsrPow, lfsrTable] using this

/-! ## Maximal period -/

theorem maxLengthChecks_eq (p b c N : Nat) (tab : List Nat) (qs : List Nat) :
    maxLengthChecks p b c N tab qs =
      ((lfsrPowTab p b tab N c == c) && qs.all (fun q => lfsrPowTab p b tab (N / q) c != c)) := by
  have hbeq : ∀ x y : Nat, Nat.beq x y = (x == y) := fun x y => by
    cases h : Nat.beq x y
    · exact (beq_eq_false_iff_ne.2 (Nat.ne_of_beq_eq_false h)).symm
    · exact (beq_iff_eq.2 (Nat.eq_of_beq_eq_true h)).symm
  induction qs with
  | nil => simp [maxLengthChecks, gpowTab_eq, hbeq]
  | cons q qs ih =>
    rw [maxLengthChecks, ih, gpowTab_eq, hbeq]
    show (match lfsrPowTab p b tab (N / q) c == c with
      | true => false
      | false => _) = _
    cases h : (lfsrPowTab p b tab (N / q) c == c) <;> simp [h, bne]

theorem isMaxLength_eq (p b : Nat) (qs : List Nat) :
    isMaxLength p b qs =
      (decide (p < 2 ^ b) && (lfsrPow p b (2 ^ b - 1) == 2 ^ (b - 1)) &&
        qs.all (fun q => lfsrPow p b ((2 ^ b - 1) / q) != 2 ^ (b - 1))) := by
  have hpos : 0 < 2 ^ b := Nat.two_pow_pos b
  simp only [isMaxLength, strictNat_eq, strictList_eq, gsquares_eq, maxLengthChecks_eq]
  show (match Nat.ble p (2 ^ b - 1) with
    | false => false
    | true => _) = _
  rcases Nat.lt_or_ge p (2 ^ b) with h | h
  · rw [Nat.ble_eq_true_of_le (by omega), decide_eq_true h]
    simp only [lfsrPow, lfsrTable, lfsrNext, Bool.true_and]
    rfl
  · have : Nat.ble p (2 ^ b - 1) = false := by
      cases hb : Nat.ble p (2 ^ b - 1)
      · rfl
      · exact absurd (Nat.le_of_ble_eq_true hb) (by omega)
    rw [this, decide_eq_false (by omega)]
    simp

theorem mersenneFactors_prod (b : Nat) (h1 : 15 ≤ b) (h2 : b ≤ 28) :
    (mersenneFactors b).prod = 2 ^ b - 1 := by
  interval_cases b <;> rfl

theorem mersenneFactors_prime (b : Nat) (h1 : 15 ≤ b) (h2 : b ≤ 28) :
    ∀ q ∈ mersenneFactors b, q.Prime := by
  interval_cases b <;> simp only [mersenneFactors, List.forall_mem_cons] <;> norm_num

theorem mersenneFactors_complete (b : Nat) (h1 : 15 ≤ b) (h2 : b ≤ 28) (q : Nat)
    (hq : q.Prime) (hd : q ∣ 2 ^ b - 1) : q ∈ mersenneFactors b := by
  rw [← mersenneFactors_prod b h1 h2] at hd
  obtain ⟨a, ha, hqa⟩ := (Prime.dvd_prod_iff hq.prime).1 hd
  have := (Nat.prime_dvd_prime_iff_eq hq (mersenneFactors_prime b h1 h2 a ha)).1 hqa
  rw [this]; exact ha

open Function in
theorem minimalPeriod_of_isMaxLength (p b : Nat) (qs : List Nat) (hb : 1 ≤ b)
    (hqs : ∀ q, q.Prime → q ∣ 2 ^ b - 1 → q ∈ qs) (h : isMaxLength p b qs = true) :
    p < 2 ^ b ∧ minimalPeriod (lfsrNext p) (2 ^ (b - 1)) = 2 ^ b - 1 := by
  simp only [isMaxLength_eq, Bool.and_eq_true, decide_eq_true_eq, beq_iff_eq, List.all_eq_true,
    bne_iff_ne, ne_eq] at h
  obtain ⟨⟨hp, hN⟩, hq⟩ := h
  refine ⟨hp, ?_⟩
  have hlt : ∀ e, e ≤ 2 ^ b - 1 → e < 2 ^ (b + 1) := by
    intro e he
    have : 2 ^ b > 0 := Nat.two_pow_pos b
    rw [pow_succ]; omega
  rw [lfsrPow_spec p b _ hb hp (hlt _ le_rfl)] at hN
  have hper : IsPeriodicPt (lfsrNext p) (2 ^ b - 1) (2 ^ (b - 1)) := hN
  have hdvd := hper.minimalPeriod_dvd
  have hNpos : 0 < 2 ^ b - 1 := by
    have : 2 ^ 1 ≤ 2 ^ b := Nat.pow_le_pow_right (by norm_num) hb
    omega
  by_contra hne
  obtain ⟨m, hm⟩ := hdvd
  have hm1 : m ≠ 1 := by
    intro h1; rw [h1, mul_one] at hm; exact hne hm.symm
  obtain ⟨q, hqp, hqm⟩ := Nat.exists_prime_and_dvd hm1
  have hqN : q ∣ 2 ^ b - 1 := by rw [hm]; exact Dvd.dvd.mul_left hqm _
  have hmem := hqs q hqp hqN
  obtain ⟨m2, hm2⟩ := hqm
  have hdiv : (2 ^ b - 1) / q = minimalPeriod (lfsrNext p) (2 ^ (b - 1)) * m2 := by
    rw [hm, hm2]
    rw [show minimalPeriod (lfsrNext p) (2 ^ (b - 1)) * (q * m2) =
      q * (minimalPeriod (lfsrNext p) (2 ^ (b - 1)) * m2) by ring]
    exact Nat.mul_div_cancel_left _ hqp.pos
  have hper2 : IsPeriodicPt (lfsrNext p) ((2 ^ b - 1) / q) (2 ^ (b - 1)) := by
    rw [isPeriodicPt_iff_minimalPeriod_dvd, hdiv]
    exact Dvd.intro _ rfl
  have := hq q hmem
  rw [lfsrPow_spec p b _ hb hp (hlt _ (Nat.div_le_self _ _))] at this
  exact this hper2

open Function in
/-- A state of `[1, 2 ^ b - 1]` whose minimal period is `2 ^ b - 1` runs through
all of `[1, 2 ^ b - 1]`. -/

theorem orbit_of_minimalPeriod (p b x : Nat) (hp : p < 2 ^ b) (hx1 : 1 ≤ x) (hx2 : x ≤ 2 ^ b - 1)
    (hmin : minimalPeriod (lfsrNext p) x = 2 ^ b - 1) :
    (∀ k, 1 ≤ (lfsrNext p)^[k] x ∧ (lfsrNext p)^[k] x ≤ 2 ^ b - 1) ∧
    ∀ v, 1 ≤ v → v ≤ 2 ^ b - 1 → ∃ k, k < 2 ^ b - 1 ∧ (lfsrNext p)^[k] x = v := by
  have hNpos : 0 < 2 ^ b - 1 := by omega
  have hxlt : x < 2 ^ b := by omega
  have hper : (lfsrNext p)^[2 ^ b - 1] x = x := by
    have := isPeriodicPt_minimalPeriod (lfsrNext p) x
    rw [hmin] at this; exact this
  have hrange : ∀ k, 1 ≤ (lfsrNext p)^[k] x ∧ (lfsrNext p)^[k] x ≤ 2 ^ b - 1 := by
    intro k
    have h1 := lfsrNext_iterate_lt hp hxlt k
    refine ⟨?_, by omega⟩
    by_contra h0
    have h0 : (lfsrNext p)^[k] x = 0 := by omega
    have hmod : (lfsrNext p)^[k % (2 ^ b - 1)] x = 0 := by
      rw [← hmin, iterate_mod_minimalPeriod_eq]; exact h0
    have hk : k % (2 ^ b - 1) < 2 ^ b - 1 := Nat.mod_lt _ hNpos
    have : (lfsrNext p)^[(2 ^ b - 1 - k % (2 ^ b - 1)) + k % (2 ^ b - 1)] x = 0 := by
      rw [iterate_add_apply, hmod, lfsrNext_iterate_zero]
    rw [Nat.sub_add_cancel (le_of_lt hk), hper] at this
    omega
  refine ⟨hrange, ?_⟩
  have hinj : Set.InjOn (fun k => (lfsrNext p)^[k] x) (Finset.range (2 ^ b - 1) : Set Nat) := by
    intro i hi j hj hij
    have hi2 : i < minimalPeriod (lfsrNext p) x := by rw [hmin]; simpa using hi
    have hj2 : j < minimalPeriod (lfsrNext p) x := by rw [hmin]; simpa using hj
    exact (iterate_eq_iterate_iff_of_lt_minimalPeriod hi2 hj2).1 hij
  have hcard := Finset.card_image_of_injOn hinj
  have hsub : Finset.image (fun k => (lfsrNext p)^[k] x) (Finset.range (2 ^ b - 1)) ⊆
      Finset.Icc 1 (2 ^ b - 1) := by
    intro v hv
    rw [Finset.mem_image] at hv
    obtain ⟨k, _, rfl⟩ := hv
    rw [Finset.mem_Icc]
    exact hrange k
  have heq := Finset.eq_of_subset_of_card_le hsub (by
    rw [hcard, Finset.card_range, Nat.card_Icc]; omega)
  intro v hv1 hv2
  have hv : v ∈ Finset.Icc 1 (2 ^ b - 1) := by rw [Finset.mem_Icc]; exact ⟨hv1, hv2⟩
  rw [← heq, Finset.mem_image] at hv
  obtain ⟨k, hk, rfl⟩ := hv
  exact ⟨k, by simpa using hk, rfl⟩

open Function in
theorem fullCycle_of_minimalPeriod (p b x : Nat) (hp : p < 2 ^ b) (hx1 : 1 ≤ x)
    (hx2 : x ≤ 2 ^ b - 1) (hmin : minimalPeriod (lfsrNext p) x = 2 ^ b - 1) :
    FullCycle p b x := by
  have hNpos : 0 < 2 ^ b - 1 := by omega
  obtain ⟨hrange, hsurj⟩ := orbit_of_minimalPeriod p b x hp hx1 hx2 hmin
  have hper : (lfsrNext p)^[2 ^ b - 1] x = x := by
    have := isPeriodicPt_minimalPeriod (lfsrNext p) x
    rw [hmin] at this; exact this
  refine ⟨hper, hrange, ?_⟩
  intro v hv1 hv2
  obtain ⟨k, hk, hkv⟩ := hsurj v hv1 hv2
  have key : ∀ i j, 1 ≤ i → i ≤ 2 ^ b - 1 → 1 ≤ j → j ≤ 2 ^ b - 1 →
      (lfsrNext p)^[i] x = (lfsrNext p)^[j] x → i = j := by
    intro i j hi1 hi2 hj1 hj2 hij
    have h1 : (lfsrNext p)^[i % (2 ^ b - 1)] x = (lfsrNext p)^[j % (2 ^ b - 1)] x := by
      rw [← hmin, iterate_mod_minimalPeriod_eq, iterate_mod_minimalPeriod_eq]; exact hij
    have hi3 : i % (2 ^ b - 1) < minimalPeriod (lfsrNext p) x := by
      rw [hmin]; exact Nat.mod_lt _ hNpos
    have hj3 : j % (2 ^ b - 1) < minimalPeriod (lfsrNext p) x := by
      rw [hmin]; exact Nat.mod_lt _ hNpos
    have h2 := (iterate_eq_iterate_iff_of_lt_minimalPeriod hi3 hj3).1 h1
    rcases Nat.lt_or_ge i (2 ^ b - 1) with hi | hi <;>
    rcases Nat.lt_or_ge j (2 ^ b - 1) with hj | hj
    · rwa [Nat.mod_eq_of_lt hi, Nat.mod_eq_of_lt hj] at h2
    · have hj : j = 2 ^ b - 1 := by omega
      rw [Nat.mod_eq_of_lt hi, hj, Nat.mod_self] at h2
      omega
    · have hi : i = 2 ^ b - 1 := by omega
      rw [Nat.mod_eq_of_lt hj, hi, Nat.mod_self] at h2
      omega
    · omega
  rcases Nat.eq_zero_or_pos k with hk0 | hk0
  · refine ⟨2 ^ b - 1, ⟨by omega, le_rfl, ?_⟩, ?_⟩
    · show (lfsrNext p)^[2 ^ b - 1] x = v
      rw [hper, ← hkv, hk0]; rfl
    · rintro j ⟨hj1, hj2, hjv⟩
      apply key j (2 ^ b - 1) hj1 hj2 (by omega) le_rfl
      rw [hper]
      have hjv2 : (lfsrNext p)^[j] x = v := hjv
      rw [hjv2, ← hkv, hk0]; rfl
  · refine ⟨k, ⟨hk0, by omega, hkv⟩, ?_⟩
    rintro j ⟨hj1, hj2, hjv⟩
    apply key j k hj1 hj2 hk0 (by omega)
    have hjv2 : (lfsrNext p)^[j] x = v := hjv
    rw [hkv]; exact hjv2

open Function in
/-- A tap mask that passes `isMaxLength` gives a full cycle from every nonzero seed. -/

theorem fullCycle_of_isMaxLength (p b : Nat) (qs : List Nat) (hb : 1 ≤ b)
    (hqs : ∀ q, q.Prime → q ∣ 2 ^ b - 1 → q ∈ qs) (h : isMaxLength p b qs = true)
    (seed : Nat) (h1 : 1 ≤ seed) (h2 : seed ≤ 2 ^ b - 1) : FullCycle p b seed := by
  obtain ⟨hp, hmin⟩ := minimalPeriod_of_isMaxLength p b qs hb hqs h
  have hNpos : 0 < 2 ^ b - 1 := by omega
  have hc1 : 1 ≤ 2 ^ (b - 1) := Nat.two_pow_pos _
  have hc2 : 2 ^ (b - 1) ≤ 2 ^ b - 1 := by
    have : 2 ^ b = 2 * 2 ^ (b - 1) := by
      have : b = (b - 1) + 1 := by omega
      nth_rewrite 1 [this]; rw [pow_succ]; ring
    omega
  obtain ⟨_, hsurj⟩ := orbit_of_minimalPeriod p b _ hp hc1 hc2 hmin
  obtain ⟨j, _, hj⟩ := hsurj seed h1 h2
  have hperiodic : 2 ^ (b - 1) ∈ periodicPts (lfsrNext p) :=
    mk_mem_periodicPts hNpos (by
      have := isPeriodicPt_minimalPeriod (lfsrNext p) (2 ^ (b - 1))
      rw [hmin] at this; exact this)
  have hmin2 : minimalPeriod (lfsrNext p) seed = 2 ^ b - 1 := by
    rw [← hj, minimalPeriod_apply_iterate hperiodic, hmin]
  exact fullCycle_of_minimalPeriod p b seed hp h1 h2 hmin2

/-! ## The registered polynomials -/

set_option maxRecDepth 100000 in
theorem create_polies_fresh :
    (create_polies false MAX_BITS PolyRegistry.fresh).1.polies =
      (List.range 14).map (fun i => (add_polies false (MIN_BITS + i) (poly_tables.getD i []) []).1) := by
  decide!

theorem registeredPolies_eq (b : Nat) (hb1 : 15 ≤ b) (hb2 : b ≤ 28) :
    registeredPolies b = (add_polies false b (poly_tables.getD (b - 15) []) []).1 := by
  unfold registeredPolies
  rw [create_polies_fresh]
  interval_cases b <;> rfl

set_option maxRecDepth 100000 in
theorem registered_isMaxLength (b : Nat) (hb1 : 15 ≤ b) (hb2 : b ≤ 28) :
    ((add_polies false b (poly_tables.getD (b - 15) []) []).1).all
      (fun p => isMaxLength p b (mersenneFactors b)) = true := by
  interval_cases b <;> decide!

theorem registered_fullCycle (b : Nat) (hb1 : 15 ≤ b) (hb2 : b ≤ 28) (poly : Nat)
    (hreg : poly ∈ registeredPolies b) (seed : Nat) (h1 : 1 ≤ seed) (h2 : seed ≤ 2 ^ b - 1) :
    FullCycle poly b seed := by
  rw [registeredPolies_eq b hb1 hb2] at hreg
  have hall := registered_isMaxLength b hb1 hb2
  rw [List.all_eq_true] at hall
  exact fullCycle_of_isMaxLength poly b (mersenneFactors b) (by omega)
    (mersenneFactors_complete b hb1 hb2) (hall poly hreg) seed h1 h2

theorem registered_of_literal (b : Nat) (hb1 : 15 ≤ b) (hb2 : b ≤ 28) :
    ∀ M ∈ poly_tables.getD (b - MIN_BITS) [], M ≠ 0 →
      M >>> 1 ∈ registeredPolies b ∧ reverse_poly M b ∈ registeredPolies b := by
  rw [registeredPolies_eq b hb1 hb2]
  interval_cases b <;> decide

theorem afterCalls_spec (g : HcLfsr) (hp : g.m_poly ≠ 0) (k : Nat) :
    g.afterCalls k = { g with m_lfsr := (lfsrNext g.m_poly)^[k] g.m_lfsr } := by
  induction k with
  | zero => rfl
  | succ k ih =>
    rw [HcLfsr.afterCalls, ih, HcLfsr.getNext]
    simp only [hp, if_false]
    rw [Function.iterate_succ_apply']
    rfl

theorem nthNext_spec (g : HcLfsr) (hp : g.m_poly ≠ 0) (k : Nat) (hk : 1 ≤ k) :
    g.nthNext k = (lfsrNext g.m_poly)^[k] g.m_lfsr := by
  obtain ⟨j, rfl⟩ : ∃ j, k = j + 1 := ⟨k - 1, by omega⟩
  rw [HcLfsr.nthNext, Nat.add_sub_cancel, afterCalls_spec g hp, HcLfsr.getNext]
  simp only [hp, if_false]
  rw [Function.iterate_succ_apply']
  rfl

/-- C3. For every bit width `b` in 15..28, every variant registered for `b` by
`create_polies` (for each nonzero table literal `M` both `M >> 1` and the
reversal of the low `b` bits of `M` are registered) and every seed with
`1 ≤ seed ≤ 2 ^ b - 1`: iterating `NEXT_LFSR` from the seed returns to the seed
on step `2 ^ b - 1`, stays in `[1, 2 ^ b - 1]`, and every value of
`[1, 2 ^ b - 1]` is the state after exactly one step count in `1 .. 2 ^ b - 1`. -/
theorem C3_registered_polies_full_cycle (b : Nat) (hb1 : 15 ≤ b) (hb2 : b ≤ 28) :
    (∀ M ∈ poly_tables.getD (b - MIN_BITS) [], M ≠ 0 →
      M >>> 1 ∈ registeredPolies b ∧ reverse_poly M b ∈ registeredPolies b) ∧
    ∀ poly ∈ registeredPolies b, ∀ seed, 1 ≤ seed → seed ≤ 2 ^ b - 1 →
      (fun x => NEXT_LFSR x poly)^[2 ^ b - 1] seed = seed ∧
      (∀ k, 1 ≤ (fun x => NEXT_LFSR x poly)^[k] seed ∧
        (fun x => NEXT_LFSR x poly)^[k] seed ≤ 2 ^ b - 1) ∧
      ∀ v, 1 ≤ v → v ≤ 2 ^ b - 1 →
        ∃! k, 1 ≤ k ∧ k ≤ 2 ^ b - 1 ∧ (fun x => NEXT_LFSR x poly)^[k] seed = v :=
  ⟨registered_of_literal b hb1 hb2, fun poly hreg seed h1 h2 =>
    registered_fullCycle b hb1 hb2 poly hreg seed h1 h2⟩

/-- Witness for C3: the 16-bit row, whose first literal `0x1100B` is registered
as `0x8805` and as `0xD008`; the second conjunct is instantiated at the
variant `0x8805` and the seed `0xACE1`. -/
theorem C3_registered_polies_full_cycle_witness :
    (15 ≤ 16 ∧ 16 ≤ 28) ∧ 0x8805 ∈ registeredPolies 16 ∧ 0xD008 ∈ registeredPolies 16 ∧
      (fun x => NEXT_LFSR x 0x8805)^[2 ^ 16 - 1] 0xACE1 = 0xACE1 :=
  ⟨by decide,
   ((C3_registered_polies_full_cycle 16 (by decide) (by decide)).1 0x1100B
      (by decide) (by decide)).1,
   ((C3_registered_polies_full_cycle 16 (by decide) (by decide)).1 0x1100B
      (by decide) (by decide)).2,
   ((C3_registered_polies_full_cycle 16 (by decide) (by decide)).2 0x8805
      (((C3_registered_polies_full_cycle 16 (by decide) (by decide)).1 0x1100B
        (by decide) (by decide)).1) 0xACE1 (by decide) (by decide)).1⟩

/-- C4 (scenario S6). The first 15-bit literal is `0x8423`, its raw-shifted form
`0x8423 >> 1 = 0x4211` is the first variant registered for 15 bits; with that
polynomial and seed 1 (set through `setSpec`), the 32767-th call of `getNext`
returns 1, and every value of `[1, 32767]` is returned by exactly one of the
calls number 1 .. 32767. -/
theorem C4_scenario_S6 :
    (poly_tables.getD 0 []).head? = some 0x8423 ∧ 0x8423 >>> 1 = 0x4211 ∧
    (registeredPolies 15).head? = some 0x4211 ∧
    (HcLfsr.setSpec PolyRegistry.fresh (HcLfsr.new 0) (0x4211 * 2 ^ 32 + 1)).2 =
      ({ m_lfsr := 1, m_seed := 1, m_poly := 0x4211, m_max_bits := 28 }, true) ∧
    HcLfsr.nthNext { m_lfsr := 1, m_seed := 1, m_poly := 0x4211, m_max_bits := 28 } 32767 = 1 ∧
    ∀ v, 1 ≤ v → v ≤ 32767 →
      ∃! k, 1 ≤ k ∧ k ≤ 32767 ∧
        HcLfsr.nthNext { m_lfsr := 1, m_seed := 1, m_poly := 0x4211, m_max_bits := 28 } k = v := by
  have hreg : (0x4211 : Nat) ∈ registeredPolies 15 := by
    rw [registeredPolies_eq 15 (by decide) (by decide)]; decide
  have hfc := registered_fullCycle 15 (by decide) (by decide) 0x4211 hreg 1 (by decide) (by decide)
  obtain ⟨hret, _, hex⟩ := hfc
  have hnth : ∀ k, 1 ≤ k →
      HcLfsr.nthNext { m_lfsr := 1, m_seed := 1, m_poly := 0x4211, m_max_bits := 28 } k =
        (fun x => NEXT_LFSR x 0x4211)^[k] 1 := fun k hk =>
    nthNext_spec { m_lfsr := 1, m_seed := 1, m_poly := 0x4211, m_max_bits := 28 } (by decide) k hk
  refine ⟨by decide, by decide, ?_, by decide, ?_, ?_⟩
  · rw [registeredPolies_eq 15 (by decide) (by decide)]; decide
  · rw [hnth 32767 (by decide)]; exact hret
  · intro v hv1 hv2
    obtain ⟨k, ⟨hk1, hk2, hkv⟩, huniq⟩ := hex v hv1 hv2
    refine ⟨k, ⟨hk1, hk2, by rw [hnth k hk1]; exact hkv⟩, ?_⟩
    rintro j ⟨hj1, hj2, hjv⟩
    exact huniq j ⟨hj1, hj2, by rw [← hnth j hj1]; exact hjv⟩

/-! ## The size planning of `generateKey` -/

theorem getMinSize_eq : HcLfsr.getMinSize = 32768 := by decide

theorem getMaxSize_eq : HcLfsr.getMaxSize = 2 ^ 28 := by decide

theorem getMinBlockSize_eq : getMinBlockSize = 32768 := by decide

theorem split_sizes_loop_spec (fuel : Nat) :
    ∀ (k s : Nat) (sizes : List Nat), 14 ≤ k → k ≤ 28 → 1 ≤ s → s + k ≤ fuel + 13 →
      (k < 28 → s ≤ 2 ^ (k + 1)) →
      ∃ r added, split_sizes_loop 32768 fuel s (2 ^ k) sizes = some (r, sizes ++ added) ∧
        1 ≤ r ∧ r ≤ 32768 ∧ added.sum + r = s ∧
        ∀ x ∈ added, ∃ j, 15 ≤ j ∧ j ≤ k ∧ x = 2 ^ j := by
  have h15 : (32768 : Nat) = 2 ^ 15 := by norm_num
  induction fuel with
  | zero =>
    intro k s sizes hk1 _ hs hf _
    omega
  | succ fuel ih =>
    intro k s sizes hk1 hk2 hs hf hb
    rw [split_sizes_loop]
    by_cases hk : 15 ≤ k
    · have hge : 2 ^ k ≥ 32768 := by
        rw [h15]; exact Nat.pow_le_pow_right (by norm_num) hk
      have hcond : s ≠ 0 ∧ 2 ^ k ≥ 32768 := ⟨by omega, hge⟩
      rw [if_pos hcond]
      by_cases hgt : s > 2 ^ k
      · simp only [hgt, if_true]
        have hpos : 0 < 2 ^ k := Nat.two_pow_pos k
        obtain ⟨r, added, heq, hr1, hr2, hsum, hall⟩ :=
          ih k (s - 2 ^ k) (sizes ++ [2 ^ k]) hk1 hk2 (by omega) (by omega) (by
            intro hk28; have := hb hk28; omega)
        refine ⟨r, 2 ^ k :: added, ?_, hr1, hr2, ?_, ?_⟩
        · rw [heq]; simp
        · simp only [List.sum_cons]; omega
        · intro x hx
          rcases List.mem_cons.1 hx with rfl | hx
          · exact ⟨k, hk, le_rfl, rfl⟩
          · exact hall x hx
      · simp only [hgt, if_false]
        have hhalf : 2 ^ k / 2 = 2 ^ (k - 1) := by
          have : k = (k - 1) + 1 := by omega
          nth_rewrite 1 [this]
          rw [pow_succ, Nat.mul_div_cancel _ (by norm_num)]
        rw [hhalf]
        obtain ⟨r, added, heq, hr1, hr2, hsum, hall⟩ :=
          ih (k - 1) s sizes (by omega) (by omega) hs (by omega) (by
            intro _
            have : k - 1 + 1 = k := by omega
            rw [this]; omega)
        refine ⟨r, added, heq, hr1, hr2, hsum, ?_⟩
        intro x hx
        obtain ⟨j, hj1, hj2, hj3⟩ := hall x hx
        exact ⟨j, hj1, by omega, hj3⟩
    · have hk14 : k = 14 := by omega
      subst hk14
      have hcond : ¬ (s ≠ 0 ∧ 2 ^ 14 ≥ 32768) := by norm_num
      rw [if_neg hcond]
      refine ⟨s, [], by simp, hs, ?_, by simp, by simp⟩
      have := hb (by norm_num)
      norm_num at this
      exact this

theorem halve_first_spec (min_size : Nat) (sizes : List Nat) :
    ∀ r, halve_first min_size sizes = some r →
      ∃ pre x post, sizes = pre ++ x :: post ∧ (∀ y ∈ pre, y ≤ min_size) ∧ min_size < x ∧
        r.1 = pre ++ (x / 2) :: post ∧ r.2 = x / 2 := by
  induction sizes with
  | nil => intro r h; simp [halve_first] at h
  | cons se rest ih =>
    intro r h
    rw [halve_first] at h
    by_cases hgt : se > min_size
    · simp only [hgt, if_true, Option.some.injEq] at h
      subst h
      exact ⟨[], se, rest, rfl, by simp, hgt, rfl, rfl⟩
    · simp only [hgt, if_false, Option.map_eq_some'] at h
      obtain ⟨r1, hr1, rfl⟩ := h
      obtain ⟨pre, x, post, h1, h2, h3, h4, h5⟩ := ih r1 hr1
      refine ⟨se :: pre, x, post, by rw [h1]; rfl, ?_, h3, by simp [h4], h5⟩
      intro y hy
      rcases List.mem_cons.1 hy with rfl | hy
      · omega
      · exact h2 y hy

theorem halve_first_some (min_size : Nat) (sizes : List Nat) (x : Nat) (hx : x ∈ sizes)
    (hgt : min_size < x) : ∃ r, halve_first min_size sizes = some r := by
  induction sizes with
  | nil => simp at hx
  | cons se rest ih =>
    rw [halve_first]
    by_cases h : se > min_size
    · simp [h]
    · simp only [h, if_false]
      rcases List.mem_cons.1 hx with rfl | hx
      · exact absurd hgt h
      · obtain ⟨r, hr⟩ := ih hx
        simp [hr]

theorem IsSegmentPow.ge {x : Nat} (h : IsSegmentPow x) : 32768 ≤ x := by
  obtain ⟨j, hj1, _, rfl⟩ := h
  have : (32768 : Nat) = 2 ^ 15 := by norm_num
  rw [this]; exact Nat.pow_le_pow_right (by norm_num) hj1

theorem IsSegmentPow.le {x : Nat} (h : IsSegmentPow x) : x ≤ 2 ^ 28 := by
  obtain ⟨j, _, hj2, rfl⟩ := h
  exact Nat.pow_le_pow_right (by norm_num) hj2

theorem IsSegmentPow.half {x : Nat} (h : IsSegmentPow x) (hgt : 32768 < x) :
    IsSegmentPow (x / 2) ∧ x / 2 + x / 2 = x := by
  obtain ⟨j, hj1, hj2, rfl⟩ := h
  have hj : 16 ≤ j := by
    by_contra hlt
    have : j = 15 := by omega
    subst this
    norm_num at hgt
  have hhalf : 2 ^ j / 2 = 2 ^ (j - 1) := by
    have : j = (j - 1) + 1 := by omega
    nth_rewrite 1 [this]
    rw [pow_succ, Nat.mul_div_cancel _ (by norm_num)]
  refine ⟨⟨j - 1, by omega, by omega, hhalf⟩, ?_⟩
  rw [hhalf]
  have : j = (j - 1) + 1 := by omega
  nth_rewrite 3 [this]
  rw [pow_succ]; ring

theorem min_key_loop_spec (mkc : Nat) (fuel : Nat) :
    ∀ sizes : List Nat, (∀ x ∈ sizes, IsSegmentPow x) → 32768 * mkc ≤ sizes.sum →
      mkc ≤ sizes.length + fuel →
      ∃ sizes1, min_key_loop 32768 mkc fuel sizes = some sizes1 ∧
        (∀ x ∈ sizes1, IsSegmentPow x) ∧ sizes1.sum = sizes.sum ∧ mkc ≤ sizes1.length ∧
        (mkc ≤ sizes.length → sizes1 = sizes) := by
  induction fuel with
  | zero =>
    intro sizes hall _ hlen
    rw [min_key_loop]
    have : ¬ sizes.length < mkc := by omega
    rw [if_neg this]
    exact ⟨sizes, rfl, hall, rfl, by omega, fun _ => rfl⟩
  | succ fuel ih =>
    intro sizes hall hsum hlen
    rw [min_key_loop]
    by_cases hlt : sizes.length < mkc
    · rw [if_pos hlt]
      have hex : ∃ x ∈ sizes, 32768 < x := by
        by_contra hno
        have hle : ∀ x ∈ sizes, x ≤ 32768 := by
          intro x hx
          by_contra hgt
          exact hno ⟨x, hx, by omega⟩
        have h1 := List.sum_le_card_nsmul sizes 32768 hle
        have h2 : sizes.length * 32768 < mkc * 32768 := by omega
        simp only [smul_eq_mul] at h1
        omega
      obtain ⟨x, hx, hgt⟩ := hex
      obtain ⟨r, hr⟩ := halve_first_some 32768 sizes x hx hgt
      obtain ⟨pre, y, post, h1, _, h3, h4, h5⟩ := halve_first_spec 32768 sizes r hr
      have hy : IsSegmentPow y := hall y (by rw [h1]; simp)
      obtain ⟨hyh, hyy⟩ := hy.half h3
      simp only [hr]
      have hall2 : ∀ z ∈ r.1 ++ [r.2], IsSegmentPow z := by
        intro z hz
        rw [h4, h5] at hz
        simp only [List.mem_append, List.mem_cons, List.mem_singleton, List.not_mem_nil,
          or_false] at hz
        rcases hz with (hz | hz | hz) | hz
        · exact hall z (by rw [h1]; simp [hz])
        · rw [hz]; exact hyh
        · exact hall z (by rw [h1]; simp [hz])
        · rw [hz]; exact hyh
      have hsum2 : (r.1 ++ [r.2]).sum = sizes.sum := by
        rw [h4, h5, h1]
        simp only [List.sum_append, List.sum_cons, List.sum_nil]
        omega
      have hlen2 : (r.1 ++ [r.2]).length = sizes.length + 1 := by
        rw [h4, h1]; simp; omega
      obtain ⟨sizes1, e1, e2, e3, e4, _⟩ :=
        ih (r.1 ++ [r.2]) hall2 (by rw [hsum2]; exact hsum) (by rw [hlen2]; omega)
      exact ⟨sizes1, e1, e2, by rw [e3, hsum2], e4, fun h => absurd h (by omega)⟩
    · rw [if_neg hlt]
      exact ⟨sizes, rfl, hall, rfl, by omega, fun _ => rfl⟩

/-- The plan for a length `L ≥ 1`: power-of-two sizes followed by the residual
`r` the greedy loop ends with. -/
theorem plan_sizes_spec (L : Nat) (hL : 1 ≤ L) :
    ∃ (greedy pows : List Nat) (r : Nat),
      split_sizes_loop HcLfsr.getMinSize (L + 32) L HcLfsr.getMaxSize [] = some (r, greedy) ∧
      plan_sizes L = .ok (pows ++ [r]) ∧
      (∀ x ∈ greedy, IsSegmentPow x) ∧ greedy.sum + r = L ∧
      (∀ x ∈ pows, IsSegmentPow x) ∧ 1 ≤ r ∧ r ≤ 32768 ∧ pows.sum + r = L ∧
      (2 * 32768 ≤ L - r → 2 ≤ pows.length) ∧
      (¬ (2 * 32768 ≤ L - r ∧ greedy.length < 2) → pows = greedy) ∧
      (2 * 32768 ≤ L - r ∧ greedy.length < 2 →
        min_key_loop 32768 2 2 greedy = some pows) := by
  obtain ⟨r, added, heq, hr1, hr2, hsum, hall⟩ :=
    split_sizes_loop_spec (L + 32) 28 L [] (by norm_num) le_rfl hL (by omega) (by norm_num)
  rw [List.nil_append] at heq
  have hallp : ∀ x ∈ added, IsSegmentPow x := by
    intro x hx
    obtain ⟨j, h1, h2, h3⟩ := hall x hx
    exact ⟨j, h1, h2, h3⟩
  have hr0 : r ≠ 0 := by omega
  have hrmod : r % 2 ^ 32 = r := Nat.mod_eq_of_lt (by omega)
  have hcov : L - r = added.sum := by omega
  by_cases hc : 2 * 32768 ≤ L - r ∧ added.length < 2
  · obtain ⟨pows, e1, e2, e3, e4, _⟩ :=
      min_key_loop_spec 2 2 added hallp (by omega) (by omega)
    refine ⟨added, pows, r, by rw [getMinSize_eq, getMaxSize_eq]; exact heq, ?_, hallp, hsum,
      e2, hr1, hr2, by omega, fun _ => e4, fun h => absurd hc h, fun _ => e1⟩
    simp only [plan_sizes, getMinSize_eq, getMaxSize_eq, heq, hr0, ne_eq, not_false_eq_true,
      if_true, hrmod]
    have hc2 : L - r ≥ 32768 * 2 ∧ added.length < 2 := ⟨by omega, hc.2⟩
    rw [if_pos hc2, e1]
  · refine ⟨added, added, r, by rw [getMinSize_eq, getMaxSize_eq]; exact heq, ?_, hallp, hsum,
      hallp, hr1, hr2, hsum, ?_, fun _ => rfl, fun h => absurd h hc⟩
    · simp only [plan_sizes, getMinSize_eq, getMaxSize_eq, heq, hr0, ne_eq, not_false_eq_true,
        if_true, hrmod]
      have hc2 : ¬ (L - r ≥ 32768 * 2 ∧ added.length < 2) := by
        intro h; exact hc ⟨by omega, h.2⟩
      rw [if_neg hc2]
    · intro h
      by_contra hlt
      exact hc ⟨h, by omega⟩

/-! ## `verify_poly` accepts a full cycle -/

theorem getElem?_set_ne_sentinel (vals : List Nat) (a v i : Nat) (hv : v ≠ 0xFFFFFFFF)
    (h : vals[i]? ≠ some 0xFFFFFFFF) : (vals.set a v)[i]? ≠ some 0xFFFFFFFF := by
  rw [List.getElem?_set]
  split
  · split
    · intro hc
      exact hv (Option.some.inj hc)
    · simp
  · exact h

theorem verify_loop_spec (poly b seed : Nat) (hb : b ≤ 31)
    (hrange : ∀ k, k < 2 ^ b - 1 → (lfsrNext poly)^[k] seed ≤ 2 ^ b - 1)
    (hne : ∀ k, 0 < k → k < 2 ^ b - 1 → (lfsrNext poly)^[k] seed ≠ seed) (n : Nat) :
    ∀ (j : Nat) (vals : List Nat), n + 1 + j = 2 ^ b - 1 →
      (verify_loop poly (2 ^ b - 1) seed n ((lfsrNext poly)^[j] seed) vals).length =
          vals.length ∧
        ∀ i, (vals[i]? ≠ some 0xFFFFFFFF ∨
            ∃ k, j ≤ k ∧ k < 2 ^ b - 1 ∧ (lfsrNext poly)^[k] seed = i) →
          (verify_loop poly (2 ^ b - 1) seed n ((lfsrNext poly)^[j] seed) vals)[i]? ≠
            some 0xFFFFFFFF := by
  have hN : 2 ^ b - 1 < 0xFFFFFFFF := by
    have : 2 ^ b ≤ 2 ^ 31 := Nat.pow_le_pow_right (by norm_num) hb
    norm_num at this ⊢
    omega
  have hval : ∀ k, k < 2 ^ b - 1 → (lfsrNext poly)^[k] seed ≠ 0xFFFFFFFF := by
    intro k hk
    have := hrange k hk
    omega
  induction n with
  | zero =>
    intro j vals hj
    have hle : ¬ (lfsrNext poly)^[j] seed > 2 ^ b - 1 := by
      have := hrange j (by omega); omega
    rw [verify_loop, if_neg hle]
    simp only [List.length_set, true_and]
    intro i hi
    rcases hi with hi | ⟨k, hk1, hk2, hk3⟩
    · exact getElem?_set_ne_sentinel _ _ _ _ (hval j (by omega)) hi
    · have hkj : k = j := by omega
      subst hkj
      rw [hk3, List.getElem?_set]
      simp only [if_true]
      split
      · intro hc
        exact hval k hk2 (by rw [hk3]; exact Option.some.inj hc)
      · simp
  | succ m ih =>
    intro j vals hj
    have hle : ¬ (lfsrNext poly)^[j] seed > 2 ^ b - 1 := by
      have := hrange j (by omega); omega
    have hstep : NEXT_LFSR ((lfsrNext poly)^[j] seed) poly = (lfsrNext poly)^[j + 1] seed := by
      rw [Function.iterate_succ_apply']; rfl
    rw [verify_loop, if_neg hle, hstep]
    have hne1 : (lfsrNext poly)^[j + 1] seed ≠ seed := hne (j + 1) (by omega) (by omega)
    rw [if_pos hne1]
    obtain ⟨hlen, hmark⟩ := ih (j + 1) (vals.set ((lfsrNext poly)^[j] seed)
      ((lfsrNext poly)^[j] seed)) (by omega)
    refine ⟨by rw [hlen, List.length_set], ?_⟩
    intro i hi
    apply hmark
    rcases hi with hi | ⟨k, hk1, hk2, hk3⟩
    · exact Or.inl (getElem?_set_ne_sentinel _ _ _ _ (hval j (by omega)) hi)
    · rcases Nat.eq_or_lt_of_le hk1 with hkj | hkj
      · subst hkj
        left
        rw [hk3, List.getElem?_set]
        simp only [if_true]
        split
        · intro hc
          exact hval j hk2 (by rw [hk3]; exact Option.some.inj hc)
        · simp
      · exact Or.inr ⟨k, by omega, hk2, hk3⟩

theorem verify_poly_of_fullCycle (poly b seed : Nat) (hb1 : 1 ≤ b) (hb : b ≤ 31)
    (h1 : 1 ≤ seed) (h2 : seed ≤ 2 ^ b - 1) (hfc : FullCycle poly b seed) :
    verify_poly poly b seed = true := by
  obtain ⟨hret, hrange, hex⟩ := hfc
  have hpos : 0 < 2 ^ b := Nat.two_pow_pos b
  have hNpos : 1 ≤ 2 ^ b - 1 := by
    have : 2 ^ 1 ≤ 2 ^ b := Nat.pow_le_pow_right (by norm_num) hb1
    omega
  have hseed : seed &&& (2 ^ b - 1) = seed :=
    Nat.and_pow_two_sub_one_of_lt_two_pow (by omega)
  have hne : ∀ k, 0 < k → k < 2 ^ b - 1 → (lfsrNext poly)^[k] seed ≠ seed := by
    intro k hk1 hk2 hk
    obtain ⟨k0, _, huniq⟩ := hex seed h1 h2
    have e1 := huniq k ⟨hk1, by omega, hk⟩
    have e2 := huniq (2 ^ b - 1) ⟨hNpos, le_rfl, hret⟩
    omega
  obtain ⟨hlen, hmark⟩ := verify_loop_spec poly b seed hb (fun k _ => (hrange k).2) hne
    (2 ^ b - 1 - 1) 0 (List.replicate (2 ^ b) 0xFFFFFFFF) (by omega)
  simp only [verify_poly, Nat.one_shiftLeft, hseed, List.all_eq_true, bne_iff_ne, ne_eq]
  intro v hv
  obtain ⟨i, hi⟩ := List.mem_iff_getElem?.1 hv
  intro hvff
  rw [hvff, List.getElem?_set] at hi
  by_cases h0 : 0 = i
  · rw [if_pos h0] at hi
    split at hi <;> simp at hi
  · rw [if_neg h0] at hi
    have hilen : i < 2 ^ b := by
      have := (List.getElem?_eq_some.1 hi).1
      have hl : (verify_loop poly (2 ^ b - 1) seed (2 ^ b - 1 - 1) seed
          (List.replicate (2 ^ b) 4294967295)).length = 2 ^ b := by
        have := hlen
        simp only [Function.iterate_zero, id_eq, List.length_replicate] at this
        exact this
      omega
    obtain ⟨k, ⟨hk1, hk2, hk3⟩, _⟩ := hex i (by omega) (by omega)
    have hk : ∃ k, 0 ≤ k ∧ k < 2 ^ b - 1 ∧ (lfsrNext poly)^[k] seed = i := by
      rcases Nat.eq_or_lt_of_le hk2 with hkN | hkN
      · refine ⟨0, le_rfl, by omega, ?_⟩
        rw [← hk3, hkN]; exact hret.symm
      · exact ⟨k, Nat.zero_le _, hkN, hk3⟩
    have := hmark i (Or.inr hk)
    simp only [Function.iterate_zero, id_eq] at this
    exact this hi

/-! ## `HcLfsr::reset` on a power-of-two size -/

theorem add_polies_false_snd (bits : Nat) (entries : List Nat) :
    ∀ acc, (add_polies false bits entries acc).2 = true := by
  induction entries with
  | nil => intro acc; rfl
  | cons e rest ih =>
    intro acc
    rw [add_polies]
    by_cases h : e = 0
    · simp [h]
    · simp only [h, if_false, Bool.false_and, Bool.false_eq_true]
      exact ih _

theorem fill_polies_false_snd (is : List Nat) :
    ∀ polies, (fill_polies false is polies).2 = true := by
  induction is with
  | nil => intro polies; rfl
  | cons i is ih =>
    intro polies
    rw [fill_polies]
    simp only [add_polies_false_snd, if_true]
    exact ih _

theorem fullRegistry_initialized : fullRegistry.initialized = true := by
  unfold fullRegistry create_polies
  simp [fill_polies_false_snd]

theorem registry_after_init (reg : PolyRegistry) (hreg : RegistryReady reg) :
    (if !reg.initialized then (create_polies false 28 reg).1 else reg) = fullRegistry := by
  rcases hreg with h | h
  · subst h
    have : PolyRegistry.fresh.initialized = false := rfl
    simp only [this, Bool.not_false, if_true]
    rfl
  · subst h
    simp [fullRegistry_initialized]

theorem find_poly_index_pow (b : Nat) (hb1 : 15 ≤ b) (hb2 : b ≤ 28) :
    find_poly_index (2 ^ b) (List.range (28 + 1 - MIN_BITS)) = some (b - 15) := by
  interval_cases b <;> decide

theorem registeredPolies_length (b : Nat) (hb1 : 15 ≤ b) (hb2 : b ≤ 28) :
    1 ≤ (registeredPolies b).length ∧ (registeredPolies b).length ≤ 28 := by
  rw [registeredPolies_eq b hb1 hb2]
  interval_cases b <;> decide

theorem get_random_toNat (lo hi draw : Nat) (h : lo ≤ hi) :
    ((get_random (lo : Int) (hi : Int) draw).getD 0).toNat = lo + draw % (hi - lo + 1) := by
  unfold get_random
  have h1 : ¬ ((hi : Int) < (lo : Int)) := by omega
  rw [if_neg h1]
  simp only [Option.getD_some]
  have h2 : ((hi : Int) - (lo : Int) + 1) = ((hi - lo + 1 : Nat) : Int) := by omega
  rw [h2]
  have h3 : ((draw : Int) % ((hi - lo + 1 : Nat) : Int)) = ((draw % (hi - lo + 1) : Nat) : Int) := by
    exact (Int.natCast_mod draw (hi - lo + 1)).symm
  rw [h3]
  omega

theorem registered_bounds (b : Nat) (hb1 : 15 ≤ b) (hb2 : b ≤ 28) (p : Nat)
    (hp : p ∈ registeredPolies b) : 1 ≤ p ∧ p < 2 ^ b := by
  have hfc := registered_fullCycle b hb1 hb2 p hp 1 le_rfl (by
    have : 2 ^ 1 ≤ 2 ^ b := Nat.pow_le_pow_right (by norm_num) (by omega)
    omega)
  have h1 := (hfc.2.1 1).1
  have hp2 := hp
  rw [registeredPolies_eq b hb1 hb2] at hp2
  have hall := registered_isMaxLength b hb1 hb2
  rw [List.all_eq_true] at hall
  have hlt := (minimalPeriod_of_isMaxLength p b (mersenneFactors b) (by omega)
    (mersenneFactors_complete b hb1 hb2) (hall p hp2)).1
  refine ⟨?_, hlt⟩
  have e : (fun x => NEXT_LFSR x p)^[1] 1 = p := by
    simp [NEXT_LFSR]
  rw [e] at h1
  exact h1

/-- On a registry that is ready, `reset (2 ^ b, 0, -1)` of an LFSR with
`m_max_bits = 28` succeeds for every outcome of the two draws. -/
theorem reset_ok (reg : PolyRegistry) (hreg : RegistryReady reg) (lfsr : HcLfsr)
    (hmax : lfsr.m_max_bits = 28) (b : Nat) (hb1 : 15 ≤ b) (hb2 : b ≤ 28) (dv ds : Nat) :
    ∃ p sd, HcLfsr.reset reg lfsr (2 ^ b) 0 (-1) dv ds =
        some (fullRegistry, { lfsr with m_poly := p, m_seed := sd, m_lfsr := sd }, true) ∧
      p ∈ registeredPolies b ∧ 1 ≤ sd ∧ sd ≤ 2 ^ b - 1 ∧ verify_poly p b sd = true := by
  obtain ⟨hlen1, hlen2⟩ := registeredPolies_length b hb1 hb2
  have hpos : 2 ≤ 2 ^ b := by
    have : 2 ^ 1 ≤ 2 ^ b := Nat.pow_le_pow_right (by norm_num) (by omega)
    omega
  have hidx : dv % (registeredPolies b).length < (registeredPolies b).length :=
    Nat.mod_lt _ (by omega)
  have hvar : (((get_random 0 (((registeredPolies b).length : Int) - 1) dv).getD 0).toNat) % 256 =
      dv % (registeredPolies b).length := by
    have e : (((registeredPolies b).length : Int) - 1) =
        (((registeredPolies b).length - 1 : Nat) : Int) := by omega
    rw [e]
    have := get_random_toNat 0 ((registeredPolies b).length - 1) dv (Nat.zero_le _)
    simp only [Nat.cast_zero] at this
    rw [this]
    have e2 : (registeredPolies b).length - 1 - 0 + 1 = (registeredPolies b).length := by omega
    rw [e2, Nat.zero_add]
    exact Nat.mod_eq_of_lt (by omega)
  have hsd : ((get_random 1 (((1 <<< b : Nat) : Int) - 1) ds).getD 0).toNat =
      1 + ds % (2 ^ b - 1) := by
    rw [Nat.one_shiftLeft]
    have e : (((2 ^ b : Nat) : Int) - 1) = ((2 ^ b - 1 : Nat) : Int) := by omega
    rw [e]
    have := get_random_toNat 1 (2 ^ b - 1) ds (by omega)
    simp only [Nat.cast_one] at this
    rw [this]
    congr 2
    omega
  have hsdlt : ds % (2 ^ b - 1) < 2 ^ b - 1 := Nat.mod_lt _ (by omega)
  have hmask : (1 + ds % (2 ^ b - 1)) &&& ((1 <<< b) - 1) =
      1 + ds % (2 ^ b - 1) := by
    rw [Nat.one_shiftLeft]
    exact Nat.and_pow_two_sub_one_of_lt_two_pow (by omega)
  obtain ⟨p, hp⟩ : ∃ p, (registeredPolies b).get? (dv % (registeredPolies b).length) = some p := by
    rw [List.get?_eq_getElem?, List.getElem?_eq_getElem hidx]
    exact ⟨_, rfl⟩
  have hpmem : p ∈ registeredPolies b := List.get?_mem hp
  have hfc := registered_fullCycle b hb1 hb2 p hpmem (1 + ds % (2 ^ b - 1)) (by omega) (by omega)
  have hver := verify_poly_of_fullCycle p b (1 + ds % (2 ^ b - 1)) (by omega) (by omega)
    (by omega) (by omega) hfc
  refine ⟨p, 1 + ds % (2 ^ b - 1), ?_, hpmem, by omega, by omega, hver⟩
  have hsize : ¬ (2 ^ b > 1 <<< 28 ∨ 2 ^ b < HcLfsr.getMinSize) := by
    rw [getMinSize_eq, Nat.one_shiftLeft]
    have h1 : 2 ^ b ≤ 2 ^ 28 := Nat.pow_le_pow_right (by norm_num) hb2
    have h2 : 2 ^ 15 ≤ 2 ^ b := Nat.pow_le_pow_right (by norm_num) hb1
    norm_num at h2
    omega
  have hvariants : fullRegistry.polies.getD (b - 15) [] = registeredPolies b := rfl
  have hlen0 : ¬ (registeredPolies b).length = 0 := by omega
  have eb : b - 15 + MIN_BITS = b := by unfold MIN_BITS; omega
  unfold HcLfsr.reset
  simp only [hmax, registry_after_init reg hreg, hsize, if_false, find_poly_index_pow b hb1 hb2,
    fullRegistry_initialized, Bool.not_true, Bool.false_eq_true, hvariants, hlen0,
    Int.reduceNeg, Int.reduceLT, if_true, hvar, hsd, hmask, hp, eb, hver]

/-! ## The key loop and the shuffle of `generateKey` -/

theorem IsPlannedSize.out_pow {se : Nat} (h : IsPlannedSize se) :
    ∃ b, 15 ≤ b ∧ b ≤ 28 ∧ (if se < 32768 then 32768 else se) = 2 ^ b ∧
      (se + (if se < getMinBlockSize then getMinBlockSize - se else 0)) % 2 ^ 32 = 2 ^ b := by
  rw [getMinBlockSize_eq]
  by_cases hlt : se < 32768
  · refine ⟨15, le_rfl, by norm_num, by simp [hlt], ?_⟩
    simp only [hlt, if_true]
    have : se + (32768 - se) = 32768 := by omega
    rw [this]; norm_num
  · rcases h.2 with h2 | h2
    · have : se = 32768 := by omega
      subst this
      exact ⟨15, le_rfl, by norm_num, by norm_num, by norm_num⟩
    · obtain ⟨j, hj1, hj2, rfl⟩ := h2
      refine ⟨j, hj1, hj2, by simp [hlt], ?_⟩
      simp only [hlt, if_false, Nat.add_zero]
      apply Nat.mod_eq_of_lt
      have : 2 ^ j ≤ 2 ^ 28 := Nat.pow_le_pow_right (by norm_num) hj2
      omega

theorem reset_retry_ok (reg : PolyRegistry) (hreg : RegistryReady reg) (lfsr : HcLfsr)
    (hmax : lfsr.m_max_bits = 28) (b : Nat) (hb1 : 15 ≤ b) (hb2 : b ≤ 28) (d : KeyDraws) :
    ∃ p sd, reset_retry (2 ^ b) d 4 0 reg lfsr =
        .ok (fullRegistry, { lfsr with m_poly := p, m_seed := sd, m_lfsr := sd }, 3) ∧
      p ∈ registeredPolies b ∧ 1 ≤ sd ∧ sd ≤ 2 ^ b - 1 ∧ verify_poly p b sd = true := by
  obtain ⟨p, sd, h, hrest⟩ := reset_ok reg hreg lfsr hmax b hb1 hb2 (d.variant 0) (d.seed 0)
  refine ⟨p, sd, ?_, hrest⟩
  rw [reset_retry]
  simp [h]

theorem randFill_length (n : Nat) (r : Option (Nat → Nat)) (bytes : List Nat)
    (h : randFill n r = some bytes) : bytes.length = n := by
  unfold randFill at h
  split at h
  · simp at h
  · cases r with
    | none => simp at h
    | some f =>
      simp only [Option.map_some', Option.some.injEq] at h
      rw [← h]; simp

theorem randFill_isSome (n : Nat) (hn : n ≠ 0) (r : Option (Nat → Nat)) (h : r.isSome = true) :
    ∃ bytes, randFill n r = some bytes := by
  unfold randFill
  rw [if_neg hn]
  cases r with
  | none => simp at h
  | some f => exact ⟨_, rfl⟩

theorem key_loop_spec (draws : Nat → KeyDraws) (sizes : List Nat) :
    ∀ (i : Nat) (reg : PolyRegistry) (lfsr : HcLfsr) (m_key : List HcKeyData),
      RegistryReady reg → lfsr.m_max_bits = 28 → (∀ se ∈ sizes, IsPlannedSize se) →
      ∃ status reg1 lfsr1 new,
        key_loop draws sizes i reg lfsr m_key = .ok (status, reg1, lfsr1, m_key ++ new) ∧
        (status = HC_STATUS_OK ∨ status = HC_INTERNAL_ERROR_CANNOT_RAND_FILL) ∧
        (status = HC_STATUS_OK → List.Forall₂ KeyFor sizes new) ∧
        (KeyDrawsOk draws → status = HC_STATUS_OK) := by
  induction sizes with
  | nil =>
    intro i reg lfsr m_key _ _ _
    exact ⟨HC_STATUS_OK, reg, lfsr, [], by simp [key_loop], Or.inl rfl,
      fun _ => List.Forall₂.nil, fun _ => rfl⟩
  | cons se rest ih =>
    intro i reg lfsr m_key hreg hmax hsizes
    have hse : IsPlannedSize se := hsizes se (List.mem_cons_self _ _)
    obtain ⟨b, hb1, hb2, hout, hout2⟩ := hse.out_pow
    obtain ⟨p, sd, hretry, hpmem, hsd1, hsd2, hver⟩ :=
      reset_retry_ok reg hreg lfsr hmax b hb1 hb2 (draws i)
    obtain ⟨hp1, hp2⟩ := registered_bounds b hb1 hb2 p hpmem
    have hpow : 2 ^ b ≤ 2 ^ 28 := Nat.pow_le_pow_right (by norm_num) hb2
    have hsd32 : sd < 2 ^ 32 := by omega
    have hp32 : p < 2 ^ 32 := by omega
    have hspec : HcLfsr.getSpec fullRegistry
        { lfsr with m_poly := p, m_seed := sd, m_lfsr := sd } = p * 2 ^ 32 + sd := by
      unfold HcLfsr.getSpec
      have h1 : ¬ (sd = 0 ∨ p = 0) := by omega
      simp [fullRegistry_initialized, h1]
    have hspec0 : p * 2 ^ 32 + sd ≠ 0 := by omega
    have hmod : (p * 2 ^ 32 + sd) % 2 ^ 32 = sd := by
      rw [Nat.mul_add_mod_of_lt hsd32]
    have hdiv : (p * 2 ^ 32 + sd) / 2 ^ 32 % 2 ^ 32 = p := by
      have : (p * 2 ^ 32 + sd) / 2 ^ 32 = p := by
        rw [Nat.add_comm, Nat.add_mul_div_right _ _ (by norm_num), Nat.div_eq_of_lt hsd32]
        omega
      rw [this, Nat.mod_eq_of_lt hp32]
    rw [key_loop]
    simp only [hout2, hretry]
    have h30 : ¬ ((3 : Nat) = 0) := by norm_num
    simp only [h30, if_false, hspec, hspec0]
    cases hiv : randFill 16 (draws i).iv with
    | none =>
      refine ⟨HC_INTERNAL_ERROR_CANNOT_RAND_FILL, fullRegistry,
        { lfsr with m_poly := p, m_seed := sd, m_lfsr := sd }, [], by simp, Or.inr rfl,
        fun h => absurd h (by decide), ?_⟩
      intro hok
      obtain ⟨bytes, hb⟩ := randFill_isSome 16 (by norm_num) _ (hok i).1
      rw [hb] at hiv; cases hiv
    | some iv =>
      cases hkey : randFill 32 (draws i).key with
      | none =>
        refine ⟨HC_INTERNAL_ERROR_CANNOT_RAND_FILL, fullRegistry,
          { lfsr with m_poly := p, m_seed := sd, m_lfsr := sd }, [], by simp, Or.inr rfl,
          fun h => absurd h (by decide), ?_⟩
        intro hok
        obtain ⟨bytes, hb⟩ := randFill_isSome 32 (by norm_num) _ (hok i).2
        rw [hb] at hkey; cases hkey
      | some key =>
        simp only []
        obtain ⟨status, reg1, lfsr1, new, heq, hst, hfor, hgood⟩ :=
          ih (i + 1) fullRegistry { lfsr with m_poly := p, m_seed := sd, m_lfsr := sd }
            (m_key ++ [{ m_lfsr_specs := p * 2 ^ 32 + sd, m_in_size := se, m_out_size := 2 ^ b,
                         m_iv := iv, m_key := key }])
            (Or.inr rfl) hmax (fun x hx => hsizes x (List.mem_cons_of_mem _ hx))
        refine ⟨status, reg1, lfsr1,
          { m_lfsr_specs := p * 2 ^ 32 + sd, m_in_size := se, m_out_size := 2 ^ b,
            m_iv := iv, m_key := key } :: new, by rw [heq]; simp, hst, ?_, hgood⟩
        intro hs
        refine List.Forall₂.cons ?_ (hfor hs)
        refine ⟨rfl, hout.symm, randFill_length _ _ _ hiv, randFill_length _ _ _ hkey, hse.1,
          ?_, b, hb1, hb2, rfl, ?_⟩
        · show se ≤ 2 ^ b
          rw [← hout]; split <;> omega
        · show 1 ≤ (p * 2 ^ 32 + sd) % 2 ^ 32 ∧ (p * 2 ^ 32 + sd) % 2 ^ 32 ≤ 2 ^ b - 1 ∧
            (p * 2 ^ 32 + sd) / 2 ^ 32 % 2 ^ 32 ≠ 0 ∧
            (p * 2 ^ 32 + sd) / 2 ^ 32 % 2 ^ 32 ∈ registeredPolies b ∧
            verify_poly ((p * 2 ^ 32 + sd) / 2 ^ 32 % 2 ^ 32) b ((p * 2 ^ 32 + sd) % 2 ^ 32) = true
          rw [hmod, hdiv]
          exact ⟨hsd1, hsd2, by omega, hpmem, hver⟩

theorem key_loop_reg (draws : Nat → KeyDraws) (sizes : List Nat) :
    ∀ (i : Nat) (reg : PolyRegistry) (lfsr : HcLfsr) (m_key : List HcKeyData),
      RegistryReady reg → lfsr.m_max_bits = 28 → (∀ se ∈ sizes, IsPlannedSize se) →
      sizes ≠ [] →
      ∀ status reg1 lfsr1 keys,
        key_loop draws sizes i reg lfsr m_key = .ok (status, reg1, lfsr1, keys) →
        reg1 = fullRegistry ∧ lfsr1.m_max_bits = 28 := by
  induction sizes with
  | nil => intro i reg lfsr m_key _ _ _ h; exact absurd rfl h
  | cons se rest ih =>
    intro i reg lfsr m_key hreg hmax hsizes _ status reg1 lfsr1 keys hk
    have hse : IsPlannedSize se := hsizes se (List.mem_cons_self _ _)
    obtain ⟨b, hb1, hb2, hout, hout2⟩ := hse.out_pow
    obtain ⟨p, sd, hretry, hpmem, hsd1, hsd2, hver⟩ :=
      reset_retry_ok reg hreg lfsr hmax b hb1 hb2 (draws i)
    rw [key_loop] at hk
    simp only [hout2, hretry] at hk
    have h30 : ¬ ((3 : Nat) = 0) := by norm_num
    simp only [h30, if_false] at hk
    split at hk
    · simp only [Except.ok.injEq, Prod.mk.injEq] at hk
      exact ⟨hk.2.1.symm, by rw [← hk.2.2.1]; exact hmax⟩
    · split at hk
      · simp only [Except.ok.injEq, Prod.mk.injEq] at hk
        exact ⟨hk.2.1.symm, by rw [← hk.2.2.1]; exact hmax⟩
      · split at hk
        · simp only [Except.ok.injEq, Prod.mk.injEq] at hk
          exact ⟨hk.2.1.symm, by rw [← hk.2.2.1]; exact hmax⟩
        · by_cases hrest : rest = []
          · subst hrest
            rw [key_loop] at hk
            simp only [Except.ok.injEq, Prod.mk.injEq] at hk
            exact ⟨hk.2.1.symm, by rw [← hk.2.2.1]; exact hmax⟩
          · exact ih (i + 1) fullRegistry { lfsr with m_poly := p, m_seed := sd, m_lfsr := sd } _
              (Or.inr rfl) hmax
              (fun x hx => hsizes x (List.mem_cons_of_mem _ hx)) hrest _ _ _ _ hk

theorem swap_perm (l : List HcKeyData) (i j : Nat) (a b : HcKeyData)
    (hi : l.get? i = some a) (hj : l.get? j = some b) :
    ((l.set i b).set j a).Perm l := by
  rw [List.get?_eq_getElem?] at hi hj
  obtain ⟨hi1, hi2⟩ := List.getElem?_eq_some.1 hi
  obtain ⟨hj1, hj2⟩ := List.getElem?_eq_some.1 hj
  rw [List.perm_iff_count]
  intro x
  have hjlt : j < (l.set i b).length := by rw [List.length_set]; exact hj1
  have hjb : (l.set i b)[j] = b := by
    rw [List.getElem_set]
    split
    · rfl
    · exact hj2
  rw [List.count_set _ _ _ _ (by rw [List.length_set]; exact hj1), hjb,
    List.count_set _ _ _ _ hi1, hi2]
  have hmem : a ∈ l := by rw [← hi2]; exact List.getElem_mem _
  by_cases hax : a = x
  · subst hax
    have hpos : 0 < List.count a l := List.count_pos_iff.2 hmem
    by_cases hbx : b = a
    · simp [hbx]; omega
    · simp [hbx]; omega
  · by_cases hbx : b = x
    · simp [hax, hbx]
    · simp [hax, hbx]

theorem shuffle_step_perm (max_index : Nat) (draw : Nat → Nat) (l : List HcKeyData) (i : Nat) :
    (shuffle_step max_index draw l i).Perm l := by
  unfold shuffle_step
  simp only []
  split
  · next a b ha hb => exact swap_perm l _ _ a b ha hb
  · exact List.Perm.refl _

theorem shuffle_keys_perm (draw : Nat → Nat) (l : List HcKeyData) :
    (shuffle_keys draw l).Perm l := by
  unfold shuffle_keys
  split
  · exact List.Perm.refl _
  · simp only []
    generalize List.range' 1 ((l.length - 1) % 256 - 1) = is
    suffices h : ∀ (is : List Nat) (m : List HcKeyData), m.Perm l →
        (is.foldl (shuffle_step ((l.length - 1) % 256) draw) m).Perm l from
      h is l (List.Perm.refl _)
    intro is
    induction is with
    | nil => intro m hm; exact hm
    | cons i is ih =>
      intro m hm
      rw [List.foldl_cons]
      exact ih _ ((shuffle_step_perm _ _ m i).trans hm)

/-! ## `generateKey` -/

/-- On a ready registry `generateKey` returns for every length `L ≥ 1` and every
outcome of the draws; the status is `HC_STATUS_OK` unless a `RAND_bytes` call
failed; on `HC_STATUS_OK` the key list is a permutation of the keys built, in
order, for the planned sizes: the power-of-two sizes `pows` and the residual `r`. -/
theorem generateKey_spec (reg : PolyRegistry) (hreg : RegistryReady reg) (L : Nat) (hL : 1 ≤ L)
    (draws : Nat → KeyDraws) (shuffle : Nat → Nat) :
    ∃ (greedy pows : List Nat) (r : Nat) (status : Int) (reg1 : PolyRegistry) (lfsr1 : HcLfsr)
      (keys : List HcKeyData),
      split_sizes_loop HcLfsr.getMinSize (L + 32) L HcLfsr.getMaxSize [] = some (r, greedy) ∧
      plan_sizes L = .ok (pows ++ [r]) ∧
      (∀ x ∈ greedy, IsSegmentPow x) ∧ greedy.sum + r = L ∧
      (∀ x ∈ pows, IsSegmentPow x) ∧ 1 ≤ r ∧ r ≤ 32768 ∧ pows.sum + r = L ∧
      (2 * 32768 ≤ L - r → 2 ≤ pows.length) ∧
      generateKey reg (HcLfsr.new 0) L draws shuffle = .ok (status, reg1, lfsr1, keys) ∧
      (status = HC_STATUS_OK ∨ status = HC_INTERNAL_ERROR_CANNOT_RAND_FILL) ∧
      (KeyDrawsOk draws → status = HC_STATUS_OK) ∧
      (status = HC_STATUS_OK → reg1 = fullRegistry ∧ lfsr1.m_max_bits = 28 ∧
        ∃ planned, List.Forall₂ KeyFor (pows ++ [r]) planned ∧ keys.Perm planned) := by
  obtain ⟨greedy, pows, r, h1, h2, h3, h4, h5, h6, h7, h8, h9, _, _⟩ := plan_sizes_spec L hL
  have hsizes : ∀ se ∈ pows ++ [r], IsPlannedSize se := by
    intro se hse
    rcases List.mem_append.1 hse with h | h
    · have := (h5 se h).ge
      exact ⟨by omega, Or.inr (h5 se h)⟩
    · rw [List.mem_singleton] at h
      subst h
      exact ⟨h6, Or.inl h7⟩
  obtain ⟨status, reg1, lfsr1, new, hk, hst, hfor, hgood⟩ :=
    key_loop_spec draws (pows ++ [r]) 0 reg (HcLfsr.new 0) [] hreg rfl hsizes
  rw [List.nil_append] at hk
  by_cases hs : status = HC_STATUS_OK
  · refine ⟨greedy, pows, r, HC_STATUS_OK, reg1, lfsr1, shuffle_keys shuffle new, h1, h2, h3, h4,
      h5, h6, h7, h8, h9, ?_, Or.inl rfl, fun _ => rfl, fun _ => ?_⟩
    · unfold generateKey
      simp only [h2, hk, hs, ne_eq, not_true_eq_false, if_false]
    · refine ⟨?_, ?_, new, hfor hs, shuffle_keys_perm shuffle new⟩
      · exact (key_loop_reg draws (pows ++ [r]) 0 reg (HcLfsr.new 0) [] hreg rfl hsizes
          (by simp) _ _ _ _ hk).1
      · exact (key_loop_reg draws (pows ++ [r]) 0 reg (HcLfsr.new 0) [] hreg rfl hsizes
          (by simp) _ _ _ _ hk).2
  · refine ⟨greedy, pows, r, status, reg1, lfsr1, new, h1, h2, h3, h4, h5, h6, h7, h8, h9, ?_,
      hst, hgood, fun h => absurd h hs⟩
    unfold generateKey
    simp only [h2, hk, hs, ne_eq, not_false_eq_true, if_true]

theorem forall₂_keyFor_io (sizes : List Nat) (planned : List HcKeyData)
    (h : List.Forall₂ KeyFor sizes planned) :
    planned.map HcKeyData.io = sizes.map plannedIo := by
  induction h with
  | nil => rfl
  | cons hk _ ih =>
    simp only [List.map_cons, ih]
    congr 1
    obtain ⟨h1, h2, _⟩ := hk
    simp [HcKeyData.io, plannedIo, h1, h2]

theorem forall₂_keyFor_inv (sizes : List Nat) (planned : List HcKeyData)
    (h : List.Forall₂ KeyFor sizes planned) : ∀ k ∈ planned, KeyInvariant k := by
  induction h with
  | nil => intro k hk; simp at hk
  | cons hk _ ih =>
    intro k hmem
    rcases List.mem_cons.1 hmem with rfl | hmem
    · exact hk.2.2.2.2
    · exact ih k hmem

theorem plannedIo_pows (pows : List Nat) (h : ∀ x ∈ pows, IsSegmentPow x) :
    pows.map plannedIo = pows.map (fun se => (se, se)) := by
  apply List.map_congr_left
  intro se hse
  have := (h se hse).ge
  have hlt : ¬ se < 32768 := by omega
  simp [plannedIo, hlt]

/-- The `(in_size, out_size)` pairs of the key list, up to order. -/
theorem keys_io_perm (pows : List Nat) (r : Nat) (hpows : ∀ x ∈ pows, IsSegmentPow x)
    (planned keys : List HcKeyData) (hfor : List.Forall₂ KeyFor (pows ++ [r]) planned)
    (hperm : keys.Perm planned) :
    (keys.map HcKeyData.io).Perm (pows.map (fun se => (se, se)) ++ [plannedIo r]) := by
  have h1 := forall₂_keyFor_io _ _ hfor
  rw [List.map_append, plannedIo_pows pows hpows] at h1
  have h2 := hperm.map HcKeyData.io
  rw [h1] at h2
  exact h2

theorem sum_map_fst_diag (pows : List Nat) :
    ((pows.map (fun se => (se, se))).map Prod.fst).sum = pows.sum := by
  simp [List.map_map, Function.comp_def]

theorem sum_map_snd_diag (pows : List Nat) :
    ((pows.map (fun se => (se, se))).map Prod.snd).sum = pows.sum := by
  simp [List.map_map, Function.comp_def]

theorem filter_lt_diag (pows : List Nat) :
    (pows.map (fun se => (se, se))).filter (fun p => decide (p.1 < p.2)) = [] := by
  rw [List.filter_eq_nil_iff]
  intro p hp
  obtain ⟨se, _, rfl⟩ := List.mem_map.1 hp
  simp

theorem countP_eq_diag (pows : List Nat) :
    (pows.map (fun se => (se, se))).countP (fun p => decide (p.1 = p.2)) = pows.length := by
  induction pows with
  | nil => rfl
  | cons a l ih => simp [List.countP_cons, ih]

theorem sum_pows_dvd (pows : List Nat) (h : ∀ x ∈ pows, IsSegmentPow x) : 32768 ∣ pows.sum := by
  apply List.dvd_sum
  intro x hx
  obtain ⟨j, hj1, _, rfl⟩ := h x hx
  have : (32768 : Nat) = 2 ^ 15 := by norm_num
  rw [this]
  exact pow_dvd_pow 2 hj1

/-! ## The segment codec -/

theorem fillNext_spec (poly : Nat) (count : Nat) :
    ∀ (g : HcLfsr) (buffer : List Nat) (pos : Nat), g.m_poly = poly →
      (∀ m, m < count → (lfsrNext poly)^[m + 1] g.m_lfsr ≠ 0) →
      pos + count ≤ buffer.length →
      ∃ buffer1, HcLfsr.fillNext g buffer pos count =
          ({ g with m_lfsr := (lfsrNext poly)^[count] g.m_lfsr }, buffer1, true) ∧
        buffer1.length = buffer.length ∧
        (∀ j, j < count → buffer1.getD (pos + j) 0 = (lfsrNext poly)^[j + 1] g.m_lfsr) ∧
        ∀ i, i < pos → buffer1.getD i 0 = buffer.getD i 0 := by
  induction count with
  | zero =>
    intro g buffer pos _ _ _
    exact ⟨buffer, rfl, rfl, fun j hj => absurd hj (by omega), fun i _ => rfl⟩
  | succ count ih =>
    intro g buffer pos hp hnz hlen
    have h0 : NEXT_LFSR g.m_lfsr g.m_poly ≠ 0 := by
      have := hnz 0 (by omega)
      rw [hp]; exact this
    obtain ⟨buffer1, e1, e2, e3, e4⟩ :=
      ih { g with m_lfsr := NEXT_LFSR g.m_lfsr g.m_poly }
        (buffer.set pos (NEXT_LFSR g.m_lfsr g.m_poly)) (pos + 1) hp
        (by
          intro m hm
          have := hnz (m + 1) (by omega)
          rw [Function.iterate_succ_apply] at this
          rw [hp]; exact this)
        (by rw [List.length_set]; omega)
    refine ⟨buffer1, ?_, by rw [e2, List.length_set], ?_, ?_⟩
    · rw [HcLfsr.fillNext]
      simp only [h0, if_false]
      rw [e1]
      simp only [hp]
      rw [Function.iterate_succ_apply (lfsrNext poly) count g.m_lfsr]
      rfl
    · intro j hj
      cases j with
      | zero =>
        rw [Nat.add_zero, e4 pos (by omega)]
        rw [List.getD_eq_getElem?_getD, List.getElem?_set]
        have : pos < buffer.length := by omega
        simp only [this, if_true, Option.getD_some]
        rw [hp]; rfl
      | succ j =>
        have := e3 j (by omega)
        rw [show pos + (j + 1) = pos + 1 + j by omega, this]
        simp only [hp]
        rw [Function.iterate_succ_apply (lfsrNext poly) (j + 1) g.m_lfsr]
        rfl
    · intro i hi
      rw [e4 i (by omega), List.getD_eq_getElem?_getD, List.getD_eq_getElem?_getD,
        List.getElem?_set]
      have : ¬ pos = i := by omega
      simp only [this, if_false]

theorem scatter_spec (indices in_buf : List Nat) (n : Nat) :
    ∀ (i : Nat) (ob : List Nat),
      (∀ t, t < n → indices.getD (i + t) 0 < ob.length) →
      (∀ t t2, t < n → t2 < n → indices.getD (i + t) 0 = indices.getD (i + t2) 0 → t = t2) →
      ∃ ob1, scatter indices in_buf n i ob = .ok ob1 ∧ ob1.length = ob.length ∧
        (∀ t, t < n → ob1[indices.getD (i + t) 0]? = some (in_buf.getD (i + t) 0)) ∧
        ∀ p, (∀ t, t < n → indices.getD (i + t) 0 ≠ p) → ob1[p]? = ob[p]? := by
  induction n with
  | zero =>
    intro i ob _ _
    exact ⟨ob, rfl, rfl, fun t ht => absurd ht (by omega), fun p _ => rfl⟩
  | succ n ih =>
    intro i ob hlt hinj
    have h0 : indices.getD i 0 < ob.length := by
      have := hlt 0 (by omega); rwa [Nat.add_zero] at this
    obtain ⟨ob1, e1, e2, e3, e4⟩ :=
      ih (i + 1) (ob.set (indices.getD i 0) (in_buf.getD i 0))
        (by
          intro t ht
          rw [List.length_set, show i + 1 + t = i + (t + 1) by omega]
          exact hlt (t + 1) (by omega))
        (by
          intro t t2 ht ht2 h
          rw [show i + 1 + t = i + (t + 1) by omega,
            show i + 1 + t2 = i + (t2 + 1) by omega] at h
          have := hinj (t + 1) (t2 + 1) (by omega) (by omega) h
          omega)
    refine ⟨ob1, ?_, by rw [e2, List.length_set], ?_, ?_⟩
    · rw [scatter, write_at, if_pos h0]
      exact e1
    · intro t ht
      cases t with
      | zero =>
        rw [Nat.add_zero, e4 (indices.getD i 0) (by
          intro t ht2 h
          rw [show i + 1 + t = i + (t + 1) by omega] at h
          have := hinj (t + 1) 0 (by omega) (by omega) (by rw [Nat.add_zero]; exact h)
          omega)]
        rw [List.getElem?_set, if_pos rfl, if_pos h0]
      | succ t =>
        have := e3 t (by omega)
        rw [show i + 1 + t = i + (t + 1) by omega] at this
        exact this
    · intro p hp
      rw [e4 p (by
        intro t ht
        rw [show i + 1 + t = i + (t + 1) by omega]
        exact hp (t + 1) (by omega))]
      rw [List.getElem?_set]
      have : ¬ indices.getD i 0 = p := by
        have := hp 0 (by omega); rwa [Nat.add_zero] at this
      simp only [this, if_false]

theorem gather_spec (indices ib : List Nat) (n : Nat) :
    ∀ (i : Nat) (out_buf : List Nat),
      (∀ t, t < n → indices.getD (i + t) 0 < ib.length) →
      ∃ out1, gather indices ib n i out_buf = .ok out1 ∧ out1.length = out_buf.length ∧
        (∀ t, t < n → i + t < out_buf.length →
          out1[i + t]? = some (ib.getD (indices.getD (i + t) 0) 0)) ∧
        ∀ p, (p < i ∨ i + n ≤ p) → out1[p]? = out_buf[p]? := by
  induction n with
  | zero =>
    intro i out_buf _
    exact ⟨out_buf, rfl, rfl, fun t ht => absurd ht (by omega), fun p _ => rfl⟩
  | succ n ih =>
    intro i out_buf hlt
    have h0 : indices.getD i 0 < ib.length := by
      have := hlt 0 (by omega); rwa [Nat.add_zero] at this
    obtain ⟨out1, e1, e2, e3, e4⟩ :=
      ih (i + 1) (out_buf.set i (ib.getD (indices.getD i 0) 0))
        (by
          intro t ht
          rw [show i + 1 + t = i + (t + 1) by omega]
          exact hlt (t + 1) (by omega))
    refine ⟨out1, ?_, by rw [e2, List.length_set], ?_, ?_⟩
    · rw [gather, read_at, if_pos h0]
      exact e1
    · intro t ht hlen
      cases t with
      | zero =>
        rw [Nat.add_zero, e4 i (Or.inl (by omega)), List.getElem?_set]
        have : i < out_buf.length := by omega
        rw [if_pos rfl, if_pos this]
      | succ t =>
        have := e3 t (by omega) (by rw [List.length_set]; omega)
        rw [show i + 1 + t = i + (t + 1) by omega] at this
        exact this
    · intro p hp
      rw [e4 p (by omega), List.getElem?_set]
      have : ¬ i = p := by omega
      simp only [this, if_false]

theorem pad_chunk_length (padding : Option (Nat → Nat)) (in_buf : List Nat) (chunk : Nat)
    (hlen : in_buf.length = 256) : (pad_chunk padding in_buf chunk).length = 256 := by
  unfold pad_chunk
  split
  · rename_i hc
    cases hr : randFill (256 - chunk) padding with
    | none => simpa using hlen
    | some bytes =>
      have hb := randFill_length _ _ _ hr
      simp only [List.length_append, List.length_take, hb, hlen]
      omega
  · exact hlen

theorem scatter_chunk_spec (indices in_buf : List Nat) (is : Nat) (ob : List Nat)
    (hlt : ∀ t, t < 255 → indices.getD t 0 < ob.length)
    (hinj : ∀ t t2, t < 255 → t2 < 255 → indices.getD t 0 = indices.getD t2 0 → t = t2)
    (hlast : (if is ≠ 0 then indices.getD 255 0 else 0) < ob.length)
    (hne : ∀ t, t < 255 → indices.getD t 0 ≠ (if is ≠ 0 then indices.getD 255 0 else 0)) :
    ∃ ob1, scatter_chunk indices in_buf is ob = .ok ob1 ∧ ob1.length = ob.length ∧
      (∀ t, t < 255 → ob1[indices.getD t 0]? = some (in_buf.getD t 0)) ∧
      ob1[if is ≠ 0 then indices.getD 255 0 else 0]? = some (in_buf.getD 255 0) ∧
      ∀ p, (∀ t, t < 255 → indices.getD t 0 ≠ p) →
        p ≠ (if is ≠ 0 then indices.getD 255 0 else 0) → ob1[p]? = ob[p]? := by
  obtain ⟨ob1, e1, hl1, hv1, hf1⟩ := scatter_spec indices in_buf 255 0 ob
    (fun t ht => by rw [Nat.zero_add]; exact hlt t ht)
    (fun t t2 ht ht2 h => by rw [Nat.zero_add, Nat.zero_add] at h; exact hinj t t2 ht ht2 h)
  simp only [Nat.zero_add] at hv1 hf1
  have hlast1 : (if is ≠ 0 then indices.getD 255 0 else 0) < ob1.length := by
    rw [hl1]; exact hlast
  refine ⟨ob1.set (if is ≠ 0 then indices.getD 255 0 else 0) (in_buf.getD 255 0), ?_, ?_, ?_, ?_, ?_⟩
  · unfold scatter_chunk
    rw [e1]
    simp only [write_at]
    rw [if_pos hlast1]
  · rw [List.length_set, hl1]
  · intro t ht
    rw [List.getElem?_set, if_neg (fun h => hne t ht h.symm)]
    exact hv1 t ht
  · rw [List.getElem?_set, if_pos rfl, if_pos hlast1]
  · intro p hp hpl
    rw [List.getElem?_set, if_neg (fun h => hpl h.symm)]
    exact hf1 p hp

theorem gather_chunk_spec (indices ib : List Nat) (is chunk : Nat) (out_buf Y : List Nat)
    (hout : out_buf.length = 256) (hY : Y.length = 256)
    (hv : ∀ t, t < 255 → ib[indices.getD t 0]? = some (Y.getD t 0))
    (hlast : ib[if is ≠ chunk then indices.getD 255 0 else 0]? = some (Y.getD 255 0)) :
    gather_chunk indices ib is chunk out_buf = .ok Y := by
  obtain ⟨out1, e1, hl1, hv1, -⟩ := gather_spec indices ib 255 0 out_buf
    (fun t ht => by
      rw [Nat.zero_add]
      obtain ⟨h, -⟩ := List.getElem?_eq_some.mp (hv t ht)
      exact h)
  simp only [Nat.zero_add] at hv1
  obtain ⟨hlastlt, hlastv⟩ := List.getElem?_eq_some.mp hlast
  unfold gather_chunk
  rw [e1]
  simp only [read_at]
  rw [if_pos hlastlt]
  simp only []
  congr 1
  apply List.ext_getElem?
  intro i
  rw [List.getElem?_set]
  by_cases hi : 255 = i
  · subst hi
    rw [if_pos rfl, if_pos (by omega)]
    rw [List.getD_eq_getElem?_getD, hlast, List.getD_eq_getElem?_getD]
    rw [List.getElem?_eq_getElem (by omega : 255 < Y.length)]
    rfl
  · rw [if_neg hi]
    by_cases hlt : i < 255
    · rw [hv1 i hlt (by omega)]
      rw [List.getD_eq_getElem?_getD, hv i hlt, List.getD_eq_getElem?_getD]
      rw [List.getElem?_eq_getElem (by omega : i < Y.length)]
      rfl
    · rw [List.getElem?_eq_none (by omega), List.getElem?_eq_none (by omega)]

theorem GoodOutputs.first {poly x n bound : Nat} (h : GoodOutputs poly x n bound) (hn : 1 ≤ n) :
    (∀ m, m < 256 → (lfsrNext poly)^[m + 1] x ≠ 0) ∧
    (∀ m, m < 255 → (lfsrNext poly)^[m + 1] x < bound) ∧
    (∀ m m2, m < 255 → m2 < 255 →
      (lfsrNext poly)^[m + 1] x = (lfsrNext poly)^[m2 + 1] x → m = m2) ∧
    0 < bound ∧
    (2 ≤ n → (lfsrNext poly)^[256] x < bound ∧
      ∀ m, m < 255 → (lfsrNext poly)^[m + 1] x ≠ (lfsrNext poly)^[256] x) := by
  obtain ⟨h0, hb, hi⟩ := h
  refine ⟨fun m hm => h0 m (by omega), fun m hm => hb m (by omega),
    fun m m2 hm hm2 => hi m m2 (by omega) (by omega), ?_, ?_⟩
  · exact lt_of_le_of_lt (Nat.zero_le _) (hb 0 (by omega))
  · intro h2
    refine ⟨hb 255 (by omega), fun m hm he => ?_⟩
    have := hi m 255 (by omega) (by omega) he
    omega

theorem GoodOutputs.rest {poly x n bound : Nat} (h : GoodOutputs poly x (n + 1) bound) :
    GoodOutputs poly ((lfsrNext poly)^[256] x) n bound := by
  obtain ⟨h0, hb, hi⟩ := h
  have hsh : ∀ m, (lfsrNext poly)^[m + 1] ((lfsrNext poly)^[256] x) =
      (lfsrNext poly)^[m + 256 + 1] x := by
    intro m
    rw [← Function.iterate_add_apply]
  refine ⟨fun m hm => ?_, fun m hm => ?_, fun m m2 hm hm2 he => ?_⟩
  · rw [hsh]; exact h0 _ (by omega)
  · rw [hsh]; exact hb _ (by omega)
  · rw [hsh, hsh] at he
    have := hi _ _ (by omega) (by omega) he
    omega

theorem encrypt_chunk_spec (aes : AesCbc) (key : List Nat)
    (padding : Option (Nat → Nat)) (poly : Nat) (st : CodecState)
    (his : st.is ≠ 0) (hpoly : st.lfsr.m_poly = poly)
    (hbuf : st.buf.length = 256) (hind : st.indices.length = 256)
    (hfile : st.file.pos + st.is ≤ st.file.data.length)
    (hgood : GoodOutputs poly st.lfsr.m_lfsr ((st.is + 255) / 256) st.work.length) :
    ∃ (X : List Nat) (st1 : CodecState),
      encrypt_chunk aes key padding st = .ok (HC_STATUS_OK, st1) ∧
      X.length = 256 ∧
      X.take (if 256 > st.is then st.is else 256) =
        (st.file.data.drop st.file.pos).take (if 256 > st.is then st.is else 256) ∧
      st1.is = st.is - (if 256 > st.is then st.is else 256) ∧
      st1.buf = (aes.encrypt key st.ivec X).1 ∧
      st1.ivec = (aes.encrypt key st.ivec X).2 ∧
      st1.indices.length = 256 ∧
      st1.lfsr = { st.lfsr with m_lfsr := (lfsrNext poly)^[256] st.lfsr.m_lfsr } ∧
      st1.file = { st.file with pos := st.file.pos + (if 256 > st.is then st.is else 256) } ∧
      st1.work.length = st.work.length ∧
      (∀ j, j < 255 → st1.work[(lfsrNext poly)^[j + 1] st.lfsr.m_lfsr]? =
        some ((aes.encrypt key st.ivec X).1.getD j 0)) ∧
      st1.work[if st.is - (if 256 > st.is then st.is else 256) ≠ 0
          then (lfsrNext poly)^[256] st.lfsr.m_lfsr else 0]? =
        some ((aes.encrypt key st.ivec X).1.getD 255 0) ∧
      ∀ p, (∀ j, j < 255 → (lfsrNext poly)^[j + 1] st.lfsr.m_lfsr ≠ p) →
        p ≠ (if st.is - (if 256 > st.is then st.is else 256) ≠ 0
          then (lfsrNext poly)^[256] st.lfsr.m_lfsr else 0) →
        st1.work[p]? = st.work[p]? := by
  obtain ⟨chunk, hchunk⟩ : ∃ c, c = (if 256 > st.is then st.is else 256) := ⟨_, rfl⟩
  have hc1 : chunk ≤ 256 := by rw [hchunk]; split <;> omega
  have hc2 : chunk ≤ st.is := by rw [hchunk]; split <;> omega
  have hc3 : (st.is - chunk ≠ 0) → 2 ≤ (st.is + 255) / 256 := by
    rw [hchunk]; split <;> omega
  have hn1 : 1 ≤ (st.is + 255) / 256 := by omega
  obtain ⟨g0, gb, gi, gpos, g2⟩ := hgood.first hn1
  obtain ⟨ind1, ef, hil, hiv, -⟩ := fillNext_spec poly 256 st.lfsr st.indices 0 hpoly g0
    (by omega)
  simp only [Nat.zero_add] at hiv
  rw [← hchunk]
  have hlastv : (if st.is - chunk ≠ 0 then ind1.getD 255 0 else 0) =
      (if st.is - chunk ≠ 0 then (lfsrNext poly)^[256] st.lfsr.m_lfsr else 0) := by
    rw [hiv 255 (by omega)]
  obtain ⟨X, hX⟩ : ∃ X, X = (st.file.data.drop st.file.pos).take chunk ++
      (pad_chunk padding st.buf chunk).drop chunk := ⟨_, rfl⟩
  have hXlen : X.length = 256 := by
    rw [hX, List.length_append, List.length_take, List.length_drop, List.length_drop,
      pad_chunk_length _ _ _ hbuf]
    omega
  obtain ⟨ob1, es, hl1, hv1, hlast1, hf1⟩ := scatter_chunk_spec ind1
    (aes.encrypt key st.ivec X).1 (st.is - chunk) st.work
    (fun t ht => by rw [hiv t (by omega)]; exact gb t ht)
    (fun t t2 ht ht2 h => by
      rw [hiv t (by omega), hiv t2 (by omega)] at h; exact gi t t2 ht ht2 h)
    (by
      rw [hlastv]
      split
      · rename_i h; exact (g2 (hc3 h)).1
      · exact gpos)
    (fun t ht => by
      rw [hlastv, hiv t (by omega)]
      split
      · rename_i h; exact (g2 (hc3 h)).2 t ht
      · exact g0 t (by omega))
  refine ⟨X, { is := st.is - chunk, buf := (aes.encrypt key st.ivec X).1,
               ivec := (aes.encrypt key st.ivec X).2, indices := ind1,
               lfsr := { st.lfsr with m_lfsr := (lfsrNext poly)^[256] st.lfsr.m_lfsr },
               work := ob1, file := { st.file with pos := st.file.pos + chunk } },
    ?_, hXlen, ?_, rfl, rfl, rfl, ?_, rfl, rfl, hl1, ?_, ?_, ?_⟩
  · unfold encrypt_chunk
    simp only []
    rw [← hchunk, if_neg (by omega), ← hX, ef]
    simp only [Bool.not_true, Bool.false_eq_true, if_false]
    rw [es]
  · rw [hX, List.take_left']
    rw [List.length_take, List.length_drop]
    omega
  · rw [hil]; exact hind
  · intro j hj
    rw [← hiv j (by omega)]
    exact hv1 j hj
  · rw [← hlastv]; exact hlast1
  · intro p hp hpl
    apply hf1 p
    · intro t ht
      rw [hiv t (by omega)]
      exact hp t ht
    · rw [hlastv]; exact hpl

theorem decrypt_chunk_spec (aes : AesCbc) (hinv : aes.Inverse) (key : List Nat)
    (poly : Nat) (dst : CodecState) (X : List Nat)
    (hpoly : dst.lfsr.m_poly = poly)
    (hbuf : dst.buf.length = 256) (hind : dst.indices.length = 256)
    (hfile : dst.file.m_file = true) (hX : X.length = 256)
    (g0 : ∀ m, m < 256 → (lfsrNext poly)^[m + 1] dst.lfsr.m_lfsr ≠ 0)
    (hv : ∀ j, j < 255 → dst.work[(lfsrNext poly)^[j + 1] dst.lfsr.m_lfsr]? =
      some ((aes.encrypt key dst.ivec X).1.getD j 0))
    (hlast : dst.work[if dst.is ≠ (if 256 > dst.is then dst.is else 256)
        then (lfsrNext poly)^[256] dst.lfsr.m_lfsr else 0]? =
      some ((aes.encrypt key dst.ivec X).1.getD 255 0)) :
    ∃ ind1, ind1.length = 256 ∧
      decrypt_chunk aes key dst = .ok (HC_STATUS_OK,
        { is := dst.is - (if 256 > dst.is then dst.is else 256), buf := X,
          ivec := (aes.encrypt key dst.ivec X).2, indices := ind1,
          lfsr := { dst.lfsr with m_lfsr := (lfsrNext poly)^[256] dst.lfsr.m_lfsr },
          work := dst.work,
          file := { dst.file with
            data := (dst.file.data ++ List.take (if 256 > dst.is then dst.is else 256) X) } }) := by
  obtain ⟨ind1, ef, hil, hiv, -⟩ := fillNext_spec poly 256 dst.lfsr dst.indices 0 hpoly g0
    (by omega)
  simp only [Nat.zero_add] at hiv
  obtain ⟨hlen, hdec⟩ := hinv key dst.ivec X
  have eg := gather_chunk_spec ind1 dst.work dst.is (if 256 > dst.is then dst.is else 256)
    dst.buf (aes.encrypt key dst.ivec X).1 hbuf (by rw [hlen, hX])
    (fun t ht => by rw [hiv t (by omega)]; exact hv t ht)
    (by rw [hiv 255 (by omega)]; exact hlast)
  refine ⟨ind1, by rw [hil]; exact hind, ?_⟩
  unfold decrypt_chunk
  simp only []
  rw [ef]
  simp only [Bool.not_true, Bool.false_eq_true, if_false]
  rw [eg]
  simp only [hdec, hfile, Bool.not_true, Bool.false_eq_true, if_false]

theorem chunk_count_succ (is : Nat) (his : is ≠ 0) :
    (is + 255) / 256 = (is - (if 256 > is then is else 256) + 255) / 256 + 1 ∧
    1 ≤ (if 256 > is then is else 256) ∧ (if 256 > is then is else 256) ≤ is ∧
    (is ≠ (if 256 > is then is else 256) ↔ is - (if 256 > is then is else 256) ≠ 0) ∧
    (is - (if 256 > is then is else 256) ≠ 0 →
      1 ≤ (is - (if 256 > is then is else 256) + 255) / 256) ∧
    (is - (if 256 > is then is else 256) = 0 →
      (is - (if 256 > is then is else 256) + 255) / 256 = 0) := by
  split <;> omega

/-- The two `while (is)` loops side by side: the loop of `encryptSegment` runs
to the end, touches only slot 0 and the slots the generator names, and the
loop of `decryptSegment`, run on any buffer that agrees with the result on
those slots, appends the bytes that were read. -/
theorem codec_loops (aes : AesCbc) (hinv : aes.Inverse) (key : List Nat)
    (padding : Option (Nat → Nat)) (poly : Nat) :
    ∀ (fuel : Nat) (st : CodecState), st.is ≤ fuel → st.lfsr.m_poly = poly →
      st.buf.length = 256 → st.indices.length = 256 →
      st.file.pos + st.is ≤ st.file.data.length →
      GoodOutputs poly st.lfsr.m_lfsr ((st.is + 255) / 256) st.work.length →
      ∃ st1, encrypt_loop aes key padding fuel st = .ok (HC_STATUS_OK, st1) ∧
        st1.work.length = st.work.length ∧
        st1.file = { st.file with pos := st.file.pos + st.is } ∧
        st1.lfsr = { st.lfsr with
          m_lfsr := (lfsrNext poly)^[256 * ((st.is + 255) / 256)] st.lfsr.m_lfsr } ∧
        (∀ p, (st.is = 0 ∨ p ≠ 0) →
          (∀ m, m < 256 * ((st.is + 255) / 256) - 1 →
            (lfsrNext poly)^[m + 1] st.lfsr.m_lfsr ≠ p) →
          st1.work[p]? = st.work[p]?) ∧
        ∀ (dst : CodecState), dst.is = st.is → dst.ivec = st.ivec →
          dst.lfsr.m_poly = poly → dst.lfsr.m_lfsr = st.lfsr.m_lfsr →
          dst.buf.length = 256 → dst.indices.length = 256 → dst.file.m_file = true →
          (st.is ≠ 0 → dst.work[0]? = st1.work[0]?) →
          (∀ m, m < 256 * ((st.is + 255) / 256) - 1 →
            dst.work[(lfsrNext poly)^[m + 1] st.lfsr.m_lfsr]? =
              st1.work[(lfsrNext poly)^[m + 1] st.lfsr.m_lfsr]?) →
          ∃ dst1, decrypt_loop aes key fuel dst = .ok (HC_STATUS_OK, dst1) ∧
            dst1.file = { dst.file with
              data := (dst.file.data ++ (st.file.data.drop st.file.pos).take st.is) } ∧
            dst1.work = dst.work ∧
            dst1.lfsr = { dst.lfsr with
              m_lfsr := (lfsrNext poly)^[256 * ((st.is + 255) / 256)] st.lfsr.m_lfsr } := by
  intro fuel
  induction fuel with
  | zero =>
    intro st hfuel hpoly hbuf hind hfile hgood
    have h0 : st.is = 0 := by omega
    refine ⟨st, ?_, rfl, ?_, ?_, fun p _ _ => rfl, ?_⟩
    · unfold encrypt_loop; rw [if_pos h0]
    · rw [h0]; rfl
    · rw [h0]; rfl
    · intro dst hdis _ _ hdx _ _ _ _ _
      refine ⟨dst, ?_, ?_, rfl, ?_⟩
      · unfold decrypt_loop; rw [if_pos (by rw [hdis]; exact h0)]
      · rw [h0]; simp
      · rw [h0, ← hdx]; rfl
  | succ fuel ih =>
    intro st hfuel hpoly hbuf hind hfile hgood
    by_cases h0 : st.is = 0
    · refine ⟨st, ?_, rfl, ?_, ?_, fun p _ _ => rfl, ?_⟩
      · unfold encrypt_loop; rw [if_pos h0]
      · rw [h0]; rfl
      · rw [h0]; rfl
      · intro dst hdis _ _ hdx _ _ _ _ _
        refine ⟨dst, ?_, ?_, rfl, ?_⟩
        · unfold decrypt_loop; rw [if_pos (by rw [hdis]; exact h0)]
        · rw [h0]; simp
        · rw [h0, ← hdx]; rfl
    · obtain ⟨hn, hc1, hc2, hc3, hc4, hc5⟩ := chunk_count_succ st.is h0
      obtain ⟨X, st2, ee, hXlen, hXtake, his2, hbuf2, hivec2, hind2, hlfsr2, hfile2, hwl2,
        hv2, hlast2, hf2⟩ := encrypt_chunk_spec aes key padding poly st h0 hpoly hbuf hind
          hfile hgood
      have hx2 : st2.lfsr.m_lfsr = (lfsrNext poly)^[256] st.lfsr.m_lfsr := by rw [hlfsr2]
      have hsh : ∀ m, (lfsrNext poly)^[m + 1] st2.lfsr.m_lfsr =
          (lfsrNext poly)^[m + 256 + 1] st.lfsr.m_lfsr := by
        intro m
        rw [hx2, ← Function.iterate_add_apply]
      have hgood2 : GoodOutputs poly st2.lfsr.m_lfsr ((st2.is + 255) / 256)
          st2.work.length := by
        rw [hx2, his2, hwl2]
        rw [hn] at hgood
        exact hgood.rest
      obtain ⟨g0, gb, gi⟩ := hgood
      obtain ⟨st1, el, hwl1, hfile1, hlfsr1, hf1, hrt⟩ := ih st2 (by rw [his2]; omega)
        (by rw [hlfsr2]; exact hpoly)
        (by rw [hbuf2, (hinv key st.ivec X).1, hXlen]) hind2
        (by rw [hfile2, his2]; simp only []; omega) hgood2
      -- slots written by this pass survive the later passes
      have hkeep : ∀ j, j < 256 * ((st.is + 255) / 256) - 1 → j < 256 →
          st1.work[(lfsrNext poly)^[j + 1] st.lfsr.m_lfsr]? =
            st2.work[(lfsrNext poly)^[j + 1] st.lfsr.m_lfsr]? := by
        intro j hj hj2
        apply hf1
        · right; exact g0 j (by omega)
        · intro m hm he
          rw [hsh, his2] at *
          have := gi _ _ (by omega) hj he
          omega
      refine ⟨st1, ?_, by rw [hwl1, hwl2], ?_, ?_, ?_, ?_⟩
      · unfold encrypt_loop
        rw [if_neg h0]
        simp only [ee, ne_eq, not_true_eq_false, if_false]
        exact el
      · rw [hfile1, hfile2, his2]
        simp only [Nat.add_assoc]
        congr 2
        omega
      · rw [hlfsr1, hlfsr2]
        simp only [his2]
        rw [← Function.iterate_add_apply, hn]
        congr 2
      · intro p hp hset
        have hp0 : p ≠ 0 := by
          rcases hp with h | h
          · exact absurd h h0
          · exact h
        rw [hf1 p (Or.inr hp0), hf2 p]
        · intro j hj
          exact hset j (by omega)
        · by_cases h : st.is - (if 256 > st.is then st.is else 256) ≠ 0
          · rw [if_pos h]
            have := hc4 h
            exact fun he => hset 255 (by omega) he.symm
          · rw [if_neg h]
            exact hp0
        · intro m hm
          rw [hsh]
          rw [his2] at hm
          exact hset _ (by omega)
      · intro dst hdis hdiv hdpoly hdx hdbuf hdind hdfile hd0 hdset
        obtain ⟨ind1, hind1, ed⟩ := decrypt_chunk_spec aes hinv key poly dst X hdpoly hdbuf
          hdind hdfile hXlen
          (by rw [hdx]; exact fun m hm => g0 m (by omega))
          (by
            intro j hj
            rw [hdx, hdiv, hdset j (by omega), hkeep j (by omega) (by omega)]
            exact hv2 j hj)
          (by
            rw [hdx, hdiv, hdis]
            by_cases hcase : st.is ≠ (if 256 > st.is then st.is else 256)
            · have h3 := hc3.mp hcase
              have h4 := hc4 h3
              rw [if_pos hcase]
              rw [if_pos h3] at hlast2
              rw [show (256 : Nat) = 255 + 1 from rfl, hdset 255 (by omega),
                hkeep 255 (by omega) (by omega)]
              exact hlast2
            · have h3 : st.is - (if 256 > st.is then st.is else 256) = 0 := by
                by_contra hne
                exact hcase (hc3.mpr hne)
              rw [if_neg hcase]
              rw [if_neg (by rw [h3]; exact fun h => h rfl)] at hlast2
              rw [hd0 h0, hf1 0 (Or.inl (by rw [his2]; exact h3))]
              · exact hlast2
              · intro m hm
                rw [his2, hc5 h3] at hm
                omega)
        obtain ⟨dst1, edl, hdfile1, hdwork1, hdlfsr1⟩ := hrt
          { is := dst.is - (if 256 > dst.is then dst.is else 256), buf := X,
            ivec := (aes.encrypt key dst.ivec X).2, indices := ind1,
            lfsr := { dst.lfsr with m_lfsr := (lfsrNext poly)^[256] dst.lfsr.m_lfsr },
            work := dst.work,
            file := { dst.file with
              data := (dst.file.data ++ List.take (if 256 > dst.is then dst.is else 256) X) } }
          (by rw [his2, hdis])
          (by rw [hivec2, hdiv])
          hdpoly
          (by rw [hx2, hdx])
          hXlen hind1 hdfile
          (fun _ => hd0 h0)
          (by
            intro m hm
            rw [hsh]
            rw [his2] at hm
            exact hdset _ (by omega))
        refine ⟨dst1, ?_, ?_, hdwork1, ?_⟩
        · unfold decrypt_loop
          rw [if_neg (by rw [hdis]; exact h0)]
          simp only [ed, ne_eq, not_true_eq_false, if_false]
          exact edl
        · rw [hdfile1, hfile2, his2, hdis, hXtake]
          simp only [List.append_assoc, List.drop_drop]
          congr 2
          conv_rhs => rw [show st.is = (if 256 > st.is then st.is else 256) +
            (st.is - (if 256 > st.is then st.is else 256)) from by omega]
          rw [List.take_add, List.drop_drop]
        · rw [hdlfsr1, hlfsr2]
          simp only [his2]
          rw [← Function.iterate_add_apply, hn]
          congr 2

theorem lfsrNext_eq_zero {p y : Nat} (h : lfsrNext p y = 0) : y = 0 ∨ y = 2 * p + 1 := by
  rw [lfsrNext, NEXT_LFSR_eq, Nat.xor_eq_zero] at h
  split at h <;> omega

theorem lfsrNext_shrink {p h k y : Nat} (hp : p < 2 ^ h) (hy : y < 2 ^ (h + k + 1)) :
    lfsrNext p y < 2 ^ (h + k) := by
  rw [lfsrNext, NEXT_LFSR_eq]
  apply Nat.xor_lt_two_pow
  · rw [Nat.pow_succ] at hy
    omega
  · have hle : 2 ^ h ≤ 2 ^ (h + k) := Nat.pow_le_pow_right (by omega) (by omega)
    split
    · omega
    · exact Nat.two_pow_pos _

theorem lfsrNext_iterate_shrink {p h : Nat} (hp : p < 2 ^ h) (k : Nat) :
    ∀ y, y < 2 ^ (h + k) → (lfsrNext p)^[k] y < 2 ^ h := by
  induction k with
  | zero => intro y hy; exact hy
  | succ k ih =>
    intro y hy
    rw [Function.iterate_succ_apply]
    exact ih _ (lfsrNext_shrink hp hy)

theorem lfsrNext_iterate_small {p h k : Nat} (hp : p < 2 ^ h) (m : Nat) (hm : k ≤ m)
    (y : Nat) (hy : y < 2 ^ (h + k)) : (lfsrNext p)^[m] y < 2 ^ h := by
  obtain ⟨d, rfl⟩ := Nat.exists_eq_add_of_le hm
  rw [Nat.add_comm, Function.iterate_add_apply]
  exact lfsrNext_iterate_lt hp (lfsrNext_iterate_shrink hp k y hy) d

/-- After 32 steps from a 32-bit state the state is too short to be
`2 * poly + 1`, the only nonzero state that steps to zero. -/
theorem lfsrNext_iterate_ne_zero {p y : Nat} (hp0 : p ≠ 0) (hp : p < 2 ^ 32) (hy : y < 2 ^ 32)
    (m : Nat) (hm : 32 ≤ m) (hne : (lfsrNext p)^[m] y ≠ 0) : (lfsrNext p)^[m + 1] y ≠ 0 := by
  intro h0
  rw [Function.iterate_succ_apply'] at h0
  rcases lfsrNext_eq_zero h0 with h | h
  · exact hne h
  · have hs : p.size ≤ 32 := Nat.size_le.mpr hp
    have hpos : 0 < p.size := Nat.size_pos.mpr (Nat.pos_of_ne_zero hp0)
    have hlow : 2 ^ (p.size - 1) ≤ p := Nat.lt_size.mp (by omega)
    have hpow : 2 ^ p.size = 2 * 2 ^ (p.size - 1) := by
      conv_lhs => rw [show p.size = (p.size - 1) + 1 from by omega]
      rw [Nat.pow_succ, Nat.mul_comm]
    have hlt := lfsrNext_iterate_small (Nat.lt_size_self p) (k := 32 - p.size) m (by omega) y
      (by rw [show p.size + (32 - p.size) = 32 from by omega]; exact hy)
    omega

theorem lfsrNext_poly_zero {y : Nat} (hy : y < 2 ^ 32) (m : Nat) (hm : 32 ≤ m) :
    (lfsrNext 0)^[m] y = 0 := by
  have := lfsrNext_iterate_small (p := 0) (h := 0) (k := 32) (by decide) m hm y
    (by rw [Nat.zero_add]; exact hy)
  omega

theorem segmentOutputs_good (kd : HcKeyData) (hin : 1 ≤ kd.m_in_size)
    (hout : SegmentOutputsOk kd) (bound : Nat) (hb : kd.m_out_size ≤ bound) :
    kd.m_lfsr_specs / 2 ^ 32 % 2 ^ 32 ≠ 0 ∧ kd.m_lfsr_specs % 2 ^ 32 ≠ 0 ∧
    0 < kd.m_out_size ∧
    (∀ m, m < 256 * ((kd.m_in_size + 255) / 256) - 1 →
      (lfsrNext (kd.m_lfsr_specs / 2 ^ 32 % 2 ^ 32))^[m + 1] (kd.m_lfsr_specs % 2 ^ 32)
        < kd.m_out_size) ∧
    GoodOutputs (kd.m_lfsr_specs / 2 ^ 32 % 2 ^ 32) (kd.m_lfsr_specs % 2 ^ 32)
      ((kd.m_in_size + 255) / 256) bound := by
  obtain ⟨hnd, hall⟩ := hout
  have hN : 255 ≤ 256 * ((kd.m_in_size + 255) / 256) - 1 := by omega
  have hget : ∀ m, m < 256 * ((kd.m_in_size + 255) / 256) - 1 →
      (specOutputs kd.m_lfsr_specs (256 * ((kd.m_in_size + 255) / 256) - 1))[m]? =
        some ((lfsrNext (kd.m_lfsr_specs / 2 ^ 32 % 2 ^ 32))^[m + 1]
          (kd.m_lfsr_specs % 2 ^ 32)) := by
    intro m hm
    rw [specOutputs, List.getElem?_iterate _ _ _ _ hm, Function.iterate_succ_apply]
  have hmem : ∀ m, m < 256 * ((kd.m_in_size + 255) / 256) - 1 →
      (lfsrNext (kd.m_lfsr_specs / 2 ^ 32 % 2 ^ 32))^[m + 1] (kd.m_lfsr_specs % 2 ^ 32) ∈
        specOutputs kd.m_lfsr_specs (256 * ((kd.m_in_size + 255) / 256) - 1) :=
    fun m hm => List.mem_iterate.mpr ⟨m, hm, Function.iterate_succ_apply _ _ _⟩
  have hseed : kd.m_lfsr_specs % 2 ^ 32 < 2 ^ 32 := Nat.mod_lt _ (by norm_num)
  have hpoly : kd.m_lfsr_specs / 2 ^ 32 % 2 ^ 32 < 2 ^ 32 := Nat.mod_lt _ (by norm_num)
  have hp0 : kd.m_lfsr_specs / 2 ^ 32 % 2 ^ 32 ≠ 0 := by
    intro h0
    have h1 := (hall _ (hmem 32 (by omega))).1
    rw [h0] at h1
    exact h1 (lfsrNext_poly_zero hseed 33 (by omega))
  have hs0 : kd.m_lfsr_specs % 2 ^ 32 ≠ 0 := by
    intro h0
    have h1 := (hall _ (hmem 0 (by omega))).1
    rw [h0] at h1
    exact h1 (lfsrNext_iterate_zero _ _)
  refine ⟨hp0, hs0, ?_, fun m hm => (hall _ (hmem m hm)).2, ?_, ?_, ?_⟩
  · exact lt_of_le_of_lt (Nat.zero_le _) (hall _ (hmem 0 (by omega))).2
  · intro m hm
    by_cases hlast : m < 256 * ((kd.m_in_size + 255) / 256) - 1
    · exact (hall _ (hmem m hlast)).1
    · have hm1 : m = (256 * ((kd.m_in_size + 255) / 256) - 2) + 1 := by omega
      rw [hm1]
      exact lfsrNext_iterate_ne_zero hp0 hpoly hseed _ (by omega)
        (hall _ (hmem _ (by omega))).1
  · exact fun m hm => lt_of_lt_of_le (hall _ (hmem m hm)).2 hb
  · intro m m2 hm hm2 he
    by_contra hne
    rcases Nat.lt_or_gt_of_ne hne with hlt | hlt
    · exact List.nodup_iff_getElem?_ne_getElem?.mp hnd m m2 hlt
        (by rw [specOutputs, List.length_iterate]; exact hm2)
        (by rw [hget m hm, hget m2 hm2, he])
    · exact List.nodup_iff_getElem?_ne_getElem?.mp hnd m2 m hlt
        (by rw [specOutputs, List.length_iterate]; exact hm)
        (by rw [hget m hm, hget m2 hm2, he])

theorem setSpec_ok (reg : PolyRegistry) (self : HcLfsr) (spec : Nat)
    (hp : spec / 2 ^ 32 % 2 ^ 32 ≠ 0) (hs : spec % 2 ^ 32 ≠ 0) :
    ∃ reg1, HcLfsr.setSpec reg self spec =
      (reg1, { self with m_seed := spec % 2 ^ 32, m_poly := spec / 2 ^ 32 % 2 ^ 32,
                         m_lfsr := spec % 2 ^ 32 }, true) := by
  refine ⟨if !reg.initialized then (create_polies false self.m_max_bits reg).1 else reg, ?_⟩
  unfold HcLfsr.setSpec
  simp only []
  rw [if_neg (by rintro (h | h); exact hp h; exact hs h)]

theorem prefill_buffer_length (prefill : Option (Nat → Nat)) (kd : HcKeyData)
    (m_buffer : List Nat) (h : kd.m_out_size ≤ m_buffer.length) :
    (prefill_buffer prefill kd m_buffer).length = m_buffer.length := by
  unfold prefill_buffer
  split
  · cases hr : randFill kd.m_out_size prefill with
    | none => rfl
    | some bytes =>
      have hb := randFill_length _ _ _ hr
      simp only [List.length_append, List.length_drop, hb]
      omega
  · rfl

theorem write_loop_single (fuel n : Nat) (ob : List Nat) (fs : FileSpec)
    (hn : 1 ≤ n) (hcap : n ≤ fs.m_size) (hopen : fs.m_file = true) :
    ∃ fs1 idx, write_loop (fuel + 1) n ob [fs] 0 = .ok (HC_STATUS_OK, [fs1], idx) ∧
      fs1.data = fs.data ++ ob.take n := by
  have hchunk : (if n > fs.m_size then fs.m_size else n) = n := if_neg (by omega)
  by_cases hfull : fs.m_size - n = 0
  · refine ⟨{ fs with data := fs.data ++ ob.take n, m_size := fs.m_size - n, m_file := false },
      1, ?_, rfl⟩
    unfold write_loop
    rw [if_neg (by omega)]
    simp only [List.get?_cons_zero, hchunk, hopen, Bool.not_true, Bool.false_eq_true, if_false,
      if_neg (show ¬ n = 0 by omega), if_pos hfull, Nat.sub_self, List.set_cons_zero]
    unfold write_loop
    rw [if_pos rfl]
  · refine ⟨{ fs with data := fs.data ++ ob.take n, m_size := fs.m_size - n }, 0, ?_, rfl⟩
    unfold write_loop
    rw [if_neg (by omega)]
    simp only [List.get?_cons_zero, hchunk, hopen, Bool.not_true, Bool.false_eq_true, if_false,
      if_neg (show ¬ n = 0 by omega), if_neg hfull, Nat.sub_self, List.set_cons_zero]
    unfold write_loop
    rw [if_pos rfl]

theorem read_loop_single (fuel n : Nat) (m_buffer : List Nat) (fs : FileSpec)
    (hn : 1 ≤ n) (hlen : fs.pos + n ≤ fs.data.length) (hbuf : n ≤ m_buffer.length)
    (hopen : fs.m_file = true) :
    read_loop (fuel + 1) n 0 m_buffer [fs] 0 =
      .ok (HC_STATUS_OK, (fs.data.drop fs.pos).take n ++ m_buffer.drop n,
        [{ fs with pos := fs.pos + n }], 0) := by
  have hgot : ((fs.data.drop fs.pos).take n).length = n := by
    rw [List.length_take, List.length_drop]; omega
  unfold read_loop
  rw [if_neg (by omega)]
  simp only [List.get?_cons_zero, hgot, hopen, Bool.not_true, Bool.false_eq_true, if_false,
    Nat.zero_add, if_neg (show ¬ n > m_buffer.length by omega), List.take_zero, List.nil_append,
    ne_eq, not_true_eq_false, Nat.sub_self, List.set_cons_zero]
  unfold read_loop
  rw [if_pos rfl]


/-! ## `encryptFile` and `decryptFile` on a plaintext of one segment -/

/-- A key that satisfies the invariant drives the codec loops: its generator
runs through a full cycle, so the outputs a segment needs are nonzero, below
`out_size` and pairwise distinct. -/
theorem keyInvariant_good (k : HcKeyData) (hk : KeyInvariant k) (bound : Nat)
    (hb : k.m_out_size ≤ bound) :
    k.m_lfsr_specs / 2 ^ 32 % 2 ^ 32 ≠ 0 ∧ k.m_lfsr_specs % 2 ^ 32 ≠ 0 ∧
    0 < k.m_out_size ∧
    (∀ m, m < 256 * ((k.m_in_size + 255) / 256) - 1 →
      (lfsrNext (k.m_lfsr_specs / 2 ^ 32 % 2 ^ 32))^[m + 1] (k.m_lfsr_specs % 2 ^ 32)
        < k.m_out_size) ∧
    GoodOutputs (k.m_lfsr_specs / 2 ^ 32 % 2 ^ 32) (k.m_lfsr_specs % 2 ^ 32)
      ((k.m_in_size + 255) / 256) bound := by
  obtain ⟨hin, hio, b, hb1, hb2, hout, hs1, hs2, hp0, hreg, -⟩ := hk
  obtain ⟨-, hrange, huniq⟩ := registered_fullCycle b hb1 hb2 _ hreg _ hs1 hs2
  have hpow : 0 < 2 ^ b := Nat.two_pow_pos b
  have hdvd : 256 ∣ 2 ^ b := by
    have : (256 : Nat) = 2 ^ 8 := by norm_num
    rw [this]
    exact Nat.pow_dvd_pow 2 (by omega)
  obtain ⟨q, hq⟩ := hdvd
  have hN : 256 * ((k.m_in_size + 255) / 256) ≤ 2 ^ b := by
    have : (k.m_in_size + 255) / 256 ≤ q := by
      rw [hout, hq] at hio
      omega
    rw [hq]
    exact Nat.mul_le_mul_left _ this
  have hlt : ∀ m, (lfsrNext (k.m_lfsr_specs / 2 ^ 32 % 2 ^ 32))^[m]
      (k.m_lfsr_specs % 2 ^ 32) < k.m_out_size := by
    intro m
    have h2 : (lfsrNext (k.m_lfsr_specs / 2 ^ 32 % 2 ^ 32))^[m]
        (k.m_lfsr_specs % 2 ^ 32) ≤ 2 ^ b - 1 := (hrange m).2
    omega
  have hne : ∀ m, (lfsrNext (k.m_lfsr_specs / 2 ^ 32 % 2 ^ 32))^[m]
      (k.m_lfsr_specs % 2 ^ 32) ≠ 0 := by
    intro m
    have h1 : 1 ≤ (lfsrNext (k.m_lfsr_specs / 2 ^ 32 % 2 ^ 32))^[m]
        (k.m_lfsr_specs % 2 ^ 32) := (hrange m).1
    omega
  refine ⟨hp0, by omega, by omega, fun m _ => hlt _, fun m _ => hne _,
    fun m _ => lt_of_lt_of_le (hlt _) hb, fun m m2 hm hm2 he => ?_⟩
  obtain ⟨k0, -, hk0⟩ := huniq _ (hrange (m + 1)).1 (hrange (m + 1)).2
  have e1 := hk0 (m + 1) ⟨by omega, by omega, rfl⟩
  have e2 := hk0 (m2 + 1) ⟨by omega, by omega, he.symm⟩
  omega

/-- A plaintext of at most `2 ^ 15` bytes gets a single key. -/
theorem generateKey_small (reg : PolyRegistry) (hreg : RegistryReady reg) (L : Nat)
    (hL : 1 ≤ L) (hle : L ≤ 32768) (draws : Nat → KeyDraws) (hdraws : KeyDrawsOk draws)
    (shuffle : Nat → Nat) :
    ∃ (reg1 : PolyRegistry) (lfsr1 : HcLfsr) (k : HcKeyData),
      generateKey reg (HcLfsr.new 0) L draws shuffle = .ok (HC_STATUS_OK, reg1, lfsr1, [k]) ∧
      k.m_in_size = L ∧ k.m_out_size = 32768 ∧ KeyInvariant k := by
  obtain ⟨greedy, pows, r, status, reg1, lfsr1, keys, _, _, _, _, h5, h6, h7, h8, _, hgen, _,
    hgood, hok⟩ := generateKey_spec reg hreg L hL draws shuffle
  have hs := hgood hdraws
  obtain ⟨_, _, planned, hfor, hperm⟩ := hok hs
  have hpows : pows = [] := by
    cases pows with
    | nil => rfl
    | cons x l =>
      have := (h5 x (List.mem_cons_self _ _)).ge
      simp only [List.sum_cons] at h8
      omega
  subst hpows
  simp only [List.sum_nil, Nat.zero_add] at h8
  subst h8
  rw [List.nil_append] at hfor
  cases hfor with
  | cons hk hrest =>
    cases hrest
    have hkeys := List.perm_singleton.1 hperm
    rw [hkeys, hs] at hgen
    refine ⟨reg1, lfsr1, _, hgen, hk.1, ?_, hk.2.2.2.2⟩
    rw [hk.2.1]
    split <;> omega

/-- The method `encryptSegment` reaches its write loop and returns what the
write loop returns. -/
theorem encryptSegment_writes (aes : AesCbc) (hinv : aes.Inverse) (kd : HcKeyData)
    (rnd : SegRandom) (e : Engine) (lfsr0 : HcLfsr) (in_file out_file : FileSpec)
    (hin : 1 ≤ kd.m_in_size) (hio : kd.m_in_size ≤ kd.m_out_size)
    (hl : e.m_lfsr = some lfsr0)
    (hif : e.m_in_files.get? e.m_in_file_index = some in_file) (hifo : in_file.m_file = true)
    (hifl : in_file.pos + kd.m_in_size ≤ in_file.data.length)
    (hof : e.m_out_files.get? e.m_out_file_index = some out_file)
    (hofo : out_file.m_file = true) (hbuf : kd.m_out_size ≤ e.m_buffer.length)
    (hp0 : kd.m_lfsr_specs / 2 ^ 32 % 2 ^ 32 ≠ 0) (hs0 : kd.m_lfsr_specs % 2 ^ 32 ≠ 0)
    (hgood : GoodOutputs (kd.m_lfsr_specs / 2 ^ 32 % 2 ^ 32) (kd.m_lfsr_specs % 2 ^ 32)
      ((kd.m_in_size + 255) / 256) e.m_buffer.length) :
    ∃ W : List Nat, W.length = e.m_buffer.length ∧
      ∀ files index,
        write_loop kd.m_out_size kd.m_out_size W e.m_out_files e.m_out_file_index =
          .ok (HC_STATUS_OK, files, index) →
        ∃ e1, encryptSegment aes e kd rnd = .ok (HC_STATUS_OK, e1) ∧
          e1.m_out_files = files ∧ e1.m_out_file_index = index ∧ e1.m_key = e.m_key := by
  obtain ⟨reg1, hsp⟩ := setSpec_ok e.reg lfsr0 kd.m_lfsr_specs hp0 hs0
  have hwl := prefill_buffer_length rnd.prefill kd e.m_buffer hbuf
  obtain ⟨st1, el, hwl1, -, -, -, -⟩ := codec_loops aes hinv kd.m_key rnd.padding
    (kd.m_lfsr_specs / 2 ^ 32 % 2 ^ 32) kd.m_in_size
    { is := kd.m_in_size, buf := List.replicate 256 0, ivec := kd.m_iv,
      indices := List.replicate 256 0,
      lfsr := { lfsr0 with m_seed := kd.m_lfsr_specs % 2 ^ 32,
                           m_poly := kd.m_lfsr_specs / 2 ^ 32 % 2 ^ 32,
                           m_lfsr := kd.m_lfsr_specs % 2 ^ 32 },
      work := prefill_buffer rnd.prefill kd e.m_buffer, file := in_file }
    (le_refl _) rfl (List.length_replicate _ _) (List.length_replicate _ _)
    hifl (by simp only [hwl]; exact hgood)
  simp only [hwl] at hwl1
  refine ⟨st1.work, hwl1, fun files index ew => ?_⟩
  apply Exists.intro
  apply And.intro
  · unfold encryptSegment
    rw [if_neg (by omega)]
    simp only [hif, hifo, hof, hofo, hl, Bool.not_true, Bool.false_eq_true, if_false, hsp,
      if_neg (show ¬ kd.m_out_size > e.m_buffer.length by omega), el, ne_eq,
      not_true_eq_false, ew]
    rfl
  · exact ⟨rfl, rfl, rfl⟩

/-- The write loop fills a run of open output files whose sizes add up to the
bytes to write, closes each and moves past the last. -/
theorem write_loop_fill : ∀ (files pre post : List FileSpec) (fuel : Nat) (ob : List Nat),
    (∀ f ∈ files, f.m_file = true ∧ 0 < f.m_size) → files.length ≤ fuel →
    (files.map (fun f => f.m_size)).sum ≤ ob.length →
    ∃ files1, write_loop fuel (files.map (fun f => f.m_size)).sum ob (pre ++ files ++ post)
        pre.length = .ok (HC_STATUS_OK, pre ++ files1 ++ post, pre.length + files.length) ∧
      files1.map (fun f => f.data.length) = files.map (fun f => f.data.length + f.m_size) := by
  intro files
  induction files with
  | nil =>
    intro pre post fuel ob _ _ _
    refine ⟨[], ?_, rfl⟩
    unfold write_loop
    rw [if_pos (by simp)]
    rfl
  | cons f rest ih =>
    intro pre post fuel ob hall hfuel hsum
    obtain ⟨fuel1, rfl⟩ : ∃ k, fuel = k + 1 := ⟨fuel - 1, by simp at hfuel; omega⟩
    obtain ⟨hopen, hpos⟩ := hall f (List.mem_cons_self _ _)
    simp only [List.map_cons, List.sum_cons] at hsum ⊢
    have hget : (pre ++ f :: rest ++ post).get? pre.length = some f := by
      rw [List.append_assoc, List.get?_eq_getElem?, List.getElem?_append_right (le_refl _)]
      simp
    have hset : ∀ g, (pre ++ f :: rest ++ post).set pre.length g =
        (pre ++ [g]) ++ rest ++ post := by
      intro g
      rw [List.append_assoc, List.set_append_right _ _ (le_refl _)]
      simp
    obtain ⟨files1, e1, hlen1⟩ := ih
      (pre ++ [⟨false, f.m_size - f.m_size, f.data ++ ob.take f.m_size, f.pos⟩]) post fuel1
      (ob.drop f.m_size)
      (fun g hg => hall g (List.mem_cons_of_mem _ hg))
      (by simp at hfuel; omega) (by rw [List.length_drop]; omega)
    refine ⟨⟨false, f.m_size - f.m_size, f.data ++ ob.take f.m_size, f.pos⟩ :: files1, ?_, ?_⟩
    · unfold write_loop
      rw [if_neg (by omega)]
      have hchunk : (if f.m_size + (List.map (fun f => f.m_size) rest).sum > f.m_size
          then f.m_size else f.m_size + (List.map (fun f => f.m_size) rest).sum) = f.m_size := by
        split <;> omega
      simp only [hget, hchunk, hopen, Bool.not_true, Bool.false_eq_true, if_false,
        if_neg (show ¬ f.m_size = 0 by omega), Nat.sub_self, if_true, hset,
        Nat.add_sub_cancel_left]
      simp only [Nat.sub_self, List.length_append, List.length_singleton] at e1
      rw [e1]
      simp only [List.append_assoc, List.singleton_append, List.length_cons]
      congr 3
      omega
    · simp only [List.map_cons, hlen1, List.length_append, List.length_take]
      congr 2
      omega

/-- The loop that opens the files to join stops at the first empty file. -/
theorem open_joins_empty (files : Nat → Option (List Nat)) :
    ∀ (n i : Nat) (m_in_files : List FileSpec) (total j : Nat), i ≤ j → j < i + n →
      files j = some [] →
      (∀ t, i ≤ t → t < j → ∃ d, files t = some d ∧ d.length ≠ 0) →
      open_joins files n i m_in_files total = .error .terminated := by
  intro n
  induction n with
  | zero => intro i _ _ j h1 h2; omega
  | succ n ih =>
    intro i m_in_files total j h1 h2 hj hbefore
    unfold open_joins
    by_cases hij : i = j
    · subst hij
      rw [hj]
      simp
    · obtain ⟨d, hd, hlen⟩ := hbefore i (le_refl _) (by omega)
      rw [hd]
      simp only [if_neg hlen]
      exact ih (i + 1) _ _ j (by omega) (by omega) hj
        (fun t ht1 ht2 => hbefore t (by omega) ht2)

theorem decryptFile_terminated (aes : AesCbc) (e : Engine) (single : Option (List Nat))
    (files : Nat → Option (List Nat)) (joins : Nat) (hj : joins ≠ 0)
    (h : open_joins files joins 0 e.m_in_files 0 = .error .terminated) :
    decryptFile aes e single files joins = .error .terminated := by
  unfold decryptFile
  simp only [if_neg hj, h]

/-- The sizes `encryptFile` assigns to 14 output files for `2 ^ 15` bytes: the
rounded chunk size is 2560, so the thirteenth file gets the last 2048 bytes
and the fourteenth none. -/
theorem plan_out_files_14 :
    (plan_out_files 32768 14 (List.replicate 14 ⟨false, 0, [], 0⟩)).map
        (fun fs => { fs with m_file := true }) =
      [] ++ (List.replicate 12 ⟨true, 2560, [], 0⟩ ++ [⟨true, 2048, [], 0⟩]) ++
        [⟨true, 0, [], 0⟩] := by
  decide


/-! ## The shuffle of the key segments -/

theorem shuffle_step_length (max_index : Nat) (draw : Nat → Nat) (l : List HcKeyData) (i : Nat) :
    (shuffle_step max_index draw l i).length = l.length := by
  unfold shuffle_step
  simp only []
  split
  · rw [List.length_set, List.length_set]
  · rfl

/-- One pass of the shuffle touches only position `i - 1` and the drawn index. -/
theorem shuffle_step_frame (max_index : Nat) (draw : Nat → Nat) (l : List HcKeyData)
    (i p : Nat) (hp1 : i - 1 ≠ p) (hp2 : i + draw i % (max_index - i + 1) ≠ p) :
    (shuffle_step max_index draw l i)[p]? = l[p]? := by
  unfold shuffle_step
  simp only []
  split
  · rw [List.getElem?_set, if_neg hp2, List.getElem?_set, if_neg hp1]
  · rfl

/-- The shuffle leaves a position alone that no pass names, be it as `i - 1`
or as the drawn index. -/
theorem shuffle_keys_frame (draw : Nat → Nat) (l : List HcKeyData) (p : Nat)
    (h : ∀ i, 1 ≤ i → i < (l.length - 1) % 256 →
      i - 1 ≠ p ∧ i + draw i % ((l.length - 1) % 256 - i + 1) ≠ p) :
    (shuffle_keys draw l)[p]? = l[p]? ∧ (shuffle_keys draw l).length = l.length := by
  unfold shuffle_keys
  split
  · exact ⟨rfl, rfl⟩
  · simp only []
    have hmem : ∀ i ∈ List.range' 1 ((l.length - 1) % 256 - 1),
        1 ≤ i ∧ i < (l.length - 1) % 256 := by
      intro i hi
      rw [List.mem_range'_1] at hi
      omega
    generalize List.range' 1 ((l.length - 1) % 256 - 1) = is at hmem
    suffices hs : ∀ (is : List Nat) (m : List HcKeyData),
        (∀ i ∈ is, 1 ≤ i ∧ i < (l.length - 1) % 256) → m[p]? = l[p]? → m.length = l.length →
        (is.foldl (shuffle_step ((l.length - 1) % 256) draw) m)[p]? = l[p]? ∧
          (is.foldl (shuffle_step ((l.length - 1) % 256) draw) m).length = l.length from
      hs is l hmem rfl rfl
    intro is
    induction is with
    | nil => intro m _ hm hlen; exact ⟨hm, hlen⟩
    | cons i is ih =>
      intro m hmem hm hlen
      rw [List.foldl_cons]
      obtain ⟨h1, h2⟩ := hmem i (List.mem_cons_self _ _)
      obtain ⟨h3, h4⟩ := h i h1 h2
      exact ih _ (fun j hj => hmem j (List.mem_cons_of_mem _ hj))
        (by rw [shuffle_step_frame _ _ _ _ _ h3 h4]; exact hm)
        (by rw [shuffle_step_length]; exact hlen)


/-! ## The sizes of the split files -/

theorem set_split_sizes_length (c : Nat) :
    ∀ (files : List FileSpec) (temp : Nat), (set_split_sizes c temp files).length = files.length := by
  intro files
  induction files with
  | nil => intro temp; rfl
  | cons f rest ih =>
    intro temp
    simp only [set_split_sizes, List.length_cons, ih]

/-- File `i` gets `min (chunk_size, what is left after i full chunks)`. -/
theorem set_split_sizes_get (c : Nat) :
    ∀ (files : List FileSpec) (temp i : Nat), i < files.length →
      ((set_split_sizes c temp files).map (fun fs => fs.m_size))[i]? =
        some (min c (temp - i * c)) := by
  intro files
  induction files with
  | nil => intro temp i hi; simp at hi
  | cons f rest ih =>
    intro temp i hi
    cases i with
    | zero =>
      simp only [set_split_sizes, List.map_cons, List.getElem?_cons_zero, Nat.zero_mul,
        Nat.sub_zero]
      congr 1
      split <;> omega
    | succ j =>
      simp only [set_split_sizes, List.map_cons, List.getElem?_cons_succ]
      rw [ih _ j (by simpa using hi)]
      congr 1
      have e : (j + 1) * c = j * c + c := by ring
      rw [e]
      split
      · rw [Nat.sub_sub, Nat.add_comm c]
      · have h1 : temp - temp - j * c = 0 := by omega
        have h2 : temp - (j * c + c) = 0 := by omega
        rw [h1, h2]

theorem set_split_sizes_sum (c : Nat) :
    ∀ (files : List FileSpec) (temp : Nat),
      ((set_split_sizes c temp files).map (fun fs => fs.m_size)).sum =
        min temp (files.length * c) := by
  intro files
  induction files with
  | nil => intro temp; simp [set_split_sizes]
  | cons f rest ih =>
    intro temp
    simp only [set_split_sizes, List.map_cons, List.sum_cons, ih, List.length_cons]
    have e : (rest.length + 1) * c = rest.length * c + c := by ring
    rw [e]
    split <;> omega

/-- The rounding "Make sure the splits happen at a 256-byte boundary" rounds
`T / K` up to a multiple of 256. -/
theorem split_chunk_eq (c : Nat) :
    (if c &&& 0xFF ≠ 0 then (c - c % 0x100) + 0x100 else c) = (c + 255) / 256 * 256 := by
  have h := Nat.and_pow_two_sub_one_eq_mod c 8
  have h2 : c &&& 0xFF = c % 256 := h
  rw [h2]
  split <;> omega

theorem plan_out_files_split (T K : Nat) (hK : K ≠ 0) (files : List FileSpec) :
    plan_out_files T K files = set_split_sizes ((T / K + 255) / 256 * 256) T files := by
  unfold plan_out_files
  rw [if_pos hK]
  simp only []
  rw [split_chunk_eq]

/-- For a total of `m` blocks of `2 ^ 15` bytes the rounded chunk size times
`K` covers the total, and `K - 1` chunks do not, except for one block and
`K = 14`. -/
theorem split_chunk_bounds (m K : Nat) (hm : 1 ≤ m) (hK1 : 2 ≤ K) (hK2 : K ≤ 16) :
    32768 * m ≤ K * ((32768 * m / K + 255) / 256 * 256) ∧
    (¬ (m = 1 ∧ K = 14) → (K - 1) * ((32768 * m / K + 255) / 256 * 256) < 32768 * m) := by
  by_cases h1 : m = 1
  · subst h1
    interval_cases K <;> simp
  · have hm2 : 2 ≤ m := by omega
    obtain ⟨c, hc⟩ : ∃ c, c = (32768 * m / K + 255) / 256 * 256 := ⟨_, rfl⟩
    rw [← hc]
    interval_cases K <;> omega

/-- A key list that `generateKey` returns with `HC_STATUS_OK` has a total
`out_size` of `m ≥ 1` blocks of `2 ^ 15` bytes. -/
theorem generateKey_total (reg : PolyRegistry) (hreg : RegistryReady reg) (L : Nat)
    (hL : 1 ≤ L) (draws : Nat → KeyDraws) (shuffle : Nat → Nat) :
    ∃ (status : Int) (reg1 : PolyRegistry) (lfsr1 : HcLfsr) (keys : List HcKeyData),
      generateKey reg (HcLfsr.new 0) L draws shuffle = .ok (status, reg1, lfsr1, keys) ∧
      (KeyDrawsOk draws → status = HC_STATUS_OK) ∧
      (status = HC_STATUS_OK →
        (keys.map (fun k => k.m_out_size)).sum = 32768 * ((L + 32767) / 32768) ∧
        1 ≤ (L + 32767) / 32768) := by
  obtain ⟨greedy, pows, r, status, reg1, lfsr1, keys, _, _, _, _, h5, h6, h7, h8, _, hgen, _,
    hgood, hok⟩ := generateKey_spec reg hreg L hL draws shuffle
  refine ⟨status, reg1, lfsr1, keys, hgen, hgood, fun hs => ?_⟩
  obtain ⟨_, _, planned, hfor, hperm⟩ := hok hs
  have hio := keys_io_perm pows r h5 planned keys hfor hperm
  have hout : (keys.map (fun k => k.m_out_size)).sum =
      pows.sum + (if r < 32768 then 32768 else r) := by
    have e : keys.map (fun k => k.m_out_size) = (keys.map HcKeyData.io).map Prod.snd := by
      simp [List.map_map, Function.comp_def, HcKeyData.io]
    rw [e, ((hio.map Prod.snd).sum_eq), List.map_append, List.sum_append, sum_map_snd_diag]
    simp [plannedIo]
  have hout2 : (keys.map (fun k => k.m_out_size)).sum = pows.sum + 32768 := by
    rw [hout]; split <;> omega
  obtain ⟨m, hm⟩ := sum_pows_dvd pows h5
  refine ⟨?_, by omega⟩
  rw [hout2, ← h8, hm]
  have : (32768 * m + r + 32767) / 32768 = m + 1 := by omega
  rw [this]; ring

/-- The split sizes for a total of `m` blocks of `2 ^ 15` bytes, away from one
block split in 14: every file but the last gets the rounded chunk size, no
file is empty, and the sizes add up to the total. -/
theorem plan_split_general (m K : Nat) (hm : 1 ≤ m) (hK1 : 2 ≤ K) (hK2 : K ≤ 16)
    (hne : ¬ (m = 1 ∧ K = 14)) :
    (∀ i, i + 1 < K →
      ((plan_out_files (32768 * m) K (List.replicate K emptyFileSpec)).map
        (fun fs => fs.m_size))[i]? = some ((32768 * m / K + 255) / 256 * 256)) ∧
    (∀ s ∈ (plan_out_files (32768 * m) K (List.replicate K emptyFileSpec)).map
        (fun fs => fs.m_size), s ≠ 0) := by
  obtain ⟨hcover, hshort⟩ := split_chunk_bounds m K hm hK1 hK2
  have hlt := hshort hne
  rw [plan_out_files_split _ _ (by omega)]
  obtain ⟨c, hc⟩ : ∃ c, c = (32768 * m / K + 255) / 256 * 256 := ⟨_, rfl⟩
  rw [← hc] at hcover hlt ⊢
  have hstep : ∀ i, i + 1 ≤ K → i * c + c ≤ (K - 1) * c + c := by
    intro i hi
    exact Nat.add_le_add_right (Nat.mul_le_mul_right c (by omega)) c
  have hKc : (K - 1) * c + c = K * c := by
    have : K = (K - 1) + 1 := by omega
    conv_rhs => rw [this, Nat.add_mul, Nat.one_mul]
  constructor
  · intro i hi
    rw [set_split_sizes_get c _ _ i (by rw [List.length_replicate]; omega)]
    congr 1
    have h1 := hstep (i + 1) (by omega)
    have e : (i + 1) * c = i * c + c := by ring
    rw [e] at h1
    omega
  · intro s hs
    obtain ⟨n, hn⟩ := List.mem_iff_getElem?.1 hs
    have hnlt : n < K := by
      obtain ⟨h, -⟩ := List.getElem?_eq_some.1 hn
      rw [List.length_map, set_split_sizes_length, List.length_replicate] at h
      exact h
    rw [set_split_sizes_get c _ _ n (by rw [List.length_replicate]; exact hnlt)] at hn
    have h1 := hstep n (by omega)
    have hs2 : s = min c (32768 * m - n * c) := by
      exact (Option.some.inj hn).symm
    have hcpos : 0 < c := by
      rcases Nat.eq_zero_or_pos c with h0 | hpos
      · rw [h0] at hcover; omega
      · exact hpos
    omega

theorem plan_split_sum (m K : Nat) (hm : 1 ≤ m) (hK1 : 2 ≤ K) (hK2 : K ≤ 16) :
    ((plan_out_files (32768 * m) K (List.replicate K emptyFileSpec)).map
      (fun fs => fs.m_size)).sum = 32768 * m := by
  obtain ⟨hcover, -⟩ := split_chunk_bounds m K hm hK1 hK2
  rw [plan_out_files_split _ _ (by omega), set_split_sizes_sum, List.length_replicate]
  omega

/-- One block of `2 ^ 15` bytes split in 14: the rounded chunk size is 2560,
twelve files get it, the thirteenth gets the last 2048 bytes, the fourteenth
none. -/
theorem plan_split_14 :
    (plan_out_files 32768 14 (List.replicate 14 emptyFileSpec)).map (fun fs => fs.m_size) =
      List.replicate 12 2560 ++ [2048, 0] := by
  decide


/-! ## `getSpec`, `setSpec` and `reset` -/

theorem create_polies_false_initialized (max_bits : Nat) (reg : PolyRegistry) :
    (create_polies false max_bits reg).1.initialized = true ∧
    (create_polies false max_bits reg).2 = true := by
  unfold create_polies
  simp [fill_polies_false_snd]

/-- Every call of `setSpec` leaves the registry initialised. -/
theorem setSpec_initialized (reg : PolyRegistry) (self : HcLfsr) (spec : Nat) :
    (HcLfsr.setSpec reg self spec).1.initialized = true := by
  have hinit : (if !reg.initialized then (create_polies false self.m_max_bits reg).1
      else reg).initialized = true := by
    cases h : reg.initialized with
    | true => simp [h]
    | false => simp [(create_polies_false_initialized self.m_max_bits reg).1]
  unfold HcLfsr.setSpec
  simp only []
  split <;> exact hinit

theorem setSpec_false (reg : PolyRegistry) (self : HcLfsr) (spec : Nat)
    (h : spec / 2 ^ 32 % 2 ^ 32 = 0 ∨ spec % 2 ^ 32 = 0) :
    (HcLfsr.setSpec reg self spec).2 = (self, false) := by
  unfold HcLfsr.setSpec
  simp only []
  rw [if_pos h]

theorem setSpec_true (reg : PolyRegistry) (self : HcLfsr) (spec : Nat)
    (hp : spec / 2 ^ 32 % 2 ^ 32 ≠ 0) (hs : spec % 2 ^ 32 ≠ 0) :
    (HcLfsr.setSpec reg self spec).2 =
      ({ self with m_seed := spec % 2 ^ 32, m_poly := spec / 2 ^ 32 % 2 ^ 32,
                   m_lfsr := spec % 2 ^ 32 }, true) := by
  obtain ⟨reg1, h⟩ := setSpec_ok reg self spec hp hs
  rw [h]

/-- A seed that the generator maps to itself fails the verification: the
loop marks one slot and stops. In particular the seed 0 fails. -/
theorem verify_poly_fixed_point (poly b seed : Nat) (hb : 2 ≤ b)
    (hfix : NEXT_LFSR (seed &&& (2 ^ b - 1)) poly = seed &&& (2 ^ b - 1)) :
    verify_poly poly b seed = false := by
  have hpow : 4 ≤ 2 ^ b := by
    have : 2 ^ 2 ≤ 2 ^ b := Nat.pow_le_pow_right (by norm_num) hb
    omega
  have hle : seed &&& (2 ^ b - 1) ≤ 2 ^ b - 1 := Nat.and_le_right
  obtain ⟨s, hs⟩ : ∃ s, s = seed &&& (2 ^ b - 1) := ⟨_, rfl⟩
  rw [← hs] at hfix hle
  have hloop : ∀ vals : List Nat,
      verify_loop poly (2 ^ b - 1) s (2 ^ b - 1 - 1) s vals = vals.set s s := by
    intro vals
    obtain ⟨m, hm⟩ : ∃ m, 2 ^ b - 1 - 1 = m + 1 := ⟨2 ^ b - 3, by omega⟩
    rw [hm, verify_loop, if_neg (by omega), if_neg (by rw [hfix]; exact fun h => h rfl)]
  unfold verify_poly
  simp only [Nat.one_shiftLeft]
  rw [← hs, hloop]
  obtain ⟨i, hi1, hi2, hi3⟩ : ∃ i, i ≠ 0 ∧ i ≠ s ∧ i < 2 ^ b := by
    by_cases h1 : s = 1
    · exact ⟨2, by omega, by omega, by omega⟩
    · exact ⟨1, by omega, fun h => h1 h.symm, by omega⟩
  have hget : (((List.replicate (2 ^ b) 0xFFFFFFFF).set s s).set 0 0)[i]? = some 0xFFFFFFFF := by
    rw [List.getElem?_set, if_neg (fun h => hi1 h.symm), List.getElem?_set,
      if_neg (fun h => hi2 h.symm), List.getElem?_replicate, if_pos hi3]
  cases hall : (((List.replicate (2 ^ b) 0xFFFFFFFF).set s s).set 0 0).all
      (fun v => v != 0xFFFFFFFF) with
  | false => rfl
  | true =>
    rw [List.all_eq_true] at hall
    have hmem := List.mem_iff_getElem?.2 ⟨i, hget⟩
    have := hall _ hmem
    simp at this

theorem find_poly_index_some (size : Nat) :
    ∀ (ks : List Nat) (k : Nat), find_poly_index size ks = some k →
      k ∈ ks ∧ 1 <<< (MIN_BITS + k) = size := by
  intro ks
  induction ks with
  | nil => intro k h; simp [find_poly_index] at h
  | cons a rest ih =>
    intro k h
    rw [find_poly_index] at h
    split at h
    · rename_i heq
      have hk : a = k := Option.some.inj h
      subst hk
      exact ⟨List.mem_cons_self _ _, heq⟩
    · obtain ⟨h1, h2⟩ := ih k h
      exact ⟨List.mem_cons_of_mem _ h1, h2⟩

theorem getSpec_poly_zero (reg : PolyRegistry) (self : HcLfsr) (h : self.m_poly = 0) :
    HcLfsr.getSpec reg self = 0 := by
  unfold HcLfsr.getSpec
  split
  · rfl
  · rw [if_pos (Or.inr h)]

/-- What a call of `reset` that returns has done. -/
theorem reset_cases (reg : PolyRegistry) (self : HcLfsr) (size seed : Nat) (variant : Int)
    (dv ds : Nat) (reg1 : PolyRegistry) (self1 : HcLfsr) (ok : Bool)
    (h : HcLfsr.reset reg self size seed variant dv ds = some (reg1, self1, ok)) :
    reg1.initialized = true ∧
    (ok = false → self1.m_poly = 0 ∧ HcLfsr.getSpec reg1 self1 = 0) ∧
    (ok = true → ∃ b, 15 ≤ b ∧ b ≤ self.m_max_bits ∧ size = 2 ^ b ∧
      (0 ≤ variant →
        (reg1.polies.getD (b - 15) []).get?
          ((variant.toNat % (reg1.polies.getD (b - 15) []).length) % 256) =
            some self1.m_poly) ∧
      (seed ≠ 0 → self1.m_seed = seed % 2 ^ b) ∧
      self1.m_seed ≠ 0 ∧ self1.m_seed < 2 ^ b ∧ self1.m_lfsr = self1.m_seed ∧
      verify_poly self1.m_poly b self1.m_seed = true) := by
  have hinit : (if !reg.initialized then (create_polies false self.m_max_bits reg).1
      else reg).initialized = true := by
    cases h0 : reg.initialized with
    | true => simp [h0]
    | false => simp [(create_polies_false_initialized self.m_max_bits reg).1]
  obtain ⟨reg0, hreg0⟩ : ∃ r, r = (if !reg.initialized then
      (create_polies false self.m_max_bits reg).1 else reg) := ⟨_, rfl⟩
  rw [← hreg0] at hinit
  unfold HcLfsr.reset at h
  simp only [] at h
  rw [← hreg0] at h
  simp only [hinit, Bool.not_true, Bool.false_eq_true, if_false] at h
  split at h
  · -- size out of range
    have e := Option.some.inj h
    simp only [Prod.mk.injEq] at e
    obtain ⟨e1, e2, e3⟩ := e
    subst e1 e2 e3
    exact ⟨hinit, fun _ => ⟨rfl, getSpec_poly_zero _ _ rfl⟩, fun hc => by simp at hc⟩
  · split at h
    · have e := Option.some.inj h
      simp only [Prod.mk.injEq] at e
      obtain ⟨e1, e2, e3⟩ := e
      subst e1 e2 e3
      exact ⟨hinit, fun _ => ⟨rfl, getSpec_poly_zero _ _ rfl⟩, fun hc => by simp at hc⟩
    · rename_i k hk
      obtain ⟨hmem, hsize⟩ := find_poly_index_some _ _ _ hk
      rw [List.mem_range] at hmem
      by_cases hlen : (reg0.polies.getD k []).length = 0
      · rw [if_pos hlen] at h
        exact Option.noConfusion h
      · rw [if_neg hlen] at h
        obtain ⟨idx, hidx⟩ : ∃ i, i = (if variant < 0 then
            (((get_random 0 (((reg0.polies.getD k []).length : Int) - 1) dv).getD 0).toNat) % 256
            else (variant.toNat % (reg0.polies.getD k []).length) % 256) := ⟨_, rfl⟩
        obtain ⟨sd, hsd⟩ : ∃ x, x = (if seed = 0 then
            ((get_random 1 (((1 <<< (k + MIN_BITS) : Nat) : Int) - 1) ds).getD 0).toNat
            else seed) &&& ((1 <<< (k + MIN_BITS)) - 1) := ⟨_, rfl⟩
        rw [← hidx, ← hsd] at h
        cases hpoly : (reg0.polies.getD k []).get? idx with
        | none =>
          rw [hpoly] at h
          exact Option.noConfusion h
        | some poly =>
          rw [hpoly] at h
          simp only [] at h
          by_cases hver : (!verify_poly poly (k + MIN_BITS) sd) = true
          · rw [if_pos hver] at h
            have e := Option.some.inj h
            simp only [Prod.mk.injEq] at e
            obtain ⟨e1, e2, e3⟩ := e
            subst e1 e2 e3
            exact ⟨hinit, fun _ => ⟨rfl, getSpec_poly_zero _ _ rfl⟩, fun hc => by simp at hc⟩
          · rw [if_neg hver] at h
            have e := Option.some.inj h
            simp only [Prod.mk.injEq] at e
            obtain ⟨e1, e2, e3⟩ := e
            subst e1 e2 e3
            refine ⟨hinit, fun hc => by simp at hc, fun _ => ?_⟩
            have hmin : MIN_BITS = 15 := rfl
            rw [hmin] at hmem hsize
            have hver2 : verify_poly poly (k + 15) sd = true := by
              rw [← hmin]
              simpa using hver
            rw [hmin, Nat.one_shiftLeft] at hsd
            have hb2 : 2 ≤ k + 15 := by omega
            have hpow : 0 < 2 ^ (k + 15) := Nat.two_pow_pos _
            have hsdlt : sd < 2 ^ (k + 15) := by
              rw [hsd]
              exact lt_of_le_of_lt Nat.and_le_right (by omega)
            have hsdid : sd &&& (2 ^ (k + 15) - 1) = sd := by
              rw [hsd, Nat.and_assoc, Nat.and_self]
            refine ⟨k + 15, by omega, by omega, ?_, ?_, ?_, ?_, hsdlt, rfl, hver2⟩
            · rw [← hsize, Nat.one_shiftLeft, Nat.add_comm]
            · intro hv
              rw [if_neg (by omega)] at hidx
              rw [Nat.add_sub_cancel, ← hidx]
              exact hpoly
            · intro hs
              rw [if_neg hs] at hsd
              rw [hsd]
              exact Nat.and_pow_two_sub_one_eq_mod _ _
            · intro hz
              have hz2 : sd = 0 := hz
              have hfix := verify_poly_fixed_point poly (k + 15) sd hb2
                (by rw [hsdid, hz2]; rfl)
              rw [hfix] at hver2
              exact Bool.noConfusion hver2

/-- On a registry that is ready, `reset (2 ^ b, seed, variant)` of an LFSR with
`m_max_bits = 28` succeeds for every `variant ≥ 0` and every seed whose low
`b` bits are not all zero. -/
theorem reset_variant_ok (reg : PolyRegistry) (hreg : RegistryReady reg) (lfsr : HcLfsr)
    (hmax : lfsr.m_max_bits = 28) (b : Nat) (hb1 : 15 ≤ b) (hb2 : b ≤ 28) (seed : Nat)
    (variant : Int) (hv : 0 ≤ variant) (hseed : seed % 2 ^ b ≠ 0) (dv ds : Nat) :
    ∃ p, (registeredPolies b).get? (variant.toNat % (registeredPolies b).length) = some p ∧
      HcLfsr.reset reg lfsr (2 ^ b) seed variant dv ds =
        some (fullRegistry,
          { lfsr with m_poly := p, m_seed := seed % 2 ^ b, m_lfsr := seed % 2 ^ b }, true) ∧
      verify_poly p b (seed % 2 ^ b) = true := by
  obtain ⟨hlen1, hlen2⟩ := registeredPolies_length b hb1 hb2
  have hpos : 2 ≤ 2 ^ b := by
    have : 2 ^ 1 ≤ 2 ^ b := Nat.pow_le_pow_right (by norm_num) (by omega)
    omega
  have hidx : variant.toNat % (registeredPolies b).length < (registeredPolies b).length :=
    Nat.mod_lt _ (by omega)
  have hvar : (variant.toNat % (registeredPolies b).length) % 256 =
      variant.toNat % (registeredPolies b).length := Nat.mod_eq_of_lt (by omega)
  have hsdlt : seed % 2 ^ b < 2 ^ b := Nat.mod_lt _ (by omega)
  have hmask : seed &&& ((1 <<< b) - 1) = seed % 2 ^ b := by
    rw [Nat.one_shiftLeft]
    exact Nat.and_pow_two_sub_one_eq_mod _ _
  have hs0 : ¬ seed = 0 := by
    intro h0
    rw [h0] at hseed
    exact hseed (Nat.zero_mod _)
  obtain ⟨p, hp⟩ : ∃ p, (registeredPolies b).get?
      (variant.toNat % (registeredPolies b).length) = some p := by
    rw [List.get?_eq_getElem?, List.getElem?_eq_getElem hidx]
    exact ⟨_, rfl⟩
  have hpmem : p ∈ registeredPolies b := List.get?_mem hp
  have hfc := registered_fullCycle b hb1 hb2 p hpmem (seed % 2 ^ b) (by omega) (by omega)
  have hver := verify_poly_of_fullCycle p b (seed % 2 ^ b) (by omega) (by omega)
    (by omega) (by omega) hfc
  refine ⟨p, hp, ?_, hver⟩
  have hsize : ¬ (2 ^ b > 1 <<< 28 ∨ 2 ^ b < HcLfsr.getMinSize) := by
    rw [getMinSize_eq, Nat.one_shiftLeft]
    have h1 : 2 ^ b ≤ 2 ^ 28 := Nat.pow_le_pow_right (by norm_num) hb2
    have h2 : 2 ^ 15 ≤ 2 ^ b := Nat.pow_le_pow_right (by norm_num) hb1
    norm_num at h2
    omega
  have hvariants : fullRegistry.polies.getD (b - 15) [] = registeredPolies b := rfl
  have hlen0 : ¬ (registeredPolies b).length = 0 := by omega
  have eb : b - 15 + MIN_BITS = b := by unfold MIN_BITS; omega
  have hvneg : ¬ variant < 0 := by omega
  unfold HcLfsr.reset
  simp only [hmax, registry_after_init reg hreg, hsize, if_false, find_poly_index_pow b hb1 hb2,
    fullRegistry_initialized, Bool.not_true, Bool.false_eq_true, hvariants, hlen0,
    hvneg, hs0, if_true, hvar, hmask, hp, eb, hver]


/-! ## The key descriptor -/

theorem hexToString_loop_eq (buffer : List Nat) :
    ∀ (count pos : Nat) (str : Text),
      hexToString_loop buffer count pos str =
        str ++ (List.range count).flatMap (fun i => fmt_02X (buffer.getD (pos + i) 0)) := by
  intro count
  induction count with
  | zero => intro pos str; simp [hexToString_loop]
  | succ n ih =>
    intro pos str
    rw [hexToString_loop, ih, List.range_succ_eq_map]
    simp only [List.flatMap_cons, List.flatMap_map, Nat.add_zero, List.append_assoc]
    simp only [Nat.succ_eq_add_one, Nat.add_assoc, Nat.add_comm 1]

/-- The method `hexToString` appends the hexadecimal text of the first `count`
bytes of the buffer. -/
theorem hexToString_eq (buffer : List Nat) (count : Nat) (str : Text)
    (hlen : buffer.length = count) (hbytes : ∀ b ∈ buffer, b < 256) :
    hexToString buffer count str = str ++ hex_text buffer := by
  have hloop := hexToString_loop_eq buffer count 0 str
  have hflat : (List.range count).flatMap (fun i => fmt_02X (buffer.getD (0 + i) 0)) =
      hex_text buffer := by
    subst hlen
    unfold hex_text
    clear hloop
    induction buffer using List.reverseRecOn with
    | nil => rfl
    | append_singleton l a ih =>
      have hl : ∀ b ∈ l, b < 256 := fun b hb => hbytes b (List.mem_append_left _ hb)
      have ha : a < 256 := hbytes a (by simp)
      rw [List.length_append, List.length_singleton, List.range_succ, List.flatMap_append,
        List.flatMap_append]
      congr 1
      · rw [← ih hl]
        apply List.flatMap_congr
        intro i hi
        rw [List.mem_range] at hi
        simp only [Nat.zero_add, List.getD_eq_getElem?_getD]
        rw [List.getElem?_append_left hi]
      · simp only [List.flatMap_cons, List.flatMap_nil, List.append_nil, Nat.zero_add,
          List.getD_eq_getElem?_getD]
        rw [List.getElem?_append_right (le_refl _)]
        simp only [Nat.sub_self, List.getElem?_cons_zero, Option.getD_some, fmt_02X,
          Nat.mod_eq_of_lt ha]
  unfold hexToString
  split
  · rename_i h0
    subst h0
    have : buffer = [] := List.length_eq_zero.1 hlen
    subst this
    simp [hex_text]
  · rw [hloop, hflat]

theorem hex_digit_hex_upper : ∀ d, d < 16 → hex_digit (hex_upper d) = some d := by
  decide

theorem hex_upper_isUpperHex : ∀ d, d < 16 → IsUpperHex (hex_upper d) := by
  decide

theorem hex_byte_join : ∀ n0, n0 < 16 → ∀ n1, n1 < 16 →
    (((((0 <<< 4) % 256) ||| n0) <<< 4) % 256) ||| n1 = 16 * n0 + n1 := by
  decide

theorem hex_digit_eq_none_iff (c : Char) : hex_digit c = none ↔ ¬ IsUpperHex c := by
  unfold hex_digit IsUpperHex
  by_cases h1 : '0' ≤ c ∧ c ≤ '9'
  · simp [h1]
  · by_cases h2 : 'A' ≤ c ∧ c ≤ 'F'
    · simp [h1, h2]
    · simp [h1, h2]

/-- The loop of `stringToHex` returns true exactly when the `2 * count`
characters it looks at are all in `0-9` or `A-F`. -/
theorem stringToHex_loop_true_iff :
    ∀ (count : Nat) (s : Text) (buffer : List Nat) (pos : Nat), s.length = count * 2 →
      ((stringToHex_loop count s buffer pos).2 = true ↔ ∀ c ∈ s, IsUpperHex c) := by
  intro count
  induction count with
  | zero =>
    intro s buffer pos hlen
    have : s = [] := List.length_eq_zero.1 (by omega)
    subst this
    simp [stringToHex_loop]
  | succ n ih =>
    intro s buffer pos hlen
    match s, hlen with
    | c0 :: c1 :: rest, hlen =>
      have hrest : rest.length = n * 2 := by
        simp only [List.length_cons] at hlen
        omega
      rw [stringToHex_loop]
      simp only [List.getD_cons_zero, List.getD_cons_succ, List.drop_succ_cons, List.drop_zero]
      cases h0 : hex_digit c0 with
      | none =>
        have := (hex_digit_eq_none_iff c0).1 h0
        simp only [List.mem_cons]
        constructor
        · intro hc; exact Bool.noConfusion hc
        · intro hall; exact absurd (hall c0 (Or.inl rfl)) this
      | some n0 =>
        have hc0 : IsUpperHex c0 := by
          by_contra hn
          rw [(hex_digit_eq_none_iff c0).2 hn] at h0
          exact Option.noConfusion h0
        cases h1 : hex_digit c1 with
        | none =>
          have := (hex_digit_eq_none_iff c1).1 h1
          simp only [List.mem_cons]
          constructor
          · intro hc; exact Bool.noConfusion hc
          · intro hall; exact absurd (hall c1 (Or.inr (Or.inl rfl))) this
        | some n1 =>
          have hc1 : IsUpperHex c1 := by
            by_contra hn
            rw [(hex_digit_eq_none_iff c1).2 hn] at h1
            exact Option.noConfusion h1
          simp only []
          rw [ih rest _ _ hrest]
          simp only [List.mem_cons]
          constructor
          · rintro hall c (h | h | h)
            · rw [h]; exact hc0
            · rw [h]; exact hc1
            · exact hall c h
          · intro hall c hc
            exact hall c (Or.inr (Or.inr hc))
    | [], hlen => simp at hlen
    | [_], hlen => simp at hlen; omega

theorem stringToHex_true_iff (buffer : List Nat) (count : Nat) (str : Text) (hc : 1 ≤ count) :
    (stringToHex buffer count str).2 = true ↔
      (str.length = 2 * count ∧ ∀ c ∈ str, IsUpperHex c) := by
  unfold stringToHex
  by_cases hlen : str.length = count * 2
  · rw [if_neg (by rintro (h | h); omega; exact h hlen)]
    rw [stringToHex_loop_true_iff count str buffer 0 hlen]
    constructor
    · intro h; exact ⟨by omega, h⟩
    · intro h; exact h.2
  · rw [if_pos (Or.inr hlen)]
    constructor
    · intro h; exact Bool.noConfusion h
    · intro h; exact absurd (by omega) hlen

theorem hex_text_cons (b : Nat) (rest : List Nat) :
    hex_text (b :: rest) = hex_upper (b / 16) :: hex_upper (b % 16) :: hex_text rest := by
  simp [hex_text]

/-- On the hexadecimal text of a byte sequence the loop of `stringToHex`
writes the bytes back into the buffer and returns true. -/
theorem stringToHex_loop_hex_text :
    ∀ (bytes : List Nat) (tail : Text) (buffer : List Nat) (pos : Nat),
      (∀ b ∈ bytes, b < 256) → pos + bytes.length ≤ buffer.length →
      ∃ r, stringToHex_loop bytes.length (hex_text bytes ++ tail) buffer pos = (r, true) ∧
        r.length = buffer.length ∧
        (∀ i, i < bytes.length → r[pos + i]? = bytes[i]?) ∧
        ∀ i, (i < pos ∨ pos + bytes.length ≤ i) → r[i]? = buffer[i]? := by
  intro bytes
  induction bytes with
  | nil =>
    intro tail buffer pos _ _
    exact ⟨buffer, rfl, rfl, fun i hi => by simp at hi, fun i _ => rfl⟩
  | cons b rest ih =>
    intro tail buffer pos hbytes hlen
    have hb : b < 256 := hbytes b (List.mem_cons_self _ _)
    simp only [List.length_cons] at hlen
    obtain ⟨r, hr, hrlen, hin, hout⟩ := ih tail (buffer.set pos b) (pos + 1)
      (fun x hx => hbytes x (List.mem_cons_of_mem _ hx))
      (by rw [List.length_set]; omega)
    refine ⟨r, ?_, by rw [hrlen, List.length_set], ?_, ?_⟩
    · rw [List.length_cons, stringToHex_loop, hex_text_cons]
      simp only [List.cons_append, List.getD_cons_zero, List.getD_cons_succ,
        hex_digit_hex_upper (b / 16) (by omega), hex_digit_hex_upper (b % 16) (by omega),
        List.drop_succ_cons, List.drop_zero]
      rw [hex_byte_join (b / 16) (by omega) (b % 16) (by omega)]
      have hjoin : 16 * (b / 16) + b % 16 = b := by omega
      rw [hjoin]
      exact hr
    · intro i hi
      cases i with
      | zero =>
        rw [Nat.add_zero, hout pos (Or.inl (by omega)), List.getElem?_set, if_pos rfl,
          if_pos (by omega), List.getElem?_cons_zero]
      | succ j =>
        have := hin j (by simpa using hi)
        rw [List.getElem?_cons_succ, ← this]
        congr 1
        omega
    · intro i hi
      rw [hout i (by simp only [List.length_cons] at hi; omega), List.getElem?_set,
        if_neg (by simp only [List.length_cons] at hi; omega)]

/-- The method `stringToHex` reads the hexadecimal text of `count` bytes back
into a buffer of `count` bytes. -/
theorem stringToHex_hex_text (buffer bytes : List Nat) (count : Nat) (hc : 1 ≤ count)
    (hbuf : buffer.length = count) (hlen : bytes.length = count)
    (hbytes : ∀ b ∈ bytes, b < 256) :
    stringToHex buffer count (hex_text bytes) = (bytes, true) := by
  have htl : (hex_text bytes).length = count * 2 := by
    subst hlen
    clear hbuf hc hbytes
    induction bytes with
    | nil => rfl
    | cons b rest ih =>
      rw [hex_text_cons, List.length_cons, List.length_cons, List.length_cons, ih]
      omega
  obtain ⟨r, hr, hrlen, hin, -⟩ := stringToHex_loop_hex_text bytes [] buffer 0 hbytes
    (by omega)
  rw [List.append_nil, hlen] at hr
  unfold stringToHex
  rw [if_neg (by rintro (h | h); omega; exact h htl), hr]
  congr 1
  apply List.ext_getElem?
  intro i
  by_cases hi : i < bytes.length
  · have := hin i hi
    rw [Nat.zero_add] at this
    exact this
  · rw [List.getElem?_eq_none (by omega), List.getElem?_eq_none (by omega)]

theorem hex_text_length (bytes : List Nat) : (hex_text bytes).length = 2 * bytes.length := by
  induction bytes with
  | nil => rfl
  | cons b rest ih =>
    rw [hex_text_cons, List.length_cons, List.length_cons, List.length_cons, ih]
    omega

theorem hex_text_isUpperHex (bytes : List Nat) (hbytes : ∀ b ∈ bytes, b < 256) :
    ∀ c ∈ hex_text bytes, IsUpperHex c := by
  induction bytes with
  | nil => intro c hc; simp [hex_text] at hc
  | cons b rest ih =>
    intro c hc
    have hb : b < 256 := hbytes b (List.mem_cons_self _ _)
    rw [hex_text_cons] at hc
    rcases List.mem_cons.1 hc with h | hc
    · rw [h]; exact hex_upper_isUpperHex _ (by omega)
    · rcases List.mem_cons.1 hc with h | hc
      · rw [h]; exact hex_upper_isUpperHex _ (by omega)
      · exact ih (fun x hx => hbytes x (List.mem_cons_of_mem _ hx)) c hc

theorem renderList_append (a b : List (Text × PTree)) :
    PTree.renderList (a ++ b) = PTree.renderList a ++ PTree.renderList b := by
  induction a with
  | nil => simp [PTree.renderList]
  | cons x rest ih =>
    obtain ⟨k, t⟩ := x
    simp [PTree.renderList, ih]

/-- What one key appends to the text is the element text of its `Segment`
node. -/
theorem key_xml_segment_eq (xml_string : Text) (k : HcKeyData) (hk : k.WellTyped) :
    key_xml_segment xml_string k =
      xml_string ++ PTree.renderList [(XML_HC_SEGMENT, segment_tree k)] := by
  obtain ⟨h64, hin, hout, hivl, hivb, hkeyl, hkeyb⟩ := hk
  unfold key_xml_segment
  simp only [hexToString_eq k.m_iv 16 _ hivl hivb, hexToString_eq k.m_key 32 _ hkeyl hkeyb,
    fmt_u, fmt_llu, Nat.mod_eq_of_lt hin, Nat.mod_eq_of_lt hout, Nat.mod_eq_of_lt h64]
  simp only [segment_tree, segment_node, PTree.leaf, PTree.render, PTree.renderList,
    List.append_assoc, List.nil_append, List.append_nil]

theorem key_xml_segments_eq (m_key : List HcKeyData) (hk : ∀ k ∈ m_key, k.WellTyped) :
    ∀ xml_string : Text, m_key.foldl key_xml_segment xml_string =
      xml_string ++ PTree.renderList (m_key.map (fun k => (XML_HC_SEGMENT, segment_tree k))) := by
  induction m_key with
  | nil => intro s; simp [PTree.renderList]
  | cons k rest ih =>
    intro s
    rw [List.foldl_cons, key_xml_segment_eq s k (hk k (List.mem_cons_self _ _)),
      ih (fun x hx => hk x (List.mem_cons_of_mem _ hx)), List.map_cons, List.append_assoc,
      ← renderList_append]
    rfl

/-- The text `keyToXmlFile` writes is the element text of the document tree
that spells out the key list. -/
theorem key_xml_string_eq (m_key : List HcKeyData) (hk : ∀ k ∈ m_key, k.WellTyped) :
    key_xml_string m_key = (descriptor_tree m_key).render := by
  have hv : fmt_08X KEY_VERSION = String.toList "00010000" := by decide
  unfold key_xml_string
  simp only [key_xml_segments_eq m_key hk, hv]
  simp only [descriptor_tree, document_tree, PTree.leaf, PTree.render, PTree.renderList,
    List.append_assoc, List.nil_append, List.append_nil]

theorem document_tree_children (segments : List (Text × PTree)) :
    (document_tree segments).get_child [XML_HC_ROOT, XML_HC_VERSION] =
      some (PTree.leaf (String.toList "00010000")) ∧
    (document_tree segments).get_child [XML_HC_ROOT, XML_HC_SEGMENTS] =
      some (.node [] segments) := by
  constructor <;> rfl

/-- The body of the segment loop on a `Segment` node whose three numbers are
read: everything then depends on the two calls of `stringToHex`. -/
theorem read_segment_node (lib : XmlLib) (kd : HcKeyData)
    (in_size out_size lfsr scheme iv key : Text) (x y z : Nat)
    (hx : lib.get_uint32 in_size = some x) (hy : lib.get_uint32 out_size = some y)
    (hz : lib.get_uint64 lfsr = some z) :
    read_segment lib kd (segment_node in_size out_size lfsr scheme iv key) =
      if !(stringToHex kd.m_iv 16 iv).2 then .error .terminated
      else if !(stringToHex kd.m_key 32 key).2 then .error .terminated
      else .ok (some { m_lfsr_specs := z, m_in_size := x, m_out_size := y,
                       m_iv := (stringToHex kd.m_iv 16 iv).1,
                       m_key := (stringToHex kd.m_key 32 key).1 }) := by
  have h1 : (segment_node in_size out_size lfsr scheme iv key).get_child [XML_HC_IN_SIZE] =
      some (.leaf in_size) := rfl
  have h2 : (segment_node in_size out_size lfsr scheme iv key).get_child [XML_HC_OUT_SIZE] =
      some (.leaf out_size) := rfl
  have h3 : (segment_node in_size out_size lfsr scheme iv key).get_child [XML_HC_LFSR] =
      some (.leaf lfsr) := rfl
  have h4 : (segment_node in_size out_size lfsr scheme iv key).get_child [XML_HC_CRYPTO] =
      some (.node [] [(XML_HC_CRYPTO_SCHEME, .leaf scheme), (XML_HC_CRYPTO_IV, .leaf iv),
        (XML_HC_CRYPTO_KEY, .leaf key)]) := rfl
  have h5 : (PTree.node [] [(XML_HC_CRYPTO_SCHEME, .leaf scheme), (XML_HC_CRYPTO_IV, .leaf iv),
      (XML_HC_CRYPTO_KEY, .leaf key)]).get_child [XML_HC_CRYPTO_SCHEME] =
        some (.leaf scheme) := rfl
  have h6 : (PTree.node [] [(XML_HC_CRYPTO_SCHEME, .leaf scheme), (XML_HC_CRYPTO_IV, .leaf iv),
      (XML_HC_CRYPTO_KEY, .leaf key)]).get_child [XML_HC_CRYPTO_IV] = some (.leaf iv) := rfl
  have h7 : (PTree.node [] [(XML_HC_CRYPTO_SCHEME, .leaf scheme), (XML_HC_CRYPTO_IV, .leaf iv),
      (XML_HC_CRYPTO_KEY, .leaf key)]).get_child [XML_HC_CRYPTO_KEY] = some (.leaf key) := rfl
  have hd : ∀ t : Text, (PTree.leaf t).data = t := fun _ => rfl
  unfold read_segment
  simp only [h1, h2, h3, h4, h5, h6, h7, hd, Option.some_bind, hx, hy, hz]

/-- The body of the segment loop reads the node of a well-typed key back into
that key. -/
theorem read_segment_tree (lib : XmlLib) (hdec : lib.ReadsDecimal) (kd k : HcKeyData)
    (hiv : kd.m_iv.length = 16) (hkey : kd.m_key.length = 32) (hk : k.WellTyped) :
    read_segment lib kd (segment_tree k) = .ok (some k) := by
  obtain ⟨h64, hin, hout, hivl, hivb, hkeyl, hkeyb⟩ := hk
  unfold segment_tree
  rw [read_segment_node lib kd _ _ _ _ _ _ _ _ _ (hdec.1 _ hin) (hdec.1 _ hout) (hdec.2 _ h64),
    stringToHex_hex_text kd.m_iv k.m_iv 16 (by omega) hiv hivl hivb,
    stringToHex_hex_text kd.m_key k.m_key 32 (by omega) hkey hkeyl hkeyb]
  rfl

/-- The segment loop on the nodes of well-typed keys, followed by more
children: the keys are appended and the loop goes on with the rest. -/
theorem read_segments_good (lib : XmlLib) (hdec : lib.ReadsDecimal) :
    ∀ (good : List HcKeyData) (rest : List (Text × PTree)) (kd : HcKeyData)
      (m_key : List HcKeyData), kd.m_iv.length = 16 → kd.m_key.length = 32 →
      (∀ k ∈ good, k.WellTyped) →
      ∃ kd1, kd1.m_iv.length = 16 ∧ kd1.m_key.length = 32 ∧
        read_segments lib (good.map (fun k => (XML_HC_SEGMENT, segment_tree k)) ++ rest) kd
            m_key =
          read_segments lib rest kd1 (m_key ++ good) := by
  intro good
  induction good with
  | nil =>
    intro rest kd m_key hiv hkey _
    exact ⟨kd, hiv, hkey, by simp⟩
  | cons k ks ih =>
    intro rest kd m_key hiv hkey hgood
    have hk := hgood k (List.mem_cons_self _ _)
    obtain ⟨kd1, h1, h2, h3⟩ := ih rest k (m_key ++ [k]) hk.2.2.2.1 hk.2.2.2.2.2.1
      (fun x hx => hgood x (List.mem_cons_of_mem _ hx))
    refine ⟨kd1, h1, h2, ?_⟩
    rw [List.map_cons, List.cons_append, read_segments, if_neg (fun h => h rfl),
      read_segment_tree lib hdec kd k hiv hkey hk]
    simp only []
    rw [h3, List.append_assoc, List.singleton_append]

theorem digitChar_decimal : ∀ d, d < 10 →
    ('0' ≤ Nat.digitChar d ∧ Nat.digitChar d ≤ '9') ∧ (Nat.digitChar d).toNat - 48 = d := by
  decide

theorem decimal_value_toDigitsCore :
    ∀ (fuel n : Nat) (ds : Text), n < fuel →
      (Nat.toDigitsCore 10 fuel n ds).foldl decimal_step (some 0) =
        ds.foldl decimal_step (some n) := by
  intro fuel
  induction fuel with
  | zero => intro n ds h; omega
  | succ f ih =>
    intro n ds h
    obtain ⟨hd1, hd2⟩ := digitChar_decimal (n % 10) (Nat.mod_lt _ (by norm_num))
    have hstep : ∀ a, 10 * a + n % 10 = n → decimal_step (some a) (Nat.digitChar (n % 10)) =
        some n := by
      intro a ha
      unfold decimal_step
      simp only [if_pos hd1, hd2, ha]
    rw [Nat.toDigitsCore]
    by_cases h0 : n / 10 = 0
    · simp only [h0, if_true]
      rw [List.foldl_cons, hstep 0 (by omega)]
    · simp only [h0, if_false]
      rw [ih (n / 10) _ (by omega), List.foldl_cons, hstep (n / 10) (by omega)]

/-- Reading decimal digits gives back the number `Nat.toDigits 10` renders. -/
theorem decimal_value_toDigits (n : Nat) : decimal_value (Nat.toDigits 10 n) = some n := by
  unfold decimal_value Nat.toDigits
  rw [decimal_value_toDigitsCore (n + 1) n [] (by omega)]
  rfl

theorem sampleXmlLib_readsDecimal (doc : Text) (pt : PTree) :
    (sampleXmlLib doc pt).ReadsDecimal := by
  constructor
  · intro n hn
    show (decimal_value (Nat.toDigits 10 n)).bind _ = some n
    rw [decimal_value_toDigits]
    simp only [Option.some_bind, if_pos hn]
  · intro n hn
    show (decimal_value (Nat.toDigits 10 n)).bind _ = some n
    rw [decimal_value_toDigits]
    simp only [Option.some_bind, if_pos hn]

theorem sampleXmlLib_read (doc : Text) (pt : PTree) :
    (sampleXmlLib doc pt).read_xml doc = some pt := if_pos rfl


theorem repr_toList (n : Nat) : String.toList (Nat.repr n) = Nat.toDigits 10 n := rfl

theorem key_xml_segment_wire (xml_string : Text) (k : HcKeyData) (hk : k.WellTyped) :
    key_xml_segment xml_string k = xml_string ++ wire_segment k := by
  obtain ⟨h64, hin, hout, hivl, hivb, hkeyl, hkeyb⟩ := hk
  unfold key_xml_segment wire_segment
  simp only [hexToString_eq k.m_iv 16 _ hivl hivb, hexToString_eq k.m_key 32 _ hkeyl hkeyb,
    fmt_u, fmt_llu, Nat.mod_eq_of_lt hin, Nat.mod_eq_of_lt hout, Nat.mod_eq_of_lt h64,
    repr_toList, List.append_assoc]
  rfl

theorem key_xml_segments_wire (m_key : List HcKeyData) (hk : ∀ k ∈ m_key, k.WellTyped) :
    ∀ xml_string : Text,
      m_key.foldl key_xml_segment xml_string = xml_string ++ m_key.flatMap wire_segment := by
  induction m_key with
  | nil => intro s; simp
  | cons k rest ih =>
    intro s
    rw [List.foldl_cons, key_xml_segment_wire s k (hk k (List.mem_cons_self _ _)),
      ih (fun x hx => hk x (List.mem_cons_of_mem _ hx)), List.flatMap_cons, List.append_assoc]

/-- The text `keyToXmlFile` writes, in the wire format. -/
theorem key_xml_string_wire (m_key : List HcKeyData) (hk : ∀ k ∈ m_key, k.WellTyped) :
    key_xml_string m_key = wire_document m_key := by
  have hv : fmt_08X KEY_VERSION = String.toList "00010000" := by decide
  unfold key_xml_string wire_document
  simp only [key_xml_segments_wire m_key hk, hv, List.append_assoc]
  rfl

/-! ## `fillNext`, exactly -/

theorem iterate_lfsrNext_cons (poly x n : Nat) :
    List.iterate (lfsrNext poly) (lfsrNext poly x) (n + 1) =
      lfsrNext poly x :: List.iterate (lfsrNext poly) (lfsrNext poly (lfsrNext poly x)) n := rfl

theorem take_set_succ (buffer : List Nat) (pos v : Nat) (h : pos < buffer.length) :
    (buffer.set pos v).take (pos + 1) = buffer.take pos ++ [v] := by
  induction buffer generalizing pos with
  | nil => simp at h
  | cons a rest ih =>
    cases pos with
    | zero => simp
    | succ p =>
      simp only [List.set_cons_succ, List.take_succ_cons, List.cons_append, List.cons.injEq,
        true_and]
      exact ih p (by simpa using h)

theorem drop_set_succ (buffer : List Nat) (pos v k : Nat) :
    (buffer.set pos v).drop (pos + 1 + k) = buffer.drop (pos + 1 + k) := by
  induction buffer generalizing pos with
  | nil => simp
  | cons a rest ih =>
    cases pos with
    | zero => simp [Nat.add_comm 1 k]
    | succ p =>
      have e : p + 1 + 1 + k = (p + 1 + k) + 1 := by omega
      rw [e, List.set_cons_succ, List.drop_succ_cons, List.drop_succ_cons]
      exact ih p

/-- The run of `fillNext` when none of the next `count` states is zero. -/
theorem fillNext_true (poly : Nat) (count : Nat) :
    ∀ (g : HcLfsr) (buffer : List Nat) (pos : Nat), g.m_poly = poly →
      (∀ m, m < count → (lfsrNext poly)^[m + 1] g.m_lfsr ≠ 0) →
      pos + count ≤ buffer.length →
      HcLfsr.fillNext g buffer pos count =
        ({ g with m_lfsr := (lfsrNext poly)^[count] g.m_lfsr },
          buffer.take pos ++ List.iterate (lfsrNext poly) (lfsrNext poly g.m_lfsr) count ++
            buffer.drop (pos + count), true) := by
  induction count with
  | zero =>
    intro g buffer pos _ _ _
    simp [HcLfsr.fillNext, List.iterate]
  | succ count ih =>
    intro g buffer pos hp hnz hlen
    have h0 : NEXT_LFSR g.m_lfsr g.m_poly ≠ 0 := by
      have := hnz 0 (by omega)
      rw [hp]; exact this
    rw [HcLfsr.fillNext]
    simp only [h0, if_false]
    rw [ih { g with m_lfsr := NEXT_LFSR g.m_lfsr g.m_poly }
        (buffer.set pos (NEXT_LFSR g.m_lfsr g.m_poly)) (pos + 1) hp
        (by
          intro m hm
          have := hnz (m + 1) (by omega)
          rw [Function.iterate_succ_apply] at this
          rw [hp]; exact this)
        (by rw [List.length_set]; omega)]
    rw [take_set_succ _ _ _ (by omega), drop_set_succ, iterate_lfsrNext_cons, hp]
    have e : pos + (count + 1) = pos + 1 + count := by omega
    rw [e]
    simp only [List.append_assoc, List.singleton_append, Function.iterate_succ_apply]
    rfl

/-- The run of `fillNext` when the first zero among the next `count` states is
the state after `k + 1` steps. -/
theorem fillNext_false (poly : Nat) (k : Nat) :
    ∀ (count : Nat) (g : HcLfsr) (buffer : List Nat) (pos : Nat), g.m_poly = poly →
      k < count → (∀ m, m < k → (lfsrNext poly)^[m + 1] g.m_lfsr ≠ 0) →
      (lfsrNext poly)^[k + 1] g.m_lfsr = 0 → pos + count ≤ buffer.length →
      HcLfsr.fillNext g buffer pos count =
        ({ g with m_lfsr := 0 },
          buffer.take pos ++ List.iterate (lfsrNext poly) (lfsrNext poly g.m_lfsr) (k + 1) ++
            buffer.drop (pos + (k + 1)), false) := by
  induction k with
  | zero =>
    intro count g buffer pos hp hk _ hz hlen
    obtain ⟨c, rfl⟩ : ∃ c, count = c + 1 := ⟨count - 1, by omega⟩
    have h0 : NEXT_LFSR g.m_lfsr g.m_poly = 0 := by
      rw [hp]; exact hz
    have h1 : lfsrNext poly g.m_lfsr = 0 := hz
    rw [HcLfsr.fillNext]
    simp only [h0, if_true]
    have hs : buffer.set pos 0 = buffer.take pos ++ [0] ++ buffer.drop (pos + 1) := by
      rw [List.set_eq_take_append_cons_drop, if_pos (by omega)]
      simp
    rw [hs]
    simp [List.iterate, h1]
  | succ k ih =>
    intro count g buffer pos hp hk hnz hz hlen
    obtain ⟨c, rfl⟩ : ∃ c, count = c + 1 := ⟨count - 1, by omega⟩
    have h0 : NEXT_LFSR g.m_lfsr g.m_poly ≠ 0 := by
      have := hnz 0 (by omega)
      rw [hp]; exact this
    rw [HcLfsr.fillNext]
    simp only [h0, if_false]
    rw [ih c { g with m_lfsr := NEXT_LFSR g.m_lfsr g.m_poly }
        (buffer.set pos (NEXT_LFSR g.m_lfsr g.m_poly)) (pos + 1) hp (by omega)
        (by
          intro m hm
          have := hnz (m + 1) (by omega)
          rw [Function.iterate_succ_apply] at this
          rw [hp]; exact this)
        (by
          rw [Function.iterate_succ_apply] at hz
          rw [hp]; exact hz)
        (by rw [List.length_set]; omega)]
    rw [take_set_succ _ _ _ (by omega), drop_set_succ, iterate_lfsrNext_cons (n := k + 1), hp]
    have e : pos + (k + 1 + 1) = pos + 1 + (k + 1) := by omega
    rw [e]
    simp only [List.append_assoc, List.singleton_append]
    rfl

/-- The return value of `fillNext` is `false` exactly when one of the next
`count` states is zero. -/
theorem fillNext_false_iff (g : HcLfsr) (buffer : List Nat) (pos count : Nat)
    (hlen : pos + count ≤ buffer.length) :
    (HcLfsr.fillNext g buffer pos count).2.2 = false ↔
      ∃ k, k < count ∧ (lfsrNext g.m_poly)^[k + 1] g.m_lfsr = 0 := by
  constructor
  · intro h
    by_contra hno
    have hnz : ∀ m, m < count → (lfsrNext g.m_poly)^[m + 1] g.m_lfsr ≠ 0 :=
      fun m hm hz => hno ⟨m, hm, hz⟩
    rw [fillNext_true g.m_poly count g buffer pos rfl hnz hlen] at h
    exact Bool.noConfusion h
  · intro hex
    classical
    have hk := Nat.find_spec hex
    have hmin := fun m (hm : m < Nat.find hex) => Nat.find_min hex hm
    rw [fillNext_false g.m_poly (Nat.find hex) count g buffer pos rfl hk.1
      (fun m hm hz => hmin m hm ⟨by omega, hz⟩) hk.2 hlen]

/-- The elements of `List.iterate`. -/
theorem iterate_getElem? (f : Nat → Nat) (x n j : Nat) (hj : j < n) :
    (List.iterate f x n)[j]? = some (f^[j] x) := by
  induction n generalizing x j with
  | zero => omega
  | succ n ih =>
    cases j with
    | zero => simp [List.iterate]
    | succ j =>
      rw [List.iterate, List.getElem?_cons_succ, ih (f x) j (by omega)]
      rfl

/-! ## `verify_poly`, both directions -/

/-- A slot that no state of the loop visits keeps the fill value. -/
theorem verify_loop_unmarked (poly N seed i : Nat) (n : Nat) :
    ∀ (lfsr : Nat) (vals : List Nat), vals[i]? = some 0xFFFFFFFF →
      (∀ k, k ≤ n → (lfsrNext poly)^[k] lfsr ≠ i) →
      (verify_loop poly N seed n lfsr vals)[i]? = some 0xFFFFFFFF := by
  induction n with
  | zero =>
    intro lfsr vals hv hk
    have h0 : lfsr ≠ i := hk 0 le_rfl
    rw [verify_loop]
    split
    · exact hv
    · rw [List.getElem?_set_ne h0]; exact hv
  | succ m ih =>
    intro lfsr vals hv hk
    have h0 : lfsr ≠ i := hk 0 (Nat.zero_le _)
    have hset : (vals.set lfsr lfsr)[i]? = some 0xFFFFFFFF := by
      rw [List.getElem?_set_ne h0]; exact hv
    rw [verify_loop]
    split
    · exact hv
    · split
      · apply ih _ _ hset
        intro k hkm
        have := hk (k + 1) (by omega)
        rw [Function.iterate_succ_apply] at this
        exact this
      · exact hset

/-- When `verify_poly` returns true, every value of `[1, 2 ^ b - 1]` is one of
the first `2 ^ b - 1` states. -/
theorem verify_poly_covers (poly b seed : Nat) (h : verify_poly poly b seed = true) (i : Nat)
    (hi1 : 1 ≤ i) (hi2 : i ≤ 2 ^ b - 1) :
    ∃ k, k < 2 ^ b - 1 ∧ (lfsrNext poly)^[k] (seed &&& (2 ^ b - 1)) = i := by
  by_contra hno
  have hne : ∀ k, k ≤ 2 ^ b - 1 - 1 → (lfsrNext poly)^[k] (seed &&& (2 ^ b - 1)) ≠ i :=
    fun k hk hki => hno ⟨k, by omega, hki⟩
  have hrep : (List.replicate (2 ^ b) 0xFFFFFFFF)[i]? = some 0xFFFFFFFF := by
    rw [List.getElem?_replicate, if_pos (by omega)]
  have hun := verify_loop_unmarked poly (2 ^ b - 1) (seed &&& (2 ^ b - 1)) i (2 ^ b - 1 - 1)
    (seed &&& (2 ^ b - 1)) (List.replicate (2 ^ b) 0xFFFFFFFF) hrep hne
  simp only [verify_poly, Nat.one_shiftLeft, List.all_eq_true, bne_iff_ne, ne_eq] at h
  have hget : ((verify_loop poly (2 ^ b - 1) (seed &&& (2 ^ b - 1)) (2 ^ b - 1 - 1)
      (seed &&& (2 ^ b - 1)) (List.replicate (2 ^ b) 0xFFFFFFFF)).set 0 0)[i]? =
        some 0xFFFFFFFF := by
    rw [List.getElem?_set_ne (by omega)]; exact hun
  exact h _ (List.mem_iff_getElem?.2 ⟨i, hget⟩) rfl

/-- A sequence whose first `N` entries cover `[1, N]` takes `N` pairwise
distinct values there, all of them in `[1, N]`. -/
theorem cover_injective (s : Nat → Nat) (N : Nat)
    (hcov : ∀ i, 1 ≤ i → i ≤ N → ∃ k, k < N ∧ s k = i) :
    (∀ j k, j < N → k < N → s j = s k → j = k) ∧ ∀ k, k < N → 1 ≤ s k ∧ s k ≤ N := by
  have hsub : Finset.Icc 1 N ⊆ (Finset.range N).image s := by
    intro i hi
    rw [Finset.mem_Icc] at hi
    obtain ⟨k, hk, hki⟩ := hcov i hi.1 hi.2
    exact Finset.mem_image.2 ⟨k, Finset.mem_range.2 hk, hki⟩
  have hcard : ((Finset.range N).image s).card ≤ (Finset.Icc 1 N).card := by
    rw [Nat.card_Icc]
    have := Finset.card_image_le (s := Finset.range N) (f := s)
    rw [Finset.card_range] at this
    omega
  have heq : Finset.Icc 1 N = (Finset.range N).image s :=
    Finset.eq_of_subset_of_card_le hsub hcard
  have hinj : Set.InjOn s (Finset.range N : Set Nat) := by
    apply Finset.card_image_iff.1
    rw [← heq, Nat.card_Icc, Finset.card_range]
    omega
  constructor
  · intro j k hj hk hjk
    exact hinj (by simpa using hj) (by simpa using hk) hjk
  · intro k hk
    have : s k ∈ Finset.Icc 1 N := by
      rw [heq]
      exact Finset.mem_image.2 ⟨k, Finset.mem_range.2 hk, rfl⟩
    exact Finset.mem_Icc.1 this

/-- When the first `2 ^ b - 1` states are pairwise distinct and cover
`[1, 2 ^ b - 1]`, `verify_poly` returns true. -/
theorem verify_poly_of_cover (poly b seed : Nat) (hb : b ≤ 31)
    (hinj : ∀ j k, j < 2 ^ b - 1 → k < 2 ^ b - 1 →
      (lfsrNext poly)^[j] (seed &&& (2 ^ b - 1)) = (lfsrNext poly)^[k] (seed &&& (2 ^ b - 1)) →
        j = k)
    (hrange : ∀ k, k < 2 ^ b - 1 → (lfsrNext poly)^[k] (seed &&& (2 ^ b - 1)) ≤ 2 ^ b - 1)
    (hcov : ∀ i, 1 ≤ i → i ≤ 2 ^ b - 1 →
      ∃ k, k < 2 ^ b - 1 ∧ (lfsrNext poly)^[k] (seed &&& (2 ^ b - 1)) = i) :
    verify_poly poly b seed = true := by
  obtain ⟨x, hx⟩ : ∃ x, x = seed &&& (2 ^ b - 1) := ⟨_, rfl⟩
  rw [← hx] at hinj hrange hcov
  have hpos : 0 < 2 ^ b := Nat.two_pow_pos b
  simp only [verify_poly, Nat.one_shiftLeft, List.all_eq_true, bne_iff_ne, ne_eq]
  rw [← hx]
  intro v hv
  obtain ⟨i, hi⟩ := List.mem_iff_getElem?.1 hv
  intro hvff
  rw [hvff, List.getElem?_set] at hi
  by_cases h0 : 0 = i
  · rw [if_pos h0] at hi
    split at hi <;> simp at hi
  · rw [if_neg h0] at hi
    by_cases hN : 2 ^ b - 1 = 0
    · -- a one-slot vector: only index 0 exists
      have hlen := (List.getElem?_eq_some.1 hi).1
      rw [hN, verify_loop] at hlen
      split at hlen
      · rw [List.length_replicate] at hlen; omega
      · rw [List.length_set, List.length_replicate] at hlen; omega
    · have hne : ∀ k, 0 < k → k < 2 ^ b - 1 → (lfsrNext poly)^[k] x ≠ x := by
        intro k hk1 hk2 hk
        have := hinj k 0 hk2 (by omega) hk
        omega
      obtain ⟨hlen, hmark⟩ := verify_loop_spec poly b x hb hrange hne
        (2 ^ b - 1 - 1) 0 (List.replicate (2 ^ b) 0xFFFFFFFF) (by omega)
      simp only [Function.iterate_zero, id_eq, List.length_replicate] at hlen hmark
      have hilen : i < 2 ^ b := by
        have := (List.getElem?_eq_some.1 hi).1
        omega
      obtain ⟨k, hk1, hk2⟩ := hcov i (by omega) (by omega)
      exact hmark i (Or.inr ⟨k, Nat.zero_le _, hk1, hk2⟩) hi

/-! ## The variants `create_polies` registers -/

theorem and_shift_ne_zero (M j : Nat) : M &&& (1 <<< j) ≠ 0 ↔ M.testBit j = true := by
  rw [Nat.one_shiftLeft, Nat.and_two_pow]
  have hpos : 2 ^ j ≠ 0 := (Nat.two_pow_pos j).ne'
  cases M.testBit j <;> simp [hpos]

theorem reverse_poly_succ (M n : Nat) :
    reverse_poly M (n + 1) =
      ((reverse_poly M n <<< 1) % 2 ^ 32) ||| (if M &&& (1 <<< n) ≠ 0 then 1 else 0) := by
  simp only [reverse_poly, List.range_succ, List.foldl_append, List.foldl_cons, List.foldl_nil]

/-- The loop of the `reversed` branch reflects the low `n` bits: the result
fits in `n` bits and its bit `i` is bit `n - 1 - i` of the literal. -/
theorem reverse_poly_spec (M : Nat) (n : Nat) (hn : n ≤ 32) :
    reverse_poly M n < 2 ^ n ∧
      ∀ i, i < n → (reverse_poly M n).testBit i = M.testBit (n - 1 - i) := by
  induction n with
  | zero => exact ⟨by simp [reverse_poly], fun i hi => absurd hi (by omega)⟩
  | succ n ih =>
    obtain ⟨hlt, hbits⟩ := ih (by omega)
    have hsh : reverse_poly M n <<< 1 = 2 * reverse_poly M n := by
      rw [Nat.shiftLeft_eq]; omega
    have hpow : 2 ^ (n + 1) ≤ 2 ^ 32 := Nat.pow_le_pow_right (by norm_num) hn
    have hlt2 : reverse_poly M n <<< 1 < 2 ^ (n + 1) := by
      rw [hsh, Nat.pow_succ]; omega
    have hmod : (reverse_poly M n <<< 1) % 2 ^ 32 = reverse_poly M n <<< 1 :=
      Nat.mod_eq_of_lt (by omega)
    have hc : (if M &&& (1 <<< n) ≠ 0 then 1 else 0) = (M.testBit n).toNat := by
      by_cases h : M &&& (1 <<< n) ≠ 0
      · rw [if_pos h, (and_shift_ne_zero M n).1 h]; rfl
      · rw [if_neg h]
        have : M.testBit n = false := by
          cases hb : M.testBit n with
          | false => rfl
          | true => exact absurd ((and_shift_ne_zero M n).2 hb) h
        rw [this]; rfl
    rw [reverse_poly_succ, hmod, hc]
    constructor
    · apply Nat.or_lt_two_pow hlt2
      have : (M.testBit n).toNat ≤ 1 := by cases M.testBit n <;> simp
      have : 2 ≤ 2 ^ (n + 1) := by
        have := Nat.pow_le_pow_right (show 0 < 2 by norm_num) (show 1 ≤ n + 1 by omega)
        omega
      omega
    · intro i hi
      rw [Nat.testBit_or, Nat.testBit_shiftLeft, Nat.testBit_bool_to_nat]
      cases i with
      | zero => simp
      | succ k =>
        have e : n + 1 - 1 - (k + 1) = n - 1 - k := by omega
        rw [e, ← hbits k (by omega)]
        simp

/-- Without verification the loop over a table row appends, for each literal
before the terminator, the shifted and then the reflected form. -/
theorem add_polies_false_eq (bits : Nat) (row : List Nat) :
    ∀ acc, (add_polies false bits row acc).1 =
      acc ++ (row.takeWhile (fun M => M != 0)).flatMap
        (fun M => [M >>> 1, reverse_poly M bits]) := by
  induction row with
  | nil => intro acc; simp [add_polies]
  | cons e rest ih =>
    intro acc
    by_cases he : e = 0
    · subst he
      simp [add_polies]
    · rw [add_polies, if_neg he]
      simp only [Bool.false_and, Bool.false_eq_true, if_false]
      rw [ih, List.takeWhile_cons_of_pos (by simpa using he), List.flatMap_cons]
      simp

theorem length_flatMap_pair (l : List Nat) (f g : Nat → Nat) :
    (l.flatMap (fun M => [f M, g M])).length = 2 * l.length := by
  induction l with
  | nil => rfl
  | cons a t ih =>
    rw [List.flatMap_cons, List.length_append, ih, List.length_cons, List.length_cons,
      List.length_cons, List.length_nil]
    omega

/-! ## The retry loop of `generateKey` -/

/-- A call `reset (2 ^ b, 0, -1)` on a registry that is marked initialised: the
variant and the seed are the two draws, the result is that of `verify_poly`. -/
theorem reset_initialized (reg : PolyRegistry) (hinit : reg.initialized = true) (lfsr : HcLfsr)
    (hmax : lfsr.m_max_bits = 28) (b : Nat) (hb1 : 15 ≤ b) (hb2 : b ≤ 28) (dv ds p : Nat)
    (hlen1 : 1 ≤ (reg.polies.getD (b - 15) []).length)
    (hlen2 : (reg.polies.getD (b - 15) []).length ≤ 256)
    (hp : (reg.polies.getD (b - 15) []).get? (dv % (reg.polies.getD (b - 15) []).length) =
      some p) :
    HcLfsr.reset reg lfsr (2 ^ b) 0 (-1) dv ds =
      if verify_poly p b (1 + ds % (2 ^ b - 1)) then
        some (reg, { lfsr with m_poly := p, m_seed := 1 + ds % (2 ^ b - 1),
                               m_lfsr := 1 + ds % (2 ^ b - 1) }, true)
      else some (reg, { lfsr with m_poly := 0 }, false) := by
  obtain ⟨variants, hvariants⟩ : ∃ v, v = reg.polies.getD (b - 15) [] := ⟨_, rfl⟩
  rw [← hvariants] at hlen1 hlen2 hp
  have hpos : 2 ≤ 2 ^ b := by
    have : 2 ^ 1 ≤ 2 ^ b := Nat.pow_le_pow_right (by norm_num) (by omega)
    omega
  have hidx : dv % variants.length < variants.length := Nat.mod_lt _ (by omega)
  have hvar : (((get_random 0 ((variants.length : Int) - 1) dv).getD 0).toNat) % 256 =
      dv % variants.length := by
    have e : ((variants.length : Int) - 1) = ((variants.length - 1 : Nat) : Int) := by omega
    rw [e]
    have := get_random_toNat 0 (variants.length - 1) dv (Nat.zero_le _)
    simp only [Nat.cast_zero] at this
    rw [this]
    have e2 : variants.length - 1 - 0 + 1 = variants.length := by omega
    rw [e2, Nat.zero_add]
    exact Nat.mod_eq_of_lt (by omega)
  have hsd : ((get_random 1 (((1 <<< b : Nat) : Int) - 1) ds).getD 0).toNat =
      1 + ds % (2 ^ b - 1) := by
    rw [Nat.one_shiftLeft]
    have e : (((2 ^ b : Nat) : Int) - 1) = ((2 ^ b - 1 : Nat) : Int) := by omega
    rw [e]
    have := get_random_toNat 1 (2 ^ b - 1) ds (by omega)
    simp only [Nat.cast_one] at this
    rw [this]
    congr 2
    omega
  have hsdlt : ds % (2 ^ b - 1) < 2 ^ b - 1 := Nat.mod_lt _ (by omega)
  have hmask : (1 + ds % (2 ^ b - 1)) &&& ((1 <<< b) - 1) =
      1 + ds % (2 ^ b - 1) := by
    rw [Nat.one_shiftLeft]
    exact Nat.and_pow_two_sub_one_of_lt_two_pow (by omega)
  have hsize : ¬ (2 ^ b > 1 <<< 28 ∨ 2 ^ b < HcLfsr.getMinSize) := by
    rw [getMinSize_eq, Nat.one_shiftLeft]
    have h1 : 2 ^ b ≤ 2 ^ 28 := Nat.pow_le_pow_right (by norm_num) hb2
    have h2 : 2 ^ 15 ≤ 2 ^ b := Nat.pow_le_pow_right (by norm_num) hb1
    norm_num at h2
    omega
  have hlen0 : ¬ variants.length = 0 := by omega
  have eb : b - 15 + MIN_BITS = b := by unfold MIN_BITS; omega
  unfold HcLfsr.reset
  simp only [hmax, hinit, hsize, if_false, find_poly_index_pow b hb1 hb2,
    Bool.not_true, Bool.false_eq_true, ← hvariants, hlen0,
    Int.reduceNeg, Int.reduceLT, if_true, hvar, hsd, hmask, hp, eb]
  by_cases hv : verify_poly p b (1 + ds % (2 ^ b - 1)) = true
  · simp [hv]
  · simp [hv]

/-- The loop `while (--retries)` entered with `retries = 4`, unrolled: the
body runs at most three times. -/
theorem reset_retry_four (out_size : Nat) (d : KeyDraws) (reg : PolyRegistry) (lfsr : HcLfsr) :
    reset_retry out_size d 4 0 reg lfsr =
      match HcLfsr.reset reg lfsr out_size 0 (-1) (d.variant 0) (d.seed 0) with
      | none => .error .undefined
      | some (reg1, l1, ok1) =>
        if ok1 then .ok (reg1, l1, 3)
        else
          match HcLfsr.reset reg1 l1 out_size 0 (-1) (d.variant 1) (d.seed 1) with
          | none => .error .undefined
          | some (reg2, l2, ok2) =>
            if ok2 then .ok (reg2, l2, 2)
            else
              match HcLfsr.reset reg2 l2 out_size 0 (-1) (d.variant 2) (d.seed 2) with
              | none => .error .undefined
              | some (reg3, l3, ok3) =>
                if ok3 then .ok (reg3, l3, 1) else .ok (reg3, l3, 0) := by
  rw [reset_retry]
  simp only [Nat.reduceEqDiff, if_false, Nat.zero_add]
  cases h1 : HcLfsr.reset reg lfsr out_size 0 (-1) (d.variant 0) (d.seed 0) with
  | none => rfl
  | some r1 =>
    obtain ⟨reg1, l1, ok1⟩ := r1
    cases ok1 with
    | true => rfl
    | false =>
      simp only [Bool.false_eq_true, if_false]
      rw [reset_retry]
      simp only [Nat.reduceEqDiff, if_false]
      cases h2 : HcLfsr.reset reg1 l1 out_size 0 (-1) (d.variant 1) (d.seed 1) with
      | none => rfl
      | some r2 =>
        obtain ⟨reg2, l2, ok2⟩ := r2
        cases ok2 with
        | true => rfl
        | false =>
          simp only [Bool.false_eq_true, if_false]
          rw [reset_retry]
          simp only [Nat.reduceEqDiff, if_false]
          cases h3 : HcLfsr.reset reg2 l2 out_size 0 (-1) (d.variant 2) (d.seed 2) with
          | none => rfl
          | some r3 =>
            obtain ⟨reg3, l3, ok3⟩ := r3
            cases ok3 with
            | true => rfl
            | false =>
              simp only [Bool.false_eq_true, if_false]
              rw [reset_retry]
              rfl

/-! ## The sanity loop of the public `decryptFile` -/

theorem setSpec_ok_iff (reg : PolyRegistry) (self : HcLfsr) (spec : Nat) :
    (HcLfsr.setSpec reg self spec).2.2 = false ↔
      spec % 2 ^ 32 = 0 ∨ spec / 2 ^ 32 % 2 ^ 32 = 0 := by
  by_cases hp : spec / 2 ^ 32 % 2 ^ 32 = 0
  · rw [setSpec_false reg self spec (Or.inl hp)]
    exact ⟨fun _ => Or.inr hp, fun _ => rfl⟩
  · by_cases hs : spec % 2 ^ 32 = 0
    · rw [setSpec_false reg self spec (Or.inr hs)]
      exact ⟨fun _ => Or.inl hs, fun _ => rfl⟩
    · rw [setSpec_true reg self spec hp hs]
      constructor
      · intro h; exact Bool.noConfusion h
      · rintro (h | h)
        · exact absurd h hs
        · exact absurd h hp

theorem check_keys_none_iff (keys : List HcKeyData) :
    ∀ (reg : PolyRegistry) (max_segment_size : Nat),
      check_keys keys reg max_segment_size = none ↔ ∃ ke ∈ keys, ke.Rejected := by
  induction keys with
  | nil => intro reg m; simp [check_keys]
  | cons ke rest ih =>
    intro reg m
    have hmax : getMaxBlockSize = 2 ^ 28 := by decide
    rw [check_keys, hmax]
    by_cases h1 : ke.m_in_size = 0 ∨ ke.m_out_size = 0
    · rw [if_pos h1]
      refine ⟨fun _ => ⟨ke, List.mem_cons_self _ _, ?_⟩, fun _ => rfl⟩
      unfold HcKeyData.Rejected
      rcases h1 with h | h
      · exact Or.inl h
      · by_cases h0 : ke.m_in_size = 0
        · exact Or.inl h0
        · exact Or.inr (Or.inl (by omega))
    · rw [if_neg h1]
      by_cases h2 : ke.m_in_size > ke.m_out_size
      · rw [if_pos h2]
        exact ⟨fun _ => ⟨ke, List.mem_cons_self _ _, Or.inr (Or.inl h2)⟩, fun _ => rfl⟩
      · rw [if_neg h2]
        by_cases h3 : ke.m_out_size > 2 ^ 28
        · rw [if_pos h3]
          exact ⟨fun _ => ⟨ke, List.mem_cons_self _ _, Or.inr (Or.inr (Or.inl h3))⟩,
            fun _ => rfl⟩
        · rw [if_neg h3]
          by_cases h4 : (HcLfsr.setSpec reg (HcLfsr.new ke.m_out_size) ke.m_lfsr_specs).2.2 = false
          · simp only [h4, Bool.not_false, if_true]
            refine ⟨fun _ => ⟨ke, List.mem_cons_self _ _, ?_⟩, fun _ => trivial⟩
            exact Or.inr (Or.inr (Or.inr ((setSpec_ok_iff _ _ _).1 h4)))
          · have h4t : (HcLfsr.setSpec reg (HcLfsr.new ke.m_out_size) ke.m_lfsr_specs).2.2 =
                true := by
              cases hv : (HcLfsr.setSpec reg (HcLfsr.new ke.m_out_size) ke.m_lfsr_specs).2.2
              · exact absurd hv h4
              · rfl
            simp only [h4t, Bool.not_true, Bool.false_eq_true, if_false]
            rw [ih]
            constructor
            · rintro ⟨k, hk, hr⟩
              exact ⟨k, List.mem_cons_of_mem _ hk, hr⟩
            · rintro ⟨k, hk, hr⟩
              rcases List.mem_cons.1 hk with rfl | hk
              · exfalso
                unfold HcKeyData.Rejected at hr
                rcases hr with h | h | h | h
                · exact h1 (Or.inl h)
                · exact h2 h
                · exact h3 h
                · exact h4 ((setSpec_ok_iff _ _ _).2 h)
              · exact ⟨k, hk, hr⟩

/-! ## The files on disk -/

theorem file_content_remove_self (d : Disk) (name : Text) :
    file_content (remove_file d name) name = none := by
  induction d with
  | nil => rfl
  | cons e rest ih =>
    obtain ⟨n, data⟩ := e
    unfold remove_file at ih ⊢
    by_cases h : n = name
    · rw [List.filter_cons_of_neg (by simpa using h)]
      exact ih
    · rw [List.filter_cons_of_pos (by simpa using h), file_content, if_neg h]
      exact ih

theorem file_content_remove_ne (d : Disk) (name n : Text) (h : n ≠ name) :
    file_content (remove_file d name) n = file_content d n := by
  induction d with
  | nil => rfl
  | cons e rest ih =>
    obtain ⟨m, data⟩ := e
    unfold remove_file at ih ⊢
    by_cases hm : m = name
    · rw [List.filter_cons_of_neg (by simpa using hm), ih, file_content,
        if_neg (by rw [hm]; exact fun h2 => h h2.symm)]
    · rw [List.filter_cons_of_pos (by simpa using hm), file_content, file_content, ih]

theorem file_content_write_self (d : Disk) (name : Text) (data : List Nat) :
    file_content (write_file d name data) name = some data := by
  rw [write_file, file_content, if_pos rfl]

theorem file_content_write_ne (d : Disk) (name n : Text) (data : List Nat) (h : n ≠ name) :
    file_content (write_file d name data) n = file_content d n := by
  rw [write_file, file_content, if_neg (fun h2 => h h2.symm), file_content_remove_ne d name n h]

theorem file_exists_write_ne (d : Disk) (name n : Text) (data : List Nat) (h : n ≠ name) :
    file_exists (write_file d name data) n = file_exists d n := by
  rw [file_exists, file_exists, file_content_write_ne d name n data h]

theorem file_exists_remove_self (d : Disk) (name : Text) :
    file_exists (remove_file d name) name = false := by
  rw [file_exists, file_content_remove_self]
  rfl

theorem file_exists_remove_ne (d : Disk) (name n : Text) (h : n ≠ name) :
    file_exists (remove_file d name) n = file_exists d n := by
  rw [file_exists, file_exists, file_content_remove_ne d name n h]

/-- A `remove` never makes a file appear. -/
theorem file_exists_remove_false (d : Disk) (name n : Text) (h : file_exists d n = false) :
    file_exists (remove_file d name) n = false := by
  by_cases hn : n = name
  · rw [hn]; exact file_exists_remove_self d name
  · rw [file_exists_remove_ne d name n hn]; exact h

theorem file_content_none_of_not_mem (d : Disk) (name : Text)
    (h : ∀ e ∈ d, e.1 ≠ name) : file_content d name = none := by
  induction d with
  | nil => rfl
  | cons e rest ih =>
    obtain ⟨n, data⟩ := e
    rw [file_content, if_neg (h (n, data) (List.mem_cons_self _ _))]
    exact ih (fun e he => h e (List.mem_cons_of_mem _ he))

theorem not_mem_of_file_content_none (d : Disk) (name : Text)
    (h : file_content d name = none) : ∀ e ∈ d, e.1 ≠ name := by
  induction d with
  | nil => intro e he; simp at he
  | cons e rest ih =>
    obtain ⟨n, data⟩ := e
    rw [file_content] at h
    by_cases hn : n = name
    · rw [if_pos hn] at h; exact Option.noConfusion h
    · rw [if_neg hn] at h
      intro e he
      rcases List.mem_cons.1 he with rfl | he
      · exact hn
      · exact ih h e he

/-- Removing a file that does not exist leaves the files as they are. -/
theorem remove_file_of_not_exists (d : Disk) (name : Text) (h : file_exists d name = false) :
    remove_file d name = d := by
  have hc : file_content d name = none := by
    unfold file_exists at h
    cases hv : file_content d name with
    | none => rfl
    | some x => rw [hv] at h; exact Bool.noConfusion h
  unfold remove_file
  rw [List.filter_eq_self]
  intro e he
  simpa using not_mem_of_file_content_none d name hc e he

theorem remove_named_of_not_exists (d : Disk) (name : Text) (h : file_exists d name = false) :
    remove_named d name = d := by
  unfold remove_named
  split
  · rfl
  · exact remove_file_of_not_exists d name h

theorem remove_named_exists_false (d : Disk) (name n : Text) (h : file_exists d n = false) :
    file_exists (remove_named d name) n = false := by
  unfold remove_named
  split
  · exact h
  · exact file_exists_remove_false d name n h

theorem remove_named_self (d : Disk) (name : Text) (hne : name ≠ []) :
    file_exists (remove_named d name) name = false := by
  unfold remove_named
  rw [if_neg (by simpa using hne)]
  exact file_exists_remove_self d name

theorem cleanUp_none (d : Disk) : cleanUp EngineFiles.none d = d := rfl

/-- The naming loop stops at an output name that exists. -/
theorem name_splits_none (in_file_name : Text) (d : Disk) (n : Nat) :
    ∀ (i : Nat) (m_out_files : List FileNames),
      (∃ j, j < n ∧ file_exists d (in_file_name ++ split_suffix (i + j + 1)) = true) →
      name_splits in_file_name d n i m_out_files = none := by
  induction n with
  | zero => rintro i acc ⟨j, hj, -⟩; omega
  | succ n ih =>
    rintro i acc ⟨j, hj, hex⟩
    rw [name_splits]
    by_cases h0 : file_exists d (in_file_name ++ split_suffix (i + 1)) = true
    · rw [if_pos h0]
    · rw [if_neg h0]
      apply ih
      cases j with
      | zero => exact absurd hex h0
      | succ j =>
        refine ⟨j, by omega, ?_⟩
        have e : i + 1 + j + 1 = i + (j + 1) + 1 := by omega
        rw [e]; exact hex

/-- The private `encryptFile` when the key file name exists. -/
theorem encrypt_names_key_exists (in_file_path in_file_name : Text) (splits : Nat)
    (host : HostOutcome) (d : Disk) (hpath : in_file_path ≠ [])
    (hkey : file_exists d (in_file_name ++ String.toList ".hckey") = true) :
    encrypt_names in_file_path in_file_name splits host d =
      (HC_ERROR_KEY_FILE_ALREADY_EXISTS, EngineFiles.none) := by
  unfold encrypt_names
  rw [if_neg (by simpa using hpath)]
  simp only [hkey, if_true]

/-- The private `encryptFile` when the key file name is free and an output name
exists. -/
theorem encrypt_names_out_exists (in_file_path in_file_name : Text) (splits : Nat)
    (host : HostOutcome) (d : Disk) (hpath : in_file_path ≠ [])
    (hkey : file_exists d (in_file_name ++ String.toList ".hckey") = false)
    (hout : (splits = 0 ∧ file_exists d (in_file_name ++ String.toList ".hc") = true) ∨
      ∃ i, i < splits ∧ file_exists d (in_file_name ++ split_suffix (i + 1)) = true) :
    encrypt_names in_file_path in_file_name splits host d =
      (HC_ERROR_OUTPUT_FILE_ALREADY_EXISTS,
        { m_out_files := [],
          m_key_file := { m_file_name := in_file_name ++ String.toList ".hckey",
                          m_temp_file_name := temp_file_name host 0 } }) := by
  unfold encrypt_names
  rw [if_neg (by simpa using hpath)]
  simp only [hkey, Bool.false_eq_true, if_false]
  rcases hout with ⟨h0, hex⟩ | ⟨i, hi, hex⟩
  · simp only [h0, ne_eq, not_true_eq_false, if_false, hex, if_true]
  · have hs : splits ≠ 0 := by omega
    rw [if_pos hs, name_splits_none in_file_name d splits 0 [] ⟨i, hi, by rw [Nat.zero_add]; exact hex⟩]

/-! ## `adjustStatus` -/

theorem adjustStatus_cases (status : Int) :
    (((-1000 ≤ status ∧ status ≤ -975) ∨ (0 ≤ status ∧ status ≤ 18 ∧ status ≠ 2)) →
      adjustStatus status = status) ∧
    ((status < -1000 ∨ (-975 ≤ status ∧ status < 0) ∨ status = 2 ∨ 18 < status) →
      adjustStatus status = HC_INTERNAL_ERROR) := by
  unfold adjustStatus
  simp only [HC_ERROR_INVALID_INPUT_FILE, HC_ERROR_CANNOT_OPEN_INPUT_FILE,
    HC_ERROR_CANNOT_READ_INPUT_FILE, HC_ERROR_BAD_INPUT_FILE_NAME,
    HC_ERROR_INVALID_OUTPUT_FILE, HC_ERROR_CANNOT_CREATE_OUTPUT_FILE,
    HC_ERROR_CANNOT_WRITE_OUTPUT_FILE, HC_ERROR_BAD_OUTPUT_FILE_NAME,
    HC_ERROR_INVALID_KEY_FILE, HC_ERROR_CANNOT_OPEN_KEY_FILE,
    HC_ERROR_CANNOT_CREATE_KEY_FILE, HC_ERROR_CANNOT_READ_KEY_FILE,
    HC_ERROR_CANNOT_WRITE_KEY_FILE, HC_ERROR_INVALID_KEY, HC_ERROR_CANNOT_CREATE_KEY,
    HC_ERROR_BAD_KEY, HC_ERROR_BAD_KEY_FILE_NAME, HC_ERROR_CANNOT_ENCRYPT_SECTION,
    HC_ERROR_CANNOT_ENCRYPT_FILE, HC_ERROR_CANNOT_DECRYPT_SECTION,
    HC_ERROR_CANNOT_DECRYPT_FILE, HC_ERROR_CALLBACK_EXCEPTION,
    HC_ERROR_BLOCK_SIZE_TOO_BIG, HC_ERROR_OUTPUT_FILE_ALREADY_EXISTS,
    HC_ERROR_KEY_FILE_ALREADY_EXISTS, HC_STATUS_OK, HC_INTERNAL_ERROR,
    List.mem_cons, List.mem_singleton, List.mem_nil_iff, or_false]
  constructor
  · intro h
    split
    · rfl
    · omega
  · intro h
    split
    · omega
    · rfl

theorem adjustStatus_public (status : Int) : IsPublicStatus (adjustStatus status) := by
  unfold IsPublicStatus
  obtain ⟨h1, h2⟩ := adjustStatus_cases status
  by_cases h : (-1000 ≤ status ∧ status ≤ -975) ∨ (0 ≤ status ∧ status ≤ 18 ∧ status ≠ 2)
  · rw [h1 h]
    omega
  · rw [h2 (by omega)]
    left
    decide

/-- Every value the public `encryptFile` returns is a value of `HcStatus`. -/
theorem encryptFileDiskPublic_public (aes : AesCbc) (reg : PolyRegistry)
    (in_file_path in_file_name : Text) (splits : Nat) (rnd : EncRandom) (host : HostOutcome)
    (d : Disk) (s : Int) (d1 : Disk)
    (h : encryptFileDiskPublic aes reg in_file_path in_file_name splits rnd host d = .ok (s, d1)) :
    IsPublicStatus s := by
  unfold encryptFileDiskPublic at h
  split at h
  · exact Except.noConfusion h
  · injection h with h
    injection h with hs _
    rw [← hs]
    exact adjustStatus_public _

/-- Every value the public `decryptFile` returns is a value of `HcStatus`. -/
theorem decryptFileDiskPublic_public (aes : AesCbc) (lib : XmlLib) (reg : PolyRegistry)
    (key_file_path base : Text) (joins : Nat) (kd : HcKeyData) (host : HostOutcome) (d : Disk)
    (s : Int) (d1 : Disk)
    (h : decryptFileDiskPublic aes lib reg key_file_path base joins kd host d = .ok (s, d1)) :
    IsPublicStatus s := by
  unfold decryptFileDiskPublic at h
  simp only [] at h
  split at h
  · injection h with h
    injection h with hs _
    rw [← hs]; decide
  · split at h
    · injection h with h
      injection h with hs _
      rw [← hs]; decide
    · split at h
      · exact Except.noConfusion h
      · split at h
        · injection h with h
          injection h with hs _
          rw [← hs]
          exact adjustStatus_public _
        · split at h
          · injection h with h
            injection h with hs _
            rw [← hs]; decide
          · split at h
            · injection h with h
              injection h with hs _
              rw [← hs]; decide
            · split at h
              · exact Except.noConfusion h
              · injection h with h
                injection h with hs _
                rw [← hs]
                exact adjustStatus_public _

/-! ## The names `encryptFile` gives its files -/

theorem getLast?_append_ne_nil (a b : Text) (hb : b ≠ []) :
    (a ++ b).getLast? = b.getLast? := by
  rw [List.getLast?_append, List.getLast?_eq_getLast _ hb]
  rfl

theorem temp_file_name_isTemp (host : HostOutcome) (k : Nat) : IsTempName (temp_file_name host k) := by
  unfold IsTempName temp_file_name
  rw [getLast?_append_ne_nil _ _ (by decide)]
  rfl

theorem temp_file_name_ne_nil (host : HostOutcome) (k : Nat) : temp_file_name host k ≠ [] := by
  intro h
  have := temp_file_name_isTemp host k
  rw [IsTempName, h] at this
  exact Option.noConfusion this

theorem key_name_not_temp (in_file_name : Text) :
    ¬ IsTempName (in_file_name ++ String.toList ".hckey") := by
  unfold IsTempName
  rw [getLast?_append_ne_nil _ _ (by decide)]
  decide

theorem single_name_not_temp (in_file_name : Text) :
    ¬ IsTempName (in_file_name ++ String.toList ".hc") := by
  unfold IsTempName
  rw [getLast?_append_ne_nil _ _ (by decide)]
  decide

theorem split_name_not_temp (in_file_name : Text) (n : Nat) :
    ¬ IsTempName (in_file_name ++ split_suffix n) := by
  unfold IsTempName split_suffix
  rw [← List.append_assoc, getLast?_append_ne_nil _ _ (by decide)]
  decide

theorem append_ne_nil_right (a b : Text) (hb : b ≠ []) : a ++ b ≠ [] := by
  intro h
  exact hb (List.append_eq_nil.1 h).2

theorem split_suffix_ne_nil (n : Nat) : split_suffix n ≠ [] := by
  unfold split_suffix
  exact append_ne_nil_right _ _ (by decide)

/-- The naming loop records, for each pass, a name that does not exist, is not
a temporary name and is not empty. -/
theorem name_splits_some (in_file_name : Text) (d : Disk) (n : Nat) :
    ∀ (i : Nat) (acc out : List FileNames),
      name_splits in_file_name d n i acc = some out →
      (∀ e ∈ acc, file_exists d e.m_file_name = false ∧ ¬ IsTempName e.m_file_name ∧
        e.m_file_name ≠ []) →
      out.length = acc.length + n ∧
      ∀ e ∈ out, file_exists d e.m_file_name = false ∧ ¬ IsTempName e.m_file_name ∧
        e.m_file_name ≠ [] := by
  induction n with
  | zero =>
    intro i acc out h hacc
    rw [name_splits] at h
    injection h with h
    rw [← h]
    exact ⟨rfl, hacc⟩
  | succ n ih =>
    intro i acc out h hacc
    rw [name_splits] at h
    by_cases h0 : file_exists d (in_file_name ++ split_suffix (i + 1)) = true
    · rw [if_pos h0] at h
      exact Option.noConfusion h
    · rw [if_neg h0] at h
      obtain ⟨hlen, hall⟩ := ih (i + 1) _ out h (by
        intro e he
        rcases List.mem_append.1 he with he | he
        · exact hacc e he
        · rw [List.mem_singleton] at he
          rw [he]
          refine ⟨?_, split_name_not_temp _ _, append_ne_nil_right _ _ (split_suffix_ne_nil _)⟩
          cases hv : file_exists d (in_file_name ++ split_suffix (i + 1))
          · rfl
          · exact absurd hv h0)
      refine ⟨?_, hall⟩
      rw [hlen, List.length_append, List.length_singleton]
      omega

theorem name_temps_spec (host : HostOutcome) (l : List FileNames) :
    ∀ k, (name_temps host k l).length = l.length ∧
      ∀ e ∈ name_temps host k l, IsTempName e.m_temp_file_name ∧
        ∃ e0 ∈ l, e.m_file_name = e0.m_file_name := by
  induction l with
  | nil => intro k; exact ⟨rfl, fun e he => by simp [name_temps] at he⟩
  | cons a rest ih =>
    intro k
    obtain ⟨hlen, hall⟩ := ih (k + 1)
    rw [name_temps]
    refine ⟨by rw [List.length_cons, List.length_cons, hlen], ?_⟩
    intro e he
    rcases List.mem_cons.1 he with he | he
    · rw [he]
      exact ⟨temp_file_name_isTemp host k, a, List.mem_cons_self _ _, rfl⟩
    · obtain ⟨h1, e0, he0, h2⟩ := hall e he
      exact ⟨h1, e0, List.mem_cons_of_mem _ he0, h2⟩

/-- When the head of `encryptFile` goes on, the names are assigned, no final
name exists, and there is one output for no split, `splits` outputs
otherwise. -/
theorem encrypt_names_ok (in_file_path in_file_name : Text) (splits : Nat) (host : HostOutcome)
    (d : Disk) (files : EngineFiles)
    (h : encrypt_names in_file_path in_file_name splits host d = (HC_STATUS_OK, files)) :
    NamesAssigned in_file_name host files ∧ NoFinalFile files d ∧
    files.m_out_files.length = (if splits ≠ 0 then splits else 1) := by
  unfold encrypt_names at h
  split at h
  · have h1 : HC_ERROR_BAD_INPUT_FILE_NAME = HC_STATUS_OK := congrArg Prod.fst h
    exact absurd h1 (by decide)
  · simp only [] at h
    split at h
    · have h1 : HC_ERROR_KEY_FILE_ALREADY_EXISTS = HC_STATUS_OK := congrArg Prod.fst h
      exact absurd h1 (by decide)
    · rename_i hkey
      split at h
      · have h1 : HC_ERROR_OUTPUT_FILE_ALREADY_EXISTS = HC_STATUS_OK := congrArg Prod.fst h
        exact absurd h1 (by decide)
      · rename_i outs hnamed
        have hfiles := congrArg Prod.snd h
        simp only [] at hfiles
        have hspec := name_temps_spec host outs 1
        have houts : outs.length = (if splits ≠ 0 then splits else 1) ∧
            ∀ e ∈ outs, file_exists d e.m_file_name = false ∧ ¬ IsTempName e.m_file_name ∧
              e.m_file_name ≠ [] := by
          by_cases hs : splits ≠ 0
          · rw [if_pos hs] at hnamed ⊢
            have := name_splits_some in_file_name d splits 0 [] outs hnamed
              (fun e he => by simp at he)
            simpa using this
          · rw [if_neg hs] at hnamed ⊢
            split at hnamed
            · exact Option.noConfusion hnamed
            · rename_i hex
              injection hnamed with hnamed
              rw [← hnamed]
              refine ⟨rfl, fun e he => ?_⟩
              rw [List.mem_singleton] at he
              rw [he]
              refine ⟨?_, single_name_not_temp _, append_ne_nil_right _ _ (by decide)⟩
              cases hv : file_exists d (in_file_name ++ String.toList ".hc")
              · rfl
              · exact absurd hv hex
        have hk : file_exists d (in_file_name ++ String.toList ".hckey") = false := by
          cases hv : file_exists d (in_file_name ++ String.toList ".hckey")
          · rfl
          · exact absurd hv hkey
        rw [← hfiles]
        refine ⟨⟨rfl, rfl, fun e he => ?_⟩, ⟨hk, fun e he => ?_⟩, ?_⟩
        · obtain ⟨h1, e0, he0, h2⟩ := hspec.2 e he
          obtain ⟨-, h3, h4⟩ := houts.2 e0 he0
          rw [h2]
          exact ⟨h1, h3, h4⟩
        · obtain ⟨-, e0, he0, h2⟩ := hspec.2 e he
          rw [h2]
          exact (houts.2 e0 he0).1
        · simp only []
          rw [hspec.1]
          exact houts.1

/-! ## What `encryptFile` leaves on disk when it fails -/

theorem ne_of_isTempName {n t : Text} (hn : ¬ IsTempName n) (ht : IsTempName t) : n ≠ t := by
  intro h
  rw [h] at hn
  exact hn ht

theorem open_out_files_frame (fopen_out : Nat → Bool) (l : List FileNames)
    (hl : ∀ e ∈ l, IsTempName e.m_temp_file_name) (n : Text) (hn : ¬ IsTempName n) :
    ∀ (i : Nat) (d : Disk),
      file_content (open_out_files fopen_out l i d).2 n = file_content d n := by
  induction l with
  | nil => intro i d; rfl
  | cons e rest ih =>
    intro i d
    rw [open_out_files]
    split
    · rw [ih (fun e he => hl e (List.mem_cons_of_mem _ he)),
        file_content_write_ne _ _ _ _ (ne_of_isTempName hn (hl e (List.mem_cons_self _ _)))]
    · rfl

theorem store_out_files_frame (l : List FileNames)
    (hl : ∀ e ∈ l, IsTempName e.m_temp_file_name) (n : Text) (hn : ¬ IsTempName n) :
    ∀ (fss : List FileSpec) (d : Disk),
      file_content (store_out_files l fss d) n = file_content d n := by
  induction l with
  | nil => intro fss d; rfl
  | cons e rest ih =>
    intro fss d
    cases fss with
    | nil => rfl
    | cons fs fss =>
      rw [store_out_files, ih (fun e he => hl e (List.mem_cons_of_mem _ he)),
        file_content_write_ne _ _ _ _ (ne_of_isTempName hn (hl e (List.mem_cons_self _ _)))]

theorem store_key_file_frame (m_key : List HcKeyData) (name : Text) (host : HostOutcome)
    (d : Disk) (hname : IsTempName name) (n : Text) (hn : ¬ IsTempName n) :
    file_content (store_key_file m_key name host d) n = file_content d n := by
  unfold store_key_file
  split
  · rfl
  · split
    · rfl
    · split
      · exact file_content_write_ne _ _ _ _ (ne_of_isTempName hn hname)
      · exact file_content_write_ne _ _ _ _ (ne_of_isTempName hn hname)

/-- Up to the renames `encryptFile` writes only files whose name is a temporary
name: every other name has the content it had. -/
theorem encrypt_body_frame (aes : AesCbc) (reg : PolyRegistry) (in_file_path : Text)
    (splits : Nat) (rnd : EncRandom) (host : HostOutcome) (files : EngineFiles) (d : Disk)
    (hkey : IsTempName files.m_key_file.m_temp_file_name)
    (hout : ∀ e ∈ files.m_out_files, IsTempName e.m_temp_file_name)
    (sb : Int) (db : Disk)
    (h : encrypt_body aes reg in_file_path splits rnd host files d = .ok (sb, db))
    (n : Text) (hn : ¬ IsTempName n) : file_content db n = file_content d n := by
  have hopen := open_out_files_frame host.fopen_out files.m_out_files hout n hn
  have hstore := store_out_files_frame files.m_out_files hout n hn
  have hk := fun m_key D => store_key_file_frame m_key files.m_key_file.m_temp_file_name host D
    hkey n hn
  unfold encrypt_body at h
  simp only [] at h
  repeat' split at h
  all_goals first
    | exact Except.noConfusion h
    | (simp only [Except.ok.injEq, Prod.mk.injEq] at h
       obtain ⟨-, rfl⟩ := h
       first
         | rfl
         | exact hopen _ _
         | (rw [hstore, hopen])
         | (rw [hk, hstore, hopen]))

/-- After `cleanUp` no file has one of the recorded names. -/
theorem cleanUp_foldl_false (l : List FileNames) (n : Text) :
    ∀ d : Disk, file_exists d n = false →
      file_exists (l.foldl
        (fun d e => remove_named (remove_named d e.m_file_name) e.m_temp_file_name) d) n =
          false := by
  induction l with
  | nil => intro d h; exact h
  | cons e rest ih =>
    intro d h
    rw [List.foldl_cons]
    exact ih _ (remove_named_exists_false _ _ _ (remove_named_exists_false _ _ _ h))

theorem cleanUp_foldl_removes (l : List FileNames) (n : Text) (hn : n ≠ [])
    (hmem : ∃ e ∈ l, n = e.m_file_name ∨ n = e.m_temp_file_name) :
    ∀ d : Disk, file_exists (l.foldl
      (fun d e => remove_named (remove_named d e.m_file_name) e.m_temp_file_name) d) n =
        false := by
  induction l with
  | nil => obtain ⟨e, he, -⟩ := hmem; simp at he
  | cons a rest ih =>
    intro d
    rw [List.foldl_cons]
    obtain ⟨e, he, hor⟩ := hmem
    rcases List.mem_cons.1 he with rfl | he
    · apply cleanUp_foldl_false
      rcases hor with h | h
      · rw [h]
        exact remove_named_exists_false _ _ _ (remove_named_self _ _ (by rw [← h]; exact hn))
      · rw [h]
        exact remove_named_self _ _ (by rw [← h]; exact hn)
    · exact ih ⟨e, he, hor⟩ _

/-- After `cleanUp` no file has a recorded name that is not empty. -/
theorem cleanUp_removes (files : EngineFiles) (d : Disk) (n : Text) (hn : n ≠ [])
    (hmem : n = files.m_key_file.m_file_name ∨ n = files.m_key_file.m_temp_file_name ∨
      ∃ e ∈ files.m_out_files, n = e.m_file_name ∨ n = e.m_temp_file_name) :
    file_exists (cleanUp files d) n = false := by
  unfold cleanUp
  simp only []
  rcases hmem with h | h | h
  · rw [h]
    exact remove_named_exists_false _ _ _ (remove_named_self _ _ (by rw [← h]; exact hn))
  · rw [h]
    exact remove_named_self _ _ (by rw [← h]; exact hn)
  · exact remove_named_exists_false _ _ _ (remove_named_exists_false _ _ _
      (cleanUp_foldl_removes _ n hn h d))

/-- On a plaintext of at most `2 ^ 15` bytes, without split and with a host
that performs every call, `encryptFile` reaches the renames: the temporary key
file holds the descriptor of the one key. -/
theorem encrypt_body_small (aes : AesCbc) (hinv : aes.Inverse) (reg : PolyRegistry)
    (hreg : RegistryReady reg) (in_file_path : Text) (rnd : EncRandom)
    (hdraws : KeyDrawsOk rnd.keys) (host : HostOutcome) (files : EngineFiles) (d : Disk)
    (P : List Nat) (e0 : FileNames) (hfiles : files.m_out_files = [e0])
    (hktemp : files.m_key_file.m_temp_file_name ≠ [])
    (hP : file_content d in_file_path = some P) (hP1 : 1 ≤ P.length) (hP2 : P.length ≤ 32768)
    (h1 : host.fopen_in = true) (h2 : host.resize = true) (h3 : host.fopen_out 0 = true)
    (h4 : host.fopen_key = true) (h5 : host.fwrite_key = true) :
    ∃ (k : HcKeyData) (d2 : Disk),
      encrypt_body aes reg in_file_path 0 rnd host files d =
        .ok (HC_STATUS_OK, write_file d2 files.m_key_file.m_temp_file_name
          ((key_xml_string [k]).map Char.toNat)) := by
  obtain ⟨reg1, lfsr1, k, hgen, hkin, hkout, hkinv⟩ :=
    generateKey_small reg hreg P.length hP1 hP2 rnd.keys hdraws rnd.shuffle
  obtain ⟨hp0, hs0, -, -, hgood⟩ := keyInvariant_good k hkinv 32768 (by omega)
  obtain ⟨W, hW, hwrite⟩ := encryptSegment_writes aes hinv k (rnd.segs 0)
    { m_lfsr := some lfsr1, m_in_files := [⟨true, P.length, P, 0⟩],
      m_out_files := [⟨true, 32768, [], 0⟩],
      m_in_file_index := 0, m_out_file_index := 0, m_key := [k],
      m_buffer := List.replicate 32768 0, reg := reg1 }
    lfsr1 ⟨true, P.length, P, 0⟩ ⟨true, 32768, [], 0⟩ (by omega) (by omega) rfl rfl rfl
    (by simp only [Nat.zero_add]; omega) rfl rfl
    (by simp only [List.length_replicate]; omega) hp0 hs0
    (by simp only [List.length_replicate]; exact hgood)
  obtain ⟨fs1, idx, ew, -⟩ := write_loop_single 32767 32768 W ⟨true, 32768, [], 0⟩ (by decide)
    (by decide) rfl
  have ew2 : write_loop k.m_out_size k.m_out_size W [⟨true, 32768, [], 0⟩] 0 =
      .ok (HC_STATUS_OK, [fs1], idx) := by
    rw [hkout]
    exact ew
  obtain ⟨e1, he1, hfiles1, -, -⟩ := hwrite _ _ ew2
  refine ⟨k, store_out_files files.m_out_files e1.m_out_files
    (open_out_files host.fopen_out files.m_out_files 0 d).2, ?_⟩
  unfold encrypt_body
  have hopen : (open_out_files host.fopen_out files.m_out_files 0 d).1 = true := by
    rw [hfiles, open_out_files, if_pos h3]
    rfl
  have hplan : (plan_out_files 32768 0 (files.m_out_files.map (fun _ => ⟨false, 0, [], 0⟩))).map
      (fun fs => { fs with m_file := true }) = [⟨true, 32768, [], 0⟩] := by
    rw [hfiles]
    rfl
  have hstore : store_key_file [k] files.m_key_file.m_temp_file_name host
      (store_out_files files.m_out_files e1.m_out_files
        (open_out_files host.fopen_out files.m_out_files 0 d).2) =
      write_file (store_out_files files.m_out_files e1.m_out_files
        (open_out_files host.fopen_out files.m_out_files 0 d).2)
        files.m_key_file.m_temp_file_name ((key_xml_string [k]).map Char.toNat) := by
    unfold store_key_file
    rw [if_neg (by simpa using hktemp)]
    simp only [h4, h5, Bool.not_true, Bool.false_eq_true, if_false]
  have hxml : (keyToXmlFile [k] (!files.m_key_file.m_temp_file_name.isEmpty) host.fopen_key
      host.fwrite_key).1 = HC_STATUS_OK := by
    unfold keyToXmlFile
    have : files.m_key_file.m_temp_file_name.isEmpty = false := by
      cases hv : files.m_key_file.m_temp_file_name.isEmpty
      · rfl
      · exact absurd (List.isEmpty_iff.1 hv) hktemp
    simp only [this, h4, h5, Bool.not_true, Bool.not_false, Bool.false_eq_true, if_false]
  simp only [hP, if_neg (show ¬ P.length = 0 by omega), h1, h2, Bool.not_true,
    Bool.false_eq_true, if_false, hgen, ne_eq, not_true_eq_false,
    List.map_cons, List.map_nil, List.sum_cons, List.sum_nil, Nat.add_zero,
    List.foldl_cons, List.foldl_nil, hkout, Nat.zero_max, false_and, hopen, hplan,
    encrypt_segments, he1, List.isEmpty_cons, hstore, hxml]

theorem sampleAes_inverse : sampleAes.Inverse :=
  fun _ _ chunk => ⟨List.length_reverse chunk, Prod.ext (List.reverse_reverse chunk) rfl⟩

/-- The private `encryptFile` once the names are assigned. -/
theorem encryptFileDisk_of_names (aes : AesCbc) (reg : PolyRegistry)
    (in_file_path in_file_name : Text) (splits : Nat) (rnd : EncRandom) (host : HostOutcome)
    (d : Disk) (files : EngineFiles)
    (hnames : encrypt_names in_file_path in_file_name splits host d = (HC_STATUS_OK, files)) :
    encryptFileDisk aes reg in_file_path in_file_name splits rnd host d =
      match encrypt_body aes reg in_file_path splits rnd host files d with
      | .error f => .error f
      | .ok (status, d1) =>
        if status ≠ HC_STATUS_OK then .ok (status, files, d1)
        else .ok (encrypt_renames host files d1) := by
  unfold encryptFileDisk
  simp only [hnames, ne_eq, not_true_eq_false, if_false]

/-- A failing run of the private `encryptFile` keeps the recorded names. -/
theorem encryptFileDisk_held (aes : AesCbc) (reg : PolyRegistry)
    (in_file_path in_file_name : Text) (splits : Nat) (rnd : EncRandom) (host : HostOutcome)
    (d : Disk) (files : EngineFiles)
    (hnames : encrypt_names in_file_path in_file_name splits host d = (HC_STATUS_OK, files))
    (status : Int) (held : EngineFiles) (d1 : Disk)
    (h : encryptFileDisk aes reg in_file_path in_file_name splits rnd host d =
      .ok (status, held, d1))
    (hfail : status ≠ HC_STATUS_OK) : held = files := by
  rw [encryptFileDisk_of_names aes reg in_file_path in_file_name splits rnd host d files hnames]
    at h
  split at h
  · exact Except.noConfusion h
  · split at h
    · simp only [Except.ok.injEq, Prod.mk.injEq] at h
      exact h.2.1.symm
    · unfold encrypt_renames at h
      split at h
      · simp only [Except.ok.injEq, Prod.mk.injEq] at h
        exact h.2.1.symm
      · simp only [] at h
        split at h
        · simp only [Except.ok.injEq, Prod.mk.injEq] at h
          exact h.2.1.symm
        · simp only [Except.ok.injEq, Prod.mk.injEq] at h
          exact absurd h.1.symm hfail

/-! ## The hexadecimal round trip -/

/-- A character that `stringToHex` accepts is the `%X` digit of a value below 16. -/
theorem isUpperHex_eq_hex_upper (c : Char) (h : IsUpperHex c) :
    ∃ d, d < 16 ∧ hex_upper d = c := by
  have hof : Char.ofNat c.toNat = c := Char.ofNat_toNat c
  rcases h with ⟨h1, h2⟩ | ⟨h1, h2⟩
  · have e1 : 48 ≤ c.toNat := h1
    have e2 : c.toNat ≤ 57 := h2
    refine ⟨c.toNat - 48, by omega, ?_⟩
    unfold hex_upper
    rw [if_pos (by omega), show 48 + (c.toNat - 48) = c.toNat from by omega, hof]
  · have e1 : 65 ≤ c.toNat := h1
    have e2 : c.toNat ≤ 70 := h2
    refine ⟨c.toNat - 55, by omega, ?_⟩
    unfold hex_upper
    rw [if_neg (by omega), show 55 + (c.toNat - 55) = c.toNat from by omega, hof]

/-- A text of `2 * n` characters, all in `0-9` or `A-F`, is the hexadecimal
text of `n` bytes. -/
theorem upper_hex_is_hex_text : ∀ (n : Nat) (s : Text), s.length = 2 * n →
    (∀ c ∈ s, IsUpperHex c) →
    ∃ bytes : List Nat, bytes.length = n ∧ (∀ b ∈ bytes, b < 256) ∧ hex_text bytes = s := by
  intro n
  induction n with
  | zero =>
    intro s hlen _
    have : s = [] := List.length_eq_zero.1 (by omega)
    subst this
    exact ⟨[], rfl, by simp, rfl⟩
  | succ n ih =>
    intro s hlen hall
    match s, hlen, hall with
    | c0 :: c1 :: rest, hlen, hall =>
      have hrest : rest.length = 2 * n := by
        simp only [List.length_cons] at hlen
        omega
      obtain ⟨bytes, hb1, hb2, hb3⟩ := ih rest hrest
        (fun c hc => hall c (List.mem_cons_of_mem _ (List.mem_cons_of_mem _ hc)))
      obtain ⟨d0, hd0, e0⟩ := isUpperHex_eq_hex_upper c0 (hall c0 (List.mem_cons_self _ _))
      obtain ⟨d1, hd1, e1⟩ := isUpperHex_eq_hex_upper c1
        (hall c1 (List.mem_cons_of_mem _ (List.mem_cons_self _ _)))
      refine ⟨(16 * d0 + d1) :: bytes, by simp [hb1], ?_, ?_⟩
      · intro b hb
        rcases List.mem_cons.1 hb with rfl | hb
        · omega
        · exact hb2 b hb
      · rw [hex_text_cons, hb3, show (16 * d0 + d1) / 16 = d0 from by omega,
          show (16 * d0 + d1) % 16 = d1 from by omega, e0, e1]
    | [], hlen, _ => simp at hlen
    | [_], hlen, _ => simp at hlen; omega

/-- A string that `stringToHex` accepts is the hexadecimal text of the bytes
it stores, and these are bytes. -/
theorem stringToHex_decodes (buffer : List Nat) (count : Nat) (str : Text) (hc : 1 ≤ count)
    (hbuf : buffer.length = count) (h : (stringToHex buffer count str).2 = true) :
    (stringToHex buffer count str).1.length = count ∧
    (∀ b ∈ (stringToHex buffer count str).1, b < 256) ∧
    hex_text (stringToHex buffer count str).1 = str := by
  obtain ⟨hlen, hall⟩ := (stringToHex_true_iff buffer count str hc).1 h
  obtain ⟨bytes, hb1, hb2, hb3⟩ := upper_hex_is_hex_text count str hlen hall
  have := stringToHex_hex_text buffer bytes count hc hbuf hb1 hb2
  rw [hb3] at this
  rw [this]
  exact ⟨hb1, hb2, hb3⟩

/-! ## What a successful `verify_poly` says about the tap mask -/

theorem xor_ge_of_ge {x p b : Nat} (hx : x < 2 ^ b) (hp : 2 ^ b ≤ p) : 2 ^ b ≤ x ^^^ p := by
  obtain ⟨i, hi, hbit⟩ := Nat.ge_two_pow_implies_high_bit_true hp
  have hxi : x.testBit i = false :=
    Nat.testBit_lt_two_pow (lt_of_lt_of_le hx (Nat.pow_le_pow_right (by norm_num) hi))
  have hbit2 : (x ^^^ p).testBit i = true := by
    rw [Nat.testBit_xor, hxi, hbit]; rfl
  exact le_trans (Nat.pow_le_pow_right (by norm_num) hi) (Nat.testBit_implies_ge hbit2)

/-- A tap mask of exactly `b` bits makes the step injective on the states below `2 ^ b`. -/
theorem lfsrNext_injOn {p b : Nat} (hb : 1 ≤ b) (hbit : 2 ^ (b - 1) ≤ p)
    {x y : Nat} (hx : x < 2 ^ b) (hy : y < 2 ^ b) (h : lfsrNext p x = lfsrNext p y) : x = y := by
  have h0 : lfsrNext p (x ^^^ y) = 0 := by
    rw [lfsrNext_xor, h, Nat.xor_self]
  have hlt : x ^^^ y < 2 ^ b := Nat.xor_lt_two_pow hx hy
  have hpow : 2 ^ b = 2 * 2 ^ (b - 1) := by
    conv_lhs => rw [show b = (b - 1) + 1 from by omega]
    rw [Nat.pow_succ, Nat.mul_comm]
  rcases lfsrNext_eq_zero h0 with h1 | h1
  · exact Nat.xor_eq_zero.1 h1
  · omega

theorem lfsrNext_one (p : Nat) : lfsrNext p 1 = p := by
  simp [lfsrNext, NEXT_LFSR_eq]

theorem lfsrNext_three (p : Nat) : lfsrNext p 3 = 1 ^^^ p := by
  simp [lfsrNext, NEXT_LFSR_eq]

/-- When `verify_poly` returns true for one seed, the tap mask has exactly
`b` bits, the sequence from the masked seed has the exact period `2 ^ b - 1`,
and `verify_poly` returns true for every seed of `[1, 2 ^ b - 1]`. -/
theorem verify_poly_seed_independent (poly b seed : Nat) (hb1 : 2 ≤ b) (hb2 : b ≤ 31)
    (h : verify_poly poly b seed = true) :
    poly < 2 ^ b ∧ 2 ^ (b - 1) ≤ poly ∧
    (lfsrNext poly)^[2 ^ b - 1] (seed &&& (2 ^ b - 1)) = seed &&& (2 ^ b - 1) ∧
    (∀ k, 0 < k → k < 2 ^ b - 1 →
      (lfsrNext poly)^[k] (seed &&& (2 ^ b - 1)) ≠ seed &&& (2 ^ b - 1)) ∧
    ∀ seed2, 1 ≤ seed2 → seed2 ≤ 2 ^ b - 1 → verify_poly poly b seed2 = true := by
  have hcov := verify_poly_covers poly b seed h
  obtain ⟨hinj, hrange⟩ :=
    cover_injective (fun k => (lfsrNext poly)^[k] (seed &&& (2 ^ b - 1))) (2 ^ b - 1) hcov
  obtain ⟨s0, hs0⟩ : ∃ s0, s0 = seed &&& (2 ^ b - 1) := ⟨_, rfl⟩
  rw [← hs0] at hcov
  simp only [← hs0] at hinj hrange
  rw [← hs0]
  have hpow : 2 ^ b = 2 * 2 ^ (b - 1) := by
    conv_lhs => rw [show b = (b - 1) + 1 from by omega]
    rw [Nat.pow_succ, Nat.mul_comm]
  have h2 : 2 ≤ 2 ^ (b - 1) := by
    have : 2 ^ 1 ≤ 2 ^ (b - 1) := Nat.pow_le_pow_right (by norm_num) (by omega)
    omega
  have hp : poly < 2 ^ b := by
    by_contra hge
    obtain ⟨k1, hk1, e1⟩ := hcov 1 (by omega) (by omega)
    obtain ⟨k3, hk3, e3⟩ := hcov 3 (by omega) (by omega)
    by_cases hlt : k1 + 1 < 2 ^ b - 1
    · have := (hrange (k1 + 1) hlt).2
      rw [Function.iterate_succ_apply', e1, lfsrNext_one] at this
      omega
    · have hne : k3 ≠ k1 := by
        intro he
        rw [he, e1] at e3
        omega
      have := (hrange (k3 + 1) (by omega)).2
      rw [Function.iterate_succ_apply', e3, lfsrNext_three] at this
      have := xor_ge_of_ge (x := 1) (p := poly) (b := b) (by omega) (by omega)
      omega
  have hbit : 2 ^ (b - 1) ≤ poly := by
    by_contra hlt
    have hsmall : ∀ k, 1 ≤ k → k < 2 ^ b - 1 → (lfsrNext poly)^[k] s0 < 2 ^ (b - 1) := by
      intro k hk1 hk2
      obtain ⟨j, rfl⟩ : ∃ j, k = j + 1 := ⟨k - 1, by omega⟩
      rw [Function.iterate_succ_apply']
      have hj := (hrange j (by omega)).2
      exact lfsrNext_shrink (p := poly) (h := b - 1) (k := 0) (by omega)
        (by rw [Nat.add_zero, show b - 1 + 1 = b from by omega]; omega)
    obtain ⟨kN, hkN, eN⟩ := hcov (2 ^ b - 1) (by omega) le_rfl
    obtain ⟨kM, hkM, eM⟩ := hcov (2 ^ b - 1 - 1) (by omega) (by omega)
    have hN0 : kN = 0 := by
      by_contra hne
      have := hsmall kN (by omega) hkN
      omega
    have hM0 : kM = 0 := by
      by_contra hne
      have := hsmall kM (by omega) hkM
      omega
    rw [hN0] at eN
    rw [hM0, eN] at eM
    omega
  have hlt : ∀ k, k < 2 ^ b - 1 → (lfsrNext poly)^[k] s0 < 2 ^ b := by
    intro k hk
    have := (hrange k hk).2
    omega
  have hne : ∀ k, 0 < k → k < 2 ^ b - 1 → (lfsrNext poly)^[k] s0 ≠ s0 := by
    intro k hk1 hk2 hk
    have := hinj k 0 hk2 (by omega) hk
    omega
  have hret : (lfsrNext poly)^[2 ^ b - 1] s0 = s0 := by
    have hlast := hrange (2 ^ b - 1 - 1) (by omega)
    have hstep : (lfsrNext poly)^[2 ^ b - 1] s0 =
        lfsrNext poly ((lfsrNext poly)^[2 ^ b - 1 - 1] s0) := by
      conv_lhs => rw [show 2 ^ b - 1 = (2 ^ b - 1 - 1) + 1 from by omega]
      rw [Function.iterate_succ_apply']
    have hNlt : (lfsrNext poly)^[2 ^ b - 1] s0 < 2 ^ b := by
      rw [hstep]
      exact lfsrNext_lt hp (by omega)
    have hN0 : (lfsrNext poly)^[2 ^ b - 1] s0 ≠ 0 := by
      intro h0
      rw [hstep, ← lfsrNext_zero poly] at h0
      have := lfsrNext_injOn (by omega) hbit (by omega) (Nat.two_pow_pos b) h0
      omega
    obtain ⟨j, hj, ej⟩ := hcov ((lfsrNext poly)^[2 ^ b - 1] s0) (by omega) (by omega)
    by_cases hj0 : j = 0
    · rw [hj0] at ej
      exact ej.symm
    · exfalso
      obtain ⟨i, rfl⟩ : ∃ i, j = i + 1 := ⟨j - 1, by omega⟩
      rw [Function.iterate_succ_apply', hstep] at ej
      have e2 := lfsrNext_injOn (by omega) hbit (hlt i (by omega))
        (hlt (2 ^ b - 1 - 1) (by omega)) ej
      have := hinj i (2 ^ b - 1 - 1) (by omega) (by omega) e2
      omega
  have hmin : Function.minimalPeriod (lfsrNext poly) s0 = 2 ^ b - 1 := by
    have hper : Function.IsPeriodicPt (lfsrNext poly) (2 ^ b - 1) s0 := hret
    have hle := hper.minimalPeriod_le (by omega)
    have hpos := hper.minimalPeriod_pos (by omega)
    by_contra hneq
    exact hne _ hpos (by omega) (Function.isPeriodicPt_minimalPeriod (lfsrNext poly) s0)
  refine ⟨hp, hbit, hret, hne, ?_⟩
  intro seed2 hs1 hs2
  obtain ⟨j, _, ej⟩ := hcov seed2 hs1 hs2
  have hmin2 : Function.minimalPeriod (lfsrNext poly) seed2 = 2 ^ b - 1 := by
    rw [← ej, Function.minimalPeriod_apply_iterate
      (Function.mk_mem_periodicPts (by omega) hret), hmin]
  exact verify_poly_of_fullCycle poly b seed2 (by omega) hb2 hs1 hs2
    (fullCycle_of_minimalPeriod poly b seed2 hp hs1 hs2 hmin2)

theorem testBit_top {p b : Nat} (hb : 1 ≤ b) (hp : p < 2 ^ b) (hbit : 2 ^ (b - 1) ≤ p) :
    p.testBit (b - 1) = true := by
  have hpow : 2 ^ b = 2 * 2 ^ (b - 1) := by
    conv_lhs => rw [show b = (b - 1) + 1 from by omega]
    rw [Nat.pow_succ, Nat.mul_comm]
  have e : p = 2 ^ (b - 1) + (p - 2 ^ (b - 1)) := by omega
  rw [e, Nat.testBit_two_pow_add_eq, Nat.testBit_lt_two_pow (by omega)]
  rfl

/-- The first variant registered for 15 bits passes `verify_poly` with the seed 1. -/
theorem sample_verify_poly : verify_poly 0x4211 15 1 = true :=
  verify_poly_of_fullCycle 0x4211 15 1 (by decide) (by decide) (by decide) (by decide)
    (registered_fullCycle 15 (by decide) (by decide) 0x4211
      (registered_of_literal 15 (by decide) (by decide) 0x8423 (by decide) (by decide)).1
      1 (by decide) (by decide))

/-! ## The planning loops, pass by pass -/

/-- The function `plan_sizes` with `min_key_count` named. -/
theorem plan_sizes_eq (file_size : Nat) :
    plan_sizes file_size =
      match split_sizes_loop HcLfsr.getMinSize (file_size + 32) file_size HcLfsr.getMaxSize [] with
      | none => .error .diverges
      | some (s, sizes) =>
        match (if file_size - s ≥ HcLfsr.getMinSize * min_key_count s ∧
                  sizes.length < min_key_count s then
                min_key_loop HcLfsr.getMinSize (min_key_count s) (min_key_count s) sizes
              else some sizes) with
        | none => .error .diverges
        | some sizes => .ok (if s ≠ 0 then sizes ++ [s % 2 ^ 32] else sizes) := rfl

/-- One pass of the greedy loop. -/
theorem split_sizes_loop_step (min_size fuel s max_size : Nat) (sizes : List Nat)
    (h : s ≠ 0 ∧ max_size ≥ min_size) :
    split_sizes_loop min_size (fuel + 1) s max_size sizes =
      if s > max_size then
        split_sizes_loop min_size fuel (s - max_size) max_size (sizes ++ [max_size])
      else split_sizes_loop min_size fuel s (max_size / 2) sizes := by
  rw [split_sizes_loop, if_pos h]

/-- The exit of the greedy loop. -/
theorem split_sizes_loop_exit (min_size fuel s max_size : Nat) (sizes : List Nat)
    (h : ¬ (s ≠ 0 ∧ max_size ≥ min_size)) :
    split_sizes_loop min_size fuel s max_size sizes = some (s, sizes) := by
  cases fuel with
  | zero => rw [split_sizes_loop, if_neg h]
  | succ n => rw [split_sizes_loop, if_neg h]

/-- More fuel does not change a result. -/
theorem split_sizes_loop_mono (min_size : Nat) :
    ∀ (fuel s max_size : Nat) (sizes : List Nat) (x : Nat × List Nat),
      split_sizes_loop min_size fuel s max_size sizes = some x →
      split_sizes_loop min_size (fuel + 1) s max_size sizes = some x := by
  intro fuel
  induction fuel with
  | zero =>
    intro s max_size sizes x h
    by_cases hc : s ≠ 0 ∧ max_size ≥ min_size
    · rw [split_sizes_loop, if_pos hc] at h
      exact Option.noConfusion h
    · rw [split_sizes_loop_exit _ _ _ _ _ hc] at h ⊢
      exact h
  | succ fuel ih =>
    intro s max_size sizes x h
    by_cases hc : s ≠ 0 ∧ max_size ≥ min_size
    · rw [split_sizes_loop_step _ _ _ _ _ hc] at h ⊢
      split
      · rename_i hgt
        rw [if_pos hgt] at h
        exact ih _ _ _ _ h
      · rename_i hgt
        rw [if_neg hgt] at h
        exact ih _ _ _ _ h
    · rw [split_sizes_loop_exit _ _ _ _ _ hc] at h ⊢
      exact h

theorem split_sizes_loop_mono_add (min_size : Nat) (fuel s max_size : Nat) (sizes : List Nat)
    (x : Nat × List Nat) (h : split_sizes_loop min_size fuel s max_size sizes = some x) (d : Nat) :
    split_sizes_loop min_size (fuel + d) s max_size sizes = some x := by
  induction d with
  | zero => exact h
  | succ d ih => exact split_sizes_loop_mono _ _ _ _ _ _ ih

/-- The greedy loop has left by the time `L + 15` passes are done: every
larger allowance gives the same result. -/
theorem split_sizes_loop_enough (L : Nat) (hL : 1 ≤ L) (fuel : Nat) (hf : L + 15 ≤ fuel) :
    split_sizes_loop HcLfsr.getMinSize fuel L HcLfsr.getMaxSize [] =
      split_sizes_loop HcLfsr.getMinSize (L + 32) L HcLfsr.getMaxSize [] := by
  rw [getMinSize_eq, getMaxSize_eq]
  obtain ⟨r, added, heq, -⟩ :=
    split_sizes_loop_spec (L + 15) 28 L [] (by norm_num) le_rfl hL (by omega) (by norm_num)
  have h1 := split_sizes_loop_mono_add 32768 (L + 15) L (2 ^ 28) [] _ heq (fuel - (L + 15))
  have h2 := split_sizes_loop_mono_add 32768 (L + 15) L (2 ^ 28) [] _ heq 17
  rw [show L + 15 + (fuel - (L + 15)) = fuel from by omega] at h1
  rw [show L + 15 + 17 = L + 32 from by omega] at h2
  rw [h1, h2]

/-- The sizes the greedy loop appends come in non-increasing order, none
above the current `max_size`. -/
theorem split_sizes_loop_sorted (fuel : Nat) :
    ∀ (k s : Nat) (sizes : List Nat) (r : Nat) (out : List Nat),
      split_sizes_loop 32768 fuel s (2 ^ k) sizes = some (r, out) →
      ∃ added, out = sizes ++ added ∧ added.Pairwise (fun a b => b ≤ a) ∧
        ∀ x ∈ added, x ≤ 2 ^ k := by
  induction fuel with
  | zero =>
    intro k s sizes r out h
    by_cases hc : s ≠ 0 ∧ 2 ^ k ≥ 32768
    · rw [split_sizes_loop, if_pos hc] at h
      exact Option.noConfusion h
    · rw [split_sizes_loop_exit _ _ _ _ _ hc] at h
      simp only [Option.some.injEq, Prod.mk.injEq] at h
      exact ⟨[], by rw [← h.2]; simp, List.Pairwise.nil, by simp⟩
  | succ fuel ih =>
    intro k s sizes r out h
    by_cases hc : s ≠ 0 ∧ 2 ^ k ≥ 32768
    · rw [split_sizes_loop_step _ _ _ _ _ hc] at h
      by_cases hgt : s > 2 ^ k
      · rw [if_pos hgt] at h
        obtain ⟨added, e1, e2, e3⟩ := ih k _ _ r out h
        refine ⟨2 ^ k :: added, by rw [e1]; simp, List.Pairwise.cons e3 e2, ?_⟩
        intro x hx
        rcases List.mem_cons.1 hx with rfl | hx
        · exact le_rfl
        · exact e3 x hx
      · rw [if_neg hgt] at h
        have hk : 1 ≤ k := by
          by_contra hk0
          have : k = 0 := by omega
          subst this
          have := hc.2
          norm_num at this
        have hhalf : 2 ^ k / 2 = 2 ^ (k - 1) := by
          conv_lhs => rw [show k = (k - 1) + 1 from by omega]
          rw [pow_succ, Nat.mul_div_cancel _ (by norm_num)]
        rw [hhalf] at h
        obtain ⟨added, e1, e2, e3⟩ := ih (k - 1) _ _ r out h
        refine ⟨added, e1, e2, fun x hx => le_trans (e3 x hx) ?_⟩
        exact Nat.pow_le_pow_right (by norm_num) (by omega)
    · rw [split_sizes_loop_exit _ _ _ _ _ hc] at h
      simp only [Option.some.injEq, Prod.mk.injEq] at h
      exact ⟨[], by rw [← h.2]; simp, List.Pairwise.nil, by simp⟩

/-- The plan for `L ≥ 1` has its power-of-two sizes first and the residual
last; two or more powers of two are planned exactly when `L > 2 ^ 16`. -/
theorem plan_sizes_count (L : Nat) (hL : 1 ≤ L) :
    ∃ (greedy pows : List Nat) (r : Nat),
      split_sizes_loop HcLfsr.getMinSize (L + 32) L HcLfsr.getMaxSize [] = some (r, greedy) ∧
      plan_sizes L = .ok (pows ++ [r]) ∧ 1 ≤ r ∧ r ≤ 32768 ∧
      (∀ x ∈ pows, IsSegmentPow x) ∧ pows.sum + r = L ∧ (2 ≤ pows.length ↔ 65536 < L) := by
  obtain ⟨greedy, pows, r, h1, h2, h3, h4, h5, h6, h7, h8, h9, h10, _⟩ := plan_sizes_spec L hL
  refine ⟨greedy, pows, r, h1, h2, h6, h7, h5, h8, ?_, ?_⟩
  · intro hlen
    have hle : pows.length • 32768 ≤ pows.sum :=
      List.card_nsmul_le_sum pows 32768 (fun x hx => (h5 x hx).ge)
    simp only [smul_eq_mul] at hle
    have : 2 * 32768 ≤ pows.length * 32768 := Nat.mul_le_mul_right _ hlen
    omega
  · intro hgt
    apply h9
    obtain ⟨q, hq⟩ := sum_pows_dvd greedy h3
    have : 2 ≤ q := by
      by_contra hlt
      have : q = 0 ∨ q = 1 := by omega
      rcases this with rfl | rfl <;> omega
    have : 32768 * 2 ≤ 32768 * q := Nat.mul_le_mul_left _ this
    omega

/-- The first size of a plan is a largest one. -/
theorem plan_sizes_head_max (L : Nat) (hL : 1 ≤ L) :
    ∃ (first : Nat) (rest : List Nat), plan_sizes L = .ok (first :: rest) ∧
      ∀ x ∈ rest, x ≤ first := by
  obtain ⟨greedy, pows, r, h1, h2, h3, h4, h5, h6, h7, h8, h9, h10, h11⟩ := plan_sizes_spec L hL
  rw [getMinSize_eq, getMaxSize_eq] at h1
  obtain ⟨added, e1, e2, -⟩ := split_sizes_loop_sorted (L + 32) 28 L [] r greedy h1
  rw [List.nil_append] at e1
  subst e1
  have hpows : pows.Pairwise (fun a b => b ≤ a) := by
    by_cases hc : 2 * 32768 ≤ L - r ∧ greedy.length < 2
    · have hm := h11 hc
      match greedy, hc, h3, h4, hm with
      | [], hc, _, h4, _ =>
        simp only [List.sum_nil, Nat.zero_add] at h4
        omega
      | [x], hc, h3, h4, hm =>
        have hx := h3 x (List.mem_singleton_self x)
        by_cases hgt : x > 32768
        · have e : min_key_loop 32768 2 2 [x] = some [x / 2, x / 2] := by
            rw [min_key_loop, if_pos (by simp)]
            simp only [halve_first, hgt, if_true, List.singleton_append, List.nil_append]
            rw [min_key_loop, if_neg (by simp)]
          rw [e] at hm
          simp only [Option.some.injEq] at hm
          rw [← hm]
          exact List.Pairwise.cons (fun y hy => by rw [List.mem_singleton] at hy; omega)
            (List.pairwise_singleton _ _)
        · exfalso
          have := hc.1
          simp only [List.sum_cons, List.sum_nil] at h4
          omega
      | _ :: _ :: _, hc, _, _, _ =>
        have := hc.2
        simp only [List.length_cons] at this
        omega
    · rw [h10 hc]
      exact e2
  match pows, h2, h5, hpows with
  | [], h2, _, _ => exact ⟨r, [], h2, by simp⟩
  | p :: ps, h2, h5, hpows =>
    refine ⟨p, ps ++ [r], h2, ?_⟩
    intro x hx
    rcases List.mem_append.1 hx with hx | hx
    · exact (List.pairwise_cons.1 hpows).1 x hx
    · rw [List.mem_singleton] at hx
      have := (h5 p (List.mem_cons_self _ _)).ge
      omega

/-- The key loop of `generateKey` on the plan for `L ≥ 1`, and what
`generateKey` returns from its result. -/
theorem generateKey_planned (reg : PolyRegistry) (hreg : RegistryReady reg) (L : Nat)
    (hL : 1 ≤ L) (draws : Nat → KeyDraws) (shuffle : Nat → Nat) (sizes : List Nat)
    (hplan : plan_sizes L = .ok sizes) :
    ∃ (status : Int) (reg1 : PolyRegistry) (lfsr1 : HcLfsr) (planned : List HcKeyData),
      key_loop draws sizes 0 reg (HcLfsr.new 0) [] = .ok (status, reg1, lfsr1, planned) ∧
      (KeyDrawsOk draws → status = HC_STATUS_OK) ∧
      (status = HC_STATUS_OK →
        planned.map (fun k => k.m_in_size) = sizes ∧
        (∀ k ∈ planned, KeyInvariant k) ∧
        generateKey reg (HcLfsr.new 0) L draws shuffle =
          .ok (HC_STATUS_OK, reg1, lfsr1, shuffle_keys shuffle planned)) := by
  obtain ⟨greedy, pows, r, h1, h2, h3, h4, h5, h6, h7, h8, h9, _, _⟩ := plan_sizes_spec L hL
  rw [hplan] at h2
  simp only [Except.ok.injEq] at h2
  have hsizes : ∀ se ∈ sizes, IsPlannedSize se := by
    intro se hse
    rw [h2] at hse
    rcases List.mem_append.1 hse with h | h
    · have := (h5 se h).ge
      exact ⟨by omega, Or.inr (h5 se h)⟩
    · rw [List.mem_singleton] at h
      subst h
      exact ⟨h6, Or.inl h7⟩
  obtain ⟨status, reg1, lfsr1, new, hk, hst, hfor, hgood⟩ :=
    key_loop_spec draws sizes 0 reg (HcLfsr.new 0) [] hreg rfl hsizes
  rw [List.nil_append] at hk
  refine ⟨status, reg1, lfsr1, new, hk, hgood, fun hs => ⟨?_, ?_, ?_⟩⟩
  · have hio := forall₂_keyFor_io _ _ (hfor hs)
    have e : new.map (fun k => k.m_in_size) = (new.map HcKeyData.io).map Prod.fst := by
      simp [List.map_map, Function.comp_def, HcKeyData.io]
    rw [e, hio, List.map_map]
    simp [Function.comp_def, plannedIo]
  · exact forall₂_keyFor_inv _ _ (hfor hs)
  · unfold generateKey
    simp only [hplan, hk, hs, ne_eq, not_true_eq_false, if_false]

/-- One pass of the minimum-count loop: as long as the sizes are powers of two
that cover `MIN_SIZE * min_key_count` and are fewer than `min_key_count`, the
scan finds a size above `MIN_SIZE`, halves it and appends the half. -/
theorem min_key_pass (mkc : Nat) (sizes : List Nat) (hall : ∀ x ∈ sizes, IsSegmentPow x)
    (hsum : 32768 * mkc ≤ sizes.sum) (hlt : sizes.length < mkc) :
    ∃ pre x post, sizes = pre ++ x :: post ∧ (∀ y ∈ pre, y ≤ 32768) ∧ 32768 < x ∧
      halve_first 32768 sizes = some (pre ++ (x / 2) :: post, x / 2) ∧
      (∀ fuel, min_key_loop 32768 mkc (fuel + 1) sizes =
        min_key_loop 32768 mkc fuel (pre ++ (x / 2) :: post ++ [x / 2])) ∧
      (∀ z ∈ pre ++ (x / 2) :: post ++ [x / 2], IsSegmentPow z) ∧
      (pre ++ (x / 2) :: post ++ [x / 2]).sum = sizes.sum ∧
      (pre ++ (x / 2) :: post ++ [x / 2]).length = sizes.length + 1 := by
  have hex : ∃ x ∈ sizes, 32768 < x := by
    by_contra hno
    have hle : ∀ x ∈ sizes, x ≤ 32768 := by
      intro x hx
      by_contra hgt
      exact hno ⟨x, hx, by omega⟩
    have h1 := List.sum_le_card_nsmul sizes 32768 hle
    have h2 : sizes.length * 32768 < mkc * 32768 := by omega
    simp only [smul_eq_mul] at h1
    omega
  obtain ⟨x0, hx0, hgt0⟩ := hex
  obtain ⟨r, hr⟩ := halve_first_some 32768 sizes x0 hx0 hgt0
  obtain ⟨pre, y, post, h1, h2, h3, h4, h5⟩ := halve_first_spec 32768 sizes r hr
  have hy : IsSegmentPow y := hall y (by rw [h1]; simp)
  obtain ⟨hyh, hyy⟩ := hy.half h3
  have hr2 : r = (pre ++ (y / 2) :: post, y / 2) := Prod.ext h4 h5
  refine ⟨pre, y, post, h1, h2, h3, by rw [hr, hr2], ?_, ?_, ?_, ?_⟩
  · intro fuel
    rw [min_key_loop, if_pos hlt]
    simp only [hr, hr2]
  · intro z hz
    simp only [List.mem_append, List.mem_cons, List.mem_singleton, List.not_mem_nil,
      or_false] at hz
    rcases hz with (hz | hz | hz) | hz
    · exact hall z (by rw [h1]; simp [hz])
    · rw [hz]; exact hyh
    · exact hall z (by rw [h1]; simp [hz])
    · rw [hz]; exact hyh
  · rw [h1]
    simp only [List.sum_append, List.sum_cons, List.sum_nil]
    omega
  · rw [h1]
    simp only [List.length_append, List.length_cons, List.length_nil]

/-! ## The first key under the shuffle -/

/-- A pass of the shuffle with `i ≥ 2` keeps a key that sits behind position 0
behind position 0. -/
theorem shuffle_step_keeps (max_index : Nat) (draw : Nat → Nat) (m : List HcKeyData) (i : Nat)
    (hi : 2 ≤ i) (a : HcKeyData) (h : ∃ q, 1 ≤ q ∧ m[q]? = some a) :
    ∃ q, 1 ≤ q ∧ (shuffle_step max_index draw m i)[q]? = some a := by
  obtain ⟨q, hq1, hq2⟩ := h
  unfold shuffle_step
  simp only []
  split
  · next x y hx hy =>
    rw [List.get?_eq_getElem?] at hx hy
    obtain ⟨hxl, -⟩ := List.getElem?_eq_some.1 hx
    obtain ⟨hyl, -⟩ := List.getElem?_eq_some.1 hy
    by_cases h1 : q = i - 1
    · refine ⟨i + draw i % (max_index - i + 1), by omega, ?_⟩
      rw [List.getElem?_set, if_pos rfl, if_pos (by rw [List.length_set]; exact hyl)]
      rw [h1, hx] at hq2
      exact hq2
    · by_cases h2 : q = i + draw i % (max_index - i + 1)
      · refine ⟨i - 1, by omega, ?_⟩
        rw [List.getElem?_set, if_neg (by omega), List.getElem?_set, if_pos rfl, if_pos hxl]
        rw [h2, hy] at hq2
        exact hq2
      · refine ⟨q, hq1, ?_⟩
        rw [List.getElem?_set, if_neg (fun h => h2 h.symm), List.getElem?_set,
          if_neg (fun h => h1 h.symm)]
        exact hq2
  · exact ⟨q, hq1, hq2⟩

theorem shuffle_fold_keeps (max_index : Nat) (draw : Nat → Nat) (a : HcKeyData) :
    ∀ (is : List Nat) (m : List HcKeyData), (∀ i ∈ is, 2 ≤ i) →
      (∃ q, 1 ≤ q ∧ m[q]? = some a) →
      (is.foldl (shuffle_step max_index draw) m)[0]? = m[0]? ∧
      ∃ q, 1 ≤ q ∧ (is.foldl (shuffle_step max_index draw) m)[q]? = some a := by
  intro is
  induction is with
  | nil => intro m _ h; exact ⟨rfl, h⟩
  | cons i is ih =>
    intro m hall h
    have hi : 2 ≤ i := hall i (List.mem_cons_self _ _)
    rw [List.foldl_cons]
    obtain ⟨e1, e2⟩ := ih (shuffle_step max_index draw m i)
      (fun j hj => hall j (List.mem_cons_of_mem _ hj))
      (shuffle_step_keeps max_index draw m i hi a h)
    refine ⟨?_, e2⟩
    rw [e1, shuffle_step_frame max_index draw m i 0 (by omega) (by omega)]

/-- The shuffle of a list of 3 to 256 keys: position 0 receives the key at
the index drawn in the first pass, which is at least 1, and the key that was
at position 0 ends behind position 0. -/
theorem shuffle_keys_first (draw : Nat → Nat) (l : List HcKeyData) (h3 : 3 ≤ l.length)
    (h256 : l.length ≤ 256) :
    1 + draw 1 % (l.length - 1) < l.length ∧
    (shuffle_keys draw l)[0]? = l[1 + draw 1 % (l.length - 1)]? ∧
    ∃ q, 1 ≤ q ∧ q < l.length ∧ (shuffle_keys draw l)[q]? = l[0]? := by
  have hidx : 1 + draw 1 % (l.length - 1) < l.length := by
    have := Nat.mod_lt (draw 1) (show 0 < l.length - 1 by omega)
    omega
  have hmax : (l.length - 1) % 256 = l.length - 1 := Nat.mod_eq_of_lt (by omega)
  have hne : l.isEmpty = false := by
    cases l with
    | nil => simp at h3
    | cons _ _ => rfl
  have hrange : List.range' 1 (l.length - 1 - 1) = 1 :: List.range' 2 (l.length - 3) := by
    rw [show l.length - 1 - 1 = (l.length - 3) + 1 from by omega, List.range'_succ]
  have hstep : shuffle_step (l.length - 1) draw l 1 =
      (l.set 0 (l[1 + draw 1 % (l.length - 1)])).set (1 + draw 1 % (l.length - 1))
        (l[0]) := by
    unfold shuffle_step
    simp only [show l.length - 1 - 1 + 1 = l.length - 1 from by omega, Nat.sub_self,
      List.get?_eq_getElem?, List.getElem?_eq_getElem hidx,
      List.getElem?_eq_getElem (show 0 < l.length by omega)]
  have hm0 : (shuffle_step (l.length - 1) draw l 1)[0]? = l[1 + draw 1 % (l.length - 1)]? := by
    rw [hstep, List.getElem?_set, if_neg (by omega), List.getElem?_set, if_pos rfl,
      if_pos (by omega), List.getElem?_eq_getElem hidx]
  have hmq : (shuffle_step (l.length - 1) draw l 1)[1 + draw 1 % (l.length - 1)]? =
      some (l[0]) := by
    rw [hstep, List.getElem?_set, if_pos rfl,
      if_pos (by simp only [List.length_set]; exact hidx)]
  obtain ⟨e1, q, hq1, hq2⟩ := shuffle_fold_keeps (l.length - 1) draw (l[0])
    (List.range' 2 (l.length - 3)) (shuffle_step (l.length - 1) draw l 1)
    (fun i hi => by rw [List.mem_range'_1] at hi; omega) ⟨_, by omega, hmq⟩
  have hkeys : shuffle_keys draw l =
      (List.range' 2 (l.length - 3)).foldl (shuffle_step (l.length - 1) draw)
        (shuffle_step (l.length - 1) draw l 1) := by
    unfold shuffle_keys
    rw [hne]
    simp only [Bool.false_eq_true, if_false, hmax, hrange, List.foldl_cons]
  refine ⟨hidx, by rw [hkeys, e1, hm0], q, hq1, ?_, ?_⟩
  · have hlen : (shuffle_keys draw l).length = l.length := (shuffle_keys_perm draw l).length_eq
    have := (List.getElem?_eq_some.1 (hkeys ▸ hq2)).1
    omega
  · rw [hkeys, hq2, List.getElem?_eq_getElem (show 0 < l.length by omega)]

/-! ## A gather index outside the working buffer -/

theorem gather_out_of_bounds (indices ib : List Nat) (n i : Nat) (out_buf : List Nat)
    (h : ib.length ≤ indices.getD i 0) :
    gather indices ib (n + 1) i out_buf = .error .undefined := by
  rw [gather, read_at, if_neg (by omega)]

theorem gather_chunk_out_of_bounds (indices ib : List Nat) (is chunk : Nat) (out_buf : List Nat)
    (h : ib.length ≤ indices.getD 0 0) :
    gather_chunk indices ib is chunk out_buf = .error .undefined := by
  unfold gather_chunk
  rw [gather_out_of_bounds indices ib 254 0 out_buf h]

theorem decrypt_chunk_out_of_bounds (aes : AesCbc) (key : List Nat) (st : CodecState)
    (hfill : (HcLfsr.fillNext st.lfsr st.indices 0 256).2.2 = true)
    (h : st.work.length ≤ (HcLfsr.fillNext st.lfsr st.indices 0 256).2.1.getD 0 0) :
    decrypt_chunk aes key st = .error .undefined := by
  unfold decrypt_chunk
  simp only [hfill, Bool.not_true, Bool.false_eq_true, if_false]
  rw [gather_chunk_out_of_bounds _ _ _ _ _ h]

theorem decrypt_loop_out_of_bounds (aes : AesCbc) (key : List Nat) (fuel is : Nat)
    (buf ivec indices : List Nat) (lfsr : HcLfsr) (work : List Nat) (file : FileSpec)
    (his : is ≠ 0)
    (hfill : (HcLfsr.fillNext lfsr indices 0 256).2.2 = true)
    (h : work.length ≤ (HcLfsr.fillNext lfsr indices 0 256).2.1.getD 0 0) :
    decrypt_loop aes key (fuel + 1)
      { is := is, buf := buf, ivec := ivec, indices := indices, lfsr := lfsr, work := work,
        file := file } = .error .undefined := by
  have hc := decrypt_chunk_out_of_bounds aes key
    { is := is, buf := buf, ivec := ivec, indices := indices, lfsr := lfsr, work := work,
      file := file } hfill h
  rw [decrypt_loop, if_neg his]
  simp only [hc]

theorem sample_wild_fill :
    (HcLfsr.fillNext sampleWildLfsr (List.replicate 256 0) 0 256).2.2 = true ∧
    (HcLfsr.fillNext sampleWildLfsr (List.replicate 256 0) 0 256).2.1.getD 0 0 = 0x4000 := by
  decide!


theorem sample_wild_setSpec (reg : PolyRegistry) (n : Nat) (hn : 28 < n) :
    ∃ reg1, HcLfsr.setSpec reg (HcLfsr.new n) sampleWildKey.m_lfsr_specs =
      (reg1, sampleWildLfsr, true) := by
  obtain ⟨reg1, h⟩ := setSpec_ok reg (HcLfsr.new n) sampleWildKey.m_lfsr_specs
    (by decide) (by decide)
  refine ⟨reg1, ?_⟩
  rw [h]
  have hnew : HcLfsr.new n = { m_lfsr := 0, m_seed := 0, m_poly := 0, m_max_bits := 28 } := by
    simp only [HcLfsr.new, MAX_BITS, if_neg (show ¬ n = 0 by omega),
      if_pos (show n > 28 from hn), MIN_BITS, if_neg (show ¬ 28 < 15 by decide)]
  rw [hnew]
  rfl

/-- The method `decryptSegment` when the spec is accepted, the sizes pass, the
read loop succeeds and the `while (is)` loop ends in a fault. -/
theorem decryptSegment_reads_error (aes : AesCbc) (e : Engine) (kd : HcKeyData)
    (lfsr0 lfsr1 : HcLfsr) (reg1 : PolyRegistry) (m_buffer : List Nat)
    (m_in_files : List FileSpec) (m_in_file_index : Nat) (out_file : FileSpec) (f : Fault)
    (hl : e.m_lfsr = some lfsr0)
    (hsp : HcLfsr.setSpec e.reg lfsr0 kd.m_lfsr_specs = (reg1, lfsr1, true))
    (h1 : kd.m_in_size ≤ kd.m_out_size) (h2 : kd.m_in_size ≠ 0)
    (er : read_loop (kd.m_out_size + e.m_in_files.length + 1) kd.m_out_size 0 e.m_buffer
      e.m_in_files e.m_in_file_index = .ok (HC_STATUS_OK, m_buffer, m_in_files, m_in_file_index))
    (hout : e.m_out_files.get? 0 = some out_file)
    (hloop : decrypt_loop aes kd.m_key kd.m_in_size
      { is := kd.m_in_size, buf := List.replicate 256 0, ivec := kd.m_iv,
        indices := List.replicate 256 0, lfsr := lfsr1, work := m_buffer,
        file := out_file } = .error f) :
    decryptSegment aes e kd = .error f := by
  unfold decryptSegment
  simp only [hl, hsp, Bool.not_true, Bool.false_eq_true, if_false]
  rw [if_neg (by omega), if_neg h2]
  simp only [er, ne_eq, not_true_eq_false, if_false, hout, hloop]

/-- The method `decryptSegment` when the spec is accepted, the sizes pass, the
read loop succeeds and the `while (is)` loop returns. -/
theorem decryptSegment_reads_ok (aes : AesCbc) (e : Engine) (kd : HcKeyData)
    (lfsr0 lfsr1 : HcLfsr) (reg1 : PolyRegistry) (m_buffer : List Nat)
    (m_in_files : List FileSpec) (m_in_file_index : Nat) (out_file : FileSpec) (status : Int)
    (st1 : CodecState)
    (hl : e.m_lfsr = some lfsr0)
    (hsp : HcLfsr.setSpec e.reg lfsr0 kd.m_lfsr_specs = (reg1, lfsr1, true))
    (h1 : kd.m_in_size ≤ kd.m_out_size) (h2 : kd.m_in_size ≠ 0)
    (er : read_loop (kd.m_out_size + e.m_in_files.length + 1) kd.m_out_size 0 e.m_buffer
      e.m_in_files e.m_in_file_index = .ok (HC_STATUS_OK, m_buffer, m_in_files, m_in_file_index))
    (hout : e.m_out_files.get? 0 = some out_file)
    (hloop : decrypt_loop aes kd.m_key kd.m_in_size
      { is := kd.m_in_size, buf := List.replicate 256 0, ivec := kd.m_iv,
        indices := List.replicate 256 0, lfsr := lfsr1, work := m_buffer,
        file := out_file } = .ok (status, st1)) :
    decryptSegment aes e kd =
      .ok (status, { m_lfsr := some st1.lfsr, m_in_files := m_in_files,
                     m_out_files := e.m_out_files.set 0 st1.file,
                     m_in_file_index := m_in_file_index,
                     m_out_file_index := e.m_out_file_index, m_key := e.m_key,
                     m_buffer := m_buffer, reg := reg1 }) := by
  unfold decryptSegment
  simp only [hl, hsp, Bool.not_true, Bool.false_eq_true, if_false]
  rw [if_neg (by omega), if_neg h2]
  simp only [er, ne_eq, not_true_eq_false, if_false, hout, hloop]

theorem sample_wild_sizes :
    sampleWildKey.m_in_size ≤ sampleWildKey.m_out_size ∧ sampleWildKey.m_in_size ≠ 0 := by
  decide

theorem sample_wild_fuel (C buf : List Nat) (aes : AesCbc) (out_file : FileSpec)
    (hlen : (List.take 256 (List.drop 0 C) ++ List.drop 256 buf).length = 256) :
    decrypt_loop aes sampleWildKey.m_key sampleWildKey.m_in_size
      { is := sampleWildKey.m_in_size, buf := List.replicate 256 0, ivec := sampleWildKey.m_iv,
        indices := List.replicate 256 0, lfsr := sampleWildLfsr,
        work := List.take 256 (List.drop 0 C) ++ List.drop 256 buf, file := out_file } =
      .error .undefined :=
  decrypt_loop_out_of_bounds aes sampleWildKey.m_key 255 256
    (List.replicate 256 0) sampleWildKey.m_iv (List.replicate 256 0) sampleWildLfsr
    (List.take 256 (List.drop 0 C) ++ List.drop 256 buf) out_file (by decide)
    sample_wild_fill.1 (by rw [hlen, sample_wild_fill.2]; decide)

theorem sample_wild_segment (aes : AesCbc) (reg : PolyRegistry) (C : List Nat)
    (hC : C.length = 256) (keys : List HcKeyData) (out_files : List FileSpec) (out_file : FileSpec)
    (buf : List Nat) (hbuf : buf.length = 256) (hout : out_files.get? 0 = some out_file) :
    decryptSegment aes
      { m_lfsr := some (HcLfsr.new 256), m_in_files := [⟨true, 0, C, 0⟩],
        m_out_files := out_files, m_in_file_index := 0,
        m_out_file_index := 0, m_key := keys, m_buffer := buf, reg := reg }
      sampleWildKey = .error .undefined := by
  obtain ⟨reg1, hsp⟩ := sample_wild_setSpec reg 256 (by decide)
  have er := read_loop_single (256 + 1) 256 buf ⟨true, 0, C, 0⟩
    (by decide) (by simp only [Nat.zero_add, hC]; exact le_refl _)
    (by rw [hbuf]) rfl
  have hlen : (List.take 256 (List.drop 0 C) ++ List.drop 256 buf).length = 256 := by
    rw [List.length_append, List.length_take, List.length_drop, List.length_drop, hbuf, hC]
    rfl
  exact decryptSegment_reads_error aes
    { m_lfsr := some (HcLfsr.new 256), m_in_files := [⟨true, 0, C, 0⟩],
      m_out_files := out_files, m_in_file_index := 0,
      m_out_file_index := 0, m_key := keys, m_buffer := buf, reg := reg }
    sampleWildKey (HcLfsr.new 256) sampleWildLfsr reg1 _ _ _
    out_file _ rfl hsp sample_wild_sizes.1 sample_wild_sizes.2 er hout
    (sample_wild_fuel C buf aes out_file hlen)

theorem decrypt_segments_error (aes : AesCbc) (ke : HcKeyData) (rest : List HcKeyData)
    (e : Engine) (f : Fault) (h : decryptSegment aes e ke = .error f) :
    decrypt_segments aes (ke :: rest) e = .error f := by
  rw [decrypt_segments, h]

/-- The private `decryptFile` without joins, when the single input file has
the length the keys ask for and the loop over the keys ends in a fault. -/
theorem decryptFile_single_error (aes : AesCbc) (e : Engine) (data : List Nat)
    (files : Nat → Option (List Nat)) (f : Fault) (hlen : data.length ≠ 0)
    (htot : (e.m_key.map (fun ke => ke.m_out_size)).sum = data.length)
    (hseg : decrypt_segments aes e.m_key
      { m_lfsr := e.m_lfsr, m_in_files := e.m_in_files ++ [⟨true, 0, data, 0⟩],
        m_out_files := e.m_out_files ++
          [⟨true, (e.m_key.map (fun ke => ke.m_in_size)).sum, [], 0⟩],
        m_in_file_index := e.m_in_file_index, m_out_file_index := e.m_out_file_index,
        m_key := e.m_key, m_buffer := e.m_buffer, reg := e.reg } = .error f) :
    decryptFile aes e (some data) files 0 = .error f := by
  unfold decryptFile
  simp only [if_true, if_neg hlen, ne_eq, not_true_eq_false, if_false, htot, hseg]

theorem check_keys_single (ke : HcKeyData) (reg reg1 : PolyRegistry) (lfsr1 : HcLfsr)
    (h1 : ke.m_in_size ≠ 0) (h2 : ke.m_out_size ≠ 0) (h3 : ke.m_in_size ≤ ke.m_out_size)
    (h4 : ke.m_out_size ≤ getMaxBlockSize)
    (hsp : HcLfsr.setSpec reg (HcLfsr.new ke.m_out_size) ke.m_lfsr_specs = (reg1, lfsr1, true)) :
    check_keys [ke] reg 0 = some (reg1, ke.m_out_size) := by
  rw [check_keys, if_neg (by rintro (h | h); exact h1 h; exact h2 h), if_neg (by omega),
    if_neg (by omega)]
  simp only [hsp, Bool.not_true, Bool.false_eq_true, if_false, check_keys]
  rw [if_pos (by omega)]

theorem decryptFilePublic_error (aes : AesCbc) (reg reg1 : PolyRegistry) (keys : List HcKeyData)
    (single : Option (List Nat)) (files : Nat → Option (List Nat)) (joins mss : Nat) (f : Fault)
    (hck : check_keys keys reg 0 = some (reg1, mss))
    (hdf : decryptFile aes
      { m_lfsr := some (HcLfsr.new mss), m_in_files := [], m_out_files := [],
        m_in_file_index := 0, m_out_file_index := 0, m_key := keys,
        m_buffer := List.replicate mss 0, reg := reg1 } single files joins = .error f) :
    decryptFilePublic aes reg keys single files joins = .error f := by
  unfold decryptFilePublic
  simp only [hck, hdf]

theorem sample_wild_bounds :
    sampleWildKey.m_in_size ≠ 0 ∧ sampleWildKey.m_out_size ≠ 0 ∧
    sampleWildKey.m_in_size ≤ sampleWildKey.m_out_size ∧
    sampleWildKey.m_out_size ≤ getMaxBlockSize ∧ 28 < sampleWildKey.m_out_size ∧
    ([sampleWildKey].map (fun ke => ke.m_out_size)).sum = 256 := by
  decide

/-- The sample key passes the sanity checks of the public `decryptFile`, which
then sizes the working buffer to 256 bytes. -/
theorem sample_wild_checks (reg : PolyRegistry) :
    ∃ reg1, check_keys [sampleWildKey] reg 0 = some (reg1, sampleWildKey.m_out_size) := by
  obtain ⟨reg1, hsp⟩ := sample_wild_setSpec reg sampleWildKey.m_out_size sample_wild_bounds.2.2.2.2.1
  exact ⟨reg1, check_keys_single sampleWildKey reg reg1 sampleWildLfsr sample_wild_bounds.1
    sample_wild_bounds.2.1 sample_wild_bounds.2.2.1 sample_wild_bounds.2.2.2.1 hsp⟩

/-- The public `decryptFile` on the sample key and a ciphertext file of 256 bytes. -/
theorem sample_wild_public (aes : AesCbc) (reg : PolyRegistry) (C : List Nat)
    (hC : C.length = 256) (files : Nat → Option (List Nat)) :
    decryptFilePublic aes reg [sampleWildKey] (some C) files 0 = .error .undefined := by
  obtain ⟨reg1, hck⟩ := sample_wild_checks reg
  refine decryptFilePublic_error aes reg reg1 _ _ _ _ _ _ hck ?_
  refine decryptFile_single_error aes _ C files _ (by omega)
    (by rw [hC]; exact sample_wild_bounds.2.2.2.2.2) ?_
  refine decrypt_segments_error aes sampleWildKey [] _ _ ?_
  exact sample_wild_segment aes reg1 C hC [sampleWildKey] _ ⟨true, _, [], 0⟩
    (List.replicate sampleWildKey.m_out_size 0) (List.length_replicate _ _) rfl

/-! ## The positions `encryptSegment` writes -/

theorem segment_writes_zero (fuel : Nat) (lfsr : HcLfsr) (indices : List Nat) :
    segment_writes fuel 0 lfsr indices = [] := by
  cases fuel <;> simp [segment_writes]

/-- The scatter loop leaves every slot alone that is not one of its indices. -/
theorem scatter_frame (indices in_buf : List Nat) :
    ∀ (n i : Nat) (ob ob1 : List Nat), scatter indices in_buf n i ob = .ok ob1 →
      ob1.length = ob.length ∧
      ∀ p, (∀ t, t < n → indices.getD (i + t) 0 ≠ p) → ob1[p]? = ob[p]? := by
  intro n
  induction n with
  | zero =>
    intro i ob ob1 h
    rw [scatter] at h
    cases h
    exact ⟨rfl, fun _ _ => rfl⟩
  | succ n ih =>
    intro i ob ob1 h
    rw [scatter, write_at] at h
    by_cases hlt : indices.getD i 0 < ob.length
    · rw [if_pos hlt] at h
      obtain ⟨e1, e2⟩ := ih (i + 1) _ ob1 h
      refine ⟨by rw [e1, List.length_set], fun p hp => ?_⟩
      rw [e2 p (fun t ht => by
        rw [show i + 1 + t = i + (t + 1) by omega]
        exact hp (t + 1) (by omega))]
      rw [List.getElem?_set, if_neg (by have := hp 0 (by omega); rwa [Nat.add_zero] at this)]
    · rw [if_neg hlt] at h
      exact Except.noConfusion h

/-- Two runs of the scatter loop on buffers of the same length: the second
succeeds when the first does, and the results agree on every index of the
loop and wherever the buffers agreed. -/
theorem scatter_rel (indices in_buf : List Nat) :
    ∀ (n i : Nat) (ob ob1 ob2 : List Nat), scatter indices in_buf n i ob = .ok ob1 →
      ob2.length = ob.length →
      ∃ ob3, scatter indices in_buf n i ob2 = .ok ob3 ∧ ob3.length = ob1.length ∧
        ∀ p, ((∃ t, t < n ∧ indices.getD (i + t) 0 = p) ∨ ob[p]? = ob2[p]?) →
          ob1[p]? = ob3[p]? := by
  intro n
  induction n with
  | zero =>
    intro i ob ob1 ob2 h hlen
    rw [scatter] at h
    cases h
    refine ⟨ob2, rfl, hlen, fun p hp => ?_⟩
    rcases hp with ⟨t, ht, _⟩ | hp
    · omega
    · exact hp
  | succ n ih =>
    intro i ob ob1 ob2 h hlen
    rw [scatter, write_at] at h
    by_cases hlt : indices.getD i 0 < ob.length
    · rw [if_pos hlt] at h
      obtain ⟨ob3, e1, e2, e3⟩ := ih (i + 1) _ ob1 (ob2.set (indices.getD i 0) (in_buf.getD i 0))
        h (by rw [List.length_set, List.length_set, hlen])
      refine ⟨ob3, ?_, e2, fun p hp => ?_⟩
      · rw [scatter, write_at, if_pos (by omega)]
        exact e1
      · apply e3
        rcases hp with ⟨t, ht, hp⟩ | hp
        · cases t with
          | zero =>
            right
            rw [Nat.add_zero] at hp
            rw [List.getElem?_set, List.getElem?_set, if_pos hp, if_pos hp, if_pos hlt,
              if_pos (by omega)]
          | succ s =>
            left
            exact ⟨s, by omega, by rw [show i + 1 + s = i + (s + 1) by omega]; exact hp⟩
        · right
          rw [List.getElem?_set, List.getElem?_set]
          by_cases he : indices.getD i 0 = p
          · rw [if_pos he, if_pos he, if_pos hlt, if_pos (by omega)]
          · rw [if_neg he, if_neg he]
            exact hp
    · rw [if_neg hlt] at h
      exact Except.noConfusion h

theorem mem_chunk_writes (indices : List Nat) (is p : Nat) :
    p ∈ chunk_writes indices is ↔
      (∃ t, t < 255 ∧ indices.getD t 0 = p) ∨ p = (if is ≠ 0 then indices.getD 255 0 else 0) := by
  unfold chunk_writes
  rw [List.mem_append, List.mem_map, List.mem_singleton]
  constructor
  · rintro (⟨t, ht, rfl⟩ | h)
    · exact Or.inl ⟨t, List.mem_range.1 ht, rfl⟩
    · exact Or.inr h
  · rintro (⟨t, ht, rfl⟩ | h)
    · exact Or.inl ⟨t, List.mem_range.2 ht, rfl⟩
    · exact Or.inr h

/-- The two scatter statements leave every slot alone that is not in `chunk_writes`. -/
theorem scatter_chunk_frame (indices in_buf : List Nat) (is : Nat) (ob ob1 : List Nat)
    (h : scatter_chunk indices in_buf is ob = .ok ob1) :
    ob1.length = ob.length ∧ ∀ p, p ∉ chunk_writes indices is → ob1[p]? = ob[p]? := by
  unfold scatter_chunk at h
  cases hs : scatter indices in_buf 255 0 ob with
  | error f => rw [hs] at h; exact Except.noConfusion h
  | ok ob0 =>
    rw [hs] at h
    simp only [write_at] at h
    obtain ⟨e1, e2⟩ := scatter_frame indices in_buf 255 0 ob ob0 hs
    by_cases hlt : (if is ≠ 0 then indices.getD 255 0 else 0) < ob0.length
    · rw [if_pos hlt] at h
      cases h
      refine ⟨by rw [List.length_set, e1], fun p hp => ?_⟩
      rw [mem_chunk_writes] at hp
      rw [List.getElem?_set, if_neg (fun he => hp (Or.inr he.symm))]
      exact e2 p (fun t ht he => hp (Or.inl ⟨t, ht, by rw [Nat.zero_add] at he; exact he⟩))
    · rw [if_neg hlt] at h
      exact Except.noConfusion h

/-- Two runs of the scatter statements on buffers of the same length agree on
`chunk_writes` and wherever the buffers agreed. -/
theorem scatter_chunk_rel (indices in_buf : List Nat) (is : Nat) (ob ob1 ob2 : List Nat)
    (h : scatter_chunk indices in_buf is ob = .ok ob1) (hlen : ob2.length = ob.length) :
    ∃ ob3, scatter_chunk indices in_buf is ob2 = .ok ob3 ∧ ob3.length = ob1.length ∧
      ∀ p, (p ∈ chunk_writes indices is ∨ ob[p]? = ob2[p]?) → ob1[p]? = ob3[p]? := by
  unfold scatter_chunk at h
  cases hs : scatter indices in_buf 255 0 ob with
  | error f => rw [hs] at h; exact Except.noConfusion h
  | ok ob0 =>
    rw [hs] at h
    simp only [write_at] at h
    obtain ⟨e0, -⟩ := scatter_frame indices in_buf 255 0 ob ob0 hs
    obtain ⟨ob4, e1, e2, e3⟩ := scatter_rel indices in_buf 255 0 ob ob0 ob2 hs hlen
    by_cases hlt : (if is ≠ 0 then indices.getD 255 0 else 0) < ob0.length
    · rw [if_pos hlt] at h
      cases h
      refine ⟨ob4.set (if is ≠ 0 then indices.getD 255 0 else 0) (in_buf.getD 255 0), ?_, ?_, ?_⟩
      · unfold scatter_chunk
        rw [e1]
        simp only [write_at]
        rw [if_pos (by omega)]
      · rw [List.length_set, List.length_set, e2]
      · intro p hp
        rw [List.getElem?_set, List.getElem?_set]
        by_cases he : (if is ≠ 0 then indices.getD 255 0 else 0) = p
        · rw [if_pos he, if_pos he, if_pos hlt, if_pos (by omega)]
        · rw [if_neg he, if_neg he]
          apply e3
          rcases hp with hp | hp
          · rw [mem_chunk_writes] at hp
            rcases hp with ⟨t, ht, hp⟩ | hp
            · exact Or.inl ⟨t, ht, by rw [Nat.zero_add]; exact hp⟩
            · exact absurd hp.symm he
          · exact Or.inr hp
    · rw [if_neg hlt] at h
      exact Except.noConfusion h

/-! ## Two runs of the encrypt loop on different working buffers -/

/-- One pass of `while (is)` in `encryptSegment` that ends with `HC_STATUS_OK`:
what it leaves in the state, the slots it leaves alone, and the same pass
started on another working buffer of the same length. -/
theorem encrypt_chunk_rel (aes : AesCbc) (key : List Nat) (padding : Option (Nat → Nat))
    (st st1 : CodecState) (w2 : List Nat)
    (h : encrypt_chunk aes key padding st = .ok (HC_STATUS_OK, st1))
    (hw : w2.length = st.work.length) :
    (HcLfsr.fillNext st.lfsr st.indices 0 256).2.2 = true ∧
    st1.is = st.is - (if 256 > st.is then st.is else 256) ∧
    st1.lfsr = (HcLfsr.fillNext st.lfsr st.indices 0 256).1 ∧
    st1.indices = (HcLfsr.fillNext st.lfsr st.indices 0 256).2.1 ∧
    st1.work.length = st.work.length ∧
    (∀ p, p ∉ chunk_writes st1.indices st1.is → st1.work[p]? = st.work[p]?) ∧
    ∃ w3, encrypt_chunk aes key padding { st with work := w2 } =
        .ok (HC_STATUS_OK, { st1 with work := w3 }) ∧
      w3.length = st1.work.length ∧
      ∀ p, (p ∈ chunk_writes st1.indices st1.is ∨ st.work[p]? = w2[p]?) →
        st1.work[p]? = w3[p]? := by
  obtain ⟨is, buf, ivec, indices, lfsr, work, file⟩ := st
  unfold encrypt_chunk at h
  simp only at h hw ⊢
  generalize hchunk : (if 256 > is then is else 256) = chunk at h ⊢
  by_cases hfile : file.pos + chunk > file.data.length
  · rw [if_pos hfile] at h
    injection h with h
    injection h with h1 _
    exact absurd h1 (by decide)
  · rw [if_neg hfile] at h
    by_cases hfill : (!(HcLfsr.fillNext lfsr indices 0 256).2.2) = true
    · rw [if_pos hfill] at h
      injection h with h
      injection h with h1 _
      exact absurd h1 (by decide)
    · rw [if_neg hfill] at h
      split at h
      · exact Except.noConfusion h
      · rename_i ob hs
        injection h with h
        injection h with _ h2
        subst h2
        simp only
        obtain ⟨f1, f2⟩ := scatter_chunk_frame _ _ _ _ _ hs
        obtain ⟨ob3, r1, r2, r3⟩ := scatter_chunk_rel _ _ _ _ _ w2 hs hw
        refine ⟨by simpa using hfill, trivial, trivial, trivial, f1, f2, ob3, ?_, r2, r3⟩
        unfold encrypt_chunk
        simp only [hchunk, if_neg hfile, if_neg hfill, r1]

theorem segment_writes_succ (fuel is : Nat) (lfsr : HcLfsr) (indices : List Nat) (his : is ≠ 0)
    (hf : (HcLfsr.fillNext lfsr indices 0 256).2.2 = true) :
    segment_writes (fuel + 1) is lfsr indices =
      chunk_writes (HcLfsr.fillNext lfsr indices 0 256).2.1
          (is - (if 256 > is then is else 256)) ++
        segment_writes fuel (is - (if 256 > is then is else 256))
          (HcLfsr.fillNext lfsr indices 0 256).1 (HcLfsr.fillNext lfsr indices 0 256).2.1 := by
  rw [segment_writes, if_neg his]
  simp only [hf, Bool.not_true, Bool.false_eq_true, if_false]

/-- The loop `while (is)` of `encryptSegment` that ends with `HC_STATUS_OK`:
it leaves every slot alone that is not in `segment_writes`, and the same loop
started on another working buffer of the same length ends with the same
status and the same state but for the working buffer, which agrees with the
first on `segment_writes` and wherever the two buffers agreed at the start. -/
theorem encrypt_loop_rel (aes : AesCbc) (key : List Nat) (padding : Option (Nat → Nat)) :
    ∀ (fuel : Nat) (st st1 : CodecState) (w2 : List Nat),
      encrypt_loop aes key padding fuel st = .ok (HC_STATUS_OK, st1) →
      w2.length = st.work.length →
      st1.work.length = st.work.length ∧
      (∀ p, p ∉ segment_writes fuel st.is st.lfsr st.indices → st1.work[p]? = st.work[p]?) ∧
      ∃ w3, encrypt_loop aes key padding fuel { st with work := w2 } =
          .ok (HC_STATUS_OK, { st1 with work := w3 }) ∧
        w3.length = st1.work.length ∧
        ∀ p, (p ∈ segment_writes fuel st.is st.lfsr st.indices ∨ st.work[p]? = w2[p]?) →
          st1.work[p]? = w3[p]? := by
  intro fuel
  induction fuel with
  | zero =>
    intro st st1 w2 h hw
    unfold encrypt_loop at h
    by_cases h0 : st.is = 0
    · rw [if_pos h0] at h
      injection h with h
      injection h with _ h
      subst h
      refine ⟨rfl, fun _ _ => rfl, w2, ?_, hw, fun p hp => ?_⟩
      · unfold encrypt_loop
        rw [if_pos h0]
      · rcases hp with hp | hp
        · rw [segment_writes] at hp
          exact absurd hp (List.not_mem_nil _)
        · exact hp
    · rw [if_neg h0] at h
      exact Except.noConfusion h
  | succ fuel ih =>
    intro st st1 w2 h hw
    unfold encrypt_loop at h
    by_cases h0 : st.is = 0
    · rw [if_pos h0] at h
      injection h with h
      injection h with _ h
      subst h
      refine ⟨rfl, fun _ _ => rfl, w2, ?_, hw, fun p hp => ?_⟩
      · unfold encrypt_loop
        rw [if_pos h0]
      · rcases hp with hp | hp
        · rw [h0, segment_writes_zero] at hp
          exact absurd hp (List.not_mem_nil _)
        · exact hp
    · rw [if_neg h0] at h
      simp only at h
      cases hc : encrypt_chunk aes key padding st with
      | error f => rw [hc] at h; exact Except.noConfusion h
      | ok r =>
        obtain ⟨status, stm⟩ := r
        rw [hc] at h
        simp only at h
        by_cases hst : status = HC_STATUS_OK
        · subst hst
          rw [if_neg (by simp)] at h
          obtain ⟨c1, c2, c3, c4, c5, c6, w3, c7, c8, c9⟩ :=
            encrypt_chunk_rel aes key padding st stm w2 hc hw
          obtain ⟨l1, l2, w4, l3, l4, l5⟩ := ih stm st1 w3 h c8
          have hsw := segment_writes_succ fuel st.is st.lfsr st.indices h0 c1
          rw [← c2, ← c3, ← c4] at hsw
          refine ⟨by rw [l1, c5], fun p hp => ?_, w4, ?_, l4, fun p hp => ?_⟩
          · rw [hsw, List.mem_append, not_or] at hp
            rw [l2 p hp.2, c6 p hp.1]
          · unfold encrypt_loop
            rw [if_neg h0]
            simp only [c7, ne_eq, not_true_eq_false, if_false]
            exact l3
          · apply l5
            rw [hsw, List.mem_append] at hp
            rcases hp with (hp | hp) | hp
            · exact Or.inr (c9 p (Or.inl hp))
            · exact Or.inl hp
            · exact Or.inr (c9 p (Or.inr hp))
        · rw [if_pos hst] at h
          injection h with h
          injection h with h _
          exact absurd h hst

/-! ## The written positions are the generator outputs and slot 0 -/

theorem map_getD_iterate (f : Nat → Nat) (a n k : Nat) (h : k ≤ n) :
    (List.range k).map (fun i => (List.iterate f a n).getD i 0) = List.iterate f a k := by
  apply List.ext_getElem
  · simp
  · intro i h1 h2
    have hi : i < k := by simpa using h1
    rw [List.getElem_map, List.getElem_range, List.getElem_iterate,
      List.getD_eq_getElem _ _ (by rw [List.length_iterate]; omega), List.getElem_iterate]

theorem iterate_succ_last (f : Nat → Nat) (a n : Nat) :
    List.iterate f a (n + 1) = List.iterate f a n ++ [f^[n] a] := by
  rw [List.iterate_add]
  rfl

/-- With a generator whose next `256 * ceil (is / 256)` states are nonzero,
the loop `while (is)` of `encryptSegment` assigns the slots named by the
first `256 * ceil (is / 256) - 1` outputs, in this order, and then slot 0. -/
theorem segment_writes_good (poly : Nat) :
    ∀ (fuel is : Nat) (lfsr : HcLfsr) (indices : List Nat), is ≤ fuel → is ≠ 0 →
      lfsr.m_poly = poly → indices.length = 256 →
      (∀ m, m < 256 * ((is + 255) / 256) → (lfsrNext poly)^[m + 1] lfsr.m_lfsr ≠ 0) →
      segment_writes fuel is lfsr indices =
        List.iterate (lfsrNext poly) (lfsrNext poly lfsr.m_lfsr)
          (256 * ((is + 255) / 256) - 1) ++ [0] := by
  intro fuel
  induction fuel with
  | zero =>
    intro is lfsr indices h1 h2
    omega
  | succ fuel ih =>
    intro is lfsr indices hfuel his hpoly hlen hnz
    obtain ⟨hn, hc1, hc2, hc3, hc4, hc5⟩ := chunk_count_succ is his
    have hfill := fillNext_true poly 256 lfsr indices 0 hpoly
      (fun m hm => hnz m (by omega)) (by omega)
    rw [List.take_zero, List.nil_append, Nat.zero_add, List.drop_of_length_le (by omega),
      List.append_nil] at hfill
    rw [segment_writes_succ fuel is lfsr indices his (by rw [hfill]), hfill]
    simp only
    unfold chunk_writes
    rw [map_getD_iterate _ _ 256 255 (by omega)]
    by_cases h0 : is - (if 256 > is then is else 256) = 0
    · rw [h0, segment_writes_zero, List.append_nil, if_neg (by simp)]
      have := hc5 h0
      rw [hn, this]
    · rw [if_pos h0, List.getD_eq_getElem _ _ (by rw [List.length_iterate]; omega),
        List.getElem_iterate, ← iterate_succ_last]
      rw [ih (is - (if 256 > is then is else 256))
        { lfsr with m_lfsr := (lfsrNext poly)^[256] lfsr.m_lfsr }
        (List.iterate (lfsrNext poly) (lfsrNext poly lfsr.m_lfsr) 256)
        (by omega) h0 hpoly (List.length_iterate _ _ _)
        (by
          intro m hm
          simp only
          rw [← Function.iterate_add_apply]
          rw [hn] at hnz
          have := hnz (m + 256) (by omega)
          rw [show m + 256 + 1 = m + 1 + 256 from by omega] at this
          exact this)]
      have h1 := hc4 h0
      have e : 256 * ((is + 255) / 256) - 1 =
          256 + (256 * ((is - (if 256 > is then is else 256) + 255) / 256) - 1) := by
        rw [hn]; omega
      have e2 : lfsrNext poly ((lfsrNext poly)^[256] lfsr.m_lfsr) =
          (lfsrNext poly)^[256] (lfsrNext poly lfsr.m_lfsr) := by
        rw [← Function.iterate_succ_apply, ← Function.iterate_succ_apply' (lfsrNext poly)]
      rw [e, List.iterate_add (lfsrNext poly) _ 256 _, List.append_assoc, e2]

/-! ## The written positions of a planned key -/

theorem take_eq_of_getElem? (l1 l2 : List Nat) (n : Nat)
    (h : ∀ p, p < n → l1[p]? = l2[p]?) : l1.take n = l2.take n := by
  apply List.ext_getElem?
  intro p
  by_cases hp : p < n
  · rw [List.getElem?_take_of_lt hp, List.getElem?_take_of_lt hp, h p hp]
  · rw [List.getElem?_take_eq_none (by omega), List.getElem?_take_eq_none (by omega)]

/-- The positions `encryptSegment` writes for a key that satisfies the data-model
invariant: the generator outputs of the spec and slot 0, pairwise distinct,
below `out_size`, and all of `0 .. out_size - 1` when `in_size = out_size`. -/
theorem segment_writes_key (kd : HcKeyData) (hk : KeyInvariant kd) (lfsr0 : HcLfsr)
    (indices : List Nat) (hlen : indices.length = 256) :
    segment_writes kd.m_in_size kd.m_in_size
        { lfsr0 with m_seed := kd.m_lfsr_specs % 2 ^ 32,
                     m_poly := kd.m_lfsr_specs / 2 ^ 32 % 2 ^ 32,
                     m_lfsr := kd.m_lfsr_specs % 2 ^ 32 } indices =
      specOutputs kd.m_lfsr_specs (256 * ((kd.m_in_size + 255) / 256) - 1) ++ [0] ∧
    (specOutputs kd.m_lfsr_specs (256 * ((kd.m_in_size + 255) / 256) - 1) ++ [0]).Nodup ∧
    (∀ p ∈ specOutputs kd.m_lfsr_specs (256 * ((kd.m_in_size + 255) / 256) - 1) ++ [0],
      p < kd.m_out_size) ∧
    (specOutputs kd.m_lfsr_specs (256 * ((kd.m_in_size + 255) / 256) - 1) ++ [0]).length =
      256 * ((kd.m_in_size + 255) / 256) ∧
    (kd.m_in_size = kd.m_out_size →
      (specOutputs kd.m_lfsr_specs (256 * ((kd.m_in_size + 255) / 256) - 1) ++ [0]).Perm
        (List.range kd.m_out_size)) := by
  obtain ⟨hp0, hs0, hopos, hlt, g0, gb, gi⟩ := keyInvariant_good kd hk kd.m_out_size (le_refl _)
  obtain ⟨hin, hio, b, hb1, hb2, hout, -⟩ := hk
  have hc : 1 ≤ (kd.m_in_size + 255) / 256 := by omega
  have hget : ∀ m, m < 256 * ((kd.m_in_size + 255) / 256) - 1 →
      (specOutputs kd.m_lfsr_specs (256 * ((kd.m_in_size + 255) / 256) - 1))[m]? =
        some ((lfsrNext (kd.m_lfsr_specs / 2 ^ 32 % 2 ^ 32))^[m + 1]
          (kd.m_lfsr_specs % 2 ^ 32)) := by
    intro m hm
    rw [specOutputs, List.getElem?_iterate _ _ _ _ hm, Function.iterate_succ_apply]
  have hslen : (specOutputs kd.m_lfsr_specs (256 * ((kd.m_in_size + 255) / 256) - 1)).length =
      256 * ((kd.m_in_size + 255) / 256) - 1 := by
    rw [specOutputs, List.length_iterate]
  have hmem : ∀ p ∈ specOutputs kd.m_lfsr_specs (256 * ((kd.m_in_size + 255) / 256) - 1),
      ∃ m, m < 256 * ((kd.m_in_size + 255) / 256) - 1 ∧
        p = (lfsrNext (kd.m_lfsr_specs / 2 ^ 32 % 2 ^ 32))^[m + 1]
          (kd.m_lfsr_specs % 2 ^ 32) := by
    intro p hp
    obtain ⟨m, hm⟩ := List.getElem?_of_mem hp
    have hm2 : m < 256 * ((kd.m_in_size + 255) / 256) - 1 := by
      by_contra hge
      rw [List.getElem?_eq_none (by rw [hslen]; omega)] at hm
      exact Option.noConfusion hm
    rw [hget m hm2] at hm
    exact ⟨m, hm2, (Option.some.inj hm).symm⟩
  have hnd : (specOutputs kd.m_lfsr_specs (256 * ((kd.m_in_size + 255) / 256) - 1) ++
      [0]).Nodup := by
    rw [List.nodup_append]
    refine ⟨?_, List.nodup_singleton 0, ?_⟩
    · rw [List.nodup_iff_getElem?_ne_getElem?]
      intro i j hij hj he
      rw [hslen] at hj
      rw [hget i (by omega), hget j hj] at he
      have := gi i j (by omega) hj (Option.some.inj he)
      omega
    · intro p hp h0
      obtain ⟨m, hm, e⟩ := hmem p hp
      rw [List.mem_singleton] at h0
      exact g0 m (by omega) (by rw [← e, h0])
  have hbound : ∀ p ∈ specOutputs kd.m_lfsr_specs (256 * ((kd.m_in_size + 255) / 256) - 1) ++
      [0], p < kd.m_out_size := by
    intro p hp
    rcases List.mem_append.1 hp with hp | hp
    · obtain ⟨m, hm, e⟩ := hmem p hp
      rw [e]
      exact hlt m hm
    · rw [List.mem_singleton] at hp
      omega
  have hlen2 : (specOutputs kd.m_lfsr_specs (256 * ((kd.m_in_size + 255) / 256) - 1) ++
      [0]).length = 256 * ((kd.m_in_size + 255) / 256) := by
    rw [List.length_append, hslen, List.length_singleton]
    omega
  refine ⟨?_, hnd, hbound, hlen2, ?_⟩
  · rw [segment_writes_good (kd.m_lfsr_specs / 2 ^ 32 % 2 ^ 32) kd.m_in_size kd.m_in_size _
      indices (le_refl _) (by omega) rfl hlen (fun m hm => g0 m hm)]
    rfl
  · intro hio2
    have hdvd : 256 ∣ 2 ^ b := by
      have : (256 : Nat) = 2 ^ 8 := by norm_num
      rw [this]
      exact Nat.pow_dvd_pow 2 (by omega)
    obtain ⟨q, hq⟩ := hdvd
    have hfull : 256 * ((kd.m_in_size + 255) / 256) = kd.m_out_size := by
      rw [hio2, hout, hq]
      omega
    apply List.Subperm.perm_of_length_le
    · apply List.subperm_of_subset hnd
      intro p hp
      exact List.mem_range.2 (hbound p hp)
    · rw [List.length_range, hlen2, hfull]

/-- The method `encryptSegment` when the sizes pass, the files are open, the
spec is accepted, the buffer is large enough and the `while (is)` loop ends
with `HC_STATUS_OK`: it returns what the write loop returns. -/
theorem encryptSegment_run_ok (aes : AesCbc) (e : Engine) (kd : HcKeyData) (rnd : SegRandom)
    (lfsr0 lfsr1 : HcLfsr) (reg1 : PolyRegistry) (in_file out_file : FileSpec)
    (st1 : CodecState) (status : Int) (files : List FileSpec) (index : Nat)
    (h1 : kd.m_in_size ≠ 0) (h2 : kd.m_in_size ≤ kd.m_out_size)
    (hif : e.m_in_files.get? e.m_in_file_index = some in_file) (hifo : in_file.m_file = true)
    (hof : e.m_out_files.get? e.m_out_file_index = some out_file)
    (hofo : out_file.m_file = true)
    (hl : e.m_lfsr = some lfsr0)
    (hsp : HcLfsr.setSpec e.reg lfsr0 kd.m_lfsr_specs = (reg1, lfsr1, true))
    (hbuf : kd.m_out_size ≤ e.m_buffer.length)
    (hloop : encrypt_loop aes kd.m_key rnd.padding kd.m_in_size
      { is := kd.m_in_size, buf := List.replicate 256 0, ivec := kd.m_iv,
        indices := List.replicate 256 0, lfsr := lfsr1,
        work := prefill_buffer rnd.prefill kd e.m_buffer, file := in_file } =
        .ok (HC_STATUS_OK, st1))
    (hw : write_loop kd.m_out_size kd.m_out_size st1.work e.m_out_files e.m_out_file_index =
      .ok (status, files, index)) :
    encryptSegment aes e kd rnd =
      .ok (status, { m_lfsr := some st1.lfsr,
                     m_in_files := e.m_in_files.set e.m_in_file_index st1.file,
                     m_out_files := files, m_in_file_index := e.m_in_file_index,
                     m_out_file_index := index, m_key := e.m_key, m_buffer := st1.work,
                     reg := reg1 }) := by
  unfold encryptSegment
  rw [if_neg (by omega)]
  simp only [hif, hifo, hof, hofo, hl, Bool.not_true, Bool.false_eq_true, if_false, hsp,
    if_neg (show ¬ kd.m_out_size > e.m_buffer.length by omega), hloop, ne_eq,
    not_true_eq_false, hw]

/-- What the write loop does depends on the first `bytes_to_write` bytes of `ob` only. -/
theorem write_loop_take : ∀ (fuel n : Nat) (ob ob2 : List Nat) (files : List FileSpec)
    (index : Nat), ob.take n = ob2.take n →
    write_loop fuel n ob files index = write_loop fuel n ob2 files index := by
  intro fuel
  induction fuel with
  | zero =>
    intro n ob ob2 files index _
    unfold write_loop
    rfl
  | succ fuel ih =>
    intro n ob ob2 files index h
    unfold write_loop
    by_cases hn : n = 0
    · rw [if_pos hn, if_pos hn]
    · rw [if_neg hn, if_neg hn]
      simp only
      cases hg : files.get? index with
      | none => rfl
      | some fs =>
        simp only
        have hc : (if n > fs.m_size then fs.m_size else n) ≤ n := by split <;> omega
        generalize (if n > fs.m_size then fs.m_size else n) = chunk at hc ⊢
        have ht : ob.take chunk = ob2.take chunk := by
          have := congrArg (List.take chunk) h
          rwa [List.take_take, List.take_take, Nat.min_eq_left hc] at this
        have hd : (ob.drop chunk).take (n - chunk) = (ob2.drop chunk).take (n - chunk) := by
          have := congrArg (List.drop chunk) h
          rwa [List.drop_take, List.drop_take] at this
        rw [ht, ih (n - chunk) (ob.drop chunk) (ob2.drop chunk) _ _ hd,
          ih (n - chunk) (ob.drop chunk) (ob2.drop chunk) _ _ hd]

theorem sampleKey_invariant (n : Nat) (h1 : 1 ≤ n) (h2 : n ≤ 32768) :
    KeyInvariant (sampleKey n) := by
  have e1 : (sampleKey n).m_lfsr_specs % 2 ^ 32 = 1 := by norm_num [sampleKey]
  have e2 : (sampleKey n).m_lfsr_specs / 2 ^ 32 % 2 ^ 32 = 0x4211 := by norm_num [sampleKey]
  refine ⟨h1, h2, 15, by decide, by decide, rfl, ?_, ?_, ?_, ?_, ?_⟩
  · rw [e1]
  · rw [e1]; decide
  · rw [e2]; decide
  · rw [e2]
    exact (registered_of_literal 15 (by decide) (by decide) 0x8423 (by decide) (by decide)).1
  · rw [e1, e2]
    exact sample_verify_poly

/-! ## The output files as one stream -/

theorem stream_append (a b : List FileSpec) : stream (a ++ b) = stream a ++ stream b := by
  unfold stream
  rw [List.map_append, List.flatten_append]

theorem stream_cons (f : FileSpec) (rest : List FileSpec) :
    stream (f :: rest) = f.data ++ stream rest := rfl

theorem stream_eq_nil (files : List FileSpec) (h : ∀ f ∈ files, f.data = []) :
    stream files = [] := by
  induction files with
  | nil => rfl
  | cons f rest ih =>
    rw [stream_cons, h f (List.mem_cons_self _ _),
      ih (fun g hg => h g (List.mem_cons_of_mem _ hg))]
    rfl

theorem sum_eq_zero_of_zerosLast (a : Nat) (l : List Nat) (h : ZerosLast (a :: l))
    (ha : a = 0) : l.sum = 0 := by
  rw [List.sum_eq_zero_iff]
  intro x hx
  exact (List.pairwise_cons.1 h).1 x hx ha

/-- The write loop of `encryptSegment` on output files of which the current
and the later ones are open, the later ones are still empty, and a zero size
is followed by zero sizes only: when the sizes left add up to at least
`bytes_to_write`, the loop returns `HC_STATUS_OK`, has appended the first
`bytes_to_write` bytes of `ob` to the stream, has completed the files `done`
and has left the files `rest1` in the same condition. -/
theorem write_loop_stream : ∀ (fuel n : Nat) (ob : List Nat) (pre rest : List FileSpec),
    n ≤ fuel → n ≤ (rest.map FileSpec.m_size).sum → n ≤ ob.length →
    (∀ f ∈ rest, f.m_file = true) → (∀ f ∈ rest.tail, f.data = []) →
    ZerosLast (rest.map FileSpec.m_size) →
    ∃ done rest1, write_loop fuel n ob (pre ++ rest) pre.length =
        .ok (HC_STATUS_OK, pre ++ done ++ rest1, pre.length + done.length) ∧
      (∀ f ∈ done, f.m_size = 0) ∧
      (∀ f ∈ rest1, f.m_file = true) ∧ (∀ f ∈ rest1.tail, f.data = []) ∧
      ZerosLast (rest1.map FileSpec.m_size) ∧
      (rest1.map FileSpec.m_size).sum + n = (rest.map FileSpec.m_size).sum ∧
      stream (done ++ rest1) = stream rest ++ ob.take n ∧
      (done ++ rest1).map (fun f => f.data.length + f.m_size) =
        rest.map (fun f => f.data.length + f.m_size) := by
  intro fuel
  induction fuel with
  | zero =>
    intro n ob pre rest hn _ _ hopen htail hz
    have h0 : n = 0 := by omega
    subst h0
    refine ⟨[], rest, ?_, fun _ h => absurd h (List.not_mem_nil _), hopen, htail, hz, rfl, ?_,
      rfl⟩
    · unfold write_loop
      rw [if_pos rfl, List.append_nil]
      rfl
    · rw [List.nil_append, List.take_zero, List.append_nil]
  | succ fuel ih =>
    intro n ob pre rest hn hcap hob hopen htail hz
    by_cases h0 : n = 0
    · subst h0
      refine ⟨[], rest, ?_, fun _ h => absurd h (List.not_mem_nil _), hopen, htail, hz, rfl, ?_,
        rfl⟩
      · unfold write_loop
        rw [if_pos rfl, List.append_nil]
        rfl
      · rw [List.nil_append, List.take_zero, List.append_nil]
    · cases rest with
      | nil =>
        simp only [List.map_nil, List.sum_nil] at hcap
        omega
      | cons f rest2 =>
        simp only [List.map_cons, List.sum_cons] at hcap hz
        have hfpos : f.m_size ≠ 0 := by
          intro hf0
          have := sum_eq_zero_of_zerosLast _ _ hz hf0
          omega
        have hfopen : f.m_file = true := hopen f (List.mem_cons_self _ _)
        have hnil : stream rest2 = [] := stream_eq_nil rest2 htail
        have hget : (pre ++ f :: rest2).get? pre.length = some f := by
          rw [List.get?_eq_getElem?, List.getElem?_append_right (le_refl _)]
          simp
        have hset : ∀ g, (pre ++ f :: rest2).set pre.length g = pre ++ g :: rest2 := by
          intro g
          rw [List.set_append_right _ _ (le_refl _)]
          simp
        by_cases hbig : n < f.m_size
        · -- the segment ends inside the current file
          refine ⟨[], ⟨f.m_file, f.m_size - n, f.data ++ ob.take n, f.pos⟩ :: rest2, ?_,
            fun _ h => absurd h (List.not_mem_nil _), ?_, htail, ?_, ?_, ?_, ?_⟩
          · unfold write_loop
            rw [if_neg h0]
            simp only [hget, if_neg (show ¬ n > f.m_size by omega), hfopen, Bool.not_true,
              Bool.false_eq_true, if_false, if_neg h0,
              if_neg (show ¬ f.m_size - n = 0 by omega), hset]
            unfold write_loop
            rw [if_pos (Nat.sub_self n), List.append_nil]
            rfl
          · intro g hg
            rcases List.mem_cons.1 hg with rfl | hg
            · exact hfopen
            · exact hopen g (List.mem_cons_of_mem _ hg)
          · simp only [List.map_cons]
            exact List.Pairwise.cons (fun b _ hb => absurd hb (by omega))
              (List.pairwise_cons.1 hz).2
          · simp only [List.map_cons, List.sum_cons]
            omega
          · rw [List.nil_append, stream_cons, stream_cons, hnil]
            simp
          · simp only [List.nil_append, List.map_cons, List.length_append, List.length_take]
            congr 1
            omega
        · -- the current file is completed
          obtain ⟨done2, rest1, e1, d1, o1, t1, z1, c1, s1, m1⟩ := ih (n - f.m_size)
            (ob.drop f.m_size)
            (pre ++ [⟨false, f.m_size - f.m_size, f.data ++ ob.take f.m_size, f.pos⟩]) rest2
            (by omega) (by omega) (by rw [List.length_drop]; omega)
            (fun g hg => hopen g (List.mem_cons_of_mem _ hg))
            (fun g hg => htail g (List.mem_of_mem_tail hg))
            (List.pairwise_cons.1 hz).2
          refine ⟨⟨false, f.m_size - f.m_size, f.data ++ ob.take f.m_size, f.pos⟩ :: done2,
            rest1, ?_, ?_, o1, t1, z1, ?_, ?_, ?_⟩
          · have hchunk : (if n > f.m_size then f.m_size else n) = f.m_size := by
              split <;> omega
            unfold write_loop
            rw [if_neg h0]
            simp only [hget, hchunk, hfopen, Bool.not_true, Bool.false_eq_true, if_false,
              if_neg hfpos, Nat.sub_self, if_true, hset]
            simp only [Nat.sub_self, List.length_append, List.length_singleton,
              List.append_assoc, List.singleton_append] at e1
            rw [e1]
            simp only [List.append_assoc, List.cons_append, List.length_cons]
            congr 3
            omega
          · intro g hg
            rcases List.mem_cons.1 hg with rfl | hg
            · exact Nat.sub_self _
            · exact d1 g hg
          · simp only [List.map_cons, List.sum_cons]
            omega
          · rw [List.cons_append, stream_cons, s1, stream_cons, hnil]
            simp only [List.append_nil, List.nil_append, List.append_assoc]
            congr 1
            conv_rhs => rw [show n = f.m_size + (n - f.m_size) from by omega]
            rw [List.take_add]
          · simp only [List.cons_append, List.map_cons, m1, List.length_append,
              List.length_take, Nat.sub_self]
            congr 1
            omega

/-! ## The input files as one stream -/

theorem unread_cons (f : FileSpec) (rest : List FileSpec) :
    unread (f :: rest) = f.data.drop f.pos ++ unread rest := rfl

theorem splice_length (buf got : List Nat) (br : Nat) (h : br + got.length ≤ buf.length) :
    (buf.take br ++ got ++ buf.drop (br + got.length)).length = buf.length := by
  simp only [List.length_append, List.length_take, List.length_drop]
  omega

theorem splice_take (buf got : List Nat) (br : Nat) (h : br + got.length ≤ buf.length) :
    (buf.take br ++ got ++ buf.drop (br + got.length)).take (br + got.length) =
      buf.take br ++ got := by
  rw [List.take_append_of_le_length (by simp only [List.length_append, List.length_take]; omega)]
  rw [List.take_of_length_le (by simp only [List.length_append, List.length_take]; omega)]

theorem splice_drop (buf got : List Nat) (br k : Nat) (h : br + got.length ≤ buf.length) :
    (buf.take br ++ got ++ buf.drop (br + got.length)).drop (br + got.length + k) =
      buf.drop (br + got.length + k) := by
  rw [List.drop_append_eq_append_drop,
    List.drop_of_length_le (by simp only [List.length_append, List.length_take]; omega),
    List.nil_append, List.drop_drop]
  congr 1
  simp only [List.length_append, List.length_take]
  omega

/-- The read loop of `decryptSegment` on input files of which the current and
the later ones are open: when at least `bytes_to_read` bytes lie after the
read positions, the loop returns `HC_STATUS_OK`, has copied the next
`bytes_to_read` bytes of the stream into `m_buffer[bytes_read ...]`, across
the file boundaries, and has moved the read positions past them. -/
theorem read_loop_stream : ∀ (rest : List FileSpec) (fuel n br : Nat) (buf : List Nat)
    (pre : List FileSpec),
    rest.length ≤ fuel → n ≤ (unread rest).length → br + n ≤ buf.length →
    (∀ f ∈ rest, f.m_file = true) →
    ∃ pre1 rest1, read_loop fuel n br buf (pre ++ rest) pre.length =
        .ok (HC_STATUS_OK, buf.take br ++ (unread rest).take n ++ buf.drop (br + n),
          pre1 ++ rest1, pre1.length) ∧
      (∀ f ∈ rest1, f.m_file = true) ∧ unread rest1 = (unread rest).drop n ∧
      (pre1 ++ rest1).length = (pre ++ rest).length := by
  intro rest
  induction rest with
  | nil =>
    intro fuel n br buf pre _ hn _ hopen
    have h0 : n = 0 := by
      simp only [unread, List.map_nil, List.flatten_nil, List.length_nil] at hn
      omega
    subst h0
    refine ⟨pre, [], ?_, hopen, rfl, rfl⟩
    unfold read_loop
    rw [if_pos rfl]
    simp
  | cons f rest2 ih =>
    intro fuel n br buf pre hfuel hn hbuf hopen
    by_cases h0 : n = 0
    · subst h0
      refine ⟨pre, f :: rest2, ?_, hopen, rfl, rfl⟩
      unfold read_loop
      rw [if_pos rfl]
      simp
    · obtain ⟨fuel1, rfl⟩ : ∃ k, fuel = k + 1 :=
        ⟨fuel - 1, by simp only [List.length_cons] at hfuel; omega⟩
      have hfopen : f.m_file = true := hopen f (List.mem_cons_self _ _)
      have hget : (pre ++ f :: rest2).get? pre.length = some f := by
        rw [List.get?_eq_getElem?, List.getElem?_append_right (le_refl _)]
        simp
      have hset : ∀ g, (pre ++ f :: rest2).set pre.length g = pre ++ g :: rest2 := by
        intro g
        rw [List.set_append_right _ _ (le_refl _)]
        simp
      rw [unread_cons] at hn ⊢
      rw [List.length_append] at hn
      by_cases hfit : n ≤ (f.data.drop f.pos).length
      · -- the current file holds the rest of the segment
        have hres : (List.take n (List.drop f.pos f.data)).length = n := by
          rw [List.length_take]
          omega
        refine ⟨pre, ⟨f.m_file, f.m_size, f.data, f.pos + n⟩ :: rest2, ?_, ?_, ?_, ?_⟩
        · unfold read_loop
          rw [if_neg h0]
          simp only [hget, hfopen, Bool.not_true, Bool.false_eq_true, if_false, hres,
            if_neg (show ¬ br + n > buf.length by omega), ne_eq, not_true_eq_false,
            Nat.sub_self, hset]
          unfold read_loop
          rw [if_pos rfl, List.take_append_of_le_length hfit]
        · intro g hg
          rcases List.mem_cons.1 hg with rfl | hg
          · exact hfopen
          · exact hopen g (List.mem_cons_of_mem _ hg)
        · rw [unread_cons, List.drop_append_of_le_length hfit]
          simp only [List.drop_drop]
        · simp
      · -- the current file ends inside the segment
        have hgot : List.take n (List.drop f.pos f.data) = List.drop f.pos f.data :=
          List.take_of_length_le (by omega)
        have hlen := splice_length buf (f.data.drop f.pos) br (by omega)
        obtain ⟨pre1, rest1, e1, o1, u1, l1⟩ := ih fuel1 (n - (f.data.drop f.pos).length)
          (br + (f.data.drop f.pos).length)
          (buf.take br ++ f.data.drop f.pos ++ buf.drop (br + (f.data.drop f.pos).length))
          (pre ++ [⟨f.m_file, f.m_size, f.data, f.pos + (f.data.drop f.pos).length⟩])
          (by simp only [List.length_cons] at hfuel; omega) (by omega)
          (by rw [hlen]; omega)
          (fun g hg => hopen g (List.mem_cons_of_mem _ hg))
        have hb : List.take (br + (f.data.drop f.pos).length)
              (buf.take br ++ f.data.drop f.pos ++
                buf.drop (br + (f.data.drop f.pos).length)) ++
            List.take (n - (f.data.drop f.pos).length) (unread rest2) ++
            List.drop (br + (f.data.drop f.pos).length + (n - (f.data.drop f.pos).length))
              (buf.take br ++ f.data.drop f.pos ++
                buf.drop (br + (f.data.drop f.pos).length)) =
            buf.take br ++ List.take n (f.data.drop f.pos ++ unread rest2) ++
              buf.drop (br + n) := by
          rw [splice_take buf (f.data.drop f.pos) br (by omega),
            splice_drop buf (f.data.drop f.pos) br _ (by omega),
            List.take_append_eq_append_take,
            List.take_of_length_le (show (f.data.drop f.pos).length ≤ n by omega),
            show br + (f.data.drop f.pos).length + (n - (f.data.drop f.pos).length) = br + n
              from by omega]
          simp only [List.append_assoc]
        rw [hb, List.append_assoc pre, List.singleton_append, List.length_append,
          List.length_singleton, hfopen] at e1
        refine ⟨pre1, rest1, ?_, o1, ?_, ?_⟩
        · unfold read_loop
          rw [if_neg h0]
          simp only [hget, hfopen, Bool.not_true, Bool.false_eq_true, if_false, hgot,
            if_neg (show ¬ br + (f.data.drop f.pos).length > buf.length by omega),
            if_pos (show (f.data.drop f.pos).length ≠ n by omega), hset]
          exact e1
        · rw [u1, List.drop_append_eq_append_drop,
            List.drop_of_length_le (show (f.data.drop f.pos).length ≤ n by omega)]
          rfl
        · rw [l1]
          simp

/-! ## The layout of the segments in the streams: encryption -/

theorem take_getElem? (l : List Nat) (n p : Nat) (hp : p < n) : l[p]? = (l.take n)[p]? := by
  rw [List.getElem?_take_of_lt hp]

/-- One call of `encryptSegment` between two segments of `encryptFile`: it
returns `HC_STATUS_OK`, has read the next `in_size` bytes of the plaintext,
has appended the first `out_size` bytes of the working buffer to the output
stream, and these bytes decode to the bytes read. -/
theorem encryptSegment_layout (aes : AesCbc) (hinv : aes.Inverse) (kd : HcKeyData)
    (hk : KeyInvariant kd) (rnd : SegRandom) (e : Engine) (P : List Nat) (a : Nat)
    (pre rest : List FileSpec) (n : Nat) (hr : EncReady e P a pre rest n)
    (ha : a + kd.m_in_size ≤ P.length)
    (hcap : kd.m_out_size ≤ (rest.map FileSpec.m_size).sum) (hn : kd.m_out_size ≤ n) :
    ∃ e1 done rest1, encryptSegment aes e kd rnd = .ok (HC_STATUS_OK, e1) ∧
      EncReady e1 P (a + kd.m_in_size) (pre ++ done) rest1 n ∧
      (rest1.map FileSpec.m_size).sum + kd.m_out_size = (rest.map FileSpec.m_size).sum ∧
      stream e1.m_out_files = stream e.m_out_files ++ e1.m_buffer.take kd.m_out_size ∧
      e1.m_out_files.map (fun f => f.data.length + f.m_size) =
        e.m_out_files.map (fun f => f.data.length + f.m_size) ∧
      (e1.m_buffer.take kd.m_out_size).length = kd.m_out_size ∧
      Decodes aes kd (e1.m_buffer.take kd.m_out_size) ((P.drop a).take kd.m_in_size) ∧
      e1.m_key = e.m_key := by
  obtain ⟨⟨lfsr0, hl⟩, ⟨sz, hif⟩, hidx, hof, hoidx, hbl, hpre, hopen, htail, hz⟩ := hr
  obtain ⟨hp0, hs0, hopos, hltout, hgood⟩ := keyInvariant_good kd hk e.m_buffer.length
    (by omega)
  obtain ⟨reg1, hsp⟩ := setSpec_ok e.reg lfsr0 kd.m_lfsr_specs hp0 hs0
  have hin : 1 ≤ kd.m_in_size := hk.1
  have hio : kd.m_in_size ≤ kd.m_out_size := hk.2.1
  have hwl := prefill_buffer_length rnd.prefill kd e.m_buffer (by omega)
  obtain ⟨st1, el, hwl1, hfile1, hlfsr1, hf1, hrt⟩ := codec_loops aes hinv kd.m_key rnd.padding
    (kd.m_lfsr_specs / 2 ^ 32 % 2 ^ 32) kd.m_in_size
    { is := kd.m_in_size, buf := List.replicate 256 0, ivec := kd.m_iv,
      indices := List.replicate 256 0,
      lfsr := { lfsr0 with m_seed := kd.m_lfsr_specs % 2 ^ 32,
                           m_poly := kd.m_lfsr_specs / 2 ^ 32 % 2 ^ 32,
                           m_lfsr := kd.m_lfsr_specs % 2 ^ 32 },
      work := prefill_buffer rnd.prefill kd e.m_buffer, file := ⟨true, sz, P, a⟩ }
    (le_refl _) rfl (List.length_replicate _ _) (List.length_replicate _ _)
    ha (by simp only [hwl]; exact hgood)
  simp only [hwl] at hwl1
  obtain ⟨done, rest1, ew, d1, o1, t1, z1, c1, s1, m1⟩ := write_loop_stream kd.m_out_size
    kd.m_out_size st1.work pre rest (le_refl _) hcap (by omega) hopen htail hz
  obtain ⟨f0, rest0, hrest⟩ : ∃ f0 rest0, rest = f0 :: rest0 := by
    cases rest with
    | nil =>
      simp only [List.map_nil, List.sum_nil] at hcap
      omega
    | cons f0 rest0 => exact ⟨f0, rest0, rfl⟩
  have hget : e.m_out_files.get? e.m_out_file_index = some f0 := by
    rw [hof, hoidx, hrest, List.get?_eq_getElem?, List.getElem?_append_right (le_refl _)]
    simp
  have E1 := encryptSegment_run_ok aes e kd rnd lfsr0 _ reg1 ⟨true, sz, P, a⟩ f0 st1
    HC_STATUS_OK (pre ++ done ++ rest1) (pre.length + done.length) (by omega) hio
    (by rw [hif, hidx]; rfl) rfl hget (hopen f0 (by rw [hrest]; exact List.mem_cons_self _ _))
    hl hsp (by omega) el (by rw [hof, hoidx]; exact ew)
  have hClen : (st1.work.take kd.m_out_size).length = kd.m_out_size := by
    rw [List.length_take, hwl1]
    omega
  refine ⟨_, done, rest1, E1, ⟨⟨_, rfl⟩, ⟨sz, ?_⟩, hidx, rfl, ?_, ?_, ?_, o1, t1, z1⟩, c1, ?_,
    ?_, hClen, ?_, rfl⟩
  · simp only [hif, hidx, List.set_cons_zero, hfile1]
  · simp only [List.length_append]
  · simp only [hwl1, hbl]
  · intro f hf
    rcases List.mem_append.1 hf with hf | hf
    · exact hpre f hf
    · exact d1 f hf
  · simp only [hof]
    rw [List.append_assoc, stream_append, s1, stream_append, List.append_assoc]
  · simp only [hof]
    rw [List.append_assoc, List.map_append, m1, List.map_append]
  · intro lfsrD work file hwork hfile
    have hagree : ∀ p, p < kd.m_out_size → work[p]? = st1.work[p]? := by
      intro p hp
      rw [take_getElem? work kd.m_out_size p hp, take_getElem? st1.work kd.m_out_size p hp,
        hwork]
    obtain ⟨dst1, edl, hdfile, hdwork, -⟩ := hrt
      (loop_entry kd (lfsrD.withSpec kd.m_lfsr_specs) work file)
      rfl rfl rfl rfl (List.length_replicate _ _) (List.length_replicate _ _) hfile
      (fun _ => hagree 0 hopos) (fun m hm => hagree _ (hltout m hm))
    exact ⟨dst1, edl, hdfile, hdwork⟩

/-- The loop "Encrypt all the segments" between two segments of `encryptFile`:
it returns `HC_STATUS_OK`, has read the plaintext in key order, has appended
the working buffers of the segments to the output stream in key order, and
each buffer decodes to the piece of plaintext of its segment. -/
theorem encrypt_segments_layout (aes : AesCbc) (hinv : aes.Inverse) (segs : Nat → SegRandom) :
    ∀ (keys : List HcKeyData) (k : Nat) (e : Engine) (P : List Nat) (a : Nat)
      (pre rest : List FileSpec) (n : Nat),
      (∀ kd ∈ keys, KeyInvariant kd) → EncReady e P a pre rest n →
      a + (keys.map (fun kd => kd.m_in_size)).sum ≤ P.length →
      (keys.map (fun kd => kd.m_out_size)).sum ≤ (rest.map FileSpec.m_size).sum →
      (∀ kd ∈ keys, kd.m_out_size ≤ n) →
      ∃ e1 pre1 rest1, encrypt_segments aes segs keys k e = .ok (HC_STATUS_OK, e1) ∧
        EncReady e1 P (a + (keys.map (fun kd => kd.m_in_size)).sum) pre1 rest1 n ∧
        (rest1.map FileSpec.m_size).sum + (keys.map (fun kd => kd.m_out_size)).sum =
          (rest.map FileSpec.m_size).sum ∧
        stream e1.m_out_files =
          stream e.m_out_files ++ (segment_buffers aes segs keys k e).flatten ∧
        e1.m_out_files.map (fun f => f.data.length + f.m_size) =
          e.m_out_files.map (fun f => f.data.length + f.m_size) ∧
        SegmentsDecode aes keys (segment_buffers aes segs keys k e) (P.drop a) ∧
        e1.m_key = e.m_key := by
  intro keys
  induction keys with
  | nil =>
    intro k e P a pre rest n _ hr _ _ _
    refine ⟨e, pre, rest, rfl, ?_, ?_, ?_, rfl, trivial, rfl⟩
    · simpa using hr
    · simp
    · simp [segment_buffers]
  | cons kd ks ih =>
    intro k e P a pre rest n hk hr ha hcap hn
    simp only [List.map_cons, List.sum_cons] at ha hcap ⊢
    obtain ⟨e1, done, rest1, E1, hr1, c1, s1, m1, l1, dec1, k1⟩ := encryptSegment_layout aes
      hinv kd (hk kd (List.mem_cons_self _ _)) (segs k) e P a pre rest n hr (by omega)
      (by omega) (hn kd (List.mem_cons_self _ _))
    obtain ⟨e2, pre2, rest2, E2, hr2, c2, s2, m2, dec2, k2⟩ := ih (k + 1) e1 P
      (a + kd.m_in_size) (pre ++ done) rest1 n (fun x hx => hk x (List.mem_cons_of_mem _ hx))
      hr1 (by omega) (by omega) (fun x hx => hn x (List.mem_cons_of_mem _ hx))
    have hsb : segment_buffers aes segs (kd :: ks) k e =
        e1.m_buffer.take kd.m_out_size :: segment_buffers aes segs ks (k + 1) e1 := by
      simp only [segment_buffers, E1, ne_eq, not_true_eq_false, if_false]
    refine ⟨e2, pre2, rest2, ?_, ?_, by omega, ?_, by rw [m2, m1], ?_, by rw [k2, k1]⟩
    · simp only [encrypt_segments, E1, ne_eq, not_true_eq_false, if_false]
      exact E2
    · rw [← Nat.add_assoc]
      exact hr2
    · rw [s2, s1, hsb, List.flatten_cons, List.append_assoc]
    · rw [hsb]
      refine ⟨l1, ?_, ?_⟩
      · exact dec1
      · rw [List.drop_drop]
        exact dec2

theorem encrypt_segments_append (aes : AesCbc) (segs : Nat → SegRandom) :
    ∀ (kpre : List HcKeyData) (k : Nat) (e ek : Engine) (kpost : List HcKeyData),
      encrypt_segments aes segs kpre k e = .ok (HC_STATUS_OK, ek) →
      encrypt_segments aes segs (kpre ++ kpost) k e =
        encrypt_segments aes segs kpost (k + kpre.length) ek := by
  intro kpre
  induction kpre with
  | nil =>
    intro k e ek kpost h
    simp only [encrypt_segments] at h
    injection h with h
    injection h with _ h
    subst h
    rfl
  | cons kd ks ih =>
    intro k e ek kpost h
    rw [List.cons_append]
    simp only [encrypt_segments] at h ⊢
    cases hs : encryptSegment aes e kd (segs k) with
    | error f => rw [hs] at h; exact Except.noConfusion h
    | ok r =>
      obtain ⟨status, e1⟩ := r
      rw [hs] at h
      simp only at h ⊢
      by_cases hst : status = HC_STATUS_OK
      · subst hst
        rw [if_neg (by simp)] at h ⊢
        rw [ih (k + 1) e1 ek kpost h, List.length_cons]
        congr 1
        omega
      · rw [if_pos hst] at h
        injection h with h
        injection h with h _
        exact absurd h hst

theorem segment_buffers_append (aes : AesCbc) (segs : Nat → SegRandom) :
    ∀ (kpre : List HcKeyData) (k : Nat) (e ek : Engine) (kpost : List HcKeyData),
      encrypt_segments aes segs kpre k e = .ok (HC_STATUS_OK, ek) →
      segment_buffers aes segs (kpre ++ kpost) k e =
        segment_buffers aes segs kpre k e ++
          segment_buffers aes segs kpost (k + kpre.length) ek := by
  intro kpre
  induction kpre with
  | nil =>
    intro k e ek kpost h
    simp only [encrypt_segments] at h
    injection h with h
    injection h with _ h
    subst h
    rfl
  | cons kd ks ih =>
    intro k e ek kpost h
    rw [List.cons_append]
    simp only [encrypt_segments, segment_buffers] at h ⊢
    cases hs : encryptSegment aes e kd (segs k) with
    | error f => rw [hs] at h; exact Except.noConfusion h
    | ok r =>
      obtain ⟨status, e1⟩ := r
      rw [hs] at h
      simp only at h ⊢
      by_cases hst : status = HC_STATUS_OK
      · subst hst
        rw [if_neg (by simp)] at h ⊢
        rw [if_neg (by simp), ih (k + 1) e1 ek kpost h, List.length_cons, List.cons_append]
        congr 3
        omega
      · rw [if_pos hst] at h
        injection h with h
        injection h with h _
        exact absurd h hst

/-! ## The layout of the segments in the streams: decryption -/

/-- One call of `decryptSegment` between two segments of `decryptFile`: the
read loop puts the next `out_size` bytes of the input stream into `m_buffer`,
across the file boundaries, and the `while (is)` loop appends the decoded
bytes to the output file. -/
theorem decryptSegment_layout (aes : AesCbc) (kd : HcKeyData) (hk : KeyInvariant kd)
    (d : Engine) (pre rest : List FileSpec) (n : Nat) (O C Pk : List Nat)
    (hr : DecReady d pre rest n O) (hdec : Decodes aes kd C Pk)
    (hC : (unread rest).take kd.m_out_size = C)
    (hlen : kd.m_out_size ≤ (unread rest).length) (hn : kd.m_out_size ≤ n) :
    ∃ d1 pre1 rest1, decryptSegment aes d kd = .ok (HC_STATUS_OK, d1) ∧
      DecReady d1 pre1 rest1 n (O ++ Pk) ∧
      unread rest1 = (unread rest).drop kd.m_out_size ∧
      d1.m_buffer.take kd.m_out_size = C ∧ d1.m_key = d.m_key := by
  obtain ⟨⟨lfsr0, hl⟩, hif, hidx, hopen, hbl, out_file, tail, hof, hofo, hod⟩ := hr
  obtain ⟨hp0, hs0, -, -, -⟩ := keyInvariant_good kd hk kd.m_out_size (le_refl _)
  obtain ⟨reg1, hsp⟩ := setSpec_ok d.reg lfsr0 kd.m_lfsr_specs hp0 hs0
  have hin : 1 ≤ kd.m_in_size := hk.1
  have hio : kd.m_in_size ≤ kd.m_out_size := hk.2.1
  obtain ⟨pre1, rest1, er, o1, u1, l1⟩ := read_loop_stream rest
    (kd.m_out_size + (pre ++ rest).length + 1) kd.m_out_size 0 d.m_buffer pre
    (by rw [List.length_append]; omega) hlen (by omega) hopen
  have hB : (d.m_buffer.take 0 ++ (unread rest).take kd.m_out_size ++
      d.m_buffer.drop (0 + kd.m_out_size)).take kd.m_out_size = C := by
    rw [List.take_zero, List.nil_append, List.take_append_of_le_length
      (by rw [List.length_take]; omega), List.take_take, Nat.min_self, hC]
  have hBlen : (d.m_buffer.take 0 ++ (unread rest).take kd.m_out_size ++
      d.m_buffer.drop (0 + kd.m_out_size)).length = n := by
    simp only [List.length_append, List.length_take, List.length_drop, hbl]
    omega
  obtain ⟨st1, edl, hfile, hwork⟩ := hdec lfsr0 _ out_file hB hofo
  have E1 := decryptSegment_reads_ok aes d kd lfsr0 (lfsr0.withSpec kd.m_lfsr_specs) reg1 _
    (pre1 ++ rest1) pre1.length out_file HC_STATUS_OK st1 hl hsp hio (by omega)
    (by rw [hif, hidx]; exact er) (by rw [hof]; rfl) edl
  refine ⟨_, pre1, rest1, E1, ⟨⟨_, rfl⟩, rfl, rfl, o1, hBlen, st1.file, tail, ?_, ?_, ?_⟩, u1,
    hB, rfl⟩
  · simp only [hof, List.set_cons_zero]
  · rw [hfile]
    exact hofo
  · rw [hfile, ← hod]

theorem segmentsDecode_length (aes : AesCbc) :
    ∀ (keys : List HcKeyData) (Cs : List (List Nat)) (P : List Nat),
      SegmentsDecode aes keys Cs P →
      List.Forall₂ (fun kd C => C.length = kd.m_out_size) keys Cs := by
  intro keys
  induction keys with
  | nil =>
    intro Cs P h
    cases Cs with
    | nil => exact List.Forall₂.nil
    | cons C Cs => exact absurd h (by simp [SegmentsDecode])
  | cons kd ks ih =>
    intro Cs P h
    cases Cs with
    | nil => exact absurd h (by simp [SegmentsDecode])
    | cons C Cs =>
      simp only [SegmentsDecode] at h
      exact List.Forall₂.cons h.1 (ih Cs _ h.2.2)

theorem flatten_length_of_forall₂ :
    ∀ (keys : List HcKeyData) (Cs : List (List Nat)),
      List.Forall₂ (fun kd C => C.length = kd.m_out_size) keys Cs →
      Cs.flatten.length = (keys.map (fun kd => kd.m_out_size)).sum := by
  intro keys Cs h
  induction h with
  | nil => rfl
  | cons h1 _ ih =>
    simp only [List.flatten_cons, List.length_append, List.map_cons, List.sum_cons, ih, h1]

/-- The loop over `m_key` of `decryptFile` between two segments, on an input
stream that starts with buffers which decode segment by segment: it returns
`HC_STATUS_OK`, the read loop has put together exactly these buffers, in key
order, and the decoded pieces have been appended to the output in key order. -/
theorem decrypt_segments_layout (aes : AesCbc) :
    ∀ (keys : List HcKeyData) (Cs : List (List Nat)) (Pl : List Nat) (d : Engine)
      (pre rest : List FileSpec) (n : Nat) (O T : List Nat),
      (∀ kd ∈ keys, KeyInvariant kd) → (∀ kd ∈ keys, kd.m_out_size ≤ n) →
      SegmentsDecode aes keys Cs Pl → DecReady d pre rest n O →
      unread rest = Cs.flatten ++ T →
      ∃ d1 pre1 rest1, decrypt_segments aes keys d = .ok (HC_STATUS_OK, d1) ∧
        DecReady d1 pre1 rest1 n (O ++ Pl.take (keys.map (fun kd => kd.m_in_size)).sum) ∧
        unread rest1 = T ∧ segment_reads aes keys d = Cs ∧ d1.m_key = d.m_key := by
  intro keys
  induction keys with
  | nil =>
    intro Cs Pl d pre rest n O T _ _ hdec hr hu
    cases Cs with
    | cons C Cs => exact absurd hdec (by simp [SegmentsDecode])
    | nil =>
      refine ⟨d, pre, rest, rfl, ?_, ?_, rfl, rfl⟩
      · simpa using hr
      · simpa using hu
  | cons kd ks ih =>
    intro Cs Pl d pre rest n O T hk hn hdec hr hu
    cases Cs with
    | nil => exact absurd hdec (by simp [SegmentsDecode])
    | cons C Cs =>
      simp only [SegmentsDecode] at hdec
      obtain ⟨hClen, hdec1, hdec2⟩ := hdec
      rw [List.flatten_cons, List.append_assoc] at hu
      obtain ⟨d1, pre1, rest1, E1, hr1, u1, b1, k1⟩ := decryptSegment_layout aes kd
        (hk kd (List.mem_cons_self _ _)) d pre rest n O C (Pl.take kd.m_in_size) hr hdec1
        (by rw [hu, List.take_append_of_le_length (by omega), List.take_of_length_le (by omega)])
        (by rw [hu, List.length_append]; omega) (hn kd (List.mem_cons_self _ _))
      obtain ⟨d2, pre2, rest2, E2, hr2, u2, b2, k2⟩ := ih Cs (Pl.drop kd.m_in_size) d1 pre1
        rest1 n (O ++ Pl.take kd.m_in_size) T (fun x hx => hk x (List.mem_cons_of_mem _ hx))
        (fun x hx => hn x (List.mem_cons_of_mem _ hx)) hdec2 hr1
        (by rw [u1, hu, List.drop_append_of_le_length (by omega),
          List.drop_of_length_le (by omega), List.nil_append])
      refine ⟨d2, pre2, rest2, ?_, ?_, u2, ?_, by rw [k2, k1]⟩
      · simp only [decrypt_segments, E1, ne_eq, not_true_eq_false, if_false]
        exact E2
      · simp only [List.map_cons, List.sum_cons]
        rw [List.take_add, ← List.append_assoc]
        exact hr2
      · simp only [segment_reads, E1, ne_eq, not_true_eq_false, if_false, b1, b2]

theorem decrypt_segments_append (aes : AesCbc) :
    ∀ (kpre : List HcKeyData) (d dk : Engine) (kpost : List HcKeyData),
      decrypt_segments aes kpre d = .ok (HC_STATUS_OK, dk) →
      decrypt_segments aes (kpre ++ kpost) d = decrypt_segments aes kpost dk := by
  intro kpre
  induction kpre with
  | nil =>
    intro d dk kpost h
    simp only [decrypt_segments] at h
    injection h with h
    injection h with _ h
    subst h
    rfl
  | cons kd ks ih =>
    intro d dk kpost h
    rw [List.cons_append]
    simp only [decrypt_segments] at h ⊢
    cases hs : decryptSegment aes d kd with
    | error f => rw [hs] at h; exact Except.noConfusion h
    | ok r =>
      obtain ⟨status, d1⟩ := r
      rw [hs] at h
      simp only at h ⊢
      by_cases hst : status = HC_STATUS_OK
      · subst hst
        rw [if_neg (by simp)] at h ⊢
        exact ih d1 dk kpost h
      · rw [if_pos hst] at h
        injection h with h
        injection h with h _
        exact absurd h hst

theorem unread_eq_stream (files : List FileSpec) (h : ∀ f ∈ files, f.pos = 0) :
    unread files = stream files := by
  induction files with
  | nil => rfl
  | cons f rest ih =>
    rw [unread_cons, stream_cons, h f (List.mem_cons_self _ _), List.drop_zero,
      ih (fun g hg => h g (List.mem_cons_of_mem _ hg))]

/-- The sizes the loop "Set the size of each split" assigns: a zero is followed
by zeros only. -/
theorem set_split_sizes_zerosLast (c : Nat) :
    ∀ (files : List FileSpec) (temp : Nat),
      ZerosLast ((set_split_sizes c temp files).map FileSpec.m_size) := by
  intro files
  induction files with
  | nil =>
    intro temp
    exact List.Pairwise.nil
  | cons f rest ih =>
    intro temp
    simp only [set_split_sizes, List.map_cons]
    refine List.Pairwise.cons ?_ (ih _)
    intro b hb h0
    obtain ⟨i, hi⟩ := List.getElem?_of_mem hb
    have hlt : i < rest.length := by
      by_contra hge
      rw [List.getElem?_eq_none (by
        rw [List.length_map, set_split_sizes_length]; omega)] at hi
      exact Option.noConfusion hi
    have hget := set_split_sizes_get c rest (temp - (if temp > c then c else temp)) i hlt
    have hb2 : b = min c (temp - (if temp > c then c else temp) - i * c) := by
      have : (List.map FileSpec.m_size (set_split_sizes c
          (temp - (if temp > c then c else temp)) rest))[i]? =
          some (min c (temp - (if temp > c then c else temp) - i * c)) := hget
      rw [hi] at this
      exact Option.some.inj this
    rw [hb2]
    split at h0
    · subst h0
      exact Nat.zero_min _
    · subst h0
      simp

theorem plan_out_files_zerosLast (T splits : Nat) :
    ZerosLast ((plan_out_files T splits
      (if splits ≠ 0 then List.replicate splits emptyFileSpec else [emptyFileSpec])).map
        FileSpec.m_size) := by
  by_cases hs : splits ≠ 0
  · rw [if_pos hs, plan_out_files_split T splits hs]
    exact set_split_sizes_zerosLast _ _ _
  · rw [if_neg hs]
    unfold plan_out_files
    rw [if_neg hs]
    exact List.pairwise_singleton _ _

theorem sampleLayout_keys :
    ∀ x ∈ [sampleKey 5] ++ sampleKey 3 :: [], KeyInvariant x := by
  intro x hx
  simp only [List.singleton_append, List.mem_cons, List.mem_singleton, List.not_mem_nil,
    or_false] at hx
  rcases hx with rfl | rfl
  · exact sampleKey_invariant 5 (by decide) (by decide)
  · exact sampleKey_invariant 3 (by decide) (by decide)

theorem sampleLayout_buffer (buf : List Nat) (h : buf.length = 32768) :
    ∀ x ∈ [sampleKey 5] ++ sampleKey 3 :: [], x.m_out_size ≤ buf.length := by
  intro x hx
  simp only [List.singleton_append, List.mem_cons, List.mem_singleton, List.not_mem_nil,
    or_false] at hx
  rw [h]
  rcases hx with rfl | rfl
  · exact le_refl _
  · exact le_refl _

theorem stream_map_reopen (files : List FileSpec) :
    stream (files.map (fun f => { f with m_file := true, pos := 0 })) = stream files := by
  induction files with
  | nil => rfl
  | cons f rest ih =>
    rw [List.map_cons, stream_cons, stream_cons, ih]

/-- When the loop "Encrypt all the segments" has used up the planned sizes,
every output file holds as many bytes as were planned for it. -/
theorem planned_bytes_written (files1 files pre rest : List FileSpec)
    (h1 : files1 = pre ++ rest) (hpre : ∀ f ∈ pre, f.m_size = 0)
    (hrest : (rest.map FileSpec.m_size).sum = 0)
    (hempty : ∀ f ∈ files, f.data = [])
    (hm : files1.map (fun f => f.data.length + f.m_size) =
      files.map (fun f => f.data.length + f.m_size)) :
    files1.map (fun f => f.data.length) = files.map FileSpec.m_size := by
  have hz : ∀ f ∈ files1, f.m_size = 0 := by
    intro f hf
    rw [h1] at hf
    rcases List.mem_append.1 hf with hf | hf
    · exact hpre f hf
    · exact List.sum_eq_zero_iff.1 hrest _ (List.mem_map_of_mem _ hf)
  have e1 : files1.map (fun f => f.data.length) =
      files1.map (fun f => f.data.length + f.m_size) :=
    List.map_congr_left (fun f hf => by rw [hz f hf, Nat.add_zero])
  have e2 : files.map (fun f => f.data.length + f.m_size) = files.map FileSpec.m_size :=
    List.map_congr_left (fun f hf => by rw [hempty f hf, List.length_nil, Nat.zero_add])
  rw [e1, hm, e2]

/-! ## `reset` on every registry a process can hold -/

set_option maxRecDepth 100000 in
theorem registryFor_eq (mb : Nat) (h1 : 15 ≤ mb) (h2 : mb ≤ 28) :
    registryFor mb =
      { polies := (List.range 14).map (fun i =>
          if i ≤ mb - 15 then (add_polies false (MIN_BITS + i) (poly_tables.getD i []) []).1
          else []),
        initialized := true } := by
  interval_cases mb <;> decide!

theorem registryFor_initialized (mb : Nat) (h1 : 15 ≤ mb) (h2 : mb ≤ 28) :
    (registryFor mb).initialized = true := by
  rw [registryFor_eq mb h1 h2]

/-- The row of `registryFor mb` for `b` bits: the registered variants when
`b ≤ mb`, empty otherwise. -/
theorem registryFor_row (mb : Nat) (h1 : 15 ≤ mb) (h2 : mb ≤ 28) (b : Nat) (hb1 : 15 ≤ b)
    (hb2 : b ≤ 28) :
    (registryFor mb).polies.getD (b - 15) [] = if b ≤ mb then registeredPolies b else [] := by
  rw [registryFor_eq mb h1 h2]
  simp only
  rw [List.getD_eq_getElem?_getD, List.getElem?_map, List.getElem?_range (by omega)]
  simp only [Option.map_some', Option.getD_some]
  by_cases hle : b ≤ mb
  · rw [if_pos (by omega), if_pos hle, registeredPolies_eq b hb1 hb2]
    congr 2
    · unfold MIN_BITS; omega
  · rw [if_neg (by omega), if_neg hle]

theorem fullRegistry_eq_registryFor : fullRegistry = registryFor 28 := rfl

theorem registryReachable_of_ready (reg : PolyRegistry) (h : RegistryReady reg) :
    RegistryReachable reg := by
  rcases h with h | h
  · exact Or.inl h
  · exact Or.inr ⟨28, by decide, by decide, h⟩

/-- On a registry that is marked initialised and whose row for `b` bits is
empty, `reset (2 ^ b, 0, -1)` reaches `get_random (0, -1)` and the index into
the empty vector. -/
theorem reset_empty_row (reg : PolyRegistry) (hinit : reg.initialized = true) (lfsr : HcLfsr)
    (hmax : lfsr.m_max_bits = 28) (b : Nat) (hb1 : 15 ≤ b) (hb2 : b ≤ 28) (dv ds : Nat)
    (hrow : reg.polies.getD (b - 15) [] = []) :
    HcLfsr.reset reg lfsr (2 ^ b) 0 (-1) dv ds = none := by
  have hsize : ¬ (2 ^ b > 1 <<< 28 ∨ 2 ^ b < HcLfsr.getMinSize) := by
    rw [getMinSize_eq, Nat.one_shiftLeft]
    have h1 : 2 ^ b ≤ 2 ^ 28 := Nat.pow_le_pow_right (by norm_num) hb2
    have h2 : 2 ^ 15 ≤ 2 ^ b := Nat.pow_le_pow_right (by norm_num) hb1
    norm_num at h2
    omega
  unfold HcLfsr.reset
  simp only [hmax, hinit, hsize, if_false, find_poly_index_pow b hb1 hb2, Bool.not_true,
    Bool.false_eq_true, hrow, List.length_nil, if_true]

/-- On every registry a process can hold, a call `reset (2 ^ b, 0, -1)` of an
LFSR with `m_max_bits = 28` returns true, for every outcome of the two draws,
or it does not return: it never returns false. -/
theorem reset_reachable (reg : PolyRegistry) (hreg : RegistryReachable reg) (lfsr : HcLfsr)
    (hmax : lfsr.m_max_bits = 28) (b : Nat) (hb1 : 15 ≤ b) (hb2 : b ≤ 28) (dv ds : Nat) :
    (∃ reg1 l1, HcLfsr.reset reg lfsr (2 ^ b) 0 (-1) dv ds = some (reg1, l1, true) ∧
      RegistryReachable reg1 ∧ l1.m_max_bits = 28) ∨
    HcLfsr.reset reg lfsr (2 ^ b) 0 (-1) dv ds = none := by
  rcases hreg with h | ⟨mb, hm1, hm2, h⟩
  · obtain ⟨p, sd, hr, -⟩ := reset_ok reg (Or.inl h) lfsr hmax b hb1 hb2 dv ds
    exact Or.inl ⟨_, _, hr, Or.inr ⟨28, by decide, by decide, rfl⟩, hmax⟩
  · have hm1b : 15 ≤ mb := hm1
    have hm2b : mb ≤ 28 := hm2
    subst h
    have hinit := registryFor_initialized mb hm1b hm2b
    have hrow := registryFor_row mb hm1b hm2b b hb1 hb2
    by_cases hle : b ≤ mb
    · rw [if_pos hle] at hrow
      obtain ⟨hlen1, hlen2⟩ := registeredPolies_length b hb1 hb2
      have hpos : 2 ≤ 2 ^ b := by
        have : 2 ^ 1 ≤ 2 ^ b := Nat.pow_le_pow_right (by norm_num) (by omega)
        omega
      have hidx : dv % (registeredPolies b).length < (registeredPolies b).length :=
        Nat.mod_lt _ (by omega)
      obtain ⟨p, hp⟩ : ∃ p, (registeredPolies b).get? (dv % (registeredPolies b).length) =
          some p := by
        rw [List.get?_eq_getElem?, List.getElem?_eq_getElem hidx]
        exact ⟨_, rfl⟩
      have hpmem : p ∈ registeredPolies b := List.get?_mem hp
      have hsdlt : ds % (2 ^ b - 1) < 2 ^ b - 1 := Nat.mod_lt _ (by omega)
      have hver := verify_poly_of_fullCycle p b (1 + ds % (2 ^ b - 1)) (by omega) (by omega)
        (by omega) (by omega)
        (registered_fullCycle b hb1 hb2 p hpmem (1 + ds % (2 ^ b - 1)) (by omega) (by omega))
      have h := reset_initialized (registryFor mb) hinit lfsr hmax b hb1 hb2 dv ds p
        (by rw [hrow]; exact hlen1) (by rw [hrow]; omega) (by rw [hrow]; exact hp)
      rw [hver, if_pos rfl] at h
      exact Or.inl ⟨_, _, h, Or.inr ⟨mb, hm1, hm2, rfl⟩, hmax⟩
    · rw [if_neg hle] at hrow
      exact Or.inr (reset_empty_row _ hinit lfsr hmax b hb1 hb2 dv ds hrow)

/-- The retry loop of `generateKey` on every registry a process can hold: the
first call of `reset` returns true and ends the loop with `retries = 3`, or
the call does not return. -/
theorem reset_retry_reachable (reg : PolyRegistry) (hreg : RegistryReachable reg)
    (lfsr : HcLfsr) (hmax : lfsr.m_max_bits = 28) (b : Nat) (hb1 : 15 ≤ b) (hb2 : b ≤ 28)
    (d : KeyDraws) :
    (∃ reg1 l1, HcLfsr.reset reg lfsr (2 ^ b) 0 (-1) (d.variant 0) (d.seed 0) =
        some (reg1, l1, true) ∧
      reset_retry (2 ^ b) d 4 0 reg lfsr = .ok (reg1, l1, 3) ∧
      RegistryReachable reg1 ∧ l1.m_max_bits = 28) ∨
    (HcLfsr.reset reg lfsr (2 ^ b) 0 (-1) (d.variant 0) (d.seed 0) = none ∧
      reset_retry (2 ^ b) d 4 0 reg lfsr = .error .undefined) := by
  rcases reset_reachable reg hreg lfsr hmax b hb1 hb2 (d.variant 0) (d.seed 0) with
    ⟨reg1, l1, h, hr, hm⟩ | h
  · refine Or.inl ⟨reg1, l1, h, ?_, hr, hm⟩
    rw [reset_retry_four]
    simp only [h, if_true]
  · refine Or.inr ⟨h, ?_⟩
    rw [reset_retry_four]
    simp only [h]

/-- On every registry a process can hold, the key loop of `generateKey` does
not return `HC_INTERNAL_ERROR_CANNOT_RESET_LFSR`. -/
theorem key_loop_no_reset_failure (draws : Nat → KeyDraws) (sizes : List Nat) :
    ∀ (i : Nat) (reg : PolyRegistry) (lfsr : HcLfsr) (m_key : List HcKeyData),
      RegistryReachable reg → lfsr.m_max_bits = 28 → (∀ se ∈ sizes, IsPlannedSize se) →
      ∀ status reg1 lfsr1 keys,
        key_loop draws sizes i reg lfsr m_key = .ok (status, reg1, lfsr1, keys) →
        status ≠ HC_INTERNAL_ERROR_CANNOT_RESET_LFSR := by
  induction sizes with
  | nil =>
    intro i reg lfsr m_key _ _ _ status reg1 lfsr1 keys h
    simp only [key_loop] at h
    injection h with h
    injection h with h _
    rw [← h]
    decide
  | cons se rest ih =>
    intro i reg lfsr m_key hreg hmax hsizes status reg1 lfsr1 keys h
    have hse : IsPlannedSize se := hsizes se (List.mem_cons_self _ _)
    obtain ⟨b, hb1, hb2, -, hout2⟩ := hse.out_pow
    rw [key_loop] at h
    simp only [hout2] at h
    rcases reset_retry_reachable reg hreg lfsr hmax b hb1 hb2 (draws i) with
      ⟨reg2, l2, -, hretry, hr2, hm2⟩ | ⟨-, hretry⟩
    · rw [hretry] at h
      simp only [Nat.reduceEqDiff, if_false] at h
      by_cases hspec : HcLfsr.getSpec reg2 l2 = 0
      · rw [if_pos hspec] at h
        injection h with h
        injection h with h _
        rw [← h]
        decide
      · rw [if_neg hspec] at h
        cases hiv : randFill 16 (draws i).iv with
        | none =>
          rw [hiv] at h
          injection h with h
          injection h with h _
          rw [← h]
          decide
        | some iv =>
          rw [hiv] at h
          cases hkey : randFill 32 (draws i).key with
          | none =>
            rw [hkey] at h
            injection h with h
            injection h with h _
            rw [← h]
            decide
          | some key =>
            rw [hkey] at h
            exact ih (i + 1) reg2 l2 _ hr2 hm2
              (fun x hx => hsizes x (List.mem_cons_of_mem _ hx)) status reg1 lfsr1 keys h
    · rw [hretry] at h
      exact Except.noConfusion h

/-- On every registry a process can hold, `generateKey` does not return
`HC_INTERNAL_ERROR_CANNOT_RESET_LFSR`. -/
theorem generateKey_no_reset_failure (reg : PolyRegistry) (hreg : RegistryReachable reg)
    (L : Nat) (hL : 1 ≤ L) (draws : Nat → KeyDraws) (shuffle : Nat → Nat)
    (status : Int) (reg1 : PolyRegistry) (lfsr1 : HcLfsr) (keys : List HcKeyData)
    (h : generateKey reg (HcLfsr.new 0) L draws shuffle = .ok (status, reg1, lfsr1, keys)) :
    status ≠ HC_INTERNAL_ERROR_CANNOT_RESET_LFSR := by
  obtain ⟨greedy, pows, r, -, h2, -, -, h5, h6, h7, -⟩ := plan_sizes_spec L hL
  have hsizes : ∀ se ∈ pows ++ [r], IsPlannedSize se := by
    intro se hse
    rcases List.mem_append.1 hse with h | h
    · have := (h5 se h).ge
      exact ⟨by omega, Or.inr (h5 se h)⟩
    · rw [List.mem_singleton] at h
      subst h
      exact ⟨h6, Or.inl h7⟩
  unfold generateKey at h
  rw [h2] at h
  simp only at h
  cases hk : key_loop draws (pows ++ [r]) 0 reg (HcLfsr.new 0) [] with
  | error f => rw [hk] at h; exact Except.noConfusion h
  | ok res =>
    obtain ⟨st, rg, lf, ks⟩ := res
    rw [hk] at h
    simp only at h
    have hne := key_loop_no_reset_failure draws (pows ++ [r]) 0 reg (HcLfsr.new 0) [] hreg rfl
      hsizes st rg lf ks hk
    by_cases hst : st = HC_STATUS_OK
    · subst hst
      rw [if_neg (by simp)] at h
      injection h with h
      injection h with h _
      rw [← h]
      decide
    · rw [if_pos hst] at h
      injection h with h
      injection h with h _
      rw [← h]
      exact hne

/-! ## Claims about the planner and the key builder -/

/-- C5. For every plaintext length `L ≥ 1` and every outcome of the random
draws `generateKey` returns; it returns `HC_STATUS_OK` when every `RAND_bytes`
call succeeds; and whenever it returns `HC_STATUS_OK` its key list satisfies:
the sum of `in_size` is `L`, the sum of `out_size` is at least `L`, at most one
segment has `in_size < out_size`, and the sum of `out_size` minus `L` is the
`out_size - in_size` of that segment (0 when there is none). -/
theorem C5_segment_sums (reg : PolyRegistry) (hreg : RegistryReady reg) (L : Nat) (hL : 1 ≤ L)
    (draws : Nat → KeyDraws) (shuffle : Nat → Nat) :
    ∃ (status : Int) (reg1 : PolyRegistry) (lfsr1 : HcLfsr) (keys : List HcKeyData),
      generateKey reg (HcLfsr.new 0) L draws shuffle = .ok (status, reg1, lfsr1, keys) ∧
      (KeyDrawsOk draws → status = HC_STATUS_OK) ∧
      (status = HC_STATUS_OK →
        (keys.map (fun k => k.m_in_size)).sum = L ∧
        L ≤ (keys.map (fun k => k.m_out_size)).sum ∧
        (keys.filter (fun k => decide (k.m_in_size < k.m_out_size))).length ≤ 1 ∧
        (keys.map (fun k => k.m_out_size)).sum - L =
          ((keys.filter (fun k => decide (k.m_in_size < k.m_out_size))).map
            (fun k => k.m_out_size - k.m_in_size)).sum) := by
  obtain ⟨greedy, pows, r, status, reg1, lfsr1, keys, _, _, _, _, h5, h6, h7, h8, _, hgen, _,
    hgood, hok⟩ := generateKey_spec reg hreg L hL draws shuffle
  refine ⟨status, reg1, lfsr1, keys, hgen, hgood, fun hs => ?_⟩
  obtain ⟨_, _, planned, hfor, hperm⟩ := hok hs
  have hio := keys_io_perm pows r h5 planned keys hfor hperm
  have hin : (keys.map (fun k => k.m_in_size)).sum = L := by
    have e : keys.map (fun k => k.m_in_size) = (keys.map HcKeyData.io).map Prod.fst := by
      simp [List.map_map, Function.comp_def, HcKeyData.io]
    rw [e, ((hio.map Prod.fst).sum_eq), List.map_append, List.sum_append, sum_map_fst_diag]
    simp [plannedIo, h8]
  have hout : (keys.map (fun k => k.m_out_size)).sum =
      pows.sum + (if r < 32768 then 32768 else r) := by
    have e : keys.map (fun k => k.m_out_size) = (keys.map HcKeyData.io).map Prod.snd := by
      simp [List.map_map, Function.comp_def, HcKeyData.io]
    rw [e, ((hio.map Prod.snd).sum_eq), List.map_append, List.sum_append, sum_map_snd_diag]
    simp [plannedIo]
  have hfilt : ((keys.filter (fun k => decide (k.m_in_size < k.m_out_size))).map
      HcKeyData.io).Perm
      ([plannedIo r].filter (fun p => decide (p.1 < p.2))) := by
    have e : (keys.filter (fun k => decide (k.m_in_size < k.m_out_size))).map HcKeyData.io =
        (keys.map HcKeyData.io).filter (fun p => decide (p.1 < p.2)) := by
      rw [List.filter_map]
      rfl
    rw [e]
    have := hio.filter (fun p => decide (p.1 < p.2))
    rw [List.filter_append, filter_lt_diag, List.nil_append] at this
    exact this
  have hlen : (keys.filter (fun k => decide (k.m_in_size < k.m_out_size))).length =
      ([plannedIo r].filter (fun p => decide (p.1 < p.2))).length := by
    rw [← hfilt.length_eq, List.length_map]
  have hgap : ((keys.filter (fun k => decide (k.m_in_size < k.m_out_size))).map
      (fun k => k.m_out_size - k.m_in_size)).sum =
      ((([plannedIo r].filter (fun p => decide (p.1 < p.2)))).map (fun p => p.2 - p.1)).sum := by
    rw [← (hfilt.map (fun p => p.2 - p.1)).sum_eq, List.map_map]
    rfl
  refine ⟨hin, by rw [hout]; split <;> omega, ?_, ?_⟩
  · rw [hlen]
    exact le_trans (List.length_filter_le _ _) (by simp)
  · rw [hgap, hout]
    by_cases hr : r < 32768
    · simp [plannedIo, hr]; omega
    · simp [plannedIo, hr]; omega

/-- Witness for C5: a fresh registry, `L = 10`, the sample draws. -/
theorem C5_segment_sums_witness :
    RegistryReady PolyRegistry.fresh ∧ 1 ≤ 10 ∧
    ∃ (status : Int) (reg1 : PolyRegistry) (lfsr1 : HcLfsr) (keys : List HcKeyData),
      generateKey PolyRegistry.fresh (HcLfsr.new 0) 10 sampleDraws sampleShuffle =
        .ok (status, reg1, lfsr1, keys) ∧
      (KeyDrawsOk sampleDraws → status = HC_STATUS_OK) ∧
      (status = HC_STATUS_OK →
        (keys.map (fun k => k.m_in_size)).sum = 10 ∧
        10 ≤ (keys.map (fun k => k.m_out_size)).sum ∧
        (keys.filter (fun k => decide (k.m_in_size < k.m_out_size))).length ≤ 1 ∧
        (keys.map (fun k => k.m_out_size)).sum - 10 =
          ((keys.filter (fun k => decide (k.m_in_size < k.m_out_size))).map
            (fun k => k.m_out_size - k.m_in_size)).sum) :=
  ⟨Or.inl rfl, by decide,
    C5_segment_sums PolyRegistry.fresh (Or.inl rfl) 10 (by decide) sampleDraws sampleShuffle⟩

/-- C6. For every `L ≥ 1` and every outcome of the random draws, every key of the
list `generateKey` returns with `HC_STATUS_OK` satisfies the data-model
invariant `KeyInvariant`: `1 ≤ in_size ≤ out_size`, `out_size = 2 ^ b` with
`15 ≤ b ≤ 28`, the seed (low 32 bits of `lfsr_spec`) in `[1, 2 ^ b - 1]`, the
polynomial (high 32 bits) nonzero and one of the variants registered for `b`,
and `verify_poly (poly, b, seed)` true. `generateKey` does return, with
`HC_STATUS_OK` when every `RAND_bytes` call succeeds. -/
theorem C6_key_invariant (reg : PolyRegistry) (hreg : RegistryReady reg) (L : Nat) (hL : 1 ≤ L)
    (draws : Nat → KeyDraws) (shuffle : Nat → Nat) :
    ∃ (status : Int) (reg1 : PolyRegistry) (lfsr1 : HcLfsr) (keys : List HcKeyData),
      generateKey reg (HcLfsr.new 0) L draws shuffle = .ok (status, reg1, lfsr1, keys) ∧
      (KeyDrawsOk draws → status = HC_STATUS_OK) ∧
      (status = HC_STATUS_OK → ∀ k ∈ keys,
        1 ≤ k.m_in_size ∧ k.m_in_size ≤ k.m_out_size ∧
        ∃ b, 15 ≤ b ∧ b ≤ 28 ∧ k.m_out_size = 2 ^ b ∧
          1 ≤ k.m_lfsr_specs % 2 ^ 32 ∧ k.m_lfsr_specs % 2 ^ 32 ≤ 2 ^ b - 1 ∧
          (k.m_lfsr_specs / 2 ^ 32) % 2 ^ 32 ≠ 0 ∧
          (k.m_lfsr_specs / 2 ^ 32) % 2 ^ 32 ∈ registeredPolies b ∧
          verify_poly ((k.m_lfsr_specs / 2 ^ 32) % 2 ^ 32) b (k.m_lfsr_specs % 2 ^ 32) =
            true) := by
  obtain ⟨greedy, pows, r, status, reg1, lfsr1, keys, _, _, _, _, _, _, _, _, _, hgen, _,
    hgood, hok⟩ := generateKey_spec reg hreg L hL draws shuffle
  refine ⟨status, reg1, lfsr1, keys, hgen, hgood, fun hs k hk => ?_⟩
  obtain ⟨_, _, planned, hfor, hperm⟩ := hok hs
  exact forall₂_keyFor_inv _ _ hfor k (hperm.mem_iff.1 hk)

/-- Witness for C6: a fresh registry, `L = 100000`, the sample draws. -/
theorem C6_key_invariant_witness :
    RegistryReady PolyRegistry.fresh ∧ 1 ≤ 100000 ∧
    ∃ (status : Int) (reg1 : PolyRegistry) (lfsr1 : HcLfsr) (keys : List HcKeyData),
      generateKey PolyRegistry.fresh (HcLfsr.new 0) 100000 sampleDraws sampleShuffle =
        .ok (status, reg1, lfsr1, keys) ∧
      (KeyDrawsOk sampleDraws → status = HC_STATUS_OK) ∧
      (status = HC_STATUS_OK → ∀ k ∈ keys,
        1 ≤ k.m_in_size ∧ k.m_in_size ≤ k.m_out_size ∧
        ∃ b, 15 ≤ b ∧ b ≤ 28 ∧ k.m_out_size = 2 ^ b ∧
          1 ≤ k.m_lfsr_specs % 2 ^ 32 ∧ k.m_lfsr_specs % 2 ^ 32 ≤ 2 ^ b - 1 ∧
          (k.m_lfsr_specs / 2 ^ 32) % 2 ^ 32 ≠ 0 ∧
          (k.m_lfsr_specs / 2 ^ 32) % 2 ^ 32 ∈ registeredPolies b ∧
          verify_poly ((k.m_lfsr_specs / 2 ^ 32) % 2 ^ 32) b (k.m_lfsr_specs % 2 ^ 32) =
            true) :=
  ⟨Or.inl rfl, by decide,
    C6_key_invariant PolyRegistry.fresh (Or.inl rfl) 100000 (by decide) sampleDraws
      sampleShuffle⟩

/-- C7. For every plaintext length `L ≥ 1` the key list `generateKey` returns
with `HC_STATUS_OK` has total `out_size` equal to `L` rounded up to a multiple
of `2 ^ 15`; for `1 ≤ L ≤ 2 ^ 15` it is a single key with `in_size = L` and
`out_size = 2 ^ 15`, so the sizes `encryptFile` then assigns are one file of
`2 ^ 15` bytes without split and two files of `2 ^ 14` bytes for a split in
two. `generateKey` does return, with `HC_STATUS_OK` when every `RAND_bytes`
call succeeds. -/
theorem C7_total_ciphertext_length (reg : PolyRegistry) (hreg : RegistryReady reg) (L : Nat)
    (hL : 1 ≤ L) (draws : Nat → KeyDraws) (shuffle : Nat → Nat) :
    ∃ (status : Int) (reg1 : PolyRegistry) (lfsr1 : HcLfsr) (keys : List HcKeyData),
      generateKey reg (HcLfsr.new 0) L draws shuffle = .ok (status, reg1, lfsr1, keys) ∧
      (KeyDrawsOk draws → status = HC_STATUS_OK) ∧
      (status = HC_STATUS_OK →
        (keys.map (fun k => k.m_out_size)).sum = (L + 32767) / 32768 * 32768 ∧
        (L ≤ 2 ^ 15 →
          (∃ k, keys = [k] ∧ k.m_in_size = L ∧ k.m_out_size = 2 ^ 15) ∧
          (plan_out_files (keys.map (fun k => k.m_out_size)).sum 0 [emptyFileSpec]).map
            (fun fs => fs.m_size) = [2 ^ 15] ∧
          (plan_out_files (keys.map (fun k => k.m_out_size)).sum 2
            (List.replicate 2 emptyFileSpec)).map (fun fs => fs.m_size) = [2 ^ 14, 2 ^ 14])) := by
  obtain ⟨greedy, pows, r, status, reg1, lfsr1, keys, _, _, _, _, h5, h6, h7, h8, _, hgen, _,
    hgood, hok⟩ := generateKey_spec reg hreg L hL draws shuffle
  refine ⟨status, reg1, lfsr1, keys, hgen, hgood, fun hs => ?_⟩
  obtain ⟨_, _, planned, hfor, hperm⟩ := hok hs
  have hio := keys_io_perm pows r h5 planned keys hfor hperm
  have hout : (keys.map (fun k => k.m_out_size)).sum =
      pows.sum + (if r < 32768 then 32768 else r) := by
    have e : keys.map (fun k => k.m_out_size) = (keys.map HcKeyData.io).map Prod.snd := by
      simp [List.map_map, Function.comp_def, HcKeyData.io]
    rw [e, ((hio.map Prod.snd).sum_eq), List.map_append, List.sum_append, sum_map_snd_diag]
    simp [plannedIo]
  have hout2 : (keys.map (fun k => k.m_out_size)).sum = pows.sum + 32768 := by
    rw [hout]; split <;> omega
  obtain ⟨m, hm⟩ := sum_pows_dvd pows h5
  have htotal : (keys.map (fun k => k.m_out_size)).sum = (L + 32767) / 32768 * 32768 := by
    rw [hout2, ← h8, hm]
    have : (32768 * m + r + 32767) / 32768 = m + 1 := by omega
    rw [this]; ring
  refine ⟨htotal, fun hle => ?_⟩
  have hle2 : L ≤ 32768 := by norm_num at hle; exact hle
  have hpows : pows = [] := by
    cases pows with
    | nil => rfl
    | cons x l =>
      have := (h5 x (List.mem_cons_self _ _)).ge
      simp only [List.sum_cons] at h8
      omega
  subst hpows
  simp only [List.sum_nil, Nat.zero_add] at h8 hout2
  subst h8
  rw [List.nil_append] at hfor
  cases hfor with
  | cons hk hrest =>
    cases hrest
    have hkeys := List.perm_singleton.1 hperm
    refine ⟨⟨_, hkeys, hk.1, ?_⟩, ?_, ?_⟩
    · rw [hk.2.1]; split <;> omega
    · rw [hout2]; decide
    · rw [hout2]; decide

/-- Witness for C7: a fresh registry, `L = 10`, the sample draws. -/
theorem C7_total_ciphertext_length_witness :
    RegistryReady PolyRegistry.fresh ∧ 1 ≤ 10 ∧
    ∃ (status : Int) (reg1 : PolyRegistry) (lfsr1 : HcLfsr) (keys : List HcKeyData),
      generateKey PolyRegistry.fresh (HcLfsr.new 0) 10 sampleDraws sampleShuffle =
        .ok (status, reg1, lfsr1, keys) ∧
      (KeyDrawsOk sampleDraws → status = HC_STATUS_OK) ∧
      (status = HC_STATUS_OK →
        (keys.map (fun k => k.m_out_size)).sum = (10 + 32767) / 32768 * 32768 ∧
        (10 ≤ 2 ^ 15 →
          (∃ k, keys = [k] ∧ k.m_in_size = 10 ∧ k.m_out_size = 2 ^ 15) ∧
          (plan_out_files (keys.map (fun k => k.m_out_size)).sum 0 [emptyFileSpec]).map
            (fun fs => fs.m_size) = [2 ^ 15] ∧
          (plan_out_files (keys.map (fun k => k.m_out_size)).sum 2
            (List.replicate 2 emptyFileSpec)).map (fun fs => fs.m_size) = [2 ^ 14, 2 ^ 14])) :=
  ⟨Or.inl rfl, by decide,
    C7_total_ciphertext_length PolyRegistry.fresh (Or.inl rfl) 10 (by decide) sampleDraws
      sampleShuffle⟩

/-- Counterexample to C8 as stated: for `L = 3 * 2 ^ 15 + 7` the planner emits the
three sizes `2 ^ 16`, `2 ^ 15` and `7`, so no run of `generateKey` returns a
list of four keys. -/
theorem C8_counterexample :
    plan_sizes (3 * 2 ^ 15 + 7) = .ok [2 ^ 16, 2 ^ 15, 7] ∧
    ¬ ∃ (draws : Nat → KeyDraws) (shuffle : Nat → Nat) (reg1 : PolyRegistry) (lfsr1 : HcLfsr)
        (keys : List HcKeyData),
        generateKey PolyRegistry.fresh (HcLfsr.new 0) (3 * 2 ^ 15 + 7) draws shuffle =
          .ok (HC_STATUS_OK, reg1, lfsr1, keys) ∧
        keys.length = 4 := by
  have hplan : plan_sizes (3 * 2 ^ 15 + 7) = .ok [2 ^ 16, 2 ^ 15, 7] := by rfl
  refine ⟨hplan, ?_⟩
  rintro ⟨draws, shuffle, reg1, lfsr1, keys, hgen, hlen⟩
  obtain ⟨greedy, pows, r, status, reg2, lfsr2, keys2, _, h2, _, _, _, _, _, _, _, hgen2, _,
    _, hok⟩ := generateKey_spec PolyRegistry.fresh (Or.inl rfl) (3 * 2 ^ 15 + 7) (by norm_num)
      draws shuffle
  rw [hgen] at hgen2
  simp only [Except.ok.injEq, Prod.mk.injEq] at hgen2
  obtain ⟨hs, _, _, hk⟩ := hgen2
  subst hk
  obtain ⟨_, _, planned, hfor, hperm⟩ := hok hs.symm
  rw [hplan] at h2
  simp only [Except.ok.injEq] at h2
  have h3 : planned.length = 3 := by
    rw [← hfor.length_eq, ← h2]; rfl
  rw [hperm.length_eq] at hlen
  omega

/-- C8, amended. For `L = 3 * 2 ^ 15 + 7` the key list `generateKey` returns with
`HC_STATUS_OK` has exactly three keys: one with `in_size = out_size = 2 ^ 16`,
one with `in_size = out_size = 2 ^ 15` and the residual one with `in_size = 7`,
`out_size = 2 ^ 15`; the total `out_size` is `4 * 2 ^ 15`. `generateKey` does
return, with `HC_STATUS_OK` when every `RAND_bytes` call succeeds. -/
theorem C8_scenario_S3_amended (reg : PolyRegistry) (hreg : RegistryReady reg)
    (draws : Nat → KeyDraws) (shuffle : Nat → Nat) :
    ∃ (status : Int) (reg1 : PolyRegistry) (lfsr1 : HcLfsr) (keys : List HcKeyData),
      generateKey reg (HcLfsr.new 0) (3 * 2 ^ 15 + 7) draws shuffle =
        .ok (status, reg1, lfsr1, keys) ∧
      (KeyDrawsOk draws → status = HC_STATUS_OK) ∧
      (status = HC_STATUS_OK →
        keys.length = 3 ∧
        (keys.map HcKeyData.io).Perm [(2 ^ 16, 2 ^ 16), (2 ^ 15, 2 ^ 15), (7, 2 ^ 15)] ∧
        (keys.map (fun k => k.m_out_size)).sum = 4 * 2 ^ 15) := by
  have hplan : plan_sizes (3 * 2 ^ 15 + 7) = .ok [2 ^ 16, 2 ^ 15, 7] := by rfl
  obtain ⟨greedy, pows, r, status, reg1, lfsr1, keys, _, h2, _, _, _, _, _, _, _, hgen, _,
    hgood, hok⟩ := generateKey_spec reg hreg (3 * 2 ^ 15 + 7) (by norm_num) draws shuffle
  refine ⟨status, reg1, lfsr1, keys, hgen, hgood, fun hs => ?_⟩
  obtain ⟨_, _, planned, hfor, hperm⟩ := hok hs
  rw [hplan] at h2
  simp only [Except.ok.injEq] at h2
  rw [← h2] at hfor
  have hio := forall₂_keyFor_io _ _ hfor
  have hperm2 : (keys.map HcKeyData.io).Perm
      [(2 ^ 16, 2 ^ 16), (2 ^ 15, 2 ^ 15), (7, 2 ^ 15)] := by
    have := hperm.map HcKeyData.io
    rw [hio] at this
    exact this
  refine ⟨?_, hperm2, ?_⟩
  · have := hperm2.length_eq
    simpa using this
  · have e : keys.map (fun k => k.m_out_size) = (keys.map HcKeyData.io).map Prod.snd := by
      simp [List.map_map, Function.comp_def, HcKeyData.io]
    rw [e, ((hperm2.map Prod.snd).sum_eq)]
    rfl

/-- Witness for the amended C8: a fresh registry and the sample draws. -/
theorem C8_scenario_S3_amended_witness :
    RegistryReady PolyRegistry.fresh ∧
    ∃ (status : Int) (reg1 : PolyRegistry) (lfsr1 : HcLfsr) (keys : List HcKeyData),
      generateKey PolyRegistry.fresh (HcLfsr.new 0) (3 * 2 ^ 15 + 7) sampleDraws sampleShuffle =
        .ok (status, reg1, lfsr1, keys) ∧
      (KeyDrawsOk sampleDraws → status = HC_STATUS_OK) ∧
      (status = HC_STATUS_OK →
        keys.length = 3 ∧
        (keys.map HcKeyData.io).Perm [(2 ^ 16, 2 ^ 16), (2 ^ 15, 2 ^ 15), (7, 2 ^ 15)] ∧
        (keys.map (fun k => k.m_out_size)).sum = 4 * 2 ^ 15) :=
  ⟨Or.inl rfl, C8_scenario_S3_amended PolyRegistry.fresh (Or.inl rfl) sampleDraws sampleShuffle⟩

/-- Counterexample to C9 as stated: for `L = 2 ^ 15` the greedy loop emits no size
and leaves the residual `2 ^ 15`, which is not smaller than `MIN_SIZE`. -/
theorem C9_counterexample :
    split_sizes_loop HcLfsr.getMinSize (2 ^ 15 + 32) (2 ^ 15) HcLfsr.getMaxSize [] =
      some (2 ^ 15, []) ∧ ¬ (2 ^ 15 < HcLfsr.getMinSize) := by
  decide

/-- C9, amended. For every plaintext length `L ≥ 1` the greedy decomposition loop
of `generateKey` returns; the sizes it emits are each a power of two in
`[MIN_SIZE, MAX_SIZE] = [2 ^ 15, 2 ^ 28]`, and the residual `r` it leaves
satisfies `1 ≤ r ≤ MIN_SIZE`; sizes and residual add up to `L`. -/
theorem C9_greedy_decomposition_amended (L : Nat) (hL : 1 ≤ L) :
    ∃ (r : Nat) (sizes : List Nat),
      split_sizes_loop HcLfsr.getMinSize (L + 32) L HcLfsr.getMaxSize [] = some (r, sizes) ∧
      (∀ x ∈ sizes, (∃ j, 15 ≤ j ∧ j ≤ 28 ∧ x = 2 ^ j) ∧
        HcLfsr.getMinSize ≤ x ∧ x ≤ HcLfsr.getMaxSize) ∧
      1 ≤ r ∧ r ≤ HcLfsr.getMinSize ∧ sizes.sum + r = L := by
  obtain ⟨greedy, pows, r, h1, _, h3, h4, _, h6, h7, _⟩ := plan_sizes_spec L hL
  refine ⟨r, greedy, h1, ?_, h6, by rw [getMinSize_eq]; exact h7, h4⟩
  intro x hx
  have hp := h3 x hx
  exact ⟨hp, by rw [getMinSize_eq]; exact hp.ge, by rw [getMaxSize_eq]; exact hp.le⟩

/-- Witness for the amended C9 at `L = 2 ^ 28`. -/
theorem C9_greedy_decomposition_amended_witness :
    1 ≤ 2 ^ 28 ∧
    ∃ (r : Nat) (sizes : List Nat),
      split_sizes_loop HcLfsr.getMinSize (2 ^ 28 + 32) (2 ^ 28) HcLfsr.getMaxSize [] =
        some (r, sizes) ∧
      (∀ x ∈ sizes, (∃ j, 15 ≤ j ∧ j ≤ 28 ∧ x = 2 ^ j) ∧
        HcLfsr.getMinSize ≤ x ∧ x ≤ HcLfsr.getMaxSize) ∧
      1 ≤ r ∧ r ≤ HcLfsr.getMinSize ∧ sizes.sum + r = 2 ^ 28 :=
  ⟨by decide, C9_greedy_decomposition_amended (2 ^ 28) (by decide)⟩

/-- C10. Minimum segment count. For every `L ≥ 1` the greedy loop leaves a residual
`r ≥ 1`, so a residual segment is always present and `min_key_count` is 2.
When the covered length `L - r` is at least `3 * MIN_SIZE`, the key list
returned with `HC_STATUS_OK` has at least 3 keys, every `out_size` a power of
two in `[2 ^ 15, 2 ^ 28]`, at least 2 of them with `in_size = out_size`.
The loop "Make sure at least 3 keys are used" itself, for a required count of
2 or of 3 (the count when no residual remains) and sizes that are powers of
two covering at least `MIN_SIZE` times that count, exits with at least that
many sizes, all powers of two, and the same sum; it changes nothing when the
list is long enough. One pass halves the first size larger than `MIN_SIZE`
and appends the same half, which keeps the sum when the size is even. -/
theorem C10_minimum_segment_count (reg : PolyRegistry) (hreg : RegistryReady reg) (L : Nat)
    (hL : 1 ≤ L) (draws : Nat → KeyDraws) (shuffle : Nat → Nat) :
    (∃ (r : Nat) (greedy : List Nat) (status : Int) (reg1 : PolyRegistry) (lfsr1 : HcLfsr)
        (keys : List HcKeyData),
      split_sizes_loop HcLfsr.getMinSize (L + 32) L HcLfsr.getMaxSize [] = some (r, greedy) ∧
      1 ≤ r ∧
      generateKey reg (HcLfsr.new 0) L draws shuffle = .ok (status, reg1, lfsr1, keys) ∧
      (KeyDrawsOk draws → status = HC_STATUS_OK) ∧
      (3 * HcLfsr.getMinSize ≤ L - r → status = HC_STATUS_OK →
        3 ≤ keys.length ∧ (∀ k ∈ keys, IsSegmentPow k.m_out_size) ∧
        2 ≤ keys.countP (fun k => decide (k.m_in_size = k.m_out_size)))) ∧
    (∀ (mkc : Nat) (sizes : List Nat), mkc = 2 ∨ mkc = 3 → (∀ x ∈ sizes, IsSegmentPow x) →
      HcLfsr.getMinSize * mkc ≤ sizes.sum →
      ∃ sizes1, min_key_loop HcLfsr.getMinSize mkc mkc sizes = some sizes1 ∧
        mkc ≤ sizes1.length ∧ (∀ x ∈ sizes1, IsSegmentPow x) ∧ sizes1.sum = sizes.sum ∧
        (mkc ≤ sizes.length → sizes1 = sizes)) ∧
    (∀ (sizes : List Nat) (h : List Nat × Nat),
      halve_first HcLfsr.getMinSize sizes = some h →
      ∃ pre x post, sizes = pre ++ x :: post ∧ (∀ y ∈ pre, y ≤ HcLfsr.getMinSize) ∧
        HcLfsr.getMinSize < x ∧ h.1 ++ [h.2] = pre ++ (x / 2) :: post ++ [x / 2] ∧
        (x % 2 = 0 → (h.1 ++ [h.2]).sum = sizes.sum)) := by
  refine ⟨?_, ?_, ?_⟩
  · obtain ⟨greedy, pows, r, status, reg1, lfsr1, keys, h1, _, _, _, h5, h6, h7, h8, h9, hgen,
      _, hgood, hok⟩ := generateKey_spec reg hreg L hL draws shuffle
    refine ⟨r, greedy, status, reg1, lfsr1, keys, h1, h6, hgen, hgood, fun hcov hs => ?_⟩
    rw [getMinSize_eq] at hcov
    obtain ⟨_, _, planned, hfor, hperm⟩ := hok hs
    have hio := keys_io_perm pows r h5 planned keys hfor hperm
    have hlen2 : 2 ≤ pows.length := h9 (by omega)
    have hlen : keys.length = pows.length + 1 := by
      have := hio.length_eq
      simpa using this
    refine ⟨by omega, ?_, ?_⟩
    · intro k hk
      obtain ⟨_, _, b, hb1, hb2, hb3, _⟩ := forall₂_keyFor_inv _ _ hfor k (hperm.mem_iff.1 hk)
      exact ⟨b, hb1, hb2, hb3⟩
    · have e : keys.countP (fun k => decide (k.m_in_size = k.m_out_size)) =
          (keys.map HcKeyData.io).countP (fun p => decide (p.1 = p.2)) := by
        rw [List.countP_map]
        rfl
      rw [e, hio.countP_eq, List.countP_append, countP_eq_diag]
      omega
  · intro mkc sizes _ hall hsum
    rw [getMinSize_eq] at hsum ⊢
    obtain ⟨sizes1, e1, e2, e3, e4, e5⟩ := min_key_loop_spec mkc mkc sizes hall hsum (by omega)
    exact ⟨sizes1, e1, e4, e2, e3, e5⟩
  · intro sizes h hh
    obtain ⟨pre, x, post, e1, e2, e3, e4, e5⟩ := halve_first_spec _ sizes h hh
    refine ⟨pre, x, post, e1, e2, e3, by rw [e4, e5], fun hx => ?_⟩
    rw [e4, e5, e1]
    simp only [List.sum_append, List.sum_cons, List.sum_nil]
    omega

/-- Witness for C10: a fresh registry, `L = 2 ^ 17 + 5` (the greedy loop emits the
single size `2 ^ 17`, which the minimum-count loop halves), the sample draws. -/
theorem C10_minimum_segment_count_witness :
    RegistryReady PolyRegistry.fresh ∧ 1 ≤ 2 ^ 17 + 5 ∧
    plan_sizes (2 ^ 17 + 5) = .ok [2 ^ 16, 2 ^ 16, 5] ∧
    ∃ (r : Nat) (greedy : List Nat) (status : Int) (reg1 : PolyRegistry) (lfsr1 : HcLfsr)
        (keys : List HcKeyData),
      split_sizes_loop HcLfsr.getMinSize (2 ^ 17 + 5 + 32) (2 ^ 17 + 5) HcLfsr.getMaxSize [] =
        some (r, greedy) ∧
      1 ≤ r ∧
      generateKey PolyRegistry.fresh (HcLfsr.new 0) (2 ^ 17 + 5) sampleDraws sampleShuffle =
        .ok (status, reg1, lfsr1, keys) ∧
      (KeyDrawsOk sampleDraws → status = HC_STATUS_OK) ∧
      (3 * HcLfsr.getMinSize ≤ 2 ^ 17 + 5 - r → status = HC_STATUS_OK →
        3 ≤ keys.length ∧ (∀ k ∈ keys, IsSegmentPow k.m_out_size) ∧
        2 ≤ keys.countP (fun k => decide (k.m_in_size = k.m_out_size))) :=
  ⟨Or.inl rfl, by decide, by rfl,
    (C10_minimum_segment_count PolyRegistry.fresh (Or.inl rfl) (2 ^ 17 + 5) (by decide)
      sampleDraws sampleShuffle).1⟩


/-- C2. Segment codec round trip. Take a segment key with
`1 ≤ in_size ≤ out_size` whose generator, started from the seed of the spec,
emits pairwise distinct nonzero values below `out_size` for its first
`256 * ceil (in_size / 256) - 1` outputs, an `in_size`-byte plaintext `P`, any
outcome of the random prefill and padding, any registries, LFSR objects and
working buffers of at least `out_size` bytes, and a chunk cipher whose decrypt
is the inverse of its encrypt. Then `encryptSegment` returns `HC_STATUS_OK`
and writes `out_size` bytes `C`, and `decryptSegment` run on `C` returns
`HC_STATUS_OK` and writes exactly `P`. -/
theorem C2_segment_round_trip (aes : AesCbc) (hinv : aes.Inverse) (kd : HcKeyData)
    (P : List Nat) (hin : 1 ≤ kd.m_in_size) (hio : kd.m_in_size ≤ kd.m_out_size)
    (hP : P.length = kd.m_in_size) (hout : SegmentOutputsOk kd) (rnd : SegRandom)
    (regE regD : PolyRegistry) (lfsrE lfsrD : HcLfsr) (bufE bufD : List Nat)
    (hbE : kd.m_out_size ≤ bufE.length) (hbD : kd.m_out_size ≤ bufD.length) :
    ∃ (C : List Nat) (eE eD : Engine),
      encryptSegment aes
          (segmentEngine regE lfsrE bufE ⟨true, 0, P, 0⟩ ⟨true, kd.m_out_size, [], 0⟩)
          kd rnd = .ok (HC_STATUS_OK, eE) ∧
      eE.m_out_files.map FileSpec.data = [C] ∧ C.length = kd.m_out_size ∧
      decryptSegment aes
          (segmentEngine regD lfsrD bufD ⟨true, 0, C, 0⟩ ⟨true, 0, [], 0⟩) kd =
        .ok (HC_STATUS_OK, eD) ∧
      eD.m_out_files.map FileSpec.data = [P] := by
  obtain ⟨hp0, hs0, hopos, hltout, hgoodE⟩ := segmentOutputs_good kd hin hout bufE.length hbE
  obtain ⟨regE1, hspE⟩ := setSpec_ok regE lfsrE kd.m_lfsr_specs hp0 hs0
  obtain ⟨regD1, hspD⟩ := setSpec_ok regD lfsrD kd.m_lfsr_specs hp0 hs0
  have hwl := prefill_buffer_length rnd.prefill kd bufE hbE
  obtain ⟨st1, el, hwl1, hfile1, hlfsr1, hf1, hrt⟩ := codec_loops aes hinv kd.m_key rnd.padding
    (kd.m_lfsr_specs / 2 ^ 32 % 2 ^ 32) kd.m_in_size
    { is := kd.m_in_size, buf := List.replicate 256 0, ivec := kd.m_iv,
      indices := List.replicate 256 0,
      lfsr := { lfsrE with m_seed := kd.m_lfsr_specs % 2 ^ 32,
                           m_poly := kd.m_lfsr_specs / 2 ^ 32 % 2 ^ 32,
                           m_lfsr := kd.m_lfsr_specs % 2 ^ 32 },
      work := prefill_buffer rnd.prefill kd bufE, file := ⟨true, 0, P, 0⟩ }
    (le_refl _) rfl (List.length_replicate _ _) (List.length_replicate _ _)
    (by simp only [Nat.zero_add]; omega) (by simp only [hwl]; exact hgoodE)
  simp only [hwl] at hwl1
  obtain ⟨fs1, idx, ew, hdata⟩ := write_loop_single (kd.m_out_size - 1) kd.m_out_size st1.work
    ⟨true, kd.m_out_size, [], 0⟩ hopos (le_refl _) rfl
  rw [show kd.m_out_size - 1 + 1 = kd.m_out_size from by omega] at ew
  have hClen : (st1.work.take kd.m_out_size).length = kd.m_out_size := by
    rw [List.length_take, hwl1]; omega
  have hE : ∃ eE, encryptSegment aes
      (segmentEngine regE lfsrE bufE ⟨true, 0, P, 0⟩ ⟨true, kd.m_out_size, [], 0⟩)
      kd rnd = .ok (HC_STATUS_OK, eE) ∧
      eE.m_out_files.map FileSpec.data = [st1.work.take kd.m_out_size] := by
    apply Exists.intro
    apply And.intro
    · unfold encryptSegment segmentEngine
      rw [if_neg (by omega)]
      simp only [List.get?_cons_zero, Bool.not_true, Bool.false_eq_true, if_false, hspE,
        if_neg (show ¬ kd.m_out_size > bufE.length by omega), el, ne_eq, not_true_eq_false, ew]
      rfl
    · simp only [List.map_cons, List.map_nil, hdata, List.nil_append]
  have hwork : ∀ p, p < kd.m_out_size →
      (List.take kd.m_out_size (List.drop 0 (st1.work.take kd.m_out_size)) ++
        bufD.drop kd.m_out_size)[p]? = st1.work[p]? := by
    intro p hp
    rw [List.drop_zero, List.take_of_length_le (by rw [hClen]),
      List.getElem?_append_left (by rw [hClen]; exact hp), List.getElem?_take_of_lt hp]
  have er := read_loop_single
    (kd.m_out_size + [(⟨true, 0, st1.work.take kd.m_out_size, 0⟩ : FileSpec)].length)
    kd.m_out_size bufD ⟨true, 0, st1.work.take kd.m_out_size, 0⟩ hopos
    (by simp only [Nat.zero_add, hClen]; exact le_refl _) hbD rfl
  obtain ⟨dst1, edl, hdfile, -, -⟩ := hrt
    { is := kd.m_in_size, buf := List.replicate 256 0, ivec := kd.m_iv,
      indices := List.replicate 256 0,
      lfsr := { lfsrD with m_seed := kd.m_lfsr_specs % 2 ^ 32,
                           m_poly := kd.m_lfsr_specs / 2 ^ 32 % 2 ^ 32,
                           m_lfsr := kd.m_lfsr_specs % 2 ^ 32 },
      work := List.take kd.m_out_size (List.drop 0 (st1.work.take kd.m_out_size)) ++
        bufD.drop kd.m_out_size,
      file := ⟨true, 0, [], 0⟩ }
    rfl rfl rfl rfl (List.length_replicate _ _) (List.length_replicate _ _) rfl
    (fun _ => hwork 0 hopos) (fun m hm => hwork _ (hltout m hm))
  have hD : ∃ eD, decryptSegment aes
      (segmentEngine regD lfsrD bufD ⟨true, 0, st1.work.take kd.m_out_size, 0⟩
        ⟨true, 0, [], 0⟩) kd = .ok (HC_STATUS_OK, eD) ∧
      eD.m_out_files.map FileSpec.data = [P] := by
    apply Exists.intro
    apply And.intro
    · unfold decryptSegment segmentEngine
      simp only [hspD, Bool.not_true, Bool.false_eq_true, if_false,
        if_neg (show ¬ kd.m_in_size > kd.m_out_size by omega),
        if_neg (show ¬ kd.m_in_size = 0 by omega), er, ne_eq, not_true_eq_false,
        List.get?_cons_zero, edl]
      rfl
    · simp only [List.set_cons_zero, List.map_cons, List.map_nil, hdfile, List.nil_append,
        List.drop_zero]
      rw [List.take_of_length_le (by rw [hP])]
  obtain ⟨eE, hE1, hE2⟩ := hE
  obtain ⟨eD, hD1, hD2⟩ := hD
  exact ⟨st1.work.take kd.m_out_size, eE, eD, hE1, hE2, hClen, hD1, hD2⟩

/-- Witness for C2: the sample segment key (three bytes in, `2 ^ 15` out, the
15-bit variant `0x4211` with seed 1), the plaintext `[72, 105, 33]`, the
chunk-reversing cipher, a fresh registry and zeroed buffers of `2 ^ 15` bytes. -/
theorem C2_segment_round_trip_witness :
    sampleAes.Inverse ∧ SegmentOutputsOk sampleSegmentKey ∧
    ∃ (C : List Nat) (eE eD : Engine),
      encryptSegment sampleAes
          (segmentEngine PolyRegistry.fresh (HcLfsr.new 0) (List.replicate 32768 0)
            ⟨true, 0, [72, 105, 33], 0⟩ ⟨true, sampleSegmentKey.m_out_size, [], 0⟩)
          sampleSegmentKey sampleSegRandom = .ok (HC_STATUS_OK, eE) ∧
      eE.m_out_files.map FileSpec.data = [C] ∧ C.length = sampleSegmentKey.m_out_size ∧
      decryptSegment sampleAes
          (segmentEngine PolyRegistry.fresh (HcLfsr.new 0) (List.replicate 32768 0)
            ⟨true, 0, C, 0⟩ ⟨true, 0, [], 0⟩) sampleSegmentKey =
        .ok (HC_STATUS_OK, eD) ∧
      eD.m_out_files.map FileSpec.data = [[72, 105, 33]] :=
  ⟨fun _ _ chunk => ⟨List.length_reverse chunk,
      Prod.ext (List.reverse_reverse chunk) rfl⟩,
    by decide!,
    C2_segment_round_trip sampleAes
      (fun _ _ chunk => ⟨List.length_reverse chunk, Prod.ext (List.reverse_reverse chunk) rfl⟩)
      sampleSegmentKey [72, 105, 33] (by decide) (by decide) rfl (by decide!)
      sampleSegRandom PolyRegistry.fresh PolyRegistry.fresh (HcLfsr.new 0) (HcLfsr.new 0)
      (List.replicate 32768 0) (List.replicate 32768 0)
      (by rw [List.length_replicate]; decide) (by rw [List.length_replicate]; decide)⟩


/-- C1, at the input where the round trip breaks. For every plaintext of 1 to
`2 ^ 15` bytes, `encryptFile` with a split in 14 returns `HC_STATUS_OK` (when
the `RAND_bytes` calls for the keys succeed) and leaves 14 files: twelve of
2560 bytes, one of 2048 bytes and an empty one. `decryptFile` with a join
count of 14, run on these files, reaches `throw;` on the empty file with no
exception in flight, whatever the keys loaded in the engine are: it does not
return the plaintext. -/
theorem C1_split_14_round_trip_fails (aes : AesCbc) (hinv : aes.Inverse) (reg : PolyRegistry)
    (hreg : RegistryReady reg) (P : List Nat) (hP1 : 1 ≤ P.length) (hP2 : P.length ≤ 32768)
    (rnd : EncRandom) (hdraws : KeyDrawsOk rnd.keys) :
    ∃ (keys : List HcKeyData) (files : List FileSpec),
      encryptFile aes reg P 14 rnd = .ok (HC_STATUS_OK, keys, files) ∧
      files.map (fun f => f.data.length) = List.replicate 12 2560 ++ [2048, 0] ∧
      ∀ (e : Engine) (single : Option (List Nat)),
        decryptFile aes e single (fun i => (files.get? i).map FileSpec.data) 14 =
          .error .terminated := by
  obtain ⟨reg1, lfsr1, k, hgen, hkin, hkout, hkinv⟩ :=
    generateKey_small reg hreg P.length hP1 hP2 rnd.keys hdraws rnd.shuffle
  obtain ⟨hp0, hs0, -, -, hgood⟩ := keyInvariant_good k hkinv 32768 (by omega)
  obtain ⟨W, hW, hwrite⟩ := encryptSegment_writes aes hinv k (rnd.segs 0)
    { m_lfsr := some lfsr1, m_in_files := [⟨true, P.length, P, 0⟩],
      m_out_files := [] ++ (List.replicate 12 ⟨true, 2560, [], 0⟩ ++ [⟨true, 2048, [], 0⟩]) ++
        [⟨true, 0, [], 0⟩],
      m_in_file_index := 0, m_out_file_index := 0, m_key := [k],
      m_buffer := List.replicate 32768 0, reg := reg1 }
    lfsr1 ⟨true, P.length, P, 0⟩ ⟨true, 2560, [], 0⟩ (by omega) (by omega) rfl rfl rfl
    (by simp only [Nat.zero_add]; omega) rfl rfl
    (by simp only [List.length_replicate]; omega) hp0 hs0
    (by simp only [List.length_replicate]; exact hgood)
  simp only [List.length_replicate] at hW
  obtain ⟨files1, ew, hlen1⟩ := write_loop_fill
    (List.replicate 12 ⟨true, 2560, [], 0⟩ ++ [⟨true, 2048, [], 0⟩]) [] [⟨true, 0, [], 0⟩]
    32768 W (by decide) (by decide) (by rw [hW]; decide)
  have hsum : (List.map (fun f => f.m_size)
      (List.replicate 12 (⟨true, 2560, [], 0⟩ : FileSpec) ++ [⟨true, 2048, [], 0⟩])).sum =
      32768 := by decide
  rw [hsum] at ew
  rw [← hkout] at ew
  obtain ⟨e1, he1, hfiles, -, -⟩ := hwrite _ _ ew
  have hlens : files1.map (fun f => f.data.length) = List.replicate 12 2560 ++ [2048] := by
    rw [hlen1]; decide
  have hlen13 : files1.length = 13 := by
    have := congrArg List.length hlens
    simpa using this
  have hne : ∀ g ∈ files1, g.data.length ≠ 0 := by
    intro g hg
    have hmem : g.data.length ∈ files1.map (fun f => f.data.length) :=
      List.mem_map_of_mem _ hg
    rw [hlens] at hmem
    intro h0
    rw [h0] at hmem
    revert hmem
    decide
  refine ⟨[k], [] ++ files1 ++ [⟨true, 0, [], 0⟩], ?_, ?_, fun e single => ?_⟩
  · unfold encryptFile
    have hmin : ¬ (14 ≠ 0 ∧ 32768 < HcLfsr.getMinSize) := by
      rw [getMinSize_eq]; decide
    simp only [if_neg (show ¬ P.length = 0 by omega), hgen, ne_eq, not_true_eq_false,
      if_false, List.map_cons, List.map_nil, List.sum_cons, List.sum_nil, Nat.add_zero,
      List.foldl_cons, List.foldl_nil, hkout, Nat.zero_max, if_neg hmin,
      if_pos (show ¬ (14 : Nat) = 0 by decide)]
    rw [plan_out_files_14]
    simp only [encrypt_segments, he1, ne_eq, not_true_eq_false, if_false, hfiles,
      List.isEmpty_cons, Bool.false_eq_true]
  · simp only [List.nil_append, List.map_append, hlens, List.map_cons, List.map_nil,
      List.length_nil, List.append_assoc, List.singleton_append]
  · apply decryptFile_terminated _ _ _ _ _ (by decide)
    apply open_joins_empty _ 14 0 _ 0 13 (by omega) (by omega)
    · simp only [List.nil_append, List.get?_eq_getElem?]
      rw [List.getElem?_append_right (by omega), hlen13]
      rfl
    · intro t _ ht
      have htl : t < files1.length := by omega
      refine ⟨(files1.get ⟨t, htl⟩).data, ?_, hne _ (List.get_mem _ _ _)⟩
      simp only [List.nil_append, List.get?_eq_getElem?]
      rw [List.getElem?_append_left htl, List.getElem?_eq_getElem htl]
      rfl

/-- Witness for C1 at the failing input: the five bytes `[72, 69, 76, 76, 79]`,
a split in 14, a fresh registry, the chunk-reversing cipher and the sample
draws. -/
theorem C1_split_14_round_trip_fails_witness :
    sampleAes.Inverse ∧ RegistryReady PolyRegistry.fresh ∧
    KeyDrawsOk sampleEncRandom.keys ∧
    ∃ (keys : List HcKeyData) (files : List FileSpec),
      encryptFile sampleAes PolyRegistry.fresh [72, 69, 76, 76, 79] 14 sampleEncRandom =
        .ok (HC_STATUS_OK, keys, files) ∧
      files.map (fun f => f.data.length) = List.replicate 12 2560 ++ [2048, 0] ∧
      ∀ (e : Engine) (single : Option (List Nat)),
        decryptFile sampleAes e single (fun i => (files.get? i).map FileSpec.data) 14 =
          .error .terminated :=
  ⟨fun _ _ chunk => ⟨List.length_reverse chunk, Prod.ext (List.reverse_reverse chunk) rfl⟩,
    Or.inl rfl, fun _ => ⟨rfl, rfl⟩,
    C1_split_14_round_trip_fails sampleAes
      (fun _ _ chunk => ⟨List.length_reverse chunk, Prod.ext (List.reverse_reverse chunk) rfl⟩)
      PolyRegistry.fresh (Or.inl rfl) [72, 69, 76, 76, 79] (by decide) (by decide)
      sampleEncRandom (fun _ => ⟨rfl, rfl⟩)⟩


/-- C11, counterexample. With three keys and a first draw that lands on the
last index, the shuffle exchanges the first and the last key: the segment that
was last is first afterwards. -/
theorem C11_counterexample :
    ¬ ∀ (l : List HcKeyData) (draw : Nat → Nat),
      (shuffle_keys draw l).getLast? = l.getLast? := by
  intro h
  have h3 := h [sampleKey 1, sampleKey 2, sampleKey 3] (fun _ => 1)
  revert h3
  decide

/-- C11, amended. The shuffle leaves the last position fixed whenever no pass
draws the last index: for every key list and every outcome of the draws in
which the index drawn in pass `i` (a value of `[i, max_index]`) is never the
last index `n - 1`, the segment that is last before the shuffle loop is still
last after it. A list of at most two segments is returned unchanged, the loop
body does not run for it. -/
theorem C11_shuffle_last_amended (l : List HcKeyData) (draw : Nat → Nat) :
    ((∀ i, 1 ≤ i → i < (l.length - 1) % 256 →
        i + draw i % ((l.length - 1) % 256 - i + 1) ≠ l.length - 1) →
      (shuffle_keys draw l).getLast? = l.getLast?) ∧
    (l.length ≤ 2 → shuffle_keys draw l = l) := by
  constructor
  · intro h
    have hmod : (l.length - 1) % 256 ≤ l.length - 1 := Nat.mod_le _ _
    obtain ⟨h1, h2⟩ := shuffle_keys_frame draw l (l.length - 1)
      (fun i hi1 hi2 => ⟨by omega, h i hi1 hi2⟩)
    rw [List.getLast?_eq_getElem?, List.getLast?_eq_getElem?, h2, h1]
  · intro hlen
    apply List.ext_getElem?
    intro p
    have hmod : (l.length - 1) % 256 ≤ l.length - 1 := Nat.mod_le _ _
    exact (shuffle_keys_frame draw l p (fun i hi1 hi2 => by omega)).1

/-- Witness for the amended C11: three keys, every draw 0, so that the only
pass exchanges the first two keys. -/
theorem C11_shuffle_last_amended_witness :
    (∀ i, 1 ≤ i → i < ([sampleKey 1, sampleKey 2, sampleKey 3].length - 1) % 256 →
        i + (fun _ => 0) i % (([sampleKey 1, sampleKey 2, sampleKey 3].length - 1) % 256 - i + 1)
          ≠ [sampleKey 1, sampleKey 2, sampleKey 3].length - 1) ∧
    (shuffle_keys (fun _ => 0) [sampleKey 1, sampleKey 2, sampleKey 3]).getLast? =
      [sampleKey 1, sampleKey 2, sampleKey 3].getLast? :=
  ⟨fun i h1 h2 => by
      have hi : i = 1 := by
        simp only [List.length_cons, List.length_nil] at h2
        omega
      subst hi
      decide,
    (C11_shuffle_last_amended [sampleKey 1, sampleKey 2, sampleKey 3] (fun _ => 0)).1
      (fun i h1 h2 => by
        have hi : i = 1 := by
          simp only [List.length_cons, List.length_nil] at h2
          omega
        subst hi
        decide)⟩


/-- C12. Split partition, sum. For every plaintext length `L ≥ 1`,
`generateKey` returns (with `HC_STATUS_OK` when every `RAND_bytes` call
succeeds), and for the total `T` of `out_size` of the key list it returns with
`HC_STATUS_OK` and every split count `K` in `2 .. 16` the sizes `encryptFile`
assigns to the `K` output files add up to exactly `T`. -/
theorem C12_split_sizes_sum (reg : PolyRegistry) (hreg : RegistryReady reg) (L : Nat)
    (hL : 1 ≤ L) (draws : Nat → KeyDraws) (shuffle : Nat → Nat) (K : Nat) (hK1 : 2 ≤ K)
    (hK2 : K ≤ 16) :
    ∃ (status : Int) (reg1 : PolyRegistry) (lfsr1 : HcLfsr) (keys : List HcKeyData),
      generateKey reg (HcLfsr.new 0) L draws shuffle = .ok (status, reg1, lfsr1, keys) ∧
      (KeyDrawsOk draws → status = HC_STATUS_OK) ∧
      (status = HC_STATUS_OK →
        ((plan_out_files (keys.map (fun k => k.m_out_size)).sum K
          (List.replicate K emptyFileSpec)).map (fun fs => fs.m_size)).sum =
          (keys.map (fun k => k.m_out_size)).sum) := by
  obtain ⟨status, reg1, lfsr1, keys, hgen, hgood, hok⟩ :=
    generateKey_total reg hreg L hL draws shuffle
  refine ⟨status, reg1, lfsr1, keys, hgen, hgood, fun hs => ?_⟩
  obtain ⟨hT, hm⟩ := hok hs
  rw [hT]
  exact plan_split_sum _ K hm hK1 hK2

/-- Witness for C12: a fresh registry, `L = 100000`, a split in 7. -/
theorem C12_split_sizes_sum_witness :
    RegistryReady PolyRegistry.fresh ∧ 1 ≤ 100000 ∧ 2 ≤ 7 ∧ 7 ≤ 16 ∧
    ∃ (status : Int) (reg1 : PolyRegistry) (lfsr1 : HcLfsr) (keys : List HcKeyData),
      generateKey PolyRegistry.fresh (HcLfsr.new 0) 100000 sampleDraws sampleShuffle =
        .ok (status, reg1, lfsr1, keys) ∧
      (KeyDrawsOk sampleDraws → status = HC_STATUS_OK) ∧
      (status = HC_STATUS_OK →
        ((plan_out_files (keys.map (fun k => k.m_out_size)).sum 7
          (List.replicate 7 emptyFileSpec)).map (fun fs => fs.m_size)).sum =
          (keys.map (fun k => k.m_out_size)).sum) :=
  ⟨Or.inl rfl, by decide, by decide, by decide,
    C12_split_sizes_sum PolyRegistry.fresh (Or.inl rfl) 100000 (by decide) sampleDraws
      sampleShuffle 7 (by decide) (by decide)⟩

/-- C13, the code at the failing input and everywhere else. For a plaintext of
at most `2 ^ 15` bytes and a split in 14 the rounded chunk size is 2560 and the
files are assigned 12 times 2560, then 2048, then 0 bytes: the thirteenth file
is not the last and does not get the chunk size. For every other plan total
`T` and split count `K` in `2 .. 16`, every file except the last is assigned
exactly `ceil (floor (T / K) / 256) * 256`. -/
theorem C13_split_chunk_sizes (reg : PolyRegistry) (hreg : RegistryReady reg) (L : Nat)
    (hL : 1 ≤ L) (draws : Nat → KeyDraws) (shuffle : Nat → Nat) :
    ∃ (status : Int) (reg1 : PolyRegistry) (lfsr1 : HcLfsr) (keys : List HcKeyData),
      generateKey reg (HcLfsr.new 0) L draws shuffle = .ok (status, reg1, lfsr1, keys) ∧
      (KeyDrawsOk draws → status = HC_STATUS_OK) ∧
      (status = HC_STATUS_OK →
        (L ≤ 32768 →
          ((keys.map (fun k => k.m_out_size)).sum / 14 + 255) / 256 * 256 = 2560 ∧
          (plan_out_files (keys.map (fun k => k.m_out_size)).sum 14
            (List.replicate 14 emptyFileSpec)).map (fun fs => fs.m_size) =
            List.replicate 12 2560 ++ [2048, 0]) ∧
        (∀ K, 2 ≤ K → K ≤ 16 → ¬ (L ≤ 32768 ∧ K = 14) → ∀ i, i + 1 < K →
          ((plan_out_files (keys.map (fun k => k.m_out_size)).sum K
            (List.replicate K emptyFileSpec)).map (fun fs => fs.m_size))[i]? =
            some (((keys.map (fun k => k.m_out_size)).sum / K + 255) / 256 * 256))) := by
  obtain ⟨status, reg1, lfsr1, keys, hgen, hgood, hok⟩ :=
    generateKey_total reg hreg L hL draws shuffle
  refine ⟨status, reg1, lfsr1, keys, hgen, hgood, fun hs => ?_⟩
  obtain ⟨hT, hm⟩ := hok hs
  rw [hT]
  constructor
  · intro hle
    have h1 : (L + 32767) / 32768 = 1 := by omega
    rw [h1]
    exact ⟨by decide, plan_split_14⟩
  · intro K hK1 hK2 hne i hi
    exact (plan_split_general _ K hm hK1 hK2 (fun h => hne ⟨by omega, h.2⟩)).1 i hi

/-- Witness for C13: a fresh registry, `L = 5`, the sample draws. -/
theorem C13_split_chunk_sizes_witness :
    RegistryReady PolyRegistry.fresh ∧ 1 ≤ 5 ∧
    ∃ (status : Int) (reg1 : PolyRegistry) (lfsr1 : HcLfsr) (keys : List HcKeyData),
      generateKey PolyRegistry.fresh (HcLfsr.new 0) 5 sampleDraws sampleShuffle =
        .ok (status, reg1, lfsr1, keys) ∧
      (KeyDrawsOk sampleDraws → status = HC_STATUS_OK) ∧
      (status = HC_STATUS_OK →
        (5 ≤ 32768 →
          ((keys.map (fun k => k.m_out_size)).sum / 14 + 255) / 256 * 256 = 2560 ∧
          (plan_out_files (keys.map (fun k => k.m_out_size)).sum 14
            (List.replicate 14 emptyFileSpec)).map (fun fs => fs.m_size) =
            List.replicate 12 2560 ++ [2048, 0]) ∧
        (∀ K, 2 ≤ K → K ≤ 16 → ¬ (5 ≤ 32768 ∧ K = 14) → ∀ i, i + 1 < K →
          ((plan_out_files (keys.map (fun k => k.m_out_size)).sum K
            (List.replicate K emptyFileSpec)).map (fun fs => fs.m_size))[i]? =
            some (((keys.map (fun k => k.m_out_size)).sum / K + 255) / 256 * 256))) :=
  ⟨Or.inl rfl, by decide,
    C13_split_chunk_sizes PolyRegistry.fresh (Or.inl rfl) 5 (by decide) sampleDraws
      sampleShuffle⟩

/-- C14, the code at the failing input and everywhere else. For a plaintext of
at most `2 ^ 15` bytes and a split in 14 the fourteenth file is assigned size
0. For every other plan total and split count `K` in `2 .. 16` no file is
assigned size 0. -/
theorem C14_split_empty_file (reg : PolyRegistry) (hreg : RegistryReady reg) (L : Nat)
    (hL : 1 ≤ L) (draws : Nat → KeyDraws) (shuffle : Nat → Nat) :
    ∃ (status : Int) (reg1 : PolyRegistry) (lfsr1 : HcLfsr) (keys : List HcKeyData),
      generateKey reg (HcLfsr.new 0) L draws shuffle = .ok (status, reg1, lfsr1, keys) ∧
      (KeyDrawsOk draws → status = HC_STATUS_OK) ∧
      (status = HC_STATUS_OK →
        (L ≤ 32768 →
          ((plan_out_files (keys.map (fun k => k.m_out_size)).sum 14
            (List.replicate 14 emptyFileSpec)).map (fun fs => fs.m_size))[13]? = some 0) ∧
        (∀ K, 2 ≤ K → K ≤ 16 → ¬ (L ≤ 32768 ∧ K = 14) →
          ∀ s ∈ (plan_out_files (keys.map (fun k => k.m_out_size)).sum K
            (List.replicate K emptyFileSpec)).map (fun fs => fs.m_size), s ≠ 0)) := by
  obtain ⟨status, reg1, lfsr1, keys, hgen, hgood, hok⟩ :=
    generateKey_total reg hreg L hL draws shuffle
  refine ⟨status, reg1, lfsr1, keys, hgen, hgood, fun hs => ?_⟩
  obtain ⟨hT, hm⟩ := hok hs
  rw [hT]
  constructor
  · intro hle
    have h1 : (L + 32767) / 32768 = 1 := by omega
    rw [h1, Nat.mul_one, plan_split_14]
    rfl
  · intro K hK1 hK2 hne
    exact (plan_split_general _ K hm hK1 hK2 (fun h => hne ⟨by omega, h.2⟩)).2

/-- Witness for C14: a fresh registry, `L = 5`, the sample draws. -/
theorem C14_split_empty_file_witness :
    RegistryReady PolyRegistry.fresh ∧ 1 ≤ 5 ∧
    ∃ (status : Int) (reg1 : PolyRegistry) (lfsr1 : HcLfsr) (keys : List HcKeyData),
      generateKey PolyRegistry.fresh (HcLfsr.new 0) 5 sampleDraws sampleShuffle =
        .ok (status, reg1, lfsr1, keys) ∧
      (KeyDrawsOk sampleDraws → status = HC_STATUS_OK) ∧
      (status = HC_STATUS_OK →
        (5 ≤ 32768 →
          ((plan_out_files (keys.map (fun k => k.m_out_size)).sum 14
            (List.replicate 14 emptyFileSpec)).map (fun fs => fs.m_size))[13]? = some 0) ∧
        (∀ K, 2 ≤ K → K ≤ 16 → ¬ (5 ≤ 32768 ∧ K = 14) →
          ∀ s ∈ (plan_out_files (keys.map (fun k => k.m_out_size)).sum K
            (List.replicate K emptyFileSpec)).map (fun fs => fs.m_size), s ≠ 0)) :=
  ⟨Or.inl rfl, by decide,
    C14_split_empty_file PolyRegistry.fresh (Or.inl rfl) 5 (by decide) sampleDraws
      sampleShuffle⟩


/-- C18. The method `getSpec` returns 0 when the stored seed or the stored poly
is zero, and otherwise (the registry being initialised, as it is after every
call of `setSpec`) the number whose low 32 bits are the stored seed and whose
high 32 bits are the stored poly. For every 64-bit spec whose two halves are
nonzero, `setSpec (spec)` returns true and a following `getSpec ()` returns
`spec`. -/
theorem C18_spec_round_trip (reg : PolyRegistry) (self : HcLfsr) :
    ((self.m_seed = 0 ∨ self.m_poly = 0) → HcLfsr.getSpec reg self = 0) ∧
    (reg.initialized = true → self.m_seed ≠ 0 → self.m_poly ≠ 0 → self.m_seed < 2 ^ 32 →
      HcLfsr.getSpec reg self % 2 ^ 32 = self.m_seed ∧
      HcLfsr.getSpec reg self / 2 ^ 32 = self.m_poly) ∧
    (∀ spec, spec < 2 ^ 64 → spec % 2 ^ 32 ≠ 0 → spec / 2 ^ 32 ≠ 0 →
      (HcLfsr.setSpec reg self spec).2.2 = true ∧
      HcLfsr.getSpec (HcLfsr.setSpec reg self spec).1 (HcLfsr.setSpec reg self spec).2.1 =
        spec) ∧
    (∀ spec, (HcLfsr.setSpec reg self spec).1.initialized = true) := by
  refine ⟨fun h => ?_, fun hinit hs hp hlt => ?_, fun spec hspec hlo hhi => ?_,
    fun spec => setSpec_initialized reg self spec⟩
  · unfold HcLfsr.getSpec
    by_cases hi : (!reg.initialized) = true
    · rw [if_pos hi]
    · rw [if_neg hi, if_pos h]
  · have e : HcLfsr.getSpec reg self = self.m_poly * 2 ^ 32 + self.m_seed := by
      unfold HcLfsr.getSpec
      rw [hinit]
      simp only [Bool.not_true, Bool.false_eq_true, if_false]
      rw [if_neg (by rintro (h | h); exact hs h; exact hp h)]
    rw [e]
    constructor <;> omega
  · have hhi2 : spec / 2 ^ 32 % 2 ^ 32 = spec / 2 ^ 32 := Nat.mod_eq_of_lt (by omega)
    have h2 := setSpec_true reg self spec (by rw [hhi2]; exact hhi) hlo
    have hinit := setSpec_initialized reg self spec
    have hfst : (HcLfsr.setSpec reg self spec).2.1 =
        { self with m_seed := spec % 2 ^ 32, m_poly := spec / 2 ^ 32 % 2 ^ 32,
                    m_lfsr := spec % 2 ^ 32 } := by rw [h2]
    have hsnd : (HcLfsr.setSpec reg self spec).2.2 = true := by rw [h2]
    refine ⟨hsnd, ?_⟩
    unfold HcLfsr.getSpec
    rw [hinit, hfst]
    simp only [Bool.not_true, Bool.false_eq_true, if_false]
    rw [if_neg (by rintro (h | h); exact hlo h; exact hhi (by rw [← hhi2]; exact h))]
    rw [hhi2]
    omega

/-- Witness for C18: a fresh registry, a new LFSR, and the spec with the poly
`0x4211` and the seed `0xACE1`. -/
theorem C18_spec_round_trip_witness :
    (0x4211 * 2 ^ 32 + 0xACE1 < 2 ^ 64 ∧ (0x4211 * 2 ^ 32 + 0xACE1) % 2 ^ 32 ≠ 0 ∧
      (0x4211 * 2 ^ 32 + 0xACE1) / 2 ^ 32 ≠ 0) ∧
    (HcLfsr.setSpec PolyRegistry.fresh (HcLfsr.new 0) (0x4211 * 2 ^ 32 + 0xACE1)).2.2 = true ∧
    HcLfsr.getSpec
      (HcLfsr.setSpec PolyRegistry.fresh (HcLfsr.new 0) (0x4211 * 2 ^ 32 + 0xACE1)).1
      (HcLfsr.setSpec PolyRegistry.fresh (HcLfsr.new 0) (0x4211 * 2 ^ 32 + 0xACE1)).2.1 =
        0x4211 * 2 ^ 32 + 0xACE1 :=
  ⟨by decide,
    (C18_spec_round_trip PolyRegistry.fresh (HcLfsr.new 0)).2.2.1 (0x4211 * 2 ^ 32 + 0xACE1)
      (by decide) (by decide) (by decide)⟩

/-- C19. The method `setSpec (spec)` returns false if and only if the low 32
bits (the seed) or the high 32 bits (the poly) of `spec` are zero, and then
leaves the stored seed, poly and state as they were; otherwise it stores the
pair and sets the state to the seed. Nothing is verified: the pair
(poly 1, seed 1) is accepted although `verify_poly` rejects it for every bit
width from 15 to 28 and the poly 1 is registered for none. -/
theorem C19_setSpec_accepts_nonzero_pairs (reg : PolyRegistry) (self : HcLfsr) (spec : Nat) :
    ((HcLfsr.setSpec reg self spec).2.2 = false ↔
      (spec % 2 ^ 32 = 0 ∨ spec / 2 ^ 32 % 2 ^ 32 = 0)) ∧
    ((HcLfsr.setSpec reg self spec).2.2 = false →
      (HcLfsr.setSpec reg self spec).2.1 = self) ∧
    ((HcLfsr.setSpec reg self spec).2.2 = true →
      (HcLfsr.setSpec reg self spec).2.1 =
        { self with m_seed := spec % 2 ^ 32, m_poly := spec / 2 ^ 32 % 2 ^ 32,
                    m_lfsr := spec % 2 ^ 32 }) ∧
    ((HcLfsr.setSpec reg self (1 * 2 ^ 32 + 1)).2.2 = true ∧
      ∀ b, 15 ≤ b → b ≤ 28 → verify_poly 1 b 1 = false ∧ 1 ∉ registeredPolies b) := by
  have hcases : (spec / 2 ^ 32 % 2 ^ 32 = 0 ∨ spec % 2 ^ 32 = 0) ∨
      (spec / 2 ^ 32 % 2 ^ 32 ≠ 0 ∧ spec % 2 ^ 32 ≠ 0) := by
    by_cases h1 : spec / 2 ^ 32 % 2 ^ 32 = 0
    · exact Or.inl (Or.inl h1)
    · by_cases h2 : spec % 2 ^ 32 = 0
      · exact Or.inl (Or.inr h2)
      · exact Or.inr ⟨h1, h2⟩
  have hver : ∀ b, 15 ≤ b → b ≤ 28 → verify_poly 1 b 1 = false := by
    intro b hb1 hb2
    have hpow : 2 ≤ 2 ^ b := by
      have : 2 ^ 1 ≤ 2 ^ b := Nat.pow_le_pow_right (by norm_num) (by omega)
      omega
    have hone : 1 &&& (2 ^ b - 1) = 1 := Nat.and_pow_two_sub_one_of_lt_two_pow (by omega)
    exact verify_poly_fixed_point 1 b 1 (by omega) (by rw [hone]; rfl)
  refine ⟨?_, ?_, ?_, ?_, fun b hb1 hb2 => ⟨hver b hb1 hb2, fun hmem => ?_⟩⟩
  · rcases hcases with h | ⟨h1, h2⟩
    · rw [setSpec_false reg self spec h]
      exact ⟨fun _ => h.symm, fun _ => rfl⟩
    · rw [setSpec_true reg self spec h1 h2]
      constructor
      · intro hc; exact Bool.noConfusion hc
      · rintro (h | h)
        · exact absurd h h2
        · exact absurd h h1
  · rcases hcases with h | ⟨h1, h2⟩
    · rw [setSpec_false reg self spec h]
      exact fun _ => rfl
    · rw [setSpec_true reg self spec h1 h2]
      intro hc; exact Bool.noConfusion hc
  · rcases hcases with h | ⟨h1, h2⟩
    · rw [setSpec_false reg self spec h]
      intro hc; exact Bool.noConfusion hc
    · rw [setSpec_true reg self spec h1 h2]
      exact fun _ => rfl
  · rw [setSpec_true reg self (1 * 2 ^ 32 + 1) (by decide) (by decide)]
  · have hpow : 2 ≤ 2 ^ b := by
      have : 2 ^ 1 ≤ 2 ^ b := Nat.pow_le_pow_right (by norm_num) (by omega)
      omega
    have hfc := registered_fullCycle b hb1 hb2 1 hmem 1 le_rfl (by omega)
    have htrue := verify_poly_of_fullCycle 1 b 1 (by omega) (by omega) le_rfl (by omega) hfc
    rw [hver b hb1 hb2] at htrue
    exact Bool.noConfusion htrue

/-- Witness for C19: the spec 5 has a zero high half, `setSpec` returns false
and changes nothing; and `verify_poly (1, 15, 1)` is false. -/
theorem C19_setSpec_accepts_nonzero_pairs_witness :
    (HcLfsr.setSpec PolyRegistry.fresh (HcLfsr.new 0) 5).2.2 = false ∧
    (HcLfsr.setSpec PolyRegistry.fresh (HcLfsr.new 0) 5).2.1 = HcLfsr.new 0 ∧
    (15 ≤ 15 ∧ 15 ≤ 28) ∧ verify_poly 1 15 1 = false :=
  ⟨(C19_setSpec_accepts_nonzero_pairs PolyRegistry.fresh (HcLfsr.new 0) 5).1.2
      (Or.inr (by decide)),
    (C19_setSpec_accepts_nonzero_pairs PolyRegistry.fresh (HcLfsr.new 0) 5).2.1
      ((C19_setSpec_accepts_nonzero_pairs PolyRegistry.fresh (HcLfsr.new 0) 5).1.2
        (Or.inr (by decide))),
    by decide,
    ((C19_setSpec_accepts_nonzero_pairs PolyRegistry.fresh (HcLfsr.new 0) 5).2.2.2.2 15
      (by decide) (by decide)).1⟩

/-- C20. A call `reset (size, seed, variant)` that returns true has
`size = 2 ^ b` for some `b` with `15 ≤ b ≤ max_bits`; when moreover
`variant ≥ 0` and `seed ≠ 0`, the stored poly is the variant at index
`variant mod` the number of variants registered for `b` (a number that fits
the `uint8_t` cast), the stored seed is `seed` reduced to its low `b` bits and
is not zero, the state equals that seed, and `verify_poly` holds for the pair.
A call that returns false leaves the stored poly 0, so `getSpec` returns 0.
On the registry of the program (fresh, or initialised for 28 bits) and an
LFSR with `max_bits = 28`, `reset (2 ^ b, seed, variant)` does return true
for every `b` from 15 to 28, every `variant ≥ 0` and every seed whose low `b`
bits are not all zero. -/
theorem C20_reset (reg : PolyRegistry) (self : HcLfsr) (size seed : Nat) (variant : Int)
    (dv ds : Nat) :
    (∀ reg1 self1 ok,
      HcLfsr.reset reg self size seed variant dv ds = some (reg1, self1, ok) →
      (ok = true → ∃ b, 15 ≤ b ∧ b ≤ self.m_max_bits ∧ size = 2 ^ b ∧
        (0 ≤ variant → seed ≠ 0 → (reg1.polies.getD (b - 15) []).length ≤ 256 →
          (reg1.polies.getD (b - 15) []).get?
              (variant.toNat % (reg1.polies.getD (b - 15) []).length) =
            some self1.m_poly ∧
          self1.m_seed = seed % 2 ^ b ∧ self1.m_seed ≠ 0 ∧ self1.m_lfsr = self1.m_seed ∧
          verify_poly self1.m_poly b self1.m_seed = true)) ∧
      (ok = false → self1.m_poly = 0 ∧ HcLfsr.getSpec reg1 self1 = 0)) ∧
    (RegistryReady reg → self.m_max_bits = 28 → ∀ b, 15 ≤ b → b ≤ 28 → size = 2 ^ b →
      0 ≤ variant → seed % 2 ^ b ≠ 0 →
      ∃ p, (registeredPolies b).get? (variant.toNat % (registeredPolies b).length) = some p ∧
        HcLfsr.reset reg self size seed variant dv ds =
          some (fullRegistry,
            { self with m_poly := p, m_seed := seed % 2 ^ b, m_lfsr := seed % 2 ^ b }, true)) := by
  constructor
  · intro reg1 self1 ok h
    obtain ⟨-, hfalse, htrue⟩ := reset_cases reg self size seed variant dv ds reg1 self1 ok h
    refine ⟨fun hok => ?_, hfalse⟩
    obtain ⟨b, hb1, hb2, hsize, hvar, hseed, hne, -, hlfsr, hver⟩ := htrue hok
    refine ⟨b, hb1, hb2, hsize, fun hv hs hlen => ⟨?_, hseed hs, hne, hlfsr, hver⟩⟩
    have hget := hvar hv
    have hlt : (variant.toNat % (reg1.polies.getD (b - 15) []).length) % 256 <
        (reg1.polies.getD (b - 15) []).length := by
      rw [List.get?_eq_getElem?] at hget
      exact (List.getElem?_eq_some.1 hget).1
    have hmod : (variant.toNat % (reg1.polies.getD (b - 15) []).length) % 256 =
        variant.toNat % (reg1.polies.getD (b - 15) []).length := by
      apply Nat.mod_eq_of_lt
      have := Nat.mod_lt variant.toNat (show 0 < (reg1.polies.getD (b - 15) []).length by omega)
      omega
    rw [← hmod]
    exact hget
  · intro hreg hmax b hb1 hb2 hsize hv hseed
    subst hsize
    obtain ⟨p, hp, hres, -⟩ := reset_variant_ok reg hreg self hmax b hb1 hb2 seed variant hv
      hseed dv ds
    exact ⟨p, hp, hres⟩

/-- Witness for C20: a fresh registry, a new LFSR, `reset (2 ^ 15, 0xACE1, 3)`. -/
theorem C20_reset_witness :
    RegistryReady PolyRegistry.fresh ∧ (HcLfsr.new 0).m_max_bits = 28 ∧ (15 ≤ 15 ∧ 15 ≤ 28) ∧
    (0 : Int) ≤ 3 ∧ 0xACE1 % 2 ^ 15 ≠ 0 ∧
    ∃ p, (registeredPolies 15).get? ((3 : Int).toNat % (registeredPolies 15).length) = some p ∧
      HcLfsr.reset PolyRegistry.fresh (HcLfsr.new 0) (2 ^ 15) 0xACE1 3 0 0 =
        some (fullRegistry,
          { HcLfsr.new 0 with m_poly := p, m_seed := 0xACE1 % 2 ^ 15,
                              m_lfsr := 0xACE1 % 2 ^ 15 }, true) :=
  ⟨Or.inl rfl, rfl, by decide, by decide, by decide,
    (C20_reset PolyRegistry.fresh (HcLfsr.new 0) (2 ^ 15) 0xACE1 3 0 0).2 (Or.inl rfl) rfl 15
      (by decide) (by decide) rfl (by decide) (by decide)⟩


/-- C15. Descriptor round trip. For every key list whose values fit the fields
of `HcKeyData`, `keyToXmlFile` writes the element text of the document tree
that spells out the list; and `xmlFileToKey`, given that text, an XML reader
that returns this tree for it and number translators that read decimal
renderings back, returns `HC_STATUS_OK` and leaves `m_key` equal to the
original list: same length, same order, same fields. -/
theorem C15_descriptor_round_trip (lib : XmlLib) (m_key : List HcKeyData)
    (hvalid : ∀ k ∈ m_key, k.WellTyped) (hdec : lib.ReadsDecimal)
    (hxml : lib.read_xml (descriptor_tree m_key).render = some (descriptor_tree m_key))
    (old : List HcKeyData) (kd : HcKeyData) (hiv : kd.m_iv.length = 16)
    (hkey : kd.m_key.length = 32) :
    ∃ text, keyToXmlFile m_key true true true = (HC_STATUS_OK, some text) ∧
      text = (descriptor_tree m_key).render ∧
      xmlFileToKey lib old true (some text) kd = .ok (HC_STATUS_OK, m_key) := by
  refine ⟨key_xml_string m_key, rfl, key_xml_string_eq m_key hvalid, ?_⟩
  rw [key_xml_string_eq m_key hvalid]
  obtain ⟨hver, hseg⟩ := document_tree_children
    (m_key.map (fun k => (XML_HC_SEGMENT, segment_tree k)))
  obtain ⟨kd1, -, -, hread⟩ := read_segments_good lib hdec m_key [] kd [] hiv hkey hvalid
  rw [List.append_nil] at hread
  unfold xmlFileToKey
  simp only [Bool.not_true, Bool.false_eq_true, if_false, hxml]
  unfold descriptor_tree
  simp only [hver, hseg, PTree.children, hread, read_segments, List.nil_append]

/-- Witness for C15: the sample key list of two keys and the sample library
that knows the document of that list. -/
theorem C15_descriptor_round_trip_witness :
    (∀ k ∈ sampleKeys, k.WellTyped) ∧
    ∃ text, keyToXmlFile sampleKeys true true true = (HC_STATUS_OK, some text) ∧
      text = (descriptor_tree sampleKeys).render ∧
      xmlFileToKey
          (sampleXmlLib (descriptor_tree sampleKeys).render (descriptor_tree sampleKeys))
          [] true (some text) sampleKd = .ok (HC_STATUS_OK, sampleKeys) :=
  ⟨by decide,
    C15_descriptor_round_trip
      (sampleXmlLib (descriptor_tree sampleKeys).render (descriptor_tree sampleKeys))
      sampleKeys (by decide) (sampleXmlLib_readsDecimal _ _) (sampleXmlLib_read _ _) [] sampleKd rfl rfl⟩

/-- C16, the part that holds and the code at the failing input. A call of
`stringToHex` with `count ≥ 1` returns true if and only if the string has
exactly `2 * count` characters, all in `0-9` or uppercase `A-F`. In
`xmlFileToKey` a false return leads to `throw;` with no exception in flight:
for a document whose segments are well-typed keys up to a segment with
readable numbers whose `iv` is not 32 such characters or whose `key` is not
64, the function does not return `HC_ERROR_BAD_KEY`, the run ends in
`std::terminate`. -/
theorem C16_stringToHex_strict (buffer : List Nat) (count : Nat) (str : Text) (hc : 1 ≤ count) :
    ((stringToHex buffer count str).2 = true ↔
      (str.length = 2 * count ∧ ∀ c ∈ str, IsUpperHex c)) ∧
    (∀ (lib : XmlLib) (good : List HcKeyData) (in_size out_size lfsr scheme iv key : Text)
      (x y z : Nat) (rest : List (Text × PTree)) (old : List HcKeyData) (kd : HcKeyData)
      (text : Text),
      lib.ReadsDecimal → (∀ k ∈ good, k.WellTyped) →
      lib.get_uint32 in_size = some x → lib.get_uint32 out_size = some y →
      lib.get_uint64 lfsr = some z →
      ¬ ((iv.length = 32 ∧ ∀ c ∈ iv, IsUpperHex c) ∧
         (key.length = 64 ∧ ∀ c ∈ key, IsUpperHex c)) →
      lib.read_xml text = some (document_tree
        (good.map (fun k => (XML_HC_SEGMENT, segment_tree k)) ++
          (XML_HC_SEGMENT, segment_node in_size out_size lfsr scheme iv key) :: rest)) →
      kd.m_iv.length = 16 → kd.m_key.length = 32 →
      xmlFileToKey lib old true (some text) kd = .error .terminated) := by
  refine ⟨stringToHex_true_iff buffer count str hc, ?_⟩
  intro lib good in_size out_size lfsr scheme iv key x y z rest old kd text hdec hgood hx hy hz
    hbad hxml hiv hkey
  obtain ⟨hver, hseg⟩ := document_tree_children
    (good.map (fun k => (XML_HC_SEGMENT, segment_tree k)) ++
      (XML_HC_SEGMENT, segment_node in_size out_size lfsr scheme iv key) :: rest)
  obtain ⟨kd1, hiv1, hkey1, hread⟩ := read_segments_good lib hdec good
    ((XML_HC_SEGMENT, segment_node in_size out_size lfsr scheme iv key) :: rest) kd [] hiv hkey
    hgood
  have hseg1 : read_segment lib kd1 (segment_node in_size out_size lfsr scheme iv key) =
      .error .terminated := by
    rw [read_segment_node lib kd1 _ _ _ _ _ _ x y z hx hy hz]
    by_cases h1 : (stringToHex kd1.m_iv 16 iv).2 = true
    · by_cases h2 : (stringToHex kd1.m_key 32 key).2 = true
      · exfalso
        apply hbad
        exact ⟨(stringToHex_true_iff kd1.m_iv 16 iv (by omega)).1 h1,
          (stringToHex_true_iff kd1.m_key 32 key (by omega)).1 h2⟩
      · simp only [h1, Bool.not_true, Bool.false_eq_true, if_false]
        rw [Bool.not_eq_true] at h2
        simp only [h2, Bool.not_false, if_true]
    · rw [Bool.not_eq_true] at h1
      simp only [h1, Bool.not_false, if_true]
  unfold xmlFileToKey
  simp only [Bool.not_true, Bool.false_eq_true, if_false, hxml, hver, hseg, PTree.children,
    hread]
  rw [read_segments, if_neg (fun h => h rfl), hseg1]

/-- Witness for C16 at the failing input: a document with one segment whose
`iv` is the two characters `00`. -/
theorem C16_stringToHex_strict_witness :
    (1 ≤ 16) ∧
    ¬ (((String.toList "00").length = 32 ∧ ∀ c ∈ String.toList "00", IsUpperHex c) ∧
      ((hex_text sampleKd.m_key).length = 64 ∧ ∀ c ∈ hex_text sampleKd.m_key, IsUpperHex c)) ∧
    xmlFileToKey
        (sampleXmlLib (String.toList "doc")
          (document_tree ([].map (fun k => (XML_HC_SEGMENT, segment_tree k)) ++
            (XML_HC_SEGMENT, segment_node (Nat.toDigits 10 7) (Nat.toDigits 10 32768)
              (Nat.toDigits 10 1) CRYPTO_SCHEME (String.toList "00")
              (hex_text sampleKd.m_key)) :: [])))
        [] true (some (String.toList "doc")) sampleKd = .error .terminated :=
  ⟨by decide, by decide,
    (C16_stringToHex_strict [] 16 [] (by decide)).2
      (sampleXmlLib (String.toList "doc")
        (document_tree ([].map (fun k => (XML_HC_SEGMENT, segment_tree k)) ++
          (XML_HC_SEGMENT, segment_node (Nat.toDigits 10 7) (Nat.toDigits 10 32768)
            (Nat.toDigits 10 1) CRYPTO_SCHEME (String.toList "00")
            (hex_text sampleKd.m_key)) :: [])))
      [] (Nat.toDigits 10 7) (Nat.toDigits 10 32768) (Nat.toDigits 10 1) CRYPTO_SCHEME
      (String.toList "00") (hex_text sampleKd.m_key) 7 32768 1 [] [] sampleKd
      (String.toList "doc") (sampleXmlLib_readsDecimal _ _) (by decide)
      ((sampleXmlLib_readsDecimal _ _).1 7 (by decide))
      ((sampleXmlLib_readsDecimal _ _).1 32768 (by decide))
      ((sampleXmlLib_readsDecimal _ _).2 1 (by decide)) (by decide) (sampleXmlLib_read _ _)
      rfl rfl⟩

/-- C17. Wire format. For every key list whose values fit the fields of
`HcKeyData`, `keyToXmlFile` returns `HC_STATUS_OK` and writes exactly
`<HyperCryptKey><version>00010000</version><Segments>`, then for each key in
list order the `Segment` element with `in_size`, `out_size` and `lfsr` in
decimal, the scheme `AES-256`, and `iv` and `key` as 32 and 64 uppercase
hexadecimal characters without separators, then
`</Segments></HyperCryptKey>`. The decimal texts read back as the numbers and
the hexadecimal texts decode to the bytes. -/
theorem C17_wire_format (m_key : List HcKeyData) (hvalid : ∀ k ∈ m_key, k.WellTyped) :
    keyToXmlFile m_key true true true = (HC_STATUS_OK, some (wire_document m_key)) ∧
    ∀ k ∈ m_key,
      decimal_value (String.toList (Nat.repr k.m_in_size)) = some k.m_in_size ∧
      decimal_value (String.toList (Nat.repr k.m_out_size)) = some k.m_out_size ∧
      decimal_value (String.toList (Nat.repr k.m_lfsr_specs)) = some k.m_lfsr_specs ∧
      (hex_text k.m_iv).length = 32 ∧ (∀ c ∈ hex_text k.m_iv, IsUpperHex c) ∧
      (hex_text k.m_key).length = 64 ∧ (∀ c ∈ hex_text k.m_key, IsUpperHex c) ∧
      stringToHex (List.replicate 16 0) 16 (hex_text k.m_iv) = (k.m_iv, true) ∧
      stringToHex (List.replicate 32 0) 32 (hex_text k.m_key) = (k.m_key, true) := by
  constructor
  · unfold keyToXmlFile
    simp only [Bool.not_true, Bool.false_eq_true, if_false]
    rw [key_xml_string_wire m_key hvalid]
  · intro k hk
    obtain ⟨h64, hin, hout, hivl, hivb, hkeyl, hkeyb⟩ := hvalid k hk
    refine ⟨decimal_value_toDigits _, decimal_value_toDigits _, decimal_value_toDigits _,
      by rw [hex_text_length, hivl], hex_text_isUpperHex _ hivb,
      by rw [hex_text_length, hkeyl], hex_text_isUpperHex _ hkeyb,
      stringToHex_hex_text _ _ 16 (by omega) (List.length_replicate _ _) hivl hivb,
      stringToHex_hex_text _ _ 32 (by omega) (List.length_replicate _ _) hkeyl hkeyb⟩

/-- Witness for C17: the sample key list. -/
theorem C17_wire_format_witness :
    (∀ k ∈ sampleKeys, k.WellTyped) ∧
    keyToXmlFile sampleKeys true true true = (HC_STATUS_OK, some (wire_document sampleKeys)) :=
  ⟨by decide, (C17_wire_format sampleKeys (by decide)).1⟩


/-- C21, counterexample. An LFSR whose state is 4 and whose poly is 0: this is
what `setSpec` with seed 4 followed by a `reset` that fails (size 1) leaves
behind, on any registry. From it `fillNext (buffer, 2)` writes the states 2 and
1 and returns true, while `getNext` returns 0 on the first and on the second
call: the values written are not the values `getNext` would return. -/
theorem C21_counterexample :
    (∀ reg : PolyRegistry, ∃ reg1,
      HcLfsr.reset reg (HcLfsr.setSpec reg (HcLfsr.new 0) (0x4211 * 2 ^ 32 + 4)).2.1 1 0 (-1) 0 0 =
        some (reg1, { m_lfsr := 4, m_seed := 4, m_poly := 0, m_max_bits := 28 }, false)) ∧
    HcLfsr.fillNext { m_lfsr := 4, m_seed := 4, m_poly := 0, m_max_bits := 28 } [7, 7, 7] 0 2 =
      ({ m_lfsr := 1, m_seed := 4, m_poly := 0, m_max_bits := 28 }, [2, 1, 7], true) ∧
    HcLfsr.nthNext { m_lfsr := 4, m_seed := 4, m_poly := 0, m_max_bits := 28 } 1 = 0 ∧
    HcLfsr.nthNext { m_lfsr := 4, m_seed := 4, m_poly := 0, m_max_bits := 28 } 2 = 0 := by
  refine ⟨fun reg => ?_, by decide, by decide, by decide⟩
  rw [setSpec_true reg (HcLfsr.new 0) (0x4211 * 2 ^ 32 + 4) (by decide) (by decide)]
  refine ⟨if !reg.initialized then (create_polies false 28 reg).1 else reg, ?_⟩
  unfold HcLfsr.reset
  simp only []
  rw [if_pos (Or.inr (by decide))]
  rfl

/-- C21, amended. A call `fillNext (buffer, count)` on a buffer of at least
`count` entries returns false if and only if one of the next `count` states
(the state after 1, 2, .., `count` applications of `NEXT_LFSR`) is zero. When
the first zero is the state after `k + 1` steps, the call has written the
`k + 1` states up to and including that zero, has left the buffer entries from
`k + 1` on untouched, and the state is zero. When none is zero, the call
writes the `count` successive states, leaves the entries behind them
untouched, and returns true; for an LFSR whose poly is set (`m_poly != 0`)
these are the values `count` calls of `getNext` return, and the LFSR ends in
the state those calls leave. -/
theorem C21_fillNext_amended (g : HcLfsr) (buffer : List Nat) (count : Nat)
    (hlen : count ≤ buffer.length) :
    ((HcLfsr.fillNext g buffer 0 count).2.2 = false ↔
      ∃ k, k < count ∧ (fun x => NEXT_LFSR x g.m_poly)^[k + 1] g.m_lfsr = 0) ∧
    (∀ k, k < count → (∀ m, m < k → (fun x => NEXT_LFSR x g.m_poly)^[m + 1] g.m_lfsr ≠ 0) →
      (fun x => NEXT_LFSR x g.m_poly)^[k + 1] g.m_lfsr = 0 →
      HcLfsr.fillNext g buffer 0 count =
        ({ g with m_lfsr := 0 },
          List.iterate (fun x => NEXT_LFSR x g.m_poly) (NEXT_LFSR g.m_lfsr g.m_poly) (k + 1) ++
            buffer.drop (k + 1), false)) ∧
    ((∀ k, k < count → (fun x => NEXT_LFSR x g.m_poly)^[k + 1] g.m_lfsr ≠ 0) →
      HcLfsr.fillNext g buffer 0 count =
        ({ g with m_lfsr := (fun x => NEXT_LFSR x g.m_poly)^[count] g.m_lfsr },
          List.iterate (fun x => NEXT_LFSR x g.m_poly) (NEXT_LFSR g.m_lfsr g.m_poly) count ++
            buffer.drop count, true) ∧
      (g.m_poly ≠ 0 →
        (HcLfsr.fillNext g buffer 0 count).1 = g.afterCalls count ∧
        ∀ j, j < count →
          (HcLfsr.fillNext g buffer 0 count).2.1[j]? = some (g.nthNext (j + 1)))) := by
  refine ⟨fillNext_false_iff g buffer 0 count (by omega), ?_, ?_⟩
  · intro k hk hnz hz
    have h := fillNext_false g.m_poly k count g buffer 0 rfl hk hnz hz (by omega)
    rw [h]
    simp only [List.take_zero, List.nil_append, Nat.zero_add]
    rfl
  · intro hnz
    have h := fillNext_true g.m_poly count g buffer 0 rfl hnz (by omega)
    have h2 : HcLfsr.fillNext g buffer 0 count =
        ({ g with m_lfsr := (fun x => NEXT_LFSR x g.m_poly)^[count] g.m_lfsr },
          List.iterate (fun x => NEXT_LFSR x g.m_poly) (NEXT_LFSR g.m_lfsr g.m_poly) count ++
            buffer.drop count, true) := by
      rw [h]
      simp only [List.take_zero, List.nil_append, Nat.zero_add]
      rfl
    refine ⟨h2, fun hp => ⟨?_, fun j hj => ?_⟩⟩
    · rw [h2, afterCalls_spec g hp]
      rfl
    · rw [h2, nthNext_spec g hp (j + 1) (by omega)]
      simp only []
      rw [List.getElem?_append_left (by rw [List.length_iterate]; exact hj),
        iterate_getElem? _ _ _ _ hj]
      rfl

/-- Witness for the amended C21: the first variant registered for 15 bits
(`0x4211`), state 1, a buffer of three entries and `count = 2`: the states 2
and 1 of the counterexample become `0x4211` and `0x6319`, the third entry is
untouched, and the values are those of `getNext`. -/
theorem C21_fillNext_amended_witness :
    2 ≤ [7, 7, 7].length ∧
    HcLfsr.fillNext { m_lfsr := 1, m_seed := 1, m_poly := 0x4211, m_max_bits := 28 } [7, 7, 7] 0 2 =
      ({ m_lfsr := 0x6319, m_seed := 1, m_poly := 0x4211, m_max_bits := 28 },
        [0x4211, 0x6319, 7], true) ∧
    HcLfsr.nthNext { m_lfsr := 1, m_seed := 1, m_poly := 0x4211, m_max_bits := 28 } 2 = 0x6319 :=
  ⟨by decide,
    ((C21_fillNext_amended { m_lfsr := 1, m_seed := 1, m_poly := 0x4211, m_max_bits := 28 }
      [7, 7, 7] 2 (by decide)).2.2 (by decide)).1,
    by decide⟩

/-- C22. For every bit width `b` from 15 to 28, every variant registered for
`b` and every state `x` with `1 ≤ x ≤ 2 ^ b - 1`, the next state is again in
`[1, 2 ^ b - 1]`. Hence `fillNext`, on an LFSR with that poly and a state in
that range, returns true for every `count` (and a buffer of at least `count`
entries), every value it writes lies in `[1, 2 ^ b - 1]`, and the state it
leaves is in that range as well. -/
theorem C22_state_window (b : Nat) (hb1 : 15 ≤ b) (hb2 : b ≤ 28) (poly : Nat)
    (hreg : poly ∈ registeredPolies b) (x : Nat) (hx1 : 1 ≤ x) (hx2 : x ≤ 2 ^ b - 1) :
    (1 ≤ NEXT_LFSR x poly ∧ NEXT_LFSR x poly ≤ 2 ^ b - 1) ∧
    ∀ (g : HcLfsr) (buffer : List Nat) (count : Nat), g.m_poly = poly → g.m_lfsr = x →
      count ≤ buffer.length →
      (HcLfsr.fillNext g buffer 0 count).2.2 = true ∧
      (∀ j, j < count → ∃ v, (HcLfsr.fillNext g buffer 0 count).2.1[j]? = some v ∧
        1 ≤ v ∧ v ≤ 2 ^ b - 1) ∧
      1 ≤ (HcLfsr.fillNext g buffer 0 count).1.m_lfsr ∧
      (HcLfsr.fillNext g buffer 0 count).1.m_lfsr ≤ 2 ^ b - 1 := by
  obtain ⟨-, hrange, -⟩ := registered_fullCycle b hb1 hb2 poly hreg x hx1 hx2
  refine ⟨hrange 1, ?_⟩
  intro g buffer count hp hx hlen
  have hnz : ∀ m, m < count → (lfsrNext poly)^[m + 1] g.m_lfsr ≠ 0 := by
    intro m _ hz
    have := (hrange (m + 1)).1
    rw [hx] at hz
    have hz2 : (fun x => NEXT_LFSR x poly)^[m + 1] x = 0 := hz
    omega
  rw [fillNext_true poly count g buffer 0 hp hnz (by omega)]
  refine ⟨rfl, fun j hj => ?_, ?_⟩
  · refine ⟨(lfsrNext poly)^[j] (lfsrNext poly g.m_lfsr), ?_, ?_⟩
    · simp only [List.take_zero, List.nil_append]
      rw [List.getElem?_append_left (by rw [List.length_iterate]; exact hj),
        iterate_getElem? _ _ _ _ hj]
    · rw [← Function.iterate_succ_apply, hx]
      exact hrange (j + 1)
  · simp only []
    rw [hx]
    exact hrange count

/-- Witness for C22: 15 bits, the variant `0x4211`, the state 1, whose
successor is `0x4211`; `fillNext` of two entries returns true. -/
theorem C22_state_window_witness :
    (15 ≤ 15 ∧ 15 ≤ 28) ∧ 0x4211 ∈ registeredPolies 15 ∧ (1 ≤ 1 ∧ 1 ≤ 2 ^ 15 - 1) ∧
    (1 ≤ NEXT_LFSR 1 0x4211 ∧ NEXT_LFSR 1 0x4211 ≤ 2 ^ 15 - 1) ∧
    (HcLfsr.fillNext { m_lfsr := 1, m_seed := 1, m_poly := 0x4211, m_max_bits := 28 }
      [7, 7, 7] 0 2).2.2 = true :=
  ⟨by decide, (registered_of_literal 15 (by decide) (by decide) 0x8423 (by decide) (by decide)).1,
    by decide,
    (C22_state_window 15 (by decide) (by decide) 0x4211
      (registered_of_literal 15 (by decide) (by decide) 0x8423 (by decide) (by decide)).1
      1 (by decide) (by decide)).1,
    ((C22_state_window 15 (by decide) (by decide) 0x4211
      (registered_of_literal 15 (by decide) (by decide) 0x8423 (by decide) (by decide)).1
      1 (by decide) (by decide)).2
      { m_lfsr := 1, m_seed := 1, m_poly := 0x4211, m_max_bits := 28 } [7, 7, 7] 2 rfl rfl
      (by decide)).1⟩

/-- C23. For every poly, every seed and every bit count `b` up to 30 (the
range in which `1 << bit_count` is an `int`), `verify_poly (poly, b, seed)`
returns true if and only if the first `2 ^ b - 1` states of the sequence
`seed & (2 ^ b - 1)`, `next (seed)`, `next (next (seed))`, .. are pairwise
distinct and the values they take are exactly the values `1 .. 2 ^ b - 1`. -/
theorem C23_verify_poly_iff (poly b seed : Nat) (hb : b ≤ 30) :
    verify_poly poly b seed = true ↔
      (∀ j k, j < 2 ^ b - 1 → k < 2 ^ b - 1 →
        (fun x => NEXT_LFSR x poly)^[j] (seed &&& (2 ^ b - 1)) =
          (fun x => NEXT_LFSR x poly)^[k] (seed &&& (2 ^ b - 1)) → j = k) ∧
      ∀ v, (∃ k, k < 2 ^ b - 1 ∧
          (fun x => NEXT_LFSR x poly)^[k] (seed &&& (2 ^ b - 1)) = v) ↔
        1 ≤ v ∧ v ≤ 2 ^ b - 1 := by
  constructor
  · intro h
    have hcov := verify_poly_covers poly b seed h
    obtain ⟨hinj, hrange⟩ :=
      cover_injective (fun k => (lfsrNext poly)^[k] (seed &&& (2 ^ b - 1))) (2 ^ b - 1) hcov
    refine ⟨hinj, fun v => ⟨?_, fun hv => hcov v hv.1 hv.2⟩⟩
    rintro ⟨k, hk, rfl⟩
    exact hrange k hk
  · rintro ⟨hinj, hexact⟩
    exact verify_poly_of_cover poly b seed (by omega) hinj
      (fun k hk => ((hexact _).1 ⟨k, hk, rfl⟩).2) (fun i hi1 hi2 => (hexact i).2 ⟨hi1, hi2⟩)

/-- Witness for C23: two bits, the poly 3 and the seed 1, whose states are
1, 3, 2; `verify_poly` returns true and the three states are distinct. -/
theorem C23_verify_poly_iff_witness :
    2 ≤ 30 ∧ verify_poly 3 2 1 = true ∧
    ∀ j k, j < 2 ^ 2 - 1 → k < 2 ^ 2 - 1 →
      (fun x => NEXT_LFSR x 3)^[j] (1 &&& (2 ^ 2 - 1)) =
        (fun x => NEXT_LFSR x 3)^[k] (1 &&& (2 ^ 2 - 1)) → j = k :=
  ⟨by decide, by decide, ((C23_verify_poly_iff 3 2 1 (by decide)).1 (by decide)).1⟩

/-- C24. Table registration. For every bit width `b` from 15 to 28 the variant
list that `create_polies` builds for `b` is, for each literal `M` of the table
row of `b` before the zero terminator (these are the nonzero literals of the
row), taken in order, `M >> 1` followed by the value of the `reversed` branch;
that value fits in `b` bits and its bit `i` is bit `b - 1 - i` of `M`, for
every `i < b`: it is the reversal of the low `b` bits of `M`. The list has
exactly twice as many variants as the row has nonzero literals. -/
theorem C24_table_registration (b : Nat) (hb1 : 15 ≤ b) (hb2 : b ≤ 28) :
    registeredPolies b =
      ((poly_tables.getD (b - MIN_BITS) []).takeWhile (fun M => M != 0)).flatMap
        (fun M => [M >>> 1, reverse_poly M b]) ∧
    (∀ M, reverse_poly M b < 2 ^ b ∧
      ∀ i, i < b → (reverse_poly M b).testBit i = M.testBit (b - 1 - i)) ∧
    (poly_tables.getD (b - MIN_BITS) []).takeWhile (fun M => M != 0) =
      (poly_tables.getD (b - MIN_BITS) []).filter (fun M => M != 0) ∧
    (registeredPolies b).length =
      2 * ((poly_tables.getD (b - MIN_BITS) []).filter (fun M => M != 0)).length := by
  have hlist : registeredPolies b =
      ((poly_tables.getD (b - MIN_BITS) []).takeWhile (fun M => M != 0)).flatMap
        (fun M => [M >>> 1, reverse_poly M b]) := by
    rw [registeredPolies_eq b hb1 hb2, add_polies_false_eq, List.nil_append]
    rfl
  have hfilter : (poly_tables.getD (b - MIN_BITS) []).takeWhile (fun M => M != 0) =
      (poly_tables.getD (b - MIN_BITS) []).filter (fun M => M != 0) := by
    interval_cases b <;> decide
  refine ⟨hlist, fun M => reverse_poly_spec M b (by omega), hfilter, ?_⟩
  rw [hlist, ← hfilter]
  exact length_flatMap_pair _ (fun M => M >>> 1) (fun M => reverse_poly M b)

/-- Witness for C24: the row of 20 bits has the four literals `0x100229`,
`0x10094D`, `0x180019`, `0x12449D`; eight variants are registered. -/
theorem C24_table_registration_witness :
    (15 ≤ 20 ∧ 20 ≤ 28) ∧
    (registeredPolies 20).length =
      2 * ((poly_tables.getD (20 - MIN_BITS) []).filter (fun M => M != 0)).length ∧
    ((poly_tables.getD (20 - MIN_BITS) []).filter (fun M => M != 0)).length = 4 ∧
    reverse_poly 0x100229 20 = 0x94400 :=
  ⟨by decide, (C24_table_registration 20 (by decide) (by decide)).2.2.2, by decide, by decide⟩


/-- C26. For every parsed key list, the sanity loop at the head of the public
`decryptFile` fails if and only if some segment has `in_size = 0`,
`in_size > out_size`, `out_size > 2 ^ 28` or an `lfsr_spec` whose seed half or
poly half is zero (`out_size = 0` is one of the first two cases). When it
fails, `decryptFile` returns `HC_ERROR_BAD_KEY` whatever the ciphertext files
are: none has been opened. When it does not fail, the call goes on to open
the ciphertext files: with no such file it returns
`HC_ERROR_CANNOT_OPEN_INPUT_FILE`. -/
theorem C26_bad_key_before_open (aes : AesCbc) (reg : PolyRegistry) (keys : List HcKeyData) :
    (check_keys keys reg 0 = none ↔
      ∃ ke ∈ keys, ke.m_in_size = 0 ∨ ke.m_in_size > ke.m_out_size ∨ ke.m_out_size > 2 ^ 28 ∨
        ke.m_lfsr_specs % 2 ^ 32 = 0 ∨ ke.m_lfsr_specs / 2 ^ 32 % 2 ^ 32 = 0) ∧
    ((∃ ke ∈ keys, ke.Rejected) →
      ∀ single files joins,
        decryptFilePublic aes reg keys single files joins = .ok (HC_ERROR_BAD_KEY, [])) ∧
    ((¬ ∃ ke ∈ keys, ke.Rejected) →
      decryptFilePublic aes reg keys none (fun _ => none) 0 =
        .ok (HC_ERROR_CANNOT_OPEN_INPUT_FILE, [])) := by
  refine ⟨check_keys_none_iff keys reg 0, fun h single files joins => ?_, fun h => ?_⟩
  · unfold decryptFilePublic
    rw [(check_keys_none_iff keys reg 0).2 h]
  · cases hc : check_keys keys reg 0 with
    | none => exact absurd ((check_keys_none_iff keys reg 0).1 hc) h
    | some r =>
      obtain ⟨reg1, m⟩ := r
      unfold decryptFilePublic
      rw [hc]
      rfl

/-- Witness for C26: a key list whose second key has `in_size = 0`. -/
theorem C26_bad_key_before_open_witness :
    (∃ ke ∈ [sampleKey 5, sampleKey 0], ke.Rejected) ∧
    decryptFilePublic sampleAes PolyRegistry.fresh [sampleKey 5, sampleKey 0]
      (some [1, 2, 3]) (fun _ => none) 0 = .ok (HC_ERROR_BAD_KEY, []) :=
  ⟨by decide,
    (C26_bad_key_before_open sampleAes PolyRegistry.fresh [sampleKey 5, sampleKey 0]).2.1
      (by decide) (some [1, 2, 3]) (fun _ => none) 0⟩

/-- C30. For every key list and every outcome of the random index draws, the
list after the shuffle loop of `generateKey` is a permutation of the list
before it, so the sum of `in_size` and the sum of `out_size` are the same
before and after. In `generateKey` the list before the loop is the one the
key loop has built, and the list returned is the one after the loop. -/
theorem C30_shuffle_permutation (l : List HcKeyData) (draw : Nat → Nat) :
    (shuffle_keys draw l).Perm l ∧
    ((shuffle_keys draw l).map (fun k => k.m_in_size)).sum =
      (l.map (fun k => k.m_in_size)).sum ∧
    ((shuffle_keys draw l).map (fun k => k.m_out_size)).sum =
      (l.map (fun k => k.m_out_size)).sum ∧
    ∀ (reg : PolyRegistry) (lfsr : HcLfsr) (L : Nat) (draws : Nat → KeyDraws) (sizes : List Nat)
      (reg1 : PolyRegistry) (lfsr1 : HcLfsr),
      plan_sizes L = .ok sizes →
      key_loop draws sizes 0 reg lfsr [] = .ok (HC_STATUS_OK, reg1, lfsr1, l) →
      generateKey reg lfsr L draws draw = .ok (HC_STATUS_OK, reg1, lfsr1, shuffle_keys draw l) := by
  have hperm := shuffle_keys_perm draw l
  refine ⟨hperm, (hperm.map _).sum_eq, (hperm.map _).sum_eq, ?_⟩
  intro reg lfsr L draws sizes reg1 lfsr1 hplan hloop
  unfold generateKey
  rw [hplan]
  simp only [hloop, ne_eq, not_true_eq_false, if_false]

/-- Witness for C30: three keys and draws that exchange the first and the
last: the list after the loop is `[sampleKey 3, sampleKey 2, sampleKey 1]`, and
the sum of `in_size` is 6 before and after. -/
theorem C30_shuffle_permutation_witness :
    shuffle_keys (fun _ => 1) [sampleKey 1, sampleKey 2, sampleKey 3] =
      [sampleKey 3, sampleKey 2, sampleKey 1] ∧
    (shuffle_keys (fun _ => 1) [sampleKey 1, sampleKey 2, sampleKey 3]).Perm
      [sampleKey 1, sampleKey 2, sampleKey 3] ∧
    ((shuffle_keys (fun _ => 1) [sampleKey 1, sampleKey 2, sampleKey 3]).map
      (fun k => k.m_in_size)).sum = 6 :=
  ⟨by decide,
    (C30_shuffle_permutation [sampleKey 1, sampleKey 2, sampleKey 3] (fun _ => 1)).1,
    by decide⟩


/-- C27. The method `adjustStatus` maps each of the eleven internal error codes
(`HC_INTERNAL_ERROR_BAD_LFSR` .. `HC_INTERNAL_ERROR_CANNOT_RESET_LFSR`, the
values -2000 .. -1990) and every integer that is not a case label of the
switch (below -1000, from -975 to -1, 2, above 18) to `HC_INTERNAL_ERROR`, and
returns every public error code (-1000 .. -975) and `HC_STATUS_OK` unchanged.
Its result is always a value of `HcStatus` and never an internal code; hence
so is every value the public `encryptFile` and the public `decryptFile`
return. -/
theorem C27_adjustStatus (status : Int) :
    (∀ c ∈ [HC_INTERNAL_ERROR_BAD_LFSR, HC_INTERNAL_ERROR_CANNOT_RAND_FILL,
        HC_INTERNAL_ERROR_BAD_LFSR_SPECS, HC_INTERNAL_ERROR_INVALID_INPUT_SEGMENT_SIZE,
        HC_INTERNAL_ERROR_BAD_LFSR_SEQUENCE, HC_INTERNAL_ERROR_BAD_LFSR_FILL,
        HC_INTERNAL_ERROR_UNEXPECTED_IN_FILE_EOF, HC_INTERNAL_ERROR_BAD_TEMP_BUFFER,
        HC_INTERNAL_ERROR_CANNOT_STAT_INPUT_FILE, HC_INTERNAL_ERROR_CANNOT_SET_LFSR_SPEC,
        HC_INTERNAL_ERROR_CANNOT_RESET_LFSR], adjustStatus c = HC_INTERNAL_ERROR) ∧
    (IsInternalCode status → adjustStatus status = HC_INTERNAL_ERROR) ∧
    ((status < -1000 ∨ (-975 ≤ status ∧ status < 0) ∨ status = 2 ∨ 18 < status) →
      adjustStatus status = HC_INTERNAL_ERROR) ∧
    (((-1000 ≤ status ∧ status ≤ -975) ∨ status = HC_STATUS_OK) →
      adjustStatus status = status) ∧
    (IsPublicStatus (adjustStatus status) ∧ ¬ IsInternalCode (adjustStatus status)) ∧
    (∀ (aes : AesCbc) (reg : PolyRegistry) (in_file_path in_file_name : Text) (splits : Nat)
      (rnd : EncRandom) (host : HostOutcome) (d : Disk) (s : Int) (d1 : Disk),
      encryptFileDiskPublic aes reg in_file_path in_file_name splits rnd host d = .ok (s, d1) →
      IsPublicStatus s ∧ ¬ IsInternalCode s) ∧
    ∀ (aes : AesCbc) (lib : XmlLib) (reg : PolyRegistry) (key_file_path base : Text)
      (joins : Nat) (kd : HcKeyData) (host : HostOutcome) (d : Disk) (s : Int) (d1 : Disk),
      decryptFileDiskPublic aes lib reg key_file_path base joins kd host d = .ok (s, d1) →
      IsPublicStatus s ∧ ¬ IsInternalCode s := by
  have hsep : ∀ s : Int, IsPublicStatus s → ¬ IsInternalCode s := by
    intro s hs hi
    unfold IsPublicStatus at hs
    unfold IsInternalCode at hi
    omega
  obtain ⟨h1, h2⟩ := adjustStatus_cases status
  refine ⟨by decide, fun hi => h2 ?_, h2, fun h => h1 ?_,
    ⟨adjustStatus_public status, hsep _ (adjustStatus_public status)⟩, ?_, ?_⟩
  · unfold IsInternalCode at hi
    omega
  · rcases h with h | h
    · exact Or.inl h
    · right
      rw [h]
      decide
  · intro aes reg in_file_path in_file_name splits rnd host d s d1 h
    have hp := encryptFileDiskPublic_public aes reg in_file_path in_file_name splits rnd host d
      s d1 h
    exact ⟨hp, hsep s hp⟩
  · intro aes lib reg key_file_path base joins kd host d s d1 h
    have hp := decryptFileDiskPublic_public aes lib reg key_file_path base joins kd host d
      s d1 h
    exact ⟨hp, hsep s hp⟩

/-- Witness for C27: the internal code `HC_INTERNAL_ERROR_BAD_LFSR_FILL`. -/
theorem C27_adjustStatus_witness :
    IsInternalCode HC_INTERNAL_ERROR_BAD_LFSR_FILL ∧
    adjustStatus HC_INTERNAL_ERROR_BAD_LFSR_FILL = HC_INTERNAL_ERROR ∧
    adjustStatus HC_ERROR_BAD_KEY = HC_ERROR_BAD_KEY :=
  ⟨by decide, (C27_adjustStatus HC_INTERNAL_ERROR_BAD_LFSR_FILL).2.1 (by decide), by decide⟩

/-- C28. No-overwrite. For a nonempty input path: when `<name>.hckey` exists,
the public `encryptFile` returns `HC_ERROR_KEY_FILE_ALREADY_EXISTS`; when it
does not and a target ciphertext name exists (`<name>.hc` for no split,
`<name>.NN.hc` for one `NN` in `01 .. K` otherwise), it returns
`HC_ERROR_OUTPUT_FILE_ALREADY_EXISTS`. When the key file has been read and has
passed the sanity checks and the plaintext target exists, the public
`decryptFile` returns `HC_ERROR_OUTPUT_FILE_ALREADY_EXISTS`. In each case the
files after the call, the `cleanUp` that follows included, are the files
before it. In the second case `cleanUp` calls `remove` on the key file name
and on the temporary name drawn for the key file; the latter is taken to name
no existing file, as `boost::filesystem::unique_path` is meant to provide. -/
theorem C28_no_overwrite (aes : AesCbc) (reg : PolyRegistry) (host : HostOutcome) (d : Disk) :
    (∀ (in_file_path in_file_name : Text) (splits : Nat) (rnd : EncRandom),
      in_file_path ≠ [] →
      file_exists d (in_file_name ++ String.toList ".hckey") = true →
      encryptFileDiskPublic aes reg in_file_path in_file_name splits rnd host d =
        .ok (HC_ERROR_KEY_FILE_ALREADY_EXISTS, d)) ∧
    (∀ (in_file_path in_file_name : Text) (splits : Nat) (rnd : EncRandom),
      in_file_path ≠ [] → splits < 2 ^ 32 →
      file_exists d (in_file_name ++ String.toList ".hckey") = false →
      file_exists d (temp_file_name host 0) = false →
      ((splits = 0 ∧ file_exists d (in_file_name ++ String.toList ".hc") = true) ∨
        ∃ i, i < splits ∧ file_exists d (in_file_name ++ split_suffix (i + 1)) = true) →
      encryptFileDiskPublic aes reg in_file_path in_file_name splits rnd host d =
        .ok (HC_ERROR_OUTPUT_FILE_ALREADY_EXISTS, d)) ∧
    ∀ (lib : XmlLib) (key_file_path base : Text) (joins : Nat) (kd : HcKeyData)
      (m_key : List HcKeyData) (reg1 : PolyRegistry) (max_segment_size : Nat),
      key_file_path ≠ [] → file_exists d key_file_path = true →
      xmlFileToKey lib [] true
        ((file_content d key_file_path).map (fun bytes => bytes.map Char.ofNat)) kd =
          .ok (HC_STATUS_OK, m_key) →
      check_keys m_key reg 0 = some (reg1, max_segment_size) → host.resize = true →
      file_exists d base = true →
      decryptFileDiskPublic aes lib reg key_file_path base joins kd host d =
        .ok (HC_ERROR_OUTPUT_FILE_ALREADY_EXISTS, d) := by
  refine ⟨?_, ?_, ?_⟩
  · intro in_file_path in_file_name splits rnd hpath hkey
    unfold encryptFileDiskPublic encryptFileDisk
    rw [cleanUp_none, encrypt_names_key_exists in_file_path in_file_name _ host d hpath hkey]
    rfl
  · intro in_file_path in_file_name splits rnd hpath hs hkey htemp hout
    unfold encryptFileDiskPublic encryptFileDisk
    rw [cleanUp_none, Nat.mod_eq_of_lt hs,
      encrypt_names_out_exists in_file_path in_file_name splits host d hpath hkey hout]
    have hclean : cleanUp
        { m_out_files := [],
          m_key_file := { m_file_name := in_file_name ++ String.toList ".hckey",
                          m_temp_file_name := temp_file_name host 0 } } d = d := by
      unfold cleanUp
      simp only [List.foldl_nil]
      rw [remove_named_of_not_exists d _ hkey, remove_named_of_not_exists d _ htemp]
    have hne : HC_ERROR_OUTPUT_FILE_ALREADY_EXISTS ≠ HC_STATUS_OK := by decide
    simp only [hne, ne_eq, not_false_eq_true, if_true, hclean]
    rfl
  · intro lib key_file_path base joins kd m_key reg1 max_segment_size hpath hkey hxml hcheck
      hresize hbase
    unfold decryptFileDiskPublic
    simp only [cleanUp_none, hkey, hxml, hcheck, hresize, Bool.not_true, Bool.false_eq_true,
      if_false, ne_eq, not_true_eq_false]
    rw [if_neg (by simpa using hpath)]
    unfold decryptFileDisk
    rw [if_neg (by simpa using hpath)]
    simp only [hbase, if_true, cleanUp_none]
    rfl

/-- Witness for C28: a directory that holds `a`, `a.hckey` and `a.02.hc`, and
one that holds `b` and `b.02.hc` (the name `sprintf` builds for the second of
three splits); `encryptFile` on `a`, and on `b` with three splits, leaves each
directory as it is. -/
theorem C28_no_overwrite_witness :
    (String.toList "a" ≠ [] ∧
      file_exists sampleDisk (String.toList "a" ++ String.toList ".hckey") = true) ∧
    encryptFileDiskPublic sampleAes PolyRegistry.fresh (String.toList "a") (String.toList "a") 3
      sampleEncRandom sampleHost sampleDisk = .ok (HC_ERROR_KEY_FILE_ALREADY_EXISTS, sampleDisk) ∧
    (String.toList "b" ++ split_suffix (1 + 1) = String.toList "b.02.hc" ∧
      file_exists sampleDiskSplit (String.toList "b" ++ split_suffix (1 + 1)) = true ∧
      file_exists sampleDiskSplit (String.toList "b" ++ String.toList ".hckey") = false ∧
      file_exists sampleDiskSplit (temp_file_name sampleHost 0) = false) ∧
    encryptFileDiskPublic sampleAes PolyRegistry.fresh (String.toList "b") (String.toList "b") 3
      sampleEncRandom sampleHost sampleDiskSplit =
        .ok (HC_ERROR_OUTPUT_FILE_ALREADY_EXISTS, sampleDiskSplit) :=
  ⟨⟨by decide, by decide⟩,
    (C28_no_overwrite sampleAes PolyRegistry.fresh sampleHost sampleDisk).1 (String.toList "a")
      (String.toList "a") 3 sampleEncRandom (by decide) (by decide),
    ⟨by decide, by decide, by decide, by decide⟩,
    (C28_no_overwrite sampleAes PolyRegistry.fresh sampleHost sampleDiskSplit).2.1
      (String.toList "b") (String.toList "b") 3 sampleEncRandom (by decide) (by decide)
      (by decide) (by decide) (Or.inr ⟨1, by decide, by decide⟩)⟩

/-- C33. Hex round trip. For every sequence of `n ≥ 1` bytes, `hexToString`
appends exactly `2 * n` characters to the string, all in `0-9` or `A-F`, and
`stringToHex` with count `n`, applied to the appended characters and a buffer
of `n` bytes, returns true and leaves the original bytes in the buffer.
Conversely, for every string that `stringToHex` accepts with count `n`,
`hexToString` of the bytes it has stored gives back the same string. -/
theorem C33_hex_round_trip (n : Nat) (hn : 1 ≤ n) :
    (∀ (bytes : List Nat) (str : Text) (buffer : List Nat),
      bytes.length = n → (∀ b ∈ bytes, b < 256) → buffer.length = n →
      ∃ appended : Text, hexToString bytes n str = str ++ appended ∧
        appended.length = 2 * n ∧ (∀ c ∈ appended, IsUpperHex c) ∧
        stringToHex buffer n appended = (bytes, true)) ∧
    (∀ (buffer : List Nat) (s : Text), buffer.length = n →
      (stringToHex buffer n s).2 = true →
      hexToString (stringToHex buffer n s).1 n [] = s) := by
  constructor
  · intro bytes str buffer hlen hbytes hbuf
    refine ⟨hex_text bytes, hexToString_eq bytes n str hlen hbytes, ?_,
      hex_text_isUpperHex bytes hbytes, stringToHex_hex_text buffer bytes n hn hbuf hlen hbytes⟩
    rw [hex_text_length, hlen]
  · intro buffer s hbuf hacc
    obtain ⟨h1, h2, h3⟩ := stringToHex_decodes buffer n s hn hbuf hacc
    rw [hexToString_eq _ n [] h1 h2, List.nil_append, h3]

/-- Witness for C33: the three bytes `00 AB FF` appended to the text `iv=`,
and the string `00ABFF` read into a buffer of three bytes. -/
theorem C33_hex_round_trip_witness :
    1 ≤ 3 ∧
    (∃ appended : Text,
      hexToString [0, 171, 255] 3 (String.toList "iv=") = String.toList "iv=" ++ appended ∧
        appended.length = 2 * 3 ∧ (∀ c ∈ appended, IsUpperHex c) ∧
        stringToHex [9, 9, 9] 3 appended = ([0, 171, 255], true)) ∧
    (stringToHex [9, 9, 9] 3 (String.toList "00ABFF")).2 = true ∧
    hexToString (stringToHex [9, 9, 9] 3 (String.toList "00ABFF")).1 3 [] =
      String.toList "00ABFF" :=
  ⟨by decide,
    (C33_hex_round_trip 3 (by decide)).1 [0, 171, 255] (String.toList "iv=") [9, 9, 9] rfl
      (by decide) rfl,
    by decide,
    (C33_hex_round_trip 3 (by decide)).2 [9, 9, 9] (String.toList "00ABFF") rfl (by decide)⟩


/-- C36. Seed independence of verification. For every bit count `b` from 15 to
28, every poly and every seed: when `verify_poly (poly, b, seed)` returns true,
the poly is below `2 ^ b` and has bit `b - 1` set, the sequence from the masked
seed is back at that seed after `2 ^ b - 1` steps and at no step count before,
and `verify_poly (poly, b, seed')` returns true for every seed' of
`[1, 2 ^ b - 1]`. -/
theorem C36_seed_independence (b : Nat) (hb1 : 15 ≤ b) (hb2 : b ≤ 28) (poly seed : Nat)
    (h : verify_poly poly b seed = true) :
    poly < 2 ^ b ∧ poly.testBit (b - 1) = true ∧
    (fun x => NEXT_LFSR x poly)^[2 ^ b - 1] (seed &&& (2 ^ b - 1)) = seed &&& (2 ^ b - 1) ∧
    (∀ k, 0 < k → k < 2 ^ b - 1 →
      (fun x => NEXT_LFSR x poly)^[k] (seed &&& (2 ^ b - 1)) ≠ seed &&& (2 ^ b - 1)) ∧
    ∀ seed2, 1 ≤ seed2 → seed2 ≤ 2 ^ b - 1 → verify_poly poly b seed2 = true := by
  obtain ⟨hp, hbit, hret, hne, hall⟩ :=
    verify_poly_seed_independent poly b seed (by omega) (by omega) h
  exact ⟨hp, testBit_top (by omega) hp hbit, hret, hne, hall⟩

/-- Witness for C36: 15 bits, the variant `0x4211` and the seed 1; the seed
`0x1234` passes as well. -/
theorem C36_seed_independence_witness :
    (15 ≤ 15 ∧ 15 ≤ 28) ∧ verify_poly 0x4211 15 1 = true ∧
    (0x4211 < 2 ^ 15 ∧ (0x4211).testBit (15 - 1) = true) ∧
    verify_poly 0x4211 15 0x1234 = true :=
  ⟨by decide, sample_verify_poly,
    ⟨(C36_seed_independence 15 (by decide) (by decide) 0x4211 1 sample_verify_poly).1,
      (C36_seed_independence 15 (by decide) (by decide) 0x4211 1 sample_verify_poly).2.1⟩,
    (C36_seed_independence 15 (by decide) (by decide) 0x4211 1 sample_verify_poly).2.2.2.2
      0x1234 (by decide) (by decide)⟩


/-- C37. For every plaintext length `L ≥ 1` the greedy loop of `generateKey`
ends with a remainder `s` with `1 ≤ s ≤ 2 ^ 15`: a pass subtracts and appends
`max_size` only when `s > max_size`, otherwise it halves `max_size`. So
`min_key_count` is 2, the plan is the power-of-two sizes followed by `s`, the
key loop builds its keys in that order, the key with `in_size = s` last, and
`generateKey` returns the shuffle of that list. The plan, and the key list
returned, has at least three segments exactly when `L > 2 ^ 16`. -/
theorem C37_residual_segment (L : Nat) (hL : 1 ≤ L) :
    (∃ (greedy pows : List Nat) (s : Nat),
      split_sizes_loop HcLfsr.getMinSize (L + 32) L HcLfsr.getMaxSize [] = some (s, greedy) ∧
      1 ≤ s ∧ s ≤ 2 ^ 15 ∧ min_key_count s = 2 ∧
      plan_sizes L = .ok (pows ++ [s]) ∧
      (3 ≤ (pows ++ [s]).length ↔ 2 ^ 16 < L) ∧
      ∀ (reg : PolyRegistry) (draws : Nat → KeyDraws) (shuffle : Nat → Nat),
        RegistryReady reg →
        ∃ (status : Int) (reg1 : PolyRegistry) (lfsr1 : HcLfsr) (planned : List HcKeyData),
          key_loop draws (pows ++ [s]) 0 reg (HcLfsr.new 0) [] =
            .ok (status, reg1, lfsr1, planned) ∧
          (KeyDrawsOk draws → status = HC_STATUS_OK) ∧
          (status = HC_STATUS_OK →
            planned.map (fun k => k.m_in_size) = pows ++ [s] ∧
            generateKey reg (HcLfsr.new 0) L draws shuffle =
              .ok (HC_STATUS_OK, reg1, lfsr1, shuffle_keys shuffle planned) ∧
            (3 ≤ (shuffle_keys shuffle planned).length ↔ 2 ^ 16 < L))) ∧
    (∀ (fuel s max_size : Nat) (sizes : List Nat), s ≠ 0 → max_size ≥ HcLfsr.getMinSize →
      split_sizes_loop HcLfsr.getMinSize (fuel + 1) s max_size sizes =
        if s > max_size then
          split_sizes_loop HcLfsr.getMinSize fuel (s - max_size) max_size (sizes ++ [max_size])
        else split_sizes_loop HcLfsr.getMinSize fuel s (max_size / 2) sizes) := by
  refine ⟨?_, fun fuel s max_size sizes hs hm => split_sizes_loop_step _ _ _ _ _ ⟨hs, hm⟩⟩
  obtain ⟨greedy, pows, s, h1, h2, h3, h4, h5, h6, h7⟩ := plan_sizes_count L hL
  have hlen : 3 ≤ (pows ++ [s]).length ↔ 2 ^ 16 < L := by
    rw [List.length_append, List.length_singleton, show (2 : Nat) ^ 16 = 65536 from by norm_num,
      ← h7]
    omega
  refine ⟨greedy, pows, s, h1, h3, by norm_num; exact h4, ?_, h2, hlen, ?_⟩
  · unfold min_key_count
    rw [if_pos (by omega)]
  · intro reg draws shuffle hreg
    obtain ⟨status, reg1, lfsr1, planned, e1, e2, e3⟩ :=
      generateKey_planned reg hreg L hL draws shuffle (pows ++ [s]) h2
    refine ⟨status, reg1, lfsr1, planned, e1, e2, fun hs => ?_⟩
    obtain ⟨e4, -, e5⟩ := e3 hs
    refine ⟨e4, e5, ?_⟩
    have : planned.length = (pows ++ [s]).length := by
      rw [← e4, List.length_map]
    rw [(shuffle_keys_perm shuffle planned).length_eq, this]
    exact hlen

/-- Witness for C37: `L = 2 ^ 16 + 1`, whose plan is `2 ^ 15`, `2 ^ 15`, 1. -/
theorem C37_residual_segment_witness :
    1 ≤ 2 ^ 16 + 1 ∧ plan_sizes (2 ^ 16 + 1) = .ok [2 ^ 15, 2 ^ 15, 1] ∧
    ∃ (greedy pows : List Nat) (s : Nat),
      split_sizes_loop HcLfsr.getMinSize (2 ^ 16 + 1 + 32) (2 ^ 16 + 1) HcLfsr.getMaxSize [] =
        some (s, greedy) ∧
      1 ≤ s ∧ s ≤ 2 ^ 15 ∧ min_key_count s = 2 ∧
      plan_sizes (2 ^ 16 + 1) = .ok (pows ++ [s]) ∧
      (3 ≤ (pows ++ [s]).length ↔ 2 ^ 16 < 2 ^ 16 + 1) :=
  ⟨by decide, by rfl,
    match (C37_residual_segment (2 ^ 16 + 1) (by decide)).1 with
    | ⟨greedy, pows, s, h1, h2, h3, h4, h5, h6, _⟩ => ⟨greedy, pows, s, h1, h2, h3, h4, h5, h6⟩⟩

/-- C39. The size-planning loops of `generateKey` terminate for every
`L ≥ 1`. The greedy loop: a pass either lowers `s` by `max_size` or halves
`max_size`, both strictly, and the loop has left after at most `L + 15`
passes, with sizes that are powers of two and a residual `r`. The
minimum-count loop: in every state in which it runs a pass (sizes that are
powers of two from `2 ^ 15` to `2 ^ 28`, covering at least `MIN_SIZE` times
the required count, fewer than that count) some size is larger than
`MIN_SIZE`; the scan halves the first such size and appends the half, which
gives one size more with the same sum, and the loop exits after at most
`min_key_count` passes. The whole planning returns the list of sizes. -/
theorem C39_planning_terminates (L : Nat) (hL : 1 ≤ L) :
    (∃ (r : Nat) (greedy sizes : List Nat),
      (∀ fuel, L + 15 ≤ fuel →
        split_sizes_loop HcLfsr.getMinSize fuel L HcLfsr.getMaxSize [] = some (r, greedy)) ∧
      (∀ x ∈ greedy, IsSegmentPow x) ∧ greedy.sum + r = L ∧
      plan_sizes L = .ok sizes) ∧
    (∀ (fuel s max_size : Nat) (sizes : List Nat), s ≠ 0 → max_size ≥ HcLfsr.getMinSize →
      split_sizes_loop HcLfsr.getMinSize (fuel + 1) s max_size sizes =
        (if s > max_size then
          split_sizes_loop HcLfsr.getMinSize fuel (s - max_size) max_size (sizes ++ [max_size])
        else split_sizes_loop HcLfsr.getMinSize fuel s (max_size / 2) sizes) ∧
      (s > max_size → s - max_size < s) ∧ max_size / 2 < max_size) ∧
    (∀ (mkc : Nat) (sizes : List Nat), (∀ x ∈ sizes, IsSegmentPow x) →
      HcLfsr.getMinSize * mkc ≤ sizes.sum → sizes.length < mkc →
      (∃ pre x post, sizes = pre ++ x :: post ∧ (∀ y ∈ pre, y ≤ HcLfsr.getMinSize) ∧
        HcLfsr.getMinSize < x ∧
        halve_first HcLfsr.getMinSize sizes = some (pre ++ (x / 2) :: post, x / 2) ∧
        (∀ fuel, min_key_loop HcLfsr.getMinSize mkc (fuel + 1) sizes =
          min_key_loop HcLfsr.getMinSize mkc fuel (pre ++ (x / 2) :: post ++ [x / 2])) ∧
        (∀ z ∈ pre ++ (x / 2) :: post ++ [x / 2], IsSegmentPow z) ∧
        (pre ++ (x / 2) :: post ++ [x / 2]).sum = sizes.sum ∧
        (pre ++ (x / 2) :: post ++ [x / 2]).length = sizes.length + 1) ∧
      ∃ sizes1, min_key_loop HcLfsr.getMinSize mkc mkc sizes = some sizes1 ∧
        mkc ≤ sizes1.length ∧ sizes1.sum = sizes.sum) := by
  refine ⟨?_, ?_, ?_⟩
  · obtain ⟨greedy, pows, r, h1, h2, h3, h4, _⟩ := plan_sizes_spec L hL
    refine ⟨r, greedy, pows ++ [r], ?_, h3, h4, h2⟩
    intro fuel hf
    rw [split_sizes_loop_enough L hL fuel hf, h1]
  · intro fuel s max_size sizes hs hm
    rw [getMinSize_eq] at hm
    exact ⟨split_sizes_loop_step _ _ _ _ _ ⟨hs, by rw [getMinSize_eq]; exact hm⟩,
      fun _ => by omega, by omega⟩
  · intro mkc sizes hall hsum hlt
    rw [getMinSize_eq] at hsum ⊢
    refine ⟨min_key_pass mkc sizes hall hsum hlt, ?_⟩
    obtain ⟨sizes1, e1, _, e3, e4, _⟩ := min_key_loop_spec mkc mkc sizes hall hsum (by omega)
    exact ⟨sizes1, e1, e4, e3⟩

/-- Witness for C39: `L = 2 ^ 17 + 5`; the greedy loop emits the single size
`2 ^ 17`, so the minimum-count loop runs one pass on `[2 ^ 17]`. -/
theorem C39_planning_terminates_witness :
    1 ≤ 2 ^ 17 + 5 ∧ plan_sizes (2 ^ 17 + 5) = .ok [2 ^ 16, 2 ^ 16, 5] ∧
    (∃ (r : Nat) (greedy sizes : List Nat),
      (∀ fuel, 2 ^ 17 + 5 + 15 ≤ fuel →
        split_sizes_loop HcLfsr.getMinSize fuel (2 ^ 17 + 5) HcLfsr.getMaxSize [] =
          some (r, greedy)) ∧
      (∀ x ∈ greedy, IsSegmentPow x) ∧ greedy.sum + r = 2 ^ 17 + 5 ∧
      plan_sizes (2 ^ 17 + 5) = .ok sizes) ∧
    ∃ sizes1, min_key_loop HcLfsr.getMinSize 2 2 [2 ^ 17] = some sizes1 ∧
      2 ≤ sizes1.length ∧ sizes1.sum = [2 ^ 17].sum :=
  ⟨by decide, by rfl, (C39_planning_terminates (2 ^ 17 + 5) (by decide)).1,
    ((C39_planning_terminates (2 ^ 17 + 5) (by decide)).2.2 2 [2 ^ 17]
      (fun x hx => ⟨17, by decide, by decide, List.mem_singleton.1 hx⟩) (by decide)
      (by decide)).2⟩


/-- C38. For every key list of `n` segments with `3 ≤ n ≤ 256` and every
outcome of the random index draws, the shuffle loop of `generateKey` moves the
key at position 0 away from it: position 0 receives the key at the index drawn
in the first pass, an index of `[1, n - 1]`, the key that was at position 0
ends at a position `q ≥ 1`, and when the keys are pairwise distinct the key
at position 0 is a different one afterwards. The reason: a pass with index
`i ≥ 1` exchanges position `i - 1` with the drawn position, which is at least
`i`, and leaves every other position alone, so only the pass `i = 1` touches
position 0. For `n ≤ 2` the list is returned unchanged. The key at position 0
before the loop belongs to the first size of the plan, which is a largest one. -/
theorem C38_first_segment_moves (l : List HcKeyData) (draw : Nat → Nat) :
    (3 ≤ l.length → l.length ≤ 256 →
      1 ≤ 1 + draw 1 % (l.length - 1) ∧ 1 + draw 1 % (l.length - 1) < l.length ∧
      (shuffle_keys draw l)[0]? = l[1 + draw 1 % (l.length - 1)]? ∧
      (∃ q, 1 ≤ q ∧ q < l.length ∧ (shuffle_keys draw l)[q]? = l[0]?) ∧
      (l.Nodup → (shuffle_keys draw l)[0]? ≠ l[0]?)) ∧
    (∀ (max_index i : Nat) (m : List HcKeyData), 1 ≤ i →
      i - 1 < i + draw i % (max_index - i + 1) ∧
      (i ≤ max_index → i + draw i % (max_index - i + 1) ≤ max_index) ∧
      (2 ≤ i → (shuffle_step max_index draw m i)[0]? = m[0]?) ∧
      ∀ p, p ≠ i - 1 → p ≠ i + draw i % (max_index - i + 1) →
        (shuffle_step max_index draw m i)[p]? = m[p]?) ∧
    (l.length ≤ 2 → shuffle_keys draw l = l) ∧
    (∀ L, 1 ≤ L → ∃ (first : Nat) (rest : List Nat), plan_sizes L = .ok (first :: rest) ∧
      ∀ x ∈ rest, x ≤ first) := by
  refine ⟨?_, ?_, ?_, plan_sizes_head_max⟩
  · intro h3 h256
    obtain ⟨hidx, h0, hq⟩ := shuffle_keys_first draw l h3 h256
    refine ⟨by omega, hidx, h0, hq, fun hnd => ?_⟩
    rw [h0]
    exact fun he => List.nodup_iff_getElem?_ne_getElem?.mp hnd 0 _ (by omega) hidx he.symm
  · intro max_index i m hi
    refine ⟨by omega, fun hle => ?_, fun h2 => ?_, fun p hp1 hp2 => ?_⟩
    · have := Nat.mod_lt (draw i) (show 0 < max_index - i + 1 by omega)
      omega
    · exact shuffle_step_frame max_index draw m i 0 (by omega) (by omega)
    · exact shuffle_step_frame max_index draw m i p (fun h => hp1 h.symm) (fun h => hp2 h.symm)
  · intro hlen
    apply List.ext_getElem?
    intro p
    have hmod : (l.length - 1) % 256 ≤ l.length - 1 := Nat.mod_le _ _
    exact (shuffle_keys_frame draw l p (fun i hi1 hi2 => by omega)).1

/-- Witness for C38: three keys and draws that are all 0, so that the first
pass exchanges the keys at positions 0 and 1. -/
theorem C38_first_segment_moves_witness :
    (3 ≤ [sampleKey 1, sampleKey 2, sampleKey 3].length ∧
      [sampleKey 1, sampleKey 2, sampleKey 3].length ≤ 256) ∧
    [sampleKey 1, sampleKey 2, sampleKey 3].Nodup ∧
    shuffle_keys (fun _ => 0) [sampleKey 1, sampleKey 2, sampleKey 3] =
      [sampleKey 2, sampleKey 1, sampleKey 3] ∧
    (shuffle_keys (fun _ => 0) [sampleKey 1, sampleKey 2, sampleKey 3])[0]? ≠
      [sampleKey 1, sampleKey 2, sampleKey 3][0]? :=
  ⟨by decide, by decide, by decide,
    ((C38_first_segment_moves [sampleKey 1, sampleKey 2, sampleKey 3] (fun _ => 0)).1
      (by decide) (by decide)).2.2.2.2 (by decide)⟩


/-- C35. The sanity checks of the public `decryptFile` do not bound the gather
indices. The key list with the single segment `in_size = out_size = 256`,
seed 1, poly `0x4000` passes all of them, for every registry, and the working
buffer is sized to the largest `out_size`, 256 bytes. In `decryptSegment`,
`setSpec` accepts the spec, the first call of `fillNext` returns true and its
first index is `0x4000`, which is not below `out_size`: the first statement of
the gather loop reads the working buffer outside its 256 bytes. The run of
the public `decryptFile` on any ciphertext file of 256 bytes ends there. -/
theorem C35_gather_out_of_bounds (aes : AesCbc) (reg : PolyRegistry) (C : List Nat)
    (files : Nat → Option (List Nat)) (hC : C.length = 256) :
    (sampleWildKey.m_in_size = 256 ∧ sampleWildKey.m_out_size = 256 ∧
      sampleWildKey.m_lfsr_specs % 2 ^ 32 = 1 ∧
      sampleWildKey.m_lfsr_specs / 2 ^ 32 % 2 ^ 32 = 0x4000) ∧
    (∃ reg1, check_keys [sampleWildKey] reg 0 = some (reg1, sampleWildKey.m_out_size)) ∧
    (∃ reg1, HcLfsr.setSpec reg (HcLfsr.new sampleWildKey.m_out_size)
      sampleWildKey.m_lfsr_specs = (reg1, sampleWildLfsr, true)) ∧
    (HcLfsr.fillNext sampleWildLfsr (List.replicate 256 0) 0 256).2.2 = true ∧
    (HcLfsr.fillNext sampleWildLfsr (List.replicate 256 0) 0 256).2.1.getD 0 0 = 0x4000 ∧
    sampleWildKey.m_out_size ≤ 0x4000 ∧
    (∀ (W out_buf : List Nat), W.length = sampleWildKey.m_out_size →
      read_at W 0x4000 = .error .undefined ∧
      gather (HcLfsr.fillNext sampleWildLfsr (List.replicate 256 0) 0 256).2.1 W 255 0 out_buf =
        .error .undefined) ∧
    decryptFilePublic aes reg [sampleWildKey] (some C) files 0 = .error .undefined := by
  refine ⟨by decide, sample_wild_checks reg,
    sample_wild_setSpec reg _ sample_wild_bounds.2.2.2.2.1, sample_wild_fill.1,
    sample_wild_fill.2, by decide, ?_, sample_wild_public aes reg C hC files⟩
  intro W out_buf hW
  have h256 : W.length = 256 := hW
  constructor
  · rw [read_at, if_neg (by omega)]
  · exact gather_out_of_bounds _ W 254 0 out_buf (by rw [sample_wild_fill.2]; omega)

/-- Witness for C35: a fresh registry, the sample chunk cipher and a
ciphertext file of 256 zero bytes. -/
theorem C35_gather_out_of_bounds_witness :
    (List.replicate 256 0).length = 256 ∧
    decryptFilePublic sampleAes PolyRegistry.fresh [sampleWildKey]
      (some (List.replicate 256 0)) (fun _ => none) 0 = .error .undefined :=
  ⟨List.length_replicate _ _,
    (C35_gather_out_of_bounds sampleAes PolyRegistry.fresh (List.replicate 256 0)
      (fun _ => none) (List.length_replicate _ _)).2.2.2.2.2.2.2⟩


/-- C34. The positions `encryptSegment` writes. For every segment key that
satisfies the data-model invariant (`out_size = 2 ^ b`, a registered variant
that `verify_poly` accepts with the seed), the indices into the working
buffer that the loop `while (is)` assigns are the first
`256 * ceil (in_size / 256) - 1` generator outputs followed by slot 0; they
are pairwise distinct and below `out_size`. The loop ends with
`HC_STATUS_OK`, leaves every other slot as it was, and what it leaves in the
written slots does not depend on what the buffer held before. When
`in_size = out_size` the written positions are a permutation of
`0 .. out_size - 1`, and `encryptSegment` writes the same `out_size` bytes to
the output whatever the working buffer held before the call. -/
theorem C34_written_positions (aes : AesCbc) (hinv : aes.Inverse) (kd : HcKeyData)
    (hk : KeyInvariant kd) (rnd : SegRandom) (reg : PolyRegistry) (lfsr0 : HcLfsr)
    (P buf : List Nat) (hP : P.length = kd.m_in_size) (hbuf : kd.m_out_size ≤ buf.length) :
    written_positions reg lfsr0 kd =
      specOutputs kd.m_lfsr_specs (256 * ((kd.m_in_size + 255) / 256) - 1) ++ [0] ∧
    (written_positions reg lfsr0 kd).Nodup ∧
    (∀ p ∈ written_positions reg lfsr0 kd, p < kd.m_out_size) ∧
    (∃ st1, encrypt_loop aes kd.m_key rnd.padding kd.m_in_size
        (loop_entry kd (HcLfsr.setSpec reg lfsr0 kd.m_lfsr_specs).2.1
          (prefill_buffer rnd.prefill kd buf) ⟨true, 0, P, 0⟩) = .ok (HC_STATUS_OK, st1) ∧
      (∀ p, p ∉ written_positions reg lfsr0 kd →
        st1.work[p]? = (prefill_buffer rnd.prefill kd buf)[p]?) ∧
      ∀ buf2 : List Nat, buf2.length = buf.length →
        ∃ w3, encrypt_loop aes kd.m_key rnd.padding kd.m_in_size
            (loop_entry kd (HcLfsr.setSpec reg lfsr0 kd.m_lfsr_specs).2.1
              (prefill_buffer rnd.prefill kd buf2) ⟨true, 0, P, 0⟩) =
            .ok (HC_STATUS_OK, { st1 with work := w3 }) ∧
          ∀ p ∈ written_positions reg lfsr0 kd, w3[p]? = st1.work[p]?) ∧
    (kd.m_in_size = kd.m_out_size →
      (written_positions reg lfsr0 kd).Perm (List.range kd.m_out_size) ∧
      ∀ buf2 : List Nat, buf2.length = buf.length →
        ∃ (C : List Nat) (e1 e2 : Engine),
          encryptSegment aes
            (segmentEngine reg lfsr0 buf ⟨true, 0, P, 0⟩ ⟨true, kd.m_out_size, [], 0⟩)
            kd rnd = .ok (HC_STATUS_OK, e1) ∧
          encryptSegment aes
            (segmentEngine reg lfsr0 buf2 ⟨true, 0, P, 0⟩ ⟨true, kd.m_out_size, [], 0⟩)
            kd rnd = .ok (HC_STATUS_OK, e2) ∧
          C.length = kd.m_out_size ∧
          e1.m_out_files.map FileSpec.data = [C] ∧ e2.m_out_files.map FileSpec.data = [C] ∧
          e1.m_buffer.take kd.m_out_size = C ∧ e2.m_buffer.take kd.m_out_size = C) := by
  obtain ⟨hp0, hs0, hopos, hltout, hgood⟩ := keyInvariant_good kd hk buf.length hbuf
  obtain ⟨reg1, hsp⟩ := setSpec_ok reg lfsr0 kd.m_lfsr_specs hp0 hs0
  obtain ⟨w1, w2, w3, w4, w5⟩ := segment_writes_key kd hk lfsr0 (List.replicate 256 0)
    (List.length_replicate _ _)
  have hin : 1 ≤ kd.m_in_size := hk.1
  have hio : kd.m_in_size ≤ kd.m_out_size := hk.2.1
  have hW : written_positions reg lfsr0 kd =
      specOutputs kd.m_lfsr_specs (256 * ((kd.m_in_size + 255) / 256) - 1) ++ [0] := by
    unfold written_positions
    rw [hsp]
    exact w1
  have hwl := prefill_buffer_length rnd.prefill kd buf hbuf
  obtain ⟨st1, el, hwl1, -, -, -, -⟩ := codec_loops aes hinv kd.m_key rnd.padding
    (kd.m_lfsr_specs / 2 ^ 32 % 2 ^ 32) kd.m_in_size
    (loop_entry kd { lfsr0 with m_seed := kd.m_lfsr_specs % 2 ^ 32,
                                m_poly := kd.m_lfsr_specs / 2 ^ 32 % 2 ^ 32,
                                m_lfsr := kd.m_lfsr_specs % 2 ^ 32 }
      (prefill_buffer rnd.prefill kd buf) ⟨true, 0, P, 0⟩)
    (le_refl _) rfl (List.length_replicate _ _) (List.length_replicate _ _)
    (by simp only [loop_entry, Nat.zero_add]; omega)
    (by simp only [loop_entry, hwl]; exact hgood)
  have hrel : ∀ buf2 : List Nat, buf2.length = buf.length →
      ∃ w3, encrypt_loop aes kd.m_key rnd.padding kd.m_in_size
          (loop_entry kd { lfsr0 with m_seed := kd.m_lfsr_specs % 2 ^ 32,
                                      m_poly := kd.m_lfsr_specs / 2 ^ 32 % 2 ^ 32,
                                      m_lfsr := kd.m_lfsr_specs % 2 ^ 32 }
            (prefill_buffer rnd.prefill kd buf2) ⟨true, 0, P, 0⟩) =
          .ok (HC_STATUS_OK, { st1 with work := w3 }) ∧
        w3.length = buf.length ∧
        ∀ p, (p ∈ written_positions reg lfsr0 kd ∨
            (prefill_buffer rnd.prefill kd buf)[p]? = (prefill_buffer rnd.prefill kd buf2)[p]?) →
          st1.work[p]? = w3[p]? := by
    intro buf2 hb2
    obtain ⟨-, -, w3, r1, r2, r3⟩ := encrypt_loop_rel aes kd.m_key rnd.padding kd.m_in_size _
      st1 (prefill_buffer rnd.prefill kd buf2) el
      (by
        simp only [loop_entry]
        rw [hwl, prefill_buffer_length rnd.prefill kd buf2 (by omega), hb2])
    refine ⟨w3, r1, ?_, fun p hp => r3 p ?_⟩
    · rw [r2, hwl1]
      simp only [loop_entry, hwl]
    · rw [hW, ← w1] at hp
      exact hp
  have hframe := (encrypt_loop_rel aes kd.m_key rnd.padding kd.m_in_size _
      st1 (prefill_buffer rnd.prefill kd buf) el rfl).2.1
  refine ⟨hW, by rw [hW]; exact w2, by rw [hW]; exact w3, ⟨st1, ?_, ?_, ?_⟩, ?_⟩
  · rw [hsp]
    exact el
  · intro p hp
    apply hframe p
    rw [hW, ← w1] at hp
    exact hp
  · intro buf2 hb2
    obtain ⟨w3, r1, -, r3⟩ := hrel buf2 hb2
    refine ⟨w3, ?_, fun p hp => (r3 p (Or.inl hp)).symm⟩
    rw [hsp]
    exact r1
  · intro hio2
    have hperm : (written_positions reg lfsr0 kd).Perm (List.range kd.m_out_size) := by
      rw [hW]
      exact w5 hio2
    refine ⟨hperm, fun buf2 hb2 => ?_⟩
    obtain ⟨w3, r1, r2, r3⟩ := hrel buf2 hb2
    have htake : st1.work.take kd.m_out_size = w3.take kd.m_out_size :=
      take_eq_of_getElem? _ _ _
        (fun p hp => r3 p (Or.inl (hperm.mem_iff.2 (List.mem_range.2 hp))))
    simp only [loop_entry, hwl] at hwl1
    have hClen : (st1.work.take kd.m_out_size).length = kd.m_out_size := by
      rw [List.length_take, hwl1]
      omega
    obtain ⟨fs1, idx1, ew1, hd1⟩ := write_loop_single (kd.m_out_size - 1) kd.m_out_size
      st1.work ⟨true, kd.m_out_size, [], 0⟩ hopos (le_refl _) rfl
    obtain ⟨fs2, idx2, ew2, hd2⟩ := write_loop_single (kd.m_out_size - 1) kd.m_out_size
      w3 ⟨true, kd.m_out_size, [], 0⟩ hopos (le_refl _) rfl
    rw [show kd.m_out_size - 1 + 1 = kd.m_out_size from by omega] at ew1 ew2
    have E1 := encryptSegment_run_ok aes
      (segmentEngine reg lfsr0 buf ⟨true, 0, P, 0⟩ ⟨true, kd.m_out_size, [], 0⟩) kd rnd
      lfsr0 _ reg1 ⟨true, 0, P, 0⟩ ⟨true, kd.m_out_size, [], 0⟩ st1 HC_STATUS_OK [fs1] idx1
      (by omega) hio rfl rfl rfl rfl rfl hsp hbuf el ew1
    have E2 := encryptSegment_run_ok aes
      (segmentEngine reg lfsr0 buf2 ⟨true, 0, P, 0⟩ ⟨true, kd.m_out_size, [], 0⟩) kd rnd
      lfsr0 _ reg1 ⟨true, 0, P, 0⟩ ⟨true, kd.m_out_size, [], 0⟩ { st1 with work := w3 }
      HC_STATUS_OK [fs2] idx2
      (by omega) hio rfl rfl rfl rfl rfl hsp (by rw [show (segmentEngine reg lfsr0 buf2
        ⟨true, 0, P, 0⟩ ⟨true, kd.m_out_size, [], 0⟩).m_buffer = buf2 from rfl, hb2]; exact hbuf)
      r1 ew2
    refine ⟨st1.work.take kd.m_out_size, _, _, E1, E2, hClen, ?_, ?_, rfl, htake.symm⟩
    · simp only [List.map_cons, List.map_nil, hd1, List.nil_append]
    · simp only [List.map_cons, List.map_nil, hd2, List.nil_append, htake]

/-- Witness for C34: the sample key with `in_size = out_size = 2 ^ 15` (variant
`0x4211`, seed 1), the chunk-reversing cipher, a plaintext and a working
buffer of `2 ^ 15` zero bytes. -/
theorem C34_written_positions_witness :
    sampleAes.Inverse ∧ KeyInvariant (sampleKey 32768) ∧
    (written_positions PolyRegistry.fresh (HcLfsr.new 0) (sampleKey 32768)).Nodup ∧
    (∀ p ∈ written_positions PolyRegistry.fresh (HcLfsr.new 0) (sampleKey 32768),
      p < (sampleKey 32768).m_out_size) ∧
    (written_positions PolyRegistry.fresh (HcLfsr.new 0) (sampleKey 32768)).Perm
      (List.range (sampleKey 32768).m_out_size) :=
  ⟨fun _ _ chunk => ⟨List.length_reverse chunk, Prod.ext (List.reverse_reverse chunk) rfl⟩,
    sampleKey_invariant 32768 (by decide) (by decide),
    (C34_written_positions sampleAes
      (fun _ _ chunk => ⟨List.length_reverse chunk, Prod.ext (List.reverse_reverse chunk) rfl⟩)
      (sampleKey 32768) (sampleKey_invariant 32768 (by decide) (by decide)) sampleSegRandom
      PolyRegistry.fresh (HcLfsr.new 0) (List.replicate 32768 0) (List.replicate 32768 0)
      (List.length_replicate _ _) (by rw [List.length_replicate]; exact le_refl _)).2.1,
    (C34_written_positions sampleAes
      (fun _ _ chunk => ⟨List.length_reverse chunk, Prod.ext (List.reverse_reverse chunk) rfl⟩)
      (sampleKey 32768) (sampleKey_invariant 32768 (by decide) (by decide)) sampleSegRandom
      PolyRegistry.fresh (HcLfsr.new 0) (List.replicate 32768 0) (List.replicate 32768 0)
      (List.length_replicate _ _) (by rw [List.length_replicate]; exact le_refl _)).2.2.1,
    ((C34_written_positions sampleAes
      (fun _ _ chunk => ⟨List.length_reverse chunk, Prod.ext (List.reverse_reverse chunk) rfl⟩)
      (sampleKey 32768) (sampleKey_invariant 32768 (by decide) (by decide)) sampleSegRandom
      PolyRegistry.fresh (HcLfsr.new 0) (List.replicate 32768 0) (List.replicate 32768 0)
      (List.length_replicate _ _) (by rw [List.length_replicate]; exact le_refl _)).2.2.2.2
        rfl).1⟩


/-- C31. Segments are processed in key order, and plaintext and ciphertext are
laid out in that order. Take a key list `kpre ++ kd :: kpost` whose keys
satisfy the data-model invariant, an engine as `encryptFile` has it before
the loop "Encrypt all the segments" (the input file open at position 0, the
output files open and empty with sizes that cover the total `out_size`, zero
sizes last, a working buffer that holds the largest segment). Then the loop
returns `HC_STATUS_OK`; the call of `encryptSegment` for `kd` finds the read
position of the plaintext at the sum of `in_size` of the keys before it and
leaves it `in_size` further; it finds the output stream at the sum of
`out_size` of the keys before it and appends `out_size` bytes, which are the
bytes at that offset of the final stream. The loop over the keys of
`decryptFile`, run on files that hold this stream, returns `HC_STATUS_OK`; its
call of `decryptSegment` for `kd` finds the input stream read up to the same
offset, reads the same `out_size` bytes, and extends the output from the
first `sum of in_size before` bytes of the plaintext by the `in_size` bytes of
the segment. -/
theorem C31_segment_order (aes : AesCbc) (hinv : aes.Inverse) (segs : Nat → SegRandom)
    (kpre kpost : List HcKeyData) (kd : HcKeyData)
    (hk : ∀ x ∈ kpre ++ kd :: kpost, KeyInvariant x)
    (e : Engine) (lfsr0 : HcLfsr) (sz : Nat) (P : List Nat)
    (hl : e.m_lfsr = some lfsr0) (hif : e.m_in_files = [⟨true, sz, P, 0⟩])
    (hidx : e.m_in_file_index = 0) (hoidx : e.m_out_file_index = 0)
    (hopen : ∀ f ∈ e.m_out_files, f.m_file = true ∧ f.data = [])
    (hz : ZerosLast (e.m_out_files.map FileSpec.m_size))
    (hP : ((kpre ++ kd :: kpost).map (fun x => x.m_in_size)).sum ≤ P.length)
    (hcap : ((kpre ++ kd :: kpost).map (fun x => x.m_out_size)).sum ≤
      (e.m_out_files.map FileSpec.m_size).sum)
    (hbuf : ∀ x ∈ kpre ++ kd :: kpost, x.m_out_size ≤ e.m_buffer.length) :
    ∃ ek ek1 e1,
      encrypt_segments aes segs kpre 0 e = .ok (HC_STATUS_OK, ek) ∧
      encryptSegment aes ek kd (segs kpre.length) = .ok (HC_STATUS_OK, ek1) ∧
      encrypt_segments aes segs kpost (kpre.length + 1) ek1 = .ok (HC_STATUS_OK, e1) ∧
      encrypt_segments aes segs (kpre ++ kd :: kpost) 0 e = .ok (HC_STATUS_OK, e1) ∧
      ek.m_in_files.map (fun f => (f.data, f.pos)) =
        [(P, (kpre.map (fun x => x.m_in_size)).sum)] ∧
      ek1.m_in_files.map (fun f => (f.data, f.pos)) =
        [(P, (kpre.map (fun x => x.m_in_size)).sum + kd.m_in_size)] ∧
      (stream ek.m_out_files).length = (kpre.map (fun x => x.m_out_size)).sum ∧
      stream ek1.m_out_files = stream ek.m_out_files ++ ek1.m_buffer.take kd.m_out_size ∧
      ((stream e1.m_out_files).drop (kpre.map (fun x => x.m_out_size)).sum).take
        kd.m_out_size = ek1.m_buffer.take kd.m_out_size ∧
      (stream e1.m_out_files).length =
        ((kpre ++ kd :: kpost).map (fun x => x.m_out_size)).sum ∧
      ∀ (d : Engine) (lfsrD : HcLfsr) (out_file : FileSpec),
        d.m_lfsr = some lfsrD → d.m_in_file_index = 0 →
        (∀ f ∈ d.m_in_files, f.m_file = true ∧ f.pos = 0) →
        stream d.m_in_files = stream e1.m_out_files →
        d.m_out_files = [out_file] → out_file.m_file = true → out_file.data = [] →
        (∀ x ∈ kpre ++ kd :: kpost, x.m_out_size ≤ d.m_buffer.length) →
        ∃ dk dk1 d1,
          decrypt_segments aes kpre d = .ok (HC_STATUS_OK, dk) ∧
          decryptSegment aes dk kd = .ok (HC_STATUS_OK, dk1) ∧
          decrypt_segments aes kpost dk1 = .ok (HC_STATUS_OK, d1) ∧
          decrypt_segments aes (kpre ++ kd :: kpost) d = .ok (HC_STATUS_OK, d1) ∧
          unread (dk.m_in_files.drop dk.m_in_file_index) =
            (stream e1.m_out_files).drop (kpre.map (fun x => x.m_out_size)).sum ∧
          unread (dk1.m_in_files.drop dk1.m_in_file_index) =
            (stream e1.m_out_files).drop
              ((kpre.map (fun x => x.m_out_size)).sum + kd.m_out_size) ∧
          dk1.m_buffer.take kd.m_out_size = ek1.m_buffer.take kd.m_out_size ∧
          (dk.m_out_files.map FileSpec.data)[0]? =
            some (P.take (kpre.map (fun x => x.m_in_size)).sum) ∧
          (dk1.m_out_files.map FileSpec.data)[0]? =
            some (P.take ((kpre.map (fun x => x.m_in_size)).sum + kd.m_in_size)) ∧
          (d1.m_out_files.map FileSpec.data)[0]? =
            some (P.take ((kpre ++ kd :: kpost).map (fun x => x.m_in_size)).sum) := by
  have hkpre : ∀ x ∈ kpre, KeyInvariant x := fun x hx => hk x (List.mem_append_left _ hx)
  have hkd : KeyInvariant kd := hk kd (List.mem_append_right _ (List.mem_cons_self _ _))
  have hkpost : ∀ x ∈ kpost, KeyInvariant x :=
    fun x hx => hk x (List.mem_append_right _ (List.mem_cons_of_mem _ hx))
  simp only [List.map_append, List.map_cons, List.sum_append, List.sum_cons] at hP hcap ⊢
  have hr0 : EncReady e P 0 [] e.m_out_files e.m_buffer.length :=
    ⟨⟨lfsr0, hl⟩, ⟨sz, hif⟩, hidx, rfl, hoidx, rfl, fun _ h => absurd h (List.not_mem_nil _),
      fun f hf => (hopen f hf).1, fun f hf => (hopen f (List.mem_of_mem_tail hf)).2, hz⟩
  have hs0 : stream e.m_out_files = [] := stream_eq_nil _ (fun f hf => (hopen f hf).2)
  obtain ⟨ek, pre1, rest1, E1, hr1, c1, s1, -, dec1, -⟩ := encrypt_segments_layout aes hinv segs
    kpre 0 e P 0 [] e.m_out_files e.m_buffer.length hkpre hr0 (by omega) (by omega)
    (fun x hx => hbuf x (List.mem_append_left _ hx))
  rw [Nat.zero_add] at hr1
  obtain ⟨ek1, done2, rest2, E2, hr2, c2, s2, -, l2, dec2, -⟩ := encryptSegment_layout aes hinv
    kd hkd (segs kpre.length) ek P _ pre1 rest1 e.m_buffer.length hr1 (by omega) (by omega)
    (hbuf kd (List.mem_append_right _ (List.mem_cons_self _ _)))
  obtain ⟨e1, pre3, rest3, E3, hr3, c3, s3, -, dec3, -⟩ := encrypt_segments_layout aes hinv segs
    kpost (kpre.length + 1) ek1 P _ (pre1 ++ done2) rest2 e.m_buffer.length hkpost hr2
    (by omega) (by omega)
    (fun x hx => hbuf x (List.mem_append_right _ (List.mem_cons_of_mem _ hx)))
  have hfl1 := flatten_length_of_forall₂ kpre _ (segmentsDecode_length aes kpre _ _ dec1)
  have hfl3 := flatten_length_of_forall₂ kpost _ (segmentsDecode_length aes kpost _ _ dec3)
  rw [hs0, List.nil_append] at s1
  have hall : encrypt_segments aes segs (kpre ++ kd :: kpost) 0 e = .ok (HC_STATUS_OK, e1) := by
    rw [encrypt_segments_append aes segs kpre 0 e ek (kd :: kpost) E1, Nat.zero_add]
    simp only [encrypt_segments, E2, ne_eq, not_true_eq_false, if_false]
    exact E3
  have hfinal : stream e1.m_out_files =
      (segment_buffers aes segs kpre 0 e).flatten ++ (ek1.m_buffer.take kd.m_out_size ++
        (segment_buffers aes segs kpost (kpre.length + 1) ek1).flatten) := by
    rw [s3, s2, s1, List.append_assoc]
  have hspan : ((stream e1.m_out_files).drop (kpre.map (fun x => x.m_out_size)).sum).take
      kd.m_out_size = ek1.m_buffer.take kd.m_out_size := by
    rw [hfinal, List.drop_append_of_le_length (by omega), List.drop_of_length_le (by omega),
      List.nil_append, List.take_append_of_le_length (by omega),
      List.take_of_length_le (by omega)]
  obtain ⟨-, ⟨sz1, hif1⟩, -⟩ := hr1
  obtain ⟨-, ⟨sz2, hif2⟩, -⟩ := hr2
  refine ⟨ek, ek1, e1, E1, E2, E3, hall, ?_, ?_, ?_, s2, hspan, ?_, ?_⟩
  · rw [hif1]; rfl
  · rw [hif2]; rfl
  · rw [s1, hfl1]
  · rw [hfinal]
    simp only [List.length_append, hfl1, l2, hfl3]
  · intro d lfsrD out_file hdl hdidx hdopen hdstream hdof hdofo hdod hdbuf
    have hd0 : DecReady d [] d.m_in_files d.m_buffer.length [] :=
      ⟨⟨lfsrD, hdl⟩, rfl, hdidx, fun f hf => (hdopen f hf).1, rfl, out_file, [], hdof, hdofo,
        hdod⟩
    have hu0 : unread d.m_in_files = (segment_buffers aes segs kpre 0 e).flatten ++
        (ek1.m_buffer.take kd.m_out_size ++
          (segment_buffers aes segs kpost (kpre.length + 1) ek1).flatten) := by
      rw [unread_eq_stream _ (fun f hf => (hdopen f hf).2), hdstream, hfinal]
    rw [List.drop_zero] at dec1
    obtain ⟨dk, dpre1, drest1, D1, hdr1, du1, -, -⟩ := decrypt_segments_layout aes kpre _ _ d []
      d.m_in_files d.m_buffer.length [] _ hkpre
      (fun x hx => hdbuf x (List.mem_append_left _ hx)) dec1 hd0 hu0
    obtain ⟨dk1, dpre2, drest2, D2, hdr2, du2, db2, -⟩ := decryptSegment_layout aes kd hkd dk
      dpre1 drest1 d.m_buffer.length _ (ek1.m_buffer.take kd.m_out_size) _ hdr1 dec2
      (by rw [du1, List.take_append_of_le_length (by omega), List.take_of_length_le (by omega)])
      (by rw [du1, List.length_append]; omega)
      (hdbuf kd (List.mem_append_right _ (List.mem_cons_self _ _)))
    obtain ⟨d1, dpre3, drest3, D3, hdr3, -, -, -⟩ := decrypt_segments_layout aes kpost _ _ dk1
      dpre2 drest2 d.m_buffer.length _ [] hkpost
      (fun x hx => hdbuf x (List.mem_append_right _ (List.mem_cons_of_mem _ hx))) dec3 hdr2
      (by rw [du2, du1, List.drop_append_of_le_length (by omega),
        List.drop_of_length_le (by omega), List.nil_append, List.append_nil])
    have hdall : decrypt_segments aes (kpre ++ kd :: kpost) d = .ok (HC_STATUS_OK, d1) := by
      rw [decrypt_segments_append aes kpre d dk (kd :: kpost) D1]
      simp only [decrypt_segments, D2, ne_eq, not_true_eq_false, if_false]
      exact D3
    obtain ⟨-, hi1, hx1, -, -, o1, t1, ho1, -, hod1⟩ := hdr1
    obtain ⟨-, hi2, hx2, -, -, o2, t2, ho2, -, hod2⟩ := hdr2
    obtain ⟨-, hi3, hx3, -, -, o3, t3, ho3, -, hod3⟩ := hdr3
    have hdrop : (stream e1.m_out_files).drop (kpre.map (fun x => x.m_out_size)).sum =
        ek1.m_buffer.take kd.m_out_size ++
          (segment_buffers aes segs kpost (kpre.length + 1) ek1).flatten := by
      rw [hfinal, List.drop_append_of_le_length (by omega), List.drop_of_length_le (by omega),
        List.nil_append]
    refine ⟨dk, dk1, d1, D1, D2, D3, hdall, ?_, ?_, db2, ?_, ?_, ?_⟩
    · rw [hi1, hx1, List.drop_left, du1, hdrop]
    · rw [hi2, hx2, List.drop_left, du2, du1, ← List.drop_drop, hdrop]
    · rw [ho1, List.map_cons, List.getElem?_cons_zero, hod1, List.nil_append]
    · rw [ho2, List.map_cons, List.getElem?_cons_zero, hod2, List.nil_append, List.take_add]
    · rw [ho3, List.map_cons, List.getElem?_cons_zero, hod3, List.nil_append,
        ← Nat.add_assoc, List.take_add, List.take_add]

/-- Witness for C31: the sample engine with the keys of a five-byte and a
three-byte segment, the plaintext `1 .. 8`, output files planned for 40000
and 25536 bytes; the second segment is read from the plaintext bytes `5 .. 7`
and the stream has `2 * 2 ^ 15` bytes in the end. -/
theorem C31_segment_order_witness :
    sampleAes.Inverse ∧ (∀ x ∈ [sampleKey 5] ++ sampleKey 3 :: [], KeyInvariant x) ∧
    ∃ ek ek1 e1,
      encrypt_segments sampleAes (fun _ => sampleSegRandom) [sampleKey 5] 0
        sampleLayoutEngine = .ok (HC_STATUS_OK, ek) ∧
      encryptSegment sampleAes ek (sampleKey 3) sampleSegRandom = .ok (HC_STATUS_OK, ek1) ∧
      encrypt_segments sampleAes (fun _ => sampleSegRandom)
        ([sampleKey 5] ++ sampleKey 3 :: []) 0 sampleLayoutEngine = .ok (HC_STATUS_OK, e1) ∧
      ek.m_in_files.map (fun f => (f.data, f.pos)) = [([1, 2, 3, 4, 5, 6, 7, 8], 5)] ∧
      ek1.m_in_files.map (fun f => (f.data, f.pos)) = [([1, 2, 3, 4, 5, 6, 7, 8], 5 + 3)] ∧
      (stream ek.m_out_files).length = 32768 ∧
      (stream e1.m_out_files).length = 32768 + (32768 + 0) := by
  obtain ⟨ek, ek1, e1, h1, h2, -, h4, h5, h6, h7, -, -, h10, -⟩ :=
    C31_segment_order sampleAes sampleAes_inverse (fun _ => sampleSegRandom) [sampleKey 5] []
      (sampleKey 3) sampleLayout_keys sampleLayoutEngine (HcLfsr.new 0) 8
      [1, 2, 3, 4, 5, 6, 7, 8] rfl rfl rfl rfl (by decide) (by decide) (by decide) (by decide)
      (sampleLayout_buffer _ (List.length_replicate _ _))
  exact ⟨sampleAes_inverse, sampleLayout_keys, ek, ek1, e1, h1, h2, h4, h5, h6, h7, h10⟩


/-- C32. The segment codec and the file boundaries. Take output files that are
open and empty, with planned sizes that add up to the total `out_size` `T` of
the keys and in which a zero size is followed by zero sizes only (the shape of
every list the planning in `encryptFile` produces, which is the last
statement), keys that satisfy the data-model invariant, and the engine as
`encryptFile` has it before the loop "Encrypt all the segments". After
`encryptSegment` has run for all the keys in order, with `HC_STATUS_OK`, output
file `i` holds exactly its planned number of bytes and the output files, one
after the other, hold the working buffers of the segments, one after the
other, each of `out_size` bytes. The loop over the keys of `decryptFile`, given
these files, returns `HC_STATUS_OK`, and the read loop of `decryptSegment` has
put together, segment by segment, exactly these working buffers. -/
theorem C32_file_boundaries (aes : AesCbc) (hinv : aes.Inverse) (segs : Nat → SegRandom)
    (keys : List HcKeyData) (hk : ∀ x ∈ keys, KeyInvariant x)
    (e : Engine) (lfsr0 : HcLfsr) (sz : Nat) (P : List Nat)
    (hl : e.m_lfsr = some lfsr0) (hif : e.m_in_files = [⟨true, sz, P, 0⟩])
    (hidx : e.m_in_file_index = 0) (hoidx : e.m_out_file_index = 0)
    (hopen : ∀ f ∈ e.m_out_files, f.m_file = true ∧ f.data = [])
    (hz : ZerosLast (e.m_out_files.map FileSpec.m_size))
    (hsum : (e.m_out_files.map FileSpec.m_size).sum = (keys.map (fun x => x.m_out_size)).sum)
    (hP : (keys.map (fun x => x.m_in_size)).sum ≤ P.length)
    (hbuf : ∀ x ∈ keys, x.m_out_size ≤ e.m_buffer.length) :
    (∃ e1, encrypt_segments aes segs keys 0 e = .ok (HC_STATUS_OK, e1) ∧
      e1.m_out_files.map (fun f => f.data.length) = e.m_out_files.map FileSpec.m_size ∧
      stream e1.m_out_files = (segment_buffers aes segs keys 0 e).flatten ∧
      List.Forall₂ (fun kd C => C.length = kd.m_out_size) keys
        (segment_buffers aes segs keys 0 e) ∧
      ∀ (d : Engine) (lfsrD : HcLfsr) (out_file : FileSpec),
        d.m_lfsr = some lfsrD →
        d.m_in_files = e1.m_out_files.map (fun f => { f with m_file := true, pos := 0 }) →
        d.m_in_file_index = 0 → d.m_out_files = [out_file] → out_file.m_file = true →
        (∀ x ∈ keys, x.m_out_size ≤ d.m_buffer.length) →
        ∃ d1, decrypt_segments aes keys d = .ok (HC_STATUS_OK, d1) ∧
          segment_reads aes keys d = segment_buffers aes segs keys 0 e) ∧
    ∀ T splits : Nat, ZerosLast ((plan_out_files T splits
      (if splits ≠ 0 then List.replicate splits emptyFileSpec else [emptyFileSpec])).map
        FileSpec.m_size) := by
  refine ⟨?_, plan_out_files_zerosLast⟩
  have hr0 : EncReady e P 0 [] e.m_out_files e.m_buffer.length :=
    ⟨⟨lfsr0, hl⟩, ⟨sz, hif⟩, hidx, rfl, hoidx, rfl, fun _ h => absurd h (List.not_mem_nil _),
      fun f hf => (hopen f hf).1, fun f hf => (hopen f (List.mem_of_mem_tail hf)).2, hz⟩
  have hs0 : stream e.m_out_files = [] := stream_eq_nil _ (fun f hf => (hopen f hf).2)
  obtain ⟨e1, pre1, rest1, E1, hr1, c1, s1, m1, dec1, -⟩ := encrypt_segments_layout aes hinv
    segs keys 0 e P 0 [] e.m_out_files e.m_buffer.length hk hr0 (by omega) (by omega) hbuf
  rw [hs0, List.nil_append] at s1
  rw [List.drop_zero] at dec1
  obtain ⟨-, -, -, hof1, -, -, hpre1, -⟩ := hr1
  refine ⟨e1, E1, ?_, s1, segmentsDecode_length aes keys _ _ dec1, ?_⟩
  · exact planned_bytes_written e1.m_out_files e.m_out_files pre1 rest1 hof1 hpre1 (by omega)
      (fun f hf => (hopen f hf).2) m1
  · intro d lfsrD out_file hdl hdif hdidx hdof hdofo hdbuf
    have hd0 : DecReady d [] d.m_in_files d.m_buffer.length out_file.data :=
      ⟨⟨lfsrD, hdl⟩, rfl, hdidx,
        fun f hf => by
          rw [hdif] at hf
          obtain ⟨g, -, rfl⟩ := List.mem_map.1 hf
          rfl,
        rfl, out_file, [], hdof, hdofo, rfl⟩
    have hu0 : unread d.m_in_files = (segment_buffers aes segs keys 0 e).flatten ++ [] := by
      rw [unread_eq_stream _ (fun f hf => by
          rw [hdif] at hf
          obtain ⟨g, -, rfl⟩ := List.mem_map.1 hf
          rfl), hdif, stream_map_reopen, s1, List.append_nil]
    obtain ⟨d1, -, -, D1, -, -, b1, -⟩ := decrypt_segments_layout aes keys _ P d []
      d.m_in_files d.m_buffer.length out_file.data [] hk hdbuf dec1 hd0 hu0
    exact ⟨d1, D1, b1⟩

/-- Witness for C32: the sample engine with the keys of a five-byte and a
three-byte segment; the two output files are planned for 40000 and 25536
bytes, so the second segment lies across the file boundary. -/
theorem C32_file_boundaries_witness :
    sampleAes.Inverse ∧ (∀ x ∈ [sampleKey 5, sampleKey 3], KeyInvariant x) ∧
    ∃ e1, encrypt_segments sampleAes (fun _ => sampleSegRandom) [sampleKey 5, sampleKey 3] 0
        sampleLayoutEngine = .ok (HC_STATUS_OK, e1) ∧
      e1.m_out_files.map (fun f => f.data.length) = [40000, 25536] ∧
      stream e1.m_out_files = (segment_buffers sampleAes (fun _ => sampleSegRandom)
        [sampleKey 5, sampleKey 3] 0 sampleLayoutEngine).flatten := by
  obtain ⟨e1, h1, h2, h3, -⟩ :=
    (C32_file_boundaries sampleAes sampleAes_inverse (fun _ => sampleSegRandom)
      [sampleKey 5, sampleKey 3] sampleLayout_keys sampleLayoutEngine (HcLfsr.new 0) 8
      [1, 2, 3, 4, 5, 6, 7, 8] rfl rfl rfl rfl (by decide) (by decide) (by decide) (by decide)
      (sampleLayout_buffer _ (List.length_replicate _ _))).1
  exact ⟨sampleAes_inverse, sampleLayout_keys, e1, h1, h2, h3⟩

end HyperCrypt
